import Mathlib

/-!
# A two-pass assembler for a 24-bit word machine

Shallow embedding of the instruction tables and the binary encoder
(`instructions.c`), the symbol table (`symbol_table.c`), the first pass
(`first_pass.c`), the second pass (`second_pass.c`), the line parser
(`parser.c`: integers, symbols, directives, operands, instructions, lines)
and the macro expansion (`macros.c`).

Conventions of the embedding:

* `uint32` values are natural numbers; every operation that can leave the
  32-bit range is followed by an explicit `% 2 ^ 32`.
* `int` values are integers; the conversions between `int` and `uint32`
  are `to_uint32` and `to_int32` (two's complement).
* A C string is the Lean string of its characters before the terminator; a
  character stands for the byte with its code. The type `char` is signed,
  so the value of a byte from 0x80 on is negative (`char_to_int`); for the
  characters of 7-bit ASCII the value is the code. Functions that walk a
  string with a pointer take the list of the characters from the pointer on.
* `fgets` delivers the characters it has read; the string that it leaves in
  the buffer ends at the first NUL among them (`c_string`), and the macro
  expansion works on that string. The statements about the passes on the
  text of a file are made for a text without NUL.
* A tagged C union is an inductive type with one constructor per tag.
* A pass reads its input line by line and sees a line only through what
  `parse_line` fills in for it; the passes are embedded over the list of these
  `ParseLineData` values, one per line, in source order. Both passes read
  the same file with the same buffer, so they see the same list.
* Memory allocation is assumed to succeed, with one exception that is
  deterministic in the source: `strdup` of an empty string returns `NULL`.
* Where a statement is about the bytes of a buffer rather than about the
  string in it, the bytes are given explicitly: `parse_line_buffer` is the
  string that `parse_line` leaves in the line buffer, and
  `parse_symbol_memory` takes the bytes from `line` on, those behind the
  terminator included.
-/

namespace Assembler

/-! ## Machine integers -/

/-- Conversion of an `int` to `uint32`: reduction modulo `2 ^ 32`. -/
def to_uint32 (x : Int) : Nat := (x % 2 ^ 32).toNat

/-- Conversion of a `uint32` bit pattern to `int` (two's complement). -/
def to_int32 (x : Nat) : Int :=
  if x % 2 ^ 32 < 2 ^ 31 then ((x % 2 ^ 32 : Nat) : Int) else ((x % 2 ^ 32 : Nat) : Int) - 2 ^ 32

/-- Left shift of an `int` by `k` bits, wrapping in 32 bits. -/
def int_shl (x : Int) (k : Nat) : Int := to_int32 (to_uint32 (x * 2 ^ k))

/-- Truncation to 24 bits, `TO_24_BITS` of `main.c`. -/
def TO_24_BITS (x : Nat) : Nat := x &&& 0xffffff

/-! ## Constants of `utils.h` -/

/-- Maximum length of a line, without the newline and the terminator. -/
def MAX_LINE_LENGTH : Nat := 80

/-! ## C strings (`ctype.h`, `string.h`, `stdio.h`, `utils.c`)

A C string is the list of its characters before the terminating NUL; a
pointer into a string is the list of the characters from that position on. -/

/-- The function `isspace` of `ctype.h` in the "C" locale. -/
def isspace (c : Char) : Bool :=
  c = ' ' || c = '\t' || c = '\n' || c = Char.ofNat 11 || c = Char.ofNat 12 || c = '\r'

/-- The test `c >= '0' && c <= '9'`, also `isdigit` of `ctype.h`. -/
def isdigit (c : Char) : Bool := decide ('0' ≤ c) && decide (c ≤ '9')

/-- The function `isalpha` of `ctype.h` in the "C" locale. -/
def isalpha (c : Char) : Bool :=
  (decide ('a' ≤ c) && decide (c ≤ 'z')) || (decide ('A' ≤ c) && decide (c ≤ 'Z'))

/-- The function `isalnum` of `ctype.h` in the "C" locale. -/
def isalnum (c : Char) : Bool := isalpha c || isdigit c

/-- The value of a plain `char` as an `int`: `char` is a signed type of 8
bits, so the bytes 0x80 to 0xff have the values -128 to -1. -/
def char_to_int (c : Char) : Int :=
  if c.toNat % 256 < 128 then ((c.toNat % 256 : Nat) : Int)
  else ((c.toNat % 256 : Nat) : Int) - 256

/-- The pointer returned by `skip_space`. -/
def skip_space (str : List Char) : List Char := str.dropWhile isspace

/-- The string that `trim_end` leaves: the trailing white space is cut off. -/
def trim_end (str : List Char) : List Char :=
  match str with
  | [] => []
  | _ => (str.reverse.dropWhile isspace).reverse

/-- The test `strncmp(s1, s2, n) == 0`. -/
def strncmp_eq (s1 s2 : List Char) (n : Nat) : Bool := s1.take n = s2.take n

/-- The characters that `fgets` stores when it may still store `n`, and the
rest of the input. -/
def fgets_read : Nat → List Char → List Char × List Char
  | 0, input => ([], input)
  | _ + 1, [] => ([], [])
  | n + 1, c :: input =>
    if c = '\n' then ([c], input)
    else ((c :: (fgets_read n input).1), (fgets_read n input).2)

/-- The call `fgets(buf, size, input)`: `none` at the end of the input,
otherwise the string stored in `buf` and the rest of the input. -/
def fgets (size : Nat) (input : List Char) : Option (List Char × List Char) :=
  match input with
  | [] => none
  | _ => some (fgets_read (size - 1) input)

/-- The byte `buf[i]` of a buffer that holds the string `str`, for an index
up to the terminating NUL. -/
def buffer_char (str : List Char) (i : Nat) : Char := str.getD i (Char.ofNat 0)

/-! ## Instructions and operands (`instructions.h`) -/

/-- The sixteen instruction types. -/
inductive InstructionType
  | INSTRUCTION_MOV
  | INSTRUCTION_CMP
  | INSTRUCTION_ADD
  | INSTRUCTION_SUB
  | INSTRUCTION_LEA
  | INSTRUCTION_CLR
  | INSTRUCTION_NOT
  | INSTRUCTION_INC
  | INSTRUCTION_DEC
  | INSTRUCTION_JMP
  | INSTRUCTION_BNE
  | INSTRUCTION_JSR
  | INSTRUCTION_RED
  | INSTRUCTION_PRN
  | INSTRUCTION_RTS
  | INSTRUCTION_STOP
  deriving DecidableEq, Repr

/-- The type of an operand; the enumeration values are 0, 1, 2, 3 in this order. -/
inductive OperandType
  | OPERAND_IMMEDIATE
  | OPERAND_SYMBOL
  | OPERAND_ADDRESS
  | OPERAND_REGISTER
  deriving DecidableEq, Repr

open InstructionType OperandType

/-- The integer value of an `OperandType` enumerator. -/
def OperandType.toNat : OperandType → Nat
  | OPERAND_IMMEDIATE => 0
  | OPERAND_SYMBOL => 1
  | OPERAND_ADDRESS => 2
  | OPERAND_REGISTER => 3

/-- An operand: the tag and the member of the union that is valid for it. -/
inductive Operand
  | immediate (immediate : Int)
  | symbol (symbol_name : String)
  | address (symbol_name : String)
  | register (register_num : Nat)
  deriving DecidableEq, Repr

/-- The `type` field of an operand. -/
def Operand.type : Operand → OperandType
  | .immediate _ => OPERAND_IMMEDIATE
  | .symbol _ => OPERAND_SYMBOL
  | .address _ => OPERAND_ADDRESS
  | .register _ => OPERAND_REGISTER

/-- The `value.register_num` member; read by the source only for registers. -/
def Operand.register_num : Operand → Nat
  | .register n => n
  | _ => 0

/-- An instruction. `operand1` is meaningful when `operand_amount ≥ 1`,
`operand2` when `operand_amount = 2`; the fields exist in every case, as in
the C structure. -/
structure Instruction where
  type : InstructionType
  operand_amount : Nat
  operand1 : Operand
  operand2 : Operand
  deriving DecidableEq, Repr

def OPCODE_START_BIT : Nat := 18
def SRC_OPERAND_START_BIT : Nat := 16
def SRC_REGISTER_START_BIT : Nat := 13
def DEST_OPERAND_START_BIT : Nat := 11
def DEST_REGISTER_START_BIT : Nat := 8
def FUNCT_START_BIT : Nat := 3

def instruction_opcode : InstructionType → Nat
  | INSTRUCTION_MOV => 0
  | INSTRUCTION_CMP => 1
  | INSTRUCTION_ADD => 2
  | INSTRUCTION_SUB => 2
  | INSTRUCTION_LEA => 4
  | INSTRUCTION_CLR => 5
  | INSTRUCTION_NOT => 5
  | INSTRUCTION_INC => 5
  | INSTRUCTION_DEC => 5
  | INSTRUCTION_JMP => 9
  | INSTRUCTION_BNE => 9
  | INSTRUCTION_JSR => 9
  | INSTRUCTION_RED => 12
  | INSTRUCTION_PRN => 13
  | INSTRUCTION_RTS => 14
  | INSTRUCTION_STOP => 15

def instruction_funct : InstructionType → Nat
  | INSTRUCTION_ADD => 1
  | INSTRUCTION_CLR => 1
  | INSTRUCTION_JMP => 1
  | INSTRUCTION_SUB => 2
  | INSTRUCTION_NOT => 2
  | INSTRUCTION_BNE => 2
  | INSTRUCTION_INC => 3
  | INSTRUCTION_JSR => 3
  | INSTRUCTION_DEC => 4
  | _ => 0

def instruction_operand_amount : InstructionType → Nat
  | INSTRUCTION_MOV => 2
  | INSTRUCTION_CMP => 2
  | INSTRUCTION_ADD => 2
  | INSTRUCTION_SUB => 2
  | INSTRUCTION_LEA => 2
  | INSTRUCTION_CLR => 1
  | INSTRUCTION_NOT => 1
  | INSTRUCTION_INC => 1
  | INSTRUCTION_DEC => 1
  | INSTRUCTION_JMP => 1
  | INSTRUCTION_BNE => 1
  | INSTRUCTION_JSR => 1
  | INSTRUCTION_RED => 1
  | INSTRUCTION_PRN => 1
  | INSTRUCTION_RTS => 0
  | INSTRUCTION_STOP => 0

/-- The array returned by `acceptable_dest_operands`, as a list of its
`array_size` elements (the empty list for the `NULL` array of size 0). -/
def acceptable_dest_operands : InstructionType → List OperandType
  | INSTRUCTION_MOV => [OPERAND_SYMBOL, OPERAND_REGISTER]
  | INSTRUCTION_ADD => [OPERAND_SYMBOL, OPERAND_REGISTER]
  | INSTRUCTION_SUB => [OPERAND_SYMBOL, OPERAND_REGISTER]
  | INSTRUCTION_LEA => [OPERAND_SYMBOL, OPERAND_REGISTER]
  | INSTRUCTION_CLR => [OPERAND_SYMBOL, OPERAND_REGISTER]
  | INSTRUCTION_NOT => [OPERAND_SYMBOL, OPERAND_REGISTER]
  | INSTRUCTION_INC => [OPERAND_SYMBOL, OPERAND_REGISTER]
  | INSTRUCTION_DEC => [OPERAND_SYMBOL, OPERAND_REGISTER]
  | INSTRUCTION_RED => [OPERAND_SYMBOL, OPERAND_REGISTER]
  | INSTRUCTION_CMP => [OPERAND_IMMEDIATE, OPERAND_SYMBOL, OPERAND_REGISTER]
  | INSTRUCTION_PRN => [OPERAND_IMMEDIATE, OPERAND_SYMBOL, OPERAND_REGISTER]
  | INSTRUCTION_JMP => [OPERAND_SYMBOL, OPERAND_ADDRESS]
  | INSTRUCTION_BNE => [OPERAND_SYMBOL, OPERAND_ADDRESS]
  | INSTRUCTION_JSR => [OPERAND_SYMBOL, OPERAND_ADDRESS]
  | _ => []

/-- The array returned by `acceptable_src_operands`, as a list. -/
def acceptable_src_operands : InstructionType → List OperandType
  | INSTRUCTION_MOV => [OPERAND_IMMEDIATE, OPERAND_SYMBOL, OPERAND_REGISTER]
  | INSTRUCTION_CMP => [OPERAND_IMMEDIATE, OPERAND_SYMBOL, OPERAND_REGISTER]
  | INSTRUCTION_ADD => [OPERAND_IMMEDIATE, OPERAND_SYMBOL, OPERAND_REGISTER]
  | INSTRUCTION_SUB => [OPERAND_IMMEDIATE, OPERAND_SYMBOL, OPERAND_REGISTER]
  | INSTRUCTION_LEA => [OPERAND_SYMBOL]
  | _ => []

/-- First word of an instruction (`encode_instruction`). -/
def encode_instruction (instruction : Instruction) : Nat :=
  let opcode := instruction_opcode instruction.type
  let funct := instruction_funct instruction.type
  let out := 0
  let out := out ||| 0x4
  let out := out ||| (funct <<< FUNCT_START_BIT)
  let out :=
    if instruction.operand_amount = 1 then
      let out := out ||| (instruction.operand1.type.toNat <<< DEST_OPERAND_START_BIT)
      if instruction.operand1.type = OPERAND_REGISTER then
        out ||| (instruction.operand1.register_num <<< DEST_REGISTER_START_BIT)
      else out
    else out
  let out :=
    if instruction.operand_amount = 2 then
      let out := out ||| (instruction.operand2.type.toNat <<< DEST_OPERAND_START_BIT)
      let out :=
        if instruction.operand2.type = OPERAND_REGISTER then
          out ||| (instruction.operand2.register_num <<< DEST_REGISTER_START_BIT)
        else out
      let out := out ||| (instruction.operand1.type.toNat <<< SRC_OPERAND_START_BIT)
      if instruction.operand1.type = OPERAND_REGISTER then
        out ||| (instruction.operand1.register_num <<< SRC_REGISTER_START_BIT)
      else out
    else out
  (out ||| (opcode <<< OPCODE_START_BIT)) % 2 ^ 32

/-- Number of words an instruction occupies (`instruction_encoding_word_count`). -/
def instruction_encoding_word_count (instruction : Instruction) : Nat :=
  let words := 1
  let words :=
    if instruction.operand_amount ≥ 1 ∧ instruction.operand1.type ≠ OPERAND_REGISTER then
      words + 1
    else words
  let words :=
    if instruction.operand_amount ≥ 2 ∧ instruction.operand2.type ≠ OPERAND_REGISTER then
      words + 1
    else words
  words

/-! ## Names of instructions (`instructions.c`) -/

/-- The function `str_to_instruction_type`: the instruction whose name the string starts with. -/
def str_to_instruction_type (str : List Char) : Option InstructionType :=
  if strncmp_eq str "add".toList 3 then some INSTRUCTION_ADD
  else if strncmp_eq str "cmp".toList 3 then some INSTRUCTION_CMP
  else if strncmp_eq str "mov".toList 3 then some INSTRUCTION_MOV
  else if strncmp_eq str "sub".toList 3 then some INSTRUCTION_SUB
  else if strncmp_eq str "lea".toList 3 then some INSTRUCTION_LEA
  else if strncmp_eq str "clr".toList 3 then some INSTRUCTION_CLR
  else if strncmp_eq str "not".toList 3 then some INSTRUCTION_NOT
  else if strncmp_eq str "inc".toList 3 then some INSTRUCTION_INC
  else if strncmp_eq str "dec".toList 3 then some INSTRUCTION_DEC
  else if strncmp_eq str "jmp".toList 3 then some INSTRUCTION_JMP
  else if strncmp_eq str "bne".toList 3 then some INSTRUCTION_BNE
  else if strncmp_eq str "jsr".toList 3 then some INSTRUCTION_JSR
  else if strncmp_eq str "red".toList 3 then some INSTRUCTION_RED
  else if strncmp_eq str "prn".toList 3 then some INSTRUCTION_PRN
  else if strncmp_eq str "rts".toList 3 then some INSTRUCTION_RTS
  else if strncmp_eq str "stop".toList 4 then some INSTRUCTION_STOP
  else none

/-- The function `instruction_name_len`. -/
def instruction_name_len (type : InstructionType) : Nat :=
  match type with
  | INSTRUCTION_STOP => 4
  | _ => 3

/-- The function `is_an_instruction`: the string is exactly the name of an instruction. -/
def is_an_instruction (str : List Char) : Bool :=
  match str_to_instruction_type str with
  | some dummy => str.drop (instruction_name_len dummy) = []
  | none => false

/-! ## Symbol table (`symbol_table.h`, `symbol_table.c`) -/

/-- The context in which a symbol was defined. -/
inductive SymbolContext
  | SYMBOL_CONTEXT_CODE
  | SYMBOL_CONTEXT_DATA
  | SYMBOL_CONTEXT_EXTERNAL
  deriving DecidableEq, Repr

open SymbolContext

/-- A symbol of the symbol table. -/
structure Symbol where
  addr : Nat
  context : SymbolContext
  name : String
  line : Nat
  deriving DecidableEq, Repr

/-- The symbol table: the vector `inner`, in insertion order. -/
abbrev SymbolTable := List Symbol

/-- Linear search for the first symbol with the given name; `none` is `NULL`. -/
def symbol_table_search (symbol_table : SymbolTable) (symbol_name : String) : Option Symbol :=
  symbol_table.find? (fun symbol => decide (symbol.name = symbol_name))

/-- The `strdup` of `utils.c`: it returns `NULL` for the empty string. -/
def strdup (str : String) : Option String :=
  if str.length = 0 then none else some str

/-- Insertion at the end of the table; `none` is the result `FALSE`. -/
def symbol_table_insert (symbol_table : SymbolTable) (symbol_name : String) (addr : Nat)
    (ctx : SymbolContext) (line_num : Nat) : Option SymbolTable :=
  match strdup symbol_name with
  | none => none
  | some name => some (symbol_table ++ [{ addr := addr, context := ctx, name := name, line := line_num }])

/-! ## Operand words and instruction writing (`second_pass.c`) -/

def OPERAND_WORD_START_BIT : Nat := 3

/-- Subtraction of two `uint32` values. -/
def sub_uint32 (a b : Nat) : Nat := (a % 2 ^ 32 + (2 ^ 32 - b % 2 ^ 32)) % 2 ^ 32

/-- The extra word of an operand (`encode_operand`); 0 for a register.
`none` stands for the dereference of the `NULL` that `symbol_table_search`
returns for a name that is not in the table. -/
def encode_operand (operand : Operand) (symbol_table : SymbolTable)
    (current_instruction_addr : Nat) : Option Nat :=
  let encoding := 0
  match operand with
  | .immediate immediate =>
    let encoding := encoding ||| to_uint32 (int_shl immediate OPERAND_WORD_START_BIT)
    some (encoding ||| 0x4)
  | .symbol symbol_name =>
    match symbol_table_search symbol_table symbol_name with
    | none => none
    | some symbol =>
      let encoding := encoding ||| ((symbol.addr <<< OPERAND_WORD_START_BIT) % 2 ^ 32)
      if symbol.context = SYMBOL_CONTEXT_EXTERNAL then some (encoding ||| 0x1)
      else some (encoding ||| 0x2)
  | .address symbol_name =>
    match symbol_table_search symbol_table symbol_name with
    | none => none
    | some symbol =>
      let offset : Int := to_int32 (sub_uint32 symbol.addr current_instruction_addr)
      let encoding := encoding ||| to_uint32 (int_shl offset OPERAND_WORD_START_BIT)
      some (encoding ||| 0x4)
  | .register _ => some encoding

/-- Appends the words of an instruction to the instruction image
(`write_instruction`); the result is the new image and the number of words
written. -/
def write_instruction (instruction : Instruction) (instruction_image : List Nat)
    (symbol_table : SymbolTable) (IC : Nat) : Option (List Nat × Nat) :=
  let words_written := 0
  let encoding := encode_instruction instruction
  let instruction_image := instruction_image ++ [encoding]
  let words_written := words_written + 1
  let first : Option (List Nat × Nat) :=
    if instruction.operand_amount ≥ 1 then
      match encode_operand instruction.operand1 symbol_table IC with
      | none => none
      | some encoding =>
        if encoding ≠ 0 then some (instruction_image ++ [encoding], words_written + 1)
        else some (instruction_image, words_written)
    else some (instruction_image, words_written)
  match first with
  | none => none
  | some (instruction_image, words_written) =>
    if instruction.operand_amount ≥ 2 then
      match encode_operand instruction.operand2 symbol_table IC with
      | none => none
      | some encoding =>
        if encoding ≠ 0 then some (instruction_image ++ [encoding], words_written + 1)
        else some (instruction_image, words_written)
    else some (instruction_image, words_written)

/-! ## Directives and parse results (`directives.h`, `parser.h`) -/

inductive DirectiveType
  | DIRECTIVE_EXTERN
  | DIRECTIVE_ENTRY
  | DIRECTIVE_DATA
  | DIRECTIVE_STRING
  deriving DecidableEq, Repr

/-- A directive statement: the tag with the member of the union valid for it. -/
inductive Directive
  | data (integers : List Int)
  | string (string : String)
  | entry (entry_symbol : String)
  | external (extern_symbol : String)
  deriving DecidableEq, Repr

open DirectiveType

/-- The `type` field of a directive. -/
def Directive.type : Directive → DirectiveType
  | .data _ => DIRECTIVE_DATA
  | .string _ => DIRECTIVE_STRING
  | .entry _ => DIRECTIVE_ENTRY
  | .external _ => DIRECTIVE_EXTERN

/-- An error found while parsing a symbol, with the payload of its type. -/
inductive ParseSymbolError
  | SYMBOL_STARTS_WITH_NON_ALPHABETHIC_CHARACTER (symbol : String) (non_alphabethic_char : Char)
  | INVALID_CHARACTER_IN_SYMBOL (symbol : String) (invalid_char : Char) (position : Nat)
  | BUFFER_TOO_SMALL (symbol_length : Nat)
  | SYMBOL_EMPTY
  | SYMBOL_IS_A_DIRECTIVE (symbol : String)
  | SYMBOL_IS_AN_INSTRUCTION (symbol : String)
  | SYMBOL_IS_A_REGISTER (symbol : String)
  deriving DecidableEq, Repr

/-- The result of parsing a symbol (`ParseSymbolData`). -/
inductive ParseSymbolData
  | HAS_SYMBOL (symbol_buffer : String)
  | DOES_NOT_HAVE_SYMBOL
  | SYMBOL_PARSE_ERROR (symbol_parse_error : ParseSymbolError)
  deriving DecidableEq, Repr

/-- An error found while parsing the content of a line, with its payload. -/
inductive ParseError
  | PARSE_ERROR_EXPECTED_INSTRUCTION_OR_DIRECTIVE_AFTER_LABEL
  | PARSE_ERROR_EXPECTED_A_SPACE_AFTER_LABEL
  | PARSE_ERROR_INVALID_DIRECTIVE (invalid_directive : String)
  | PARSE_ERROR_DATA_DIRECTIVE_EMPTY_DATA
  | PARSE_ERROR_DATA_DIRECTIVE_NOT_AN_INTEGER
  | PARSE_ERROR_DATA_DIRECTIVE_INVALID_CHARACTER_AFTER_INTEGER (invalid_character : Char)
  | PARSE_ERROR_DATA_DIRECTIVE_COMMA_AFTER_LAST_INTEGER
  | PARSE_ERROR_DATA_DIRECTIVE_INTEGER_BIGGER_THAN_LIMIT (overflown_integer : Int)
  | PARSE_ERROR_DATA_DIRECTIVE_INTEGER_SMALLER_THAN_LIMIT (overflown_integer : Int)
  | PARSE_ERROR_STRING_DIRECTIVE_DOES_NOT_START_WITH_QUOTE
  | PARSE_ERROR_STRING_DIRECTIVE_DOES_NOT_END_WITH_QUOTE
  | PARSE_ERROR_ENTRY_DIRECTIVE_GOT_NO_SYMBOL
  | PARSE_ERROR_ENTRY_DIRECTIVE_GOT_INVALID_SYMBOL (invalid_symbol : ParseSymbolError)
  | PARSE_ERROR_EXTERN_DIRECTIVE_GOT_NO_SYMBOL
  | PARSE_ERROR_EXTERN_DIRECTIVE_GOT_INVALID_SYMBOL (invalid_symbol : ParseSymbolError)
  | PARSE_ERROR_INVALID_INSTRUCTION (invalid_instruction : String)
  | PARSE_ERROR_OPERAND_NO_INTEGER_AFTER_HASHTAG
  | PARSE_ERROR_OPERAND_IMMEDIATE_INTEGER_TOO_BIG (overflown_integer : Int)
  | PARSE_ERROR_OPERAND_IMMEDIATE_INTEGER_TOO_SMALL (overflown_integer : Int)
  | PARSE_ERROR_OPERAND_INVALID_CHARACTER_AFTER_OPERAND (invalid_character : Char)
  | PARSE_ERROR_OPERAND_INVALID_SYMBOL (invalid_symbol : ParseSymbolError)
  | PARSE_ERROR_INSTRUCTION_TOO_MANY_OPERANDS (expected_amount_of_operands : Nat)
  | PARSE_ERROR_INSTRUCTION_TOO_LITTLE_OPERANDS (expected_amount_of_operands : Nat)
  | PARSE_ERROR_INSTRUCTION_COMMA_AFTER_FINAL_OPERAND
  | PARSE_ERROR_INSTRUCTION_EXPECTED_A_DIFFERENT_OPERAND_TYPE (op_index : Nat)
      (bad_op_type : OperandType) (acceptable_operands : List OperandType)
  | PARSE_ERROR_INSTRUCTION_FIRST_OPERAND_EMPTY
  deriving DecidableEq, Repr

/-- The `type` of a parsed line with the member of `val` valid for it. -/
inductive ParseLineVal
  | PARSE_LINE_ERROR (parse_error : ParseError)
  | PARSE_LINE_INSTRUCTION (instruction : Instruction)
  | PARSE_LINE_DIRECTIVE (directive : Directive)
  | PARSE_LINE_COMMENT
  | PARSE_LINE_EMPTY
  deriving DecidableEq, Repr

/-- What `parse_line` fills in for one line. -/
structure ParseLineData where
  parse_label_data : ParseSymbolData
  val : ParseLineVal
  deriving DecidableEq, Repr

open ParseSymbolData ParseLineVal

/-! ## Names of directives (`directives.c`) -/

/-- The function `str_to_directive_type`: the directive whose name the string starts with. -/
def str_to_directive_type (str : List Char) : Option DirectiveType :=
  if strncmp_eq "data".toList str 4 then some DIRECTIVE_DATA
  else if strncmp_eq "string".toList str 6 then some DIRECTIVE_STRING
  else if strncmp_eq "entry".toList str 5 then some DIRECTIVE_ENTRY
  else if strncmp_eq "extern".toList str 6 then some DIRECTIVE_EXTERN
  else none

/-- The function `directive_name_len`. -/
def directive_name_len (type : DirectiveType) : Nat :=
  match type with
  | DIRECTIVE_DATA => 4
  | DIRECTIVE_ENTRY => 5
  | DIRECTIVE_EXTERN => 6
  | DIRECTIVE_STRING => 6

/-- The function `is_a_directive`: the string is exactly the name of a directive. -/
def is_a_directive (str : List Char) : Bool :=
  match str_to_directive_type str with
  | some dummy => str.drop (directive_name_len dummy) = []
  | none => false

/-! ## Integers of the parser (`parser.h`, `parser.c`) -/

def MAX_INTEGER : Int := (2 <<< (24 - 3 - 1) : Nat) - 1
def MIN_INTEGER : Int := -1 * (2 <<< (24 - 3 - 1) : Nat)
def REGISTER_COUNT : Int := 8
def BITS_32_INT_MAX_DIGITS : Nat := 10

/-- The value of an `int` expression, wrapped to 32 bits. -/
def wrap_int32 (x : Int) : Int := to_int32 (to_uint32 x)

/-- The function-like `CHAR_DIGIT_TO_INT` of `parser.c`. -/
def CHAR_DIGIT_TO_INT (c : Char) : Int := (c.toNat : Int) - ('0'.toNat : Int)

/-- The local array `bits_32_max_int_digits` of `parse_int32_base10`. -/
def bits_32_max_int_digits : List Int := [2, 1, 4, 7, 4, 8, 3, 6, 4, 7]

/-- The return value and the out parameters of `parse_int32_base10`. -/
structure ParseInt32 where
  success : Bool
  integer : Int
  chars_read : Nat
  is_negative : Bool
  deriving DecidableEq, Repr

/-- The function `parse_int32_base10`. The digits are accumulated in an
`int32`, wrapping in 32 bits. For a run of exactly ten digits the loop
compares each of the first nine digits with the digit of 2147483647 at the
same place, and the last digit with the limit chosen by `if (is_negative)`:
that condition tests the pointer `is_negative`, which is not null, so the
limit is 7 + 1 whether or not the string starts with `-`. -/
def parse_int32_base10 (str : List Char) : ParseInt32 :=
  let is_negative := decide (str.head? = some '-')
  let str := if is_negative then str.tail else str
  let sign_chars := if is_negative then 1 else 0
  let digits := str.takeWhile isdigit
  let integer := digits.foldl
    (fun integer c => wrap_int32 (wrap_int32 (integer * 10) + CHAR_DIGIT_TO_INT c)) 0
  let digit_count := digits.length
  let chars_read := sign_chars + digit_count
  if digit_count > BITS_32_INT_MAX_DIGITS then
    { success := false, integer := integer, chars_read := chars_read, is_negative := is_negative }
  else if digit_count = 0 then
    { success := false, integer := integer, chars_read := 0, is_negative := is_negative }
  else
    let last_digit := CHAR_DIGIT_TO_INT (digits.getD (BITS_32_INT_MAX_DIGITS - 1) '0')
    let is_negative_is_not_null := true
    let over_the_limit :=
      decide (digit_count = BITS_32_INT_MAX_DIGITS)
        && ((List.range (BITS_32_INT_MAX_DIGITS - 1)).reverse.any
              (fun i => decide (CHAR_DIGIT_TO_INT (digits.getD i '0')
                > bits_32_max_int_digits.getD i 0))
          || (if is_negative_is_not_null then
                decide (last_digit
                  > bits_32_max_int_digits.getD (BITS_32_INT_MAX_DIGITS - 1) 0 + 1)
              else
                decide (last_digit > bits_32_max_int_digits.getD (BITS_32_INT_MAX_DIGITS - 1) 0)))
    if over_the_limit then
      { success := false, integer := integer, chars_read := chars_read,
        is_negative := is_negative }
    else
      { success := true, integer := if is_negative then wrap_int32 (integer * -1) else integer,
        chars_read := chars_read, is_negative := is_negative }

/-- The function `is_a_register`. -/
def is_a_register (str : List Char) : Bool :=
  let parsed := parse_int32_base10 str.tail
  decide (str.head? = some 'r') && parsed.success
    && decide (str.drop (1 + parsed.chars_read) = [])
    && decide (parsed.integer < REGISTER_COUNT) && !parsed.is_negative

/-- What a parse function with a `bool` result leaves behind: the
`ParseError` it fills in when it reports an error, or the value it fills in. -/
inductive ParseResult (α : Type)
  | parse_error (error : ParseError)
  | parsed (value : α)
  deriving DecidableEq, Repr

/-- The value of a successful parse, passed through `f`. -/
def ParseResult.map {α β : Type} (f : α → β) : ParseResult α → ParseResult β
  | .parse_error error => .parse_error error
  | .parsed value => .parsed (f value)

/-- The loop of `parse_data_directive` over the integer list; `fuel` bounds
the number of iterations, each of which reads at least one character, and
`none` is the result when it is used up. The result of the function is the
error it fills in or the integers of the directive. -/
def parse_data_directive_loop : Nat → List Char → List Int → Option (ParseResult (List Int))
  | 0, _, _ => none
  | fuel + 1, str, integers =>
    match str with
    | [] => some (.parsed integers)
    | _ =>
      let parsed := parse_int32_base10 str
      let encountered_error := !parsed.success
      if parsed.chars_read = 0 then
        some (.parse_error .PARSE_ERROR_DATA_DIRECTIVE_NOT_AN_INTEGER)
      else if parsed.integer < MIN_INTEGER ∨ (encountered_error ∧ parsed.is_negative) then
        some (.parse_error (.PARSE_ERROR_DATA_DIRECTIVE_INTEGER_SMALLER_THAN_LIMIT
          (if encountered_error then 0 else parsed.integer)))
      else if parsed.integer > MAX_INTEGER ∨ encountered_error then
        some (.parse_error (.PARSE_ERROR_DATA_DIRECTIVE_INTEGER_BIGGER_THAN_LIMIT
          (if encountered_error then 0 else parsed.integer)))
      else
        let integers := integers ++ [parsed.integer]
        let str := skip_space (str.drop parsed.chars_read)
        match str with
        | [] => parse_data_directive_loop fuel str integers
        | c :: after_comma =>
          if c ≠ ',' then
            some (.parse_error (.PARSE_ERROR_DATA_DIRECTIVE_INVALID_CHARACTER_AFTER_INTEGER c))
          else
            let str := skip_space after_comma
            if str = [] then some (.parse_error .PARSE_ERROR_DATA_DIRECTIVE_COMMA_AFTER_LAST_INTEGER)
            else parse_data_directive_loop fuel str integers

/-- The function `parse_data_directive` on the text after `.data`: the parse
error, or the directive with the integers of the list. -/
def parse_data_directive (str : List Char) : Option (ParseResult Directive) :=
  match str with
  | [] => some (.parse_error .PARSE_ERROR_DATA_DIRECTIVE_EMPTY_DATA)
  | _ => (parse_data_directive_loop (str.length + 1) str []).map (ParseResult.map Directive.data)

/-- The value of `directive->val.data.amount_of_integers` when the loop of
`parse_data_directive` is left, by the end of the text or by an error: the
number of integers stored in `directive->val.data.integers`, each at the
index that the amount had before it. The fuel is that of
`parse_data_directive_loop`. -/
def parse_data_directive_stores : Nat → List Char → Nat → Nat
  | 0, _, amount_of_integers => amount_of_integers
  | fuel + 1, str, amount_of_integers =>
    match str with
    | [] => amount_of_integers
    | _ =>
      let parsed := parse_int32_base10 str
      let encountered_error := !parsed.success
      if parsed.chars_read = 0 then amount_of_integers
      else if parsed.integer < MIN_INTEGER ∨ (encountered_error ∧ parsed.is_negative) then
        amount_of_integers
      else if parsed.integer > MAX_INTEGER ∨ encountered_error then amount_of_integers
      else
        let amount_of_integers := amount_of_integers + 1
        let str := skip_space (str.drop parsed.chars_read)
        match str with
        | [] => parse_data_directive_stores fuel str amount_of_integers
        | c :: after_comma =>
          if c ≠ ',' then amount_of_integers
          else
            let str := skip_space after_comma
            if str = [] then amount_of_integers
            else parse_data_directive_stores fuel str amount_of_integers

/-- The value of `directive->val.data.amount_of_integers` when
`parse_data_directive` returns, with or without an error. -/
def parse_data_directive_amount (str : List Char) : Nat :=
  match str with
  | [] => 0
  | _ => parse_data_directive_stores (str.length + 1) str 0

/-! ## Symbols (`parser.c`) -/

def MAX_LABEL_SIZE : Nat := 31

/-- The terminating NUL of a C string, as the argument of an end indicator. -/
def NUL : Char := Char.ofNat 0

/-- The string in a buffer into which `fgets` has read the characters
`buffer`: the characters before the first NUL. -/
def c_string (buffer : List Char) : List Char := buffer.takeWhile (fun c => c ≠ NUL)

/-- The function `default_symbol_end_indicator`, used when `parse_symbol` is given `NULL`. -/
def default_symbol_end_indicator (c : Char) : Bool := c = NUL

/-- The function `parse_line_label_end_indicator`. -/
def parse_line_label_end_indicator (c : Char) : Bool := c = ':'

/-- The function `parse_operand_symbol_end_indicator`. -/
def parse_operand_symbol_end_indicator (c : Char) : Bool := isspace c || c = ',' || c = NUL

/-- The function `trim_after_space`: the string is cut at its first white space. -/
def trim_after_space (str : List Char) : List Char := str.takeWhile (fun c => !isspace c)

/-- The error that `parse_symbol` has recorded while it scans: the two error
types that it sets before the symbol is copied, with the payload written so far. -/
inductive SymbolScanError
  | starts_with_non_alphabethic_char (non_alphabethic_char : Char)
  | invalid_char_in_symbol (invalid_char : Char) (position : Nat)
  deriving DecidableEq, Repr

/-- The loop `while (line[character_position] != 0)` of `parse_symbol` on the
characters from `character_position` on: whether the end indicator was found,
the final `character_position` (which equals `symbol_len`), and the error
recorded. An invalid character replaces the error recorded before it. -/
def parse_symbol_loop (symbol_end_indicator : Char → Bool) :
    List Char → Nat → Option SymbolScanError → Bool × Nat × Option SymbolScanError
  | [], character_position, error => (false, character_position, error)
  | c :: line, character_position, error =>
    if symbol_end_indicator c then (true, character_position, error)
    else if !isalnum c then
      parse_symbol_loop symbol_end_indicator line (character_position + 1)
        (some (.invalid_char_in_symbol c character_position))
    else parse_symbol_loop symbol_end_indicator line (character_position + 1) error

/-- The `result` of `parse_symbol` with the member of `val` valid for it,
and the field `symbol_length`. -/
structure ParseSymbol where
  data : ParseSymbolData
  symbol_length : Nat
  deriving DecidableEq, Repr

/-- The function `parse_symbol`. On the empty string with an end indicator
that rejects NUL the source goes on to read `line[1]`, the byte after the
terminator: the result is then not determined by the string, and is `none`. -/
def parse_symbol (line : List Char) (symbol_end_indicator : Char → Bool) : Option ParseSymbol :=
  match line with
  | [] =>
    if symbol_end_indicator NUL then
      some { data := SYMBOL_PARSE_ERROR .SYMBOL_EMPTY, symbol_length := 0 }
    else none
  | c :: rest =>
    if symbol_end_indicator c then
      some { data := SYMBOL_PARSE_ERROR .SYMBOL_EMPTY, symbol_length := 0 }
    else
      let is_symbol := symbol_end_indicator NUL
      let error : Option SymbolScanError :=
        if !isalpha c then some (.starts_with_non_alphabethic_char c) else none
      let scanned := parse_symbol_loop symbol_end_indicator rest 1 error
      let is_symbol := is_symbol || scanned.1
      let symbol_len := scanned.2.1
      if !is_symbol then some { data := DOES_NOT_HAVE_SYMBOL, symbol_length := 0 }
      else if symbol_len + 1 > MAX_LABEL_SIZE + 1 then
        some { data := SYMBOL_PARSE_ERROR (.BUFFER_TOO_SMALL symbol_len),
               symbol_length := symbol_len }
      else
        let symbol := line.take symbol_len
        match scanned.2.2 with
        | none =>
          if is_a_directive symbol then
            some { data := SYMBOL_PARSE_ERROR (.SYMBOL_IS_A_DIRECTIVE (String.mk symbol)),
                   symbol_length := symbol_len }
          else if is_an_instruction symbol then
            some { data := SYMBOL_PARSE_ERROR (.SYMBOL_IS_AN_INSTRUCTION (String.mk symbol)),
                   symbol_length := symbol_len }
          else if is_a_register symbol then
            some { data := SYMBOL_PARSE_ERROR (.SYMBOL_IS_A_REGISTER (String.mk symbol)),
                   symbol_length := symbol_len }
          else some { data := HAS_SYMBOL (String.mk symbol), symbol_length := symbol_len }
        | some (.starts_with_non_alphabethic_char non_alphabethic_char) =>
          some { data := SYMBOL_PARSE_ERROR
                   (.SYMBOL_STARTS_WITH_NON_ALPHABETHIC_CHARACTER (String.mk symbol)
                     non_alphabethic_char),
                 symbol_length := symbol_len }
        | some (.invalid_char_in_symbol invalid_char position) =>
          some { data := SYMBOL_PARSE_ERROR
                   (.INVALID_CHARACTER_IN_SYMBOL (String.mk symbol) invalid_char position),
                 symbol_length := symbol_len }

/-- The loop `while (line[character_position] != 0)` of `parse_symbol` over
the bytes of the memory from `line[character_position]` on, the terminator
of the string and the bytes that lie behind it included: the index at which
the loop is left, which is the greatest index that it reads. The result is
`none` when the loop runs through all the bytes given. -/
def parse_symbol_loop_last_read (symbol_end_indicator : Char → Bool) :
    List Char → Nat → Option Nat
  | [], _ => none
  | c :: memory, character_position =>
    if c = NUL then some character_position
    else if symbol_end_indicator c then some character_position
    else parse_symbol_loop_last_read symbol_end_indicator memory (character_position + 1)

/-- The greatest index `i` for which `parse_symbol` reads `line[i]`, on the
bytes of the memory from `line[0]` on. The function reads `line[0]`, returns
at once when the end indicator accepts it, and otherwise enters the loop with
`character_position = 1`; what it reads after the loop
(`line_start[symbol_len]`, the names it compares, the characters it copies)
lies at indices up to the one where the loop was left. -/
def parse_symbol_last_read (memory : List Char) (symbol_end_indicator : Char → Bool) :
    Option Nat :=
  match memory with
  | [] => none
  | c :: behind =>
    if symbol_end_indicator c then some 0
    else parse_symbol_loop_last_read symbol_end_indicator behind 1

/-- The function `parse_symbol` on the bytes of the memory from `line[0]`
on, the terminator of the string and the bytes that lie behind it included:
the loop runs up to the first NUL from `line[1]` on, and the symbol copied is
the string at `line` cut at `symbol_len`. On a string that is not empty this
is `parse_symbol` on the string. The result is `none` when the loop runs
through all the bytes given. -/
def parse_symbol_memory (memory : List Char) (symbol_end_indicator : Char → Bool) :
    Option ParseSymbol :=
  match memory with
  | [] => none
  | c :: behind =>
    if symbol_end_indicator c then
      some { data := SYMBOL_PARSE_ERROR .SYMBOL_EMPTY, symbol_length := 0 }
    else
      match parse_symbol_loop_last_read symbol_end_indicator behind 1 with
      | none => none
      | some _ =>
        let is_symbol := symbol_end_indicator NUL
        let error : Option SymbolScanError :=
          if !isalpha c then some (.starts_with_non_alphabethic_char c) else none
        let scanned := parse_symbol_loop symbol_end_indicator
          (behind.takeWhile (fun c => c ≠ NUL)) 1 error
        let is_symbol := is_symbol || scanned.1
        let symbol_len := scanned.2.1
        if !is_symbol then some { data := DOES_NOT_HAVE_SYMBOL, symbol_length := 0 }
        else if symbol_len + 1 > MAX_LABEL_SIZE + 1 then
          some { data := SYMBOL_PARSE_ERROR (.BUFFER_TOO_SMALL symbol_len),
                 symbol_length := symbol_len }
        else
          let symbol := (memory.take symbol_len).takeWhile (fun c => c ≠ NUL)
          match scanned.2.2 with
          | none =>
            if is_a_directive symbol then
              some { data := SYMBOL_PARSE_ERROR (.SYMBOL_IS_A_DIRECTIVE (String.mk symbol)),
                     symbol_length := symbol_len }
            else if is_an_instruction symbol then
              some { data := SYMBOL_PARSE_ERROR (.SYMBOL_IS_AN_INSTRUCTION (String.mk symbol)),
                     symbol_length := symbol_len }
            else if is_a_register symbol then
              some { data := SYMBOL_PARSE_ERROR (.SYMBOL_IS_A_REGISTER (String.mk symbol)),
                     symbol_length := symbol_len }
            else some { data := HAS_SYMBOL (String.mk symbol), symbol_length := symbol_len }
          | some (.starts_with_non_alphabethic_char non_alphabethic_char) =>
            some { data := SYMBOL_PARSE_ERROR
                     (.SYMBOL_STARTS_WITH_NON_ALPHABETHIC_CHARACTER (String.mk symbol)
                       non_alphabethic_char),
                   symbol_length := symbol_len }
          | some (.invalid_char_in_symbol invalid_char position) =>
            some { data := SYMBOL_PARSE_ERROR
                     (.INVALID_CHARACTER_IN_SYMBOL (String.mk symbol) invalid_char position),
                   symbol_length := symbol_len }

/-! ## Directives, operands, instructions and lines (`parser.c`)

A parse function of the source returns whether it met an error and fills in
either the `ParseError` or the value; `parse_line` passes members of the same
union for both. No function reads the value after an error was written or
writes the error after it has returned success, so the two are embedded as
the two cases of `ParseResult`. The result is `none` where the source reads
outside the string (see `parse_symbol`) or the fuel of a loop is used up. -/

/-- The test `isspace(*str)`; the terminating NUL of the empty string is not a space. -/
def starts_with_space (str : List Char) : Bool :=
  match str with
  | [] => false
  | c :: _ => isspace c

/-- The function `parse_string_directive`: the string lies between the
quote at the start and the last quote of the text. -/
def parse_string_directive (str : List Char) : ParseResult Directive :=
  match str with
  | [] => .parse_error .PARSE_ERROR_STRING_DIRECTIVE_DOES_NOT_START_WITH_QUOTE
  | start :: rest =>
    if start ≠ '"' then .parse_error .PARSE_ERROR_STRING_DIRECTIVE_DOES_NOT_START_WITH_QUOTE
    else
      match rest.reverse.dropWhile (fun c => c ≠ '"') with
      | [] => .parse_error .PARSE_ERROR_STRING_DIRECTIVE_DOES_NOT_END_WITH_QUOTE
      | _ :: before_end => .parsed (.string (String.mk before_end.reverse))

/-- The part of `parse_directive` for `.entry` and `.extern`: the symbol is
the text left by `trim_end`, checked by `parse_symbol` with the default end
indicator. -/
def parse_directive_symbol (str : List Char) (directive : String → Directive)
    (got_no_symbol : ParseError) (got_invalid_symbol : ParseSymbolError → ParseError) :
    Option (ParseResult Directive) :=
  let str := trim_end str
  match parse_symbol str default_symbol_end_indicator with
  | none => none
  | some parse_symbol_data =>
    match parse_symbol_data.data with
    | HAS_SYMBOL _ => some (.parsed (directive (String.mk str)))
    | DOES_NOT_HAVE_SYMBOL => some (.parse_error got_no_symbol)
    | SYMBOL_PARSE_ERROR symbol_parse_error =>
      if symbol_parse_error = .SYMBOL_EMPTY then some (.parse_error got_no_symbol)
      else some (.parse_error (got_invalid_symbol symbol_parse_error))

/-- The function `parse_directive` on the text after the `.`. -/
def parse_directive (str : List Char) : Option (ParseResult Directive) :=
  match str_to_directive_type str with
  | none =>
    some (.parse_error (.PARSE_ERROR_INVALID_DIRECTIVE (String.mk (trim_after_space str))))
  | some directive_type =>
    let after_name := str.drop (directive_name_len directive_type)
    if !starts_with_space after_name ∧ after_name ≠ [] then
      some (.parse_error (.PARSE_ERROR_INVALID_DIRECTIVE (String.mk (trim_after_space str))))
    else
      let str := skip_space after_name
      match directive_type with
      | DIRECTIVE_DATA => parse_data_directive str
      | DIRECTIVE_STRING => some (parse_string_directive str)
      | DIRECTIVE_ENTRY =>
        parse_directive_symbol str Directive.entry .PARSE_ERROR_ENTRY_DIRECTIVE_GOT_NO_SYMBOL
          .PARSE_ERROR_ENTRY_DIRECTIVE_GOT_INVALID_SYMBOL
      | DIRECTIVE_EXTERN =>
        parse_directive_symbol str Directive.external .PARSE_ERROR_EXTERN_DIRECTIVE_GOT_NO_SYMBOL
          .PARSE_ERROR_EXTERN_DIRECTIVE_GOT_INVALID_SYMBOL

/-- Conversion of an `int` to `uint8`, the type of `register_num`. -/
def to_uint8 (x : Int) : Nat := (x % 2 ^ 8).toNat

/-- The function `parse_operand`: the operand and `operand_length`, or the
error. After `#` the case `chars_read == 0` arises only when
`parse_int32_base10` has returned `FALSE`, so it is an error. -/
def parse_operand (str : List Char) : Option (ParseResult (Operand × Nat)) :=
  if str.head? = some '#' then
    let parsed := parse_int32_base10 str.tail
    let encountered_error := !parsed.success
    if parsed.chars_read = 0 then
      some (.parse_error .PARSE_ERROR_OPERAND_NO_INTEGER_AFTER_HASHTAG)
    else if parsed.integer < MIN_INTEGER ∨ (encountered_error ∧ parsed.is_negative) then
      some (.parse_error (.PARSE_ERROR_OPERAND_IMMEDIATE_INTEGER_TOO_SMALL
        (if encountered_error then 0 else parsed.integer)))
    else if parsed.integer > MAX_INTEGER ∨ encountered_error then
      some (.parse_error (.PARSE_ERROR_OPERAND_IMMEDIATE_INTEGER_TOO_BIG
        (if encountered_error then 0 else parsed.integer)))
    else some (.parsed (.immediate parsed.integer, 1 + parsed.chars_read))
  else
    let parsed := parse_int32_base10 str.tail
    if str.head? = some 'r' ∧ parsed.success ∧ parsed.integer < REGISTER_COUNT
        ∧ ¬ parsed.is_negative then
      some (.parsed (.register (to_uint8 parsed.integer), parsed.chars_read + 1))
    else
      let is_address := decide (str.head? = some '&')
      let symbol_str := if is_address then str.tail else str
      let address_length := if is_address then 1 else 0
      match parse_symbol symbol_str parse_operand_symbol_end_indicator with
      | none => none
      | some parse_symbol_data =>
        match parse_symbol_data.data with
        | HAS_SYMBOL symbol_name =>
          some (.parsed (if is_address then .address symbol_name else .symbol symbol_name,
            parse_symbol_data.symbol_length + address_length))
        | SYMBOL_PARSE_ERROR symbol_parse_error =>
          some (.parse_error (.PARSE_ERROR_OPERAND_INVALID_SYMBOL symbol_parse_error))
        | DOES_NOT_HAVE_SYMBOL =>
          some (.parsed (if is_address then .address "" else .symbol "", address_length))

/-- The value that the embedding gives to the operand fields of an
`Instruction` which `parse_instruction` does not write. -/
def unwritten_operand : Operand := .immediate 0

/-- The loop of `parse_instruction` that looks for the type of an operand
among the acceptable ones. -/
def is_acceptable_operand (operand : Operand) (acceptable_operands : List OperandType) : Bool :=
  acceptable_operands.foldl (fun is_acceptable type => if operand.type = type then true
    else is_acceptable) false

/-- The end of `parse_instruction` after the second operand, on the text
`str` left after it and the white space that follows it. -/
def parse_instruction_after_second (instruction : Instruction) (str : List Char) :
    ParseResult Instruction :=
  if str ≠ [] ∧ str.head? ≠ some ',' then
    .parse_error (.PARSE_ERROR_OPERAND_INVALID_CHARACTER_AFTER_OPERAND (str.headD NUL))
  else if str.head? = some ',' ∧ skip_space str.tail = [] then
    .parse_error .PARSE_ERROR_INSTRUCTION_COMMA_AFTER_FINAL_OPERAND
  else if str = [] then
    if !is_acceptable_operand instruction.operand1 (acceptable_src_operands instruction.type) then
      .parse_error (.PARSE_ERROR_INSTRUCTION_EXPECTED_A_DIFFERENT_OPERAND_TYPE 1
        instruction.operand1.type (acceptable_src_operands instruction.type))
    else if !is_acceptable_operand instruction.operand2
        (acceptable_dest_operands instruction.type) then
      .parse_error (.PARSE_ERROR_INSTRUCTION_EXPECTED_A_DIFFERENT_OPERAND_TYPE 2
        instruction.operand2.type (acceptable_dest_operands instruction.type))
    else .parsed instruction
  else .parse_error (.PARSE_ERROR_INSTRUCTION_TOO_MANY_OPERANDS instruction.operand_amount)

/-- The part of `parse_instruction` after the first operand, on the text
`str` left after it and the white space that follows it. -/
def parse_instruction_after_first (instruction : Instruction) (str : List Char) :
    Option (ParseResult Instruction) :=
  let operand_amount := instruction.operand_amount
  if str ≠ [] ∧ str.head? ≠ some ',' then
    some (.parse_error (.PARSE_ERROR_OPERAND_INVALID_CHARACTER_AFTER_OPERAND (str.headD NUL)))
  else if str = [] ∧ operand_amount > 1 then
    some (.parse_error (.PARSE_ERROR_INSTRUCTION_TOO_LITTLE_OPERANDS operand_amount))
  else if str.head? = some ',' ∧ operand_amount = 1 ∧ skip_space str.tail = [] then
    some (.parse_error .PARSE_ERROR_INSTRUCTION_COMMA_AFTER_FINAL_OPERAND)
  else if str = [] ∧ operand_amount = 1 then
    if !is_acceptable_operand instruction.operand1 (acceptable_dest_operands instruction.type) then
      some (.parse_error (.PARSE_ERROR_INSTRUCTION_EXPECTED_A_DIFFERENT_OPERAND_TYPE 1
        instruction.operand1.type (acceptable_dest_operands instruction.type)))
    else some (.parsed instruction)
  else if operand_amount = 1 then
    some (.parse_error (.PARSE_ERROR_INSTRUCTION_TOO_MANY_OPERANDS operand_amount))
  else
    let str := skip_space str.tail
    if str = [] then
      some (.parse_error (.PARSE_ERROR_INSTRUCTION_TOO_LITTLE_OPERANDS operand_amount))
    else
      match parse_operand str with
      | none => none
      | some (.parse_error error) => some (.parse_error error)
      | some (.parsed (operand2, operand_len)) =>
        some (parse_instruction_after_second { instruction with operand2 := operand2 }
          (skip_space (str.drop operand_len)))

/-- The part of `parse_instruction` after the name of the instruction, on
the text `str` left after the name and the white space that follows it. -/
def parse_instruction_operands (instruction_type : InstructionType) (str : List Char) :
    Option (ParseResult Instruction) :=
  let operand_amount := instruction_operand_amount instruction_type
  let instruction : Instruction :=
    { type := instruction_type, operand_amount := operand_amount,
      operand1 := unwritten_operand, operand2 := unwritten_operand }
  if operand_amount = 0 ∧ str ≠ [] then
    some (.parse_error (.PARSE_ERROR_INSTRUCTION_TOO_MANY_OPERANDS operand_amount))
  else if str = [] ∧ operand_amount > 0 then
    some (.parse_error (.PARSE_ERROR_INSTRUCTION_TOO_LITTLE_OPERANDS operand_amount))
  else if str = [] ∧ operand_amount = 0 then some (.parsed instruction)
  else if str.head? = some ',' then
    some (.parse_error .PARSE_ERROR_INSTRUCTION_FIRST_OPERAND_EMPTY)
  else
    match parse_operand str with
    | none => none
    | some (.parse_error error) => some (.parse_error error)
    | some (.parsed (operand1, operand_len)) =>
      parse_instruction_after_first { instruction with operand1 := operand1 }
        (skip_space (str.drop operand_len))

/-- The function `parse_instruction`. -/
def parse_instruction (str : List Char) : Option (ParseResult Instruction) :=
  match str_to_instruction_type str with
  | none =>
    some (.parse_error (.PARSE_ERROR_INVALID_INSTRUCTION (String.mk (trim_after_space str))))
  | some instruction_type =>
    let after_name := str.drop (instruction_name_len instruction_type)
    if !starts_with_space after_name ∧ after_name ≠ [] then
      some (.parse_error (.PARSE_ERROR_INVALID_INSTRUCTION (String.mk (trim_after_space str))))
    else parse_instruction_operands instruction_type (skip_space after_name)

/-- The part of `parse_line` after the label: the text `line_ptr` is parsed
as a directive when it starts with `.`, as an instruction otherwise. -/
def parse_line_content (line_ptr : List Char) : Option ParseLineVal :=
  match line_ptr with
  | [] => some (PARSE_LINE_ERROR .PARSE_ERROR_EXPECTED_INSTRUCTION_OR_DIRECTIVE_AFTER_LABEL)
  | c :: after_dot =>
    if c = '.' then
      match parse_directive after_dot with
      | none => none
      | some (.parse_error error) => some (PARSE_LINE_ERROR error)
      | some (.parsed directive) => some (PARSE_LINE_DIRECTIVE directive)
    else
      match parse_instruction line_ptr with
      | none => none
      | some (.parse_error error) => some (PARSE_LINE_ERROR error)
      | some (.parsed instruction) => some (PARSE_LINE_INSTRUCTION instruction)

/-- The function `parse_line` on the string that `fgets` has stored. For an
empty line and for a comment the source leaves `parse_label_data` unwritten;
the embedding gives it the value `DOES_NOT_HAVE_SYMBOL`. -/
def parse_line (line : List Char) : Option ParseLineData :=
  if line.head? = some '\n' ∨ line = [] then
    some { parse_label_data := DOES_NOT_HAVE_SYMBOL, val := PARSE_LINE_EMPTY }
  else if line.head? = some ';' then
    some { parse_label_data := DOES_NOT_HAVE_SYMBOL, val := PARSE_LINE_COMMENT }
  else
    let line_ptr := skip_space line
    match parse_symbol line_ptr parse_line_label_end_indicator with
    | none => none
    | some parse_symbol_data =>
      let line_ptr := line_ptr.drop parse_symbol_data.symbol_length
      if parse_symbol_data.data ≠ DOES_NOT_HAVE_SYMBOL then
        let line_ptr := line_ptr.tail
        if !starts_with_space line_ptr then
          some { parse_label_data := parse_symbol_data.data,
                 val := PARSE_LINE_ERROR .PARSE_ERROR_EXPECTED_A_SPACE_AFTER_LABEL }
        else
          (parse_line_content (skip_space line_ptr)).map
            (fun val => { parse_label_data := parse_symbol_data.data, val := val })
      else
        (parse_line_content (skip_space line_ptr)).map
          (fun val => { parse_label_data := parse_symbol_data.data, val := val })

/-- The lines that a pass reads from its input with `fgets` into the buffer
of `MAX_LINE_LENGTH + 2` bytes; `fuel` bounds their number. -/
def read_lines : Nat → List Char → List (List Char)
  | 0, _ => []
  | fuel + 1, input =>
    match fgets (MAX_LINE_LENGTH + 2) input with
    | none => []
    | some (line, input) => line :: read_lines fuel input

/-- The parse results of a list of lines; `none` when one of them is `none`. -/
def parse_texts : List (List Char) → Option (List ParseLineData)
  | [] => some []
  | text :: texts =>
    match parse_line text, parse_texts texts with
    | some line, some lines => some (line :: lines)
    | _, _ => none

/-- The parse results of the lines of an input file, as both passes see them. -/
def parse_lines (input : List Char) : Option (List ParseLineData) :=
  parse_texts (read_lines (input.length + 1) input)

/-! ## The line buffer after `parse_line` (`parser.c`)

The parse functions write to the string that they parse. These definitions
give the string that is left in the buffer, up to its terminator. -/

/-- The string that `parse_directive` leaves in the buffer from `str` on:
`trim_after_space` cuts it after its first word when it reports an invalid
directive, and for `.entry` and `.extern` the call `trim_end(str)` cuts off
the white space at the end of the text after the name. -/
def parse_directive_buffer (str : List Char) : List Char :=
  match str_to_directive_type str with
  | none => trim_after_space str
  | some directive_type =>
    let after_name := str.drop (directive_name_len directive_type)
    if !starts_with_space after_name ∧ after_name ≠ [] then trim_after_space str
    else
      let symbol := skip_space after_name
      match directive_type with
      | DIRECTIVE_DATA => str
      | DIRECTIVE_STRING => str
      | DIRECTIVE_ENTRY => str.take (str.length - symbol.length) ++ trim_end symbol
      | DIRECTIVE_EXTERN => str.take (str.length - symbol.length) ++ trim_end symbol

/-- The string that `parse_instruction` leaves in the buffer from `str` on:
`trim_after_space` cuts it after its first word when it reports an invalid
instruction; otherwise the string is not changed (`parse_symbol` restores
the character that it overwrites). -/
def parse_instruction_buffer (str : List Char) : List Char :=
  match str_to_instruction_type str with
  | none => trim_after_space str
  | some instruction_type =>
    let after_name := str.drop (instruction_name_len instruction_type)
    if !starts_with_space after_name ∧ after_name ≠ [] then trim_after_space str
    else str

/-- The string that the part of `parse_line` after the label leaves in the
buffer from `line_ptr` on. -/
def parse_line_content_buffer (line_ptr : List Char) : List Char :=
  match line_ptr with
  | [] => []
  | c :: after_dot =>
    if c = '.' then c :: parse_directive_buffer after_dot
    else parse_instruction_buffer line_ptr

/-- The string that `parse_line` leaves in the line buffer; `none` where
`parse_line` is `none`. -/
def parse_line_buffer (line : List Char) : Option (List Char) :=
  if line.head? = some '\n' ∨ line = [] then some line
  else if line.head? = some ';' then some line
  else
    let line_ptr := skip_space line
    match parse_symbol line_ptr parse_line_label_end_indicator with
    | none => none
    | some parse_symbol_data =>
      let line_ptr := line_ptr.drop parse_symbol_data.symbol_length
      if parse_symbol_data.data ≠ DOES_NOT_HAVE_SYMBOL then
        let line_ptr := line_ptr.tail
        if !starts_with_space line_ptr then some line
        else
          let line_ptr := skip_space line_ptr
          some (line.take (line.length - line_ptr.length) ++ parse_line_content_buffer line_ptr)
      else
        let line_ptr := skip_space line_ptr
        some (line.take (line.length - line_ptr.length) ++ parse_line_content_buffer line_ptr)

/-! ## Errors delivered to the callback (`errors.h`) -/

/-- An error of the macro expansion (`ExpandMacroError`): its type and the
payload of its type. The lengths are `int` values of the source; they are
not reduced modulo `2 ^ 32`, a line being shorter than that. -/
inductive ExpandMacroError
  | EXPAND_MACRO_ERROR_LINE_TOO_LONG (len : Nat) (expected_len : Nat)
  | EXPAND_MACRO_EXPECTED_MACRO_NAME
  | EXPAND_MACRO_ERROR_STARTS_WITH_INVALID_CHARACTER (starts_with_invalid_character : Char)
  | EXPAND_MACRO_ERROR_IS_AN_INSTRUCTION
  | EXPAND_MACRO_ERROR_IS_A_DIRECTIVE
  | EXPAND_MACRO_ERROR_IS_A_REGISTER
  | EXPAND_MACRO_ERROR_INVALID_CHARACTER (invalid_character : Char) (position : Nat)
  | EXPAND_MACRO_ERROR_NAME_IS_TOO_LONG (len : Nat) (expected_len : Nat)
  | EXPAND_MACRO_ERROR_MACRO_DEFINED_AS_LABEL (macro_name : List Char)
  deriving DecidableEq, Repr

open ExpandMacroError

/-- An error of a pass: its type, the line number of its `line_info`, and
the payload of its type. -/
inductive Error
  | ERROR_TYPE_SYMBOL_PARSE (line_num : Nat) (symbol_parse_err : ParseSymbolError)
  | ERROR_TYPE_PARSE (line_num : Nat) (parse_err : ParseError)
  | ERROR_TYPE_SYMBOL_ALREADY_DEFINED (line_num : Nat) (symbol : Symbol)
  | ERROR_TYPE_MEMORY_OVERFLOWN (line_num : Nat) (max_address : Int) (expected_max_address : Int)
  | ERROR_TYPE_SYMBOL_NOT_DEFINED (line_num : Nat) (symbol_name : String)
  | ERROR_TYPE_EXTERNAL_SYMBOL_USED_IN_ENTRY_DIRECTIVE (line_num : Nat) (symbol : Symbol)
  | ERROR_TYPE_MACRO (line_num : Nat) (expand_macro_err : ExpandMacroError)
  deriving DecidableEq, Repr

open Error

/-! ## First pass (`first_pass.h`, `first_pass.c`) -/

def INSTRUCTION_MEMORY_START : Nat := 100
def MAX_ADDRESS : Nat := (1 <<< 21) - 1

/-- The result of the first pass. -/
structure FirstPassResult where
  encountered_error : Bool
  alloc_fail : Bool
  symbol_table : SymbolTable
  data_image : List Nat
  deriving DecidableEq, Repr

/-- Pushes the data of a `.data` or `.string` directive onto the data image
(`handle_data_and_string_directive`), one word per iteration of its loops;
the result is the new image and the amount of data written. The argument
`*str` of `u32_vec_push` is a `char` converted to `uint32`. The amount is
bounded by the capacity of the arrays of `Directive` (`MAX_LINE_LENGTH`), so
it is not reduced modulo `2 ^ 32`. -/
def handle_data_and_string_directive (directive : Directive) (data_vec : List Nat) :
    List Nat × Nat :=
  match directive with
  | .data integers =>
    integers.foldl
      (fun (written : List Nat × Nat) integer => (written.1 ++ [to_uint32 integer], written.2 + 1))
      (data_vec, 0)
  | .string string =>
    let written := string.toList.foldl
      (fun (written : List Nat × Nat) c =>
        (written.1 ++ [to_uint32 (char_to_int c)], written.2 + 1))
      (data_vec, 0)
    (written.1 ++ [0], written.2 + 1)
  | _ => (data_vec, 0)

/-- The local variables of `first_pass` while it reads its input, together
with the errors delivered so far to `err_callback` (oldest first). The fields
`encountered_error`, `alloc_fail`, `symbol_table` and `data_image` are those
of the local `first_pass_result` (`data_vec` is the same vector as
`first_pass_result.data_image`). -/
structure FirstPassState where
  IC : Nat
  DC : Nat
  line_num : Nat
  memory_overflown : Bool
  mem_overflow_line_num : Nat
  encountered_error : Bool
  alloc_fail : Bool
  symbol_table : SymbolTable
  data_image : List Nat
  errors : List Error
  deriving DecidableEq, Repr

/-- The state of `first_pass` before the first line is read. -/
def first_pass_init : FirstPassState :=
  { IC := INSTRUCTION_MEMORY_START, DC := 0, line_num := 0, memory_overflown := false,
    mem_overflow_line_num := 0, encountered_error := false, alloc_fail := false,
    symbol_table := [], data_image := [], errors := [] }

/-- The code that `first_pass` runs both for a label and for the symbol of
`.extern`: report `ERROR_TYPE_SYMBOL_ALREADY_DEFINED` when the name is in
the table, insert it otherwise; a failed insertion sets `alloc_fail`. -/
def first_pass_define (st : FirstPassState) (name : String) (addr : Nat) (ctx : SymbolContext) :
    FirstPassState :=
  match symbol_table_search st.symbol_table name with
  | some symbol =>
    { st with errors := st.errors ++ [ERROR_TYPE_SYMBOL_ALREADY_DEFINED st.line_num symbol],
              encountered_error := true }
  | none =>
    match symbol_table_insert st.symbol_table name addr ctx st.line_num with
    | none => { st with alloc_fail := true, encountered_error := true }
    | some table => { st with symbol_table := table }

/-- The part of the loop body of `first_pass` that handles the label. -/
def first_pass_label (line : ParseLineData) (st : FirstPassState) : FirstPassState :=
  match line.parse_label_data with
  | HAS_SYMBOL label =>
    match line.val with
    | PARSE_LINE_ERROR _ => st
    | PARSE_LINE_DIRECTIVE directive =>
      if directive.type = DIRECTIVE_DATA ∨ directive.type = DIRECTIVE_STRING then
        first_pass_define st label st.DC SYMBOL_CONTEXT_DATA
      else st
    | _ => first_pass_define st label st.IC SYMBOL_CONTEXT_CODE
  | SYMBOL_PARSE_ERROR symbol_parse_error =>
    { st with errors := st.errors ++ [ERROR_TYPE_SYMBOL_PARSE st.line_num symbol_parse_error],
              encountered_error := true }
  | DOES_NOT_HAVE_SYMBOL => st

/-- The part of the loop body of `first_pass` that handles the content of the line. -/
def first_pass_content (line : ParseLineData) (st : FirstPassState) : FirstPassState :=
  match line.val with
  | PARSE_LINE_ERROR parse_error =>
    { st with errors := st.errors ++ [ERROR_TYPE_PARSE st.line_num parse_error],
              encountered_error := true }
  | PARSE_LINE_DIRECTIVE directive =>
    match directive with
    | .external extern_symbol => first_pass_define st extern_symbol 0 SYMBOL_CONTEXT_EXTERNAL
    | _ =>
      let written := handle_data_and_string_directive directive st.data_image
      { st with data_image := written.1, DC := (st.DC + written.2) % 2 ^ 32 }
  | PARSE_LINE_INSTRUCTION instruction =>
    { st with IC := (st.IC + instruction_encoding_word_count instruction) % 2 ^ 32 }
  | _ => st

/-- The check of the address space at the end of the loop body of `first_pass`. -/
def first_pass_memory_check (st : FirstPassState) : FirstPassState :=
  if ¬ st.memory_overflown ∧ (st.IC + st.data_image.length) % 2 ^ 32 > MAX_ADDRESS then
    { st with memory_overflown := true, mem_overflow_line_num := st.line_num }
  else st

/-- One iteration of the loop of `first_pass`. When an allocation has failed
the function has returned, and the remaining lines are not read. -/
def first_pass_line (st : FirstPassState) (line : ParseLineData) : FirstPassState :=
  if st.alloc_fail then st
  else
    let st := { st with line_num := st.line_num + 1 }
    match line.val with
    | PARSE_LINE_COMMENT => st
    | PARSE_LINE_EMPTY => st
    | _ =>
      let st := first_pass_label line st
      if st.alloc_fail then st
      else
        let st := first_pass_content line st
        if st.alloc_fail then st
        else first_pass_memory_check st

/-- The loop of `first_pass` over the lines of the input. -/
def first_pass_loop (lines : List ParseLineData) : FirstPassState :=
  lines.foldl first_pass_line first_pass_init

/-- The end of `first_pass`: the report of a memory overflow. -/
def first_pass_report_overflow (st : FirstPassState) : FirstPassState :=
  if st.memory_overflown then
    { st with
      errors := st.errors ++ [ERROR_TYPE_MEMORY_OVERFLOWN st.mem_overflow_line_num
        (to_int32 ((st.IC + st.data_image.length) % 2 ^ 32)) (to_int32 MAX_ADDRESS)],
      encountered_error := true }
  else st

/-- The end of `first_pass`: the final `IC` is added to every data symbol. -/
def first_pass_finalize (IC : Nat) (symbol_table : SymbolTable) : SymbolTable :=
  symbol_table.map (fun symbol =>
    if symbol.context = SYMBOL_CONTEXT_DATA then { symbol with addr := (symbol.addr + IC) % 2 ^ 32 }
    else symbol)

/-- The state in which `first_pass` returns. -/
def first_pass_state (lines : List ParseLineData) : FirstPassState :=
  let st := first_pass_loop lines
  if st.alloc_fail then st
  else
    let st := first_pass_report_overflow st
    { st with symbol_table := first_pass_finalize st.IC st.symbol_table }

/-- The function `first_pass`. -/
def first_pass (lines : List ParseLineData) : FirstPassResult :=
  let st := first_pass_state lines
  { encountered_error := st.encountered_error, alloc_fail := st.alloc_fail,
    symbol_table := st.symbol_table, data_image := st.data_image }

/-! ## Second pass (`second_pass.h`, `second_pass.c`) -/

/-- The result of the second pass. -/
structure SecondPassResult where
  instruction_image : List Nat
  data_image : List Nat
  entry_symbols : List Symbol
  external_symbols : List Symbol
  symbol_table : SymbolTable
  encountered_error : Bool
  alloc_fail : Bool
  deriving DecidableEq, Repr

/-- The local variables of `second_pass` while it reads its input, together
with the errors delivered so far to `err_callback` (oldest first). -/
structure SecondPassState where
  IC : Nat
  line_num : Nat
  instruction_image : List Nat
  entry_symbols : List Symbol
  external_symbols : List Symbol
  encountered_error : Bool
  errors : List Error
  deriving DecidableEq, Repr

/-- The state of `second_pass` before the first line is read. -/
def second_pass_init : SecondPassState :=
  { IC := 100, line_num := 0, instruction_image := [], entry_symbols := [],
    external_symbols := [], encountered_error := false, errors := [] }

/-- The `value.symbol_name` member; read by the source only for the operand
types `OPERAND_SYMBOL` and `OPERAND_ADDRESS`. -/
def Operand.symbol_name : Operand → String
  | .symbol symbol_name => symbol_name
  | .address symbol_name => symbol_name
  | _ => ""

/-- The check that `second_pass` runs on an operand of an instruction before
the instruction is written: `is_present` is the test `operand_amount >= 1`
(or `>= 2`) and `addr` the address `IC + 1` (or `IC + 2`) stored in the copy
of an external symbol. The result is the new state and whether the operand
is an undefined symbol. -/
def second_pass_operand (symbol_table : SymbolTable) (is_present : Bool) (operand : Operand)
    (addr : Nat) (st : SecondPassState) : SecondPassState × Bool :=
  if is_present ∧ (operand.type = OPERAND_SYMBOL ∨ operand.type = OPERAND_ADDRESS) then
    match symbol_table_search symbol_table operand.symbol_name with
    | none =>
      ({ st with
         errors := st.errors ++ [ERROR_TYPE_SYMBOL_NOT_DEFINED st.line_num operand.symbol_name] },
        true)
    | some symbol =>
      if symbol.context = SYMBOL_CONTEXT_EXTERNAL then
        ({ st with external_symbols := st.external_symbols ++ [{ symbol with addr := addr }] },
          false)
      else (st, false)
  else (st, false)

/-- One iteration of the loop of `second_pass`. The loop that looks for an
entry symbol already in `entry_symbols` has an empty effect (its body is a
`continue`), so the symbol is pushed in every case. -/
def second_pass_line (symbol_table : SymbolTable) (st : SecondPassState) (line : ParseLineData) :
    Option SecondPassState :=
  let st := { st with line_num := st.line_num + 1 }
  match line.val with
  | PARSE_LINE_COMMENT => some st
  | PARSE_LINE_ERROR _ => some st
  | PARSE_LINE_DIRECTIVE directive =>
    match directive with
    | .entry entry_symbol =>
      match symbol_table_search symbol_table entry_symbol with
      | none =>
        some { st with errors := st.errors ++ [ERROR_TYPE_SYMBOL_NOT_DEFINED st.line_num entry_symbol],
                       encountered_error := true }
      | some symbol =>
        if symbol.context = SYMBOL_CONTEXT_EXTERNAL then
          some { st with
            errors := st.errors ++ [ERROR_TYPE_EXTERNAL_SYMBOL_USED_IN_ENTRY_DIRECTIVE st.line_num symbol],
            encountered_error := true }
        else some { st with entry_symbols := st.entry_symbols ++ [symbol] }
    | _ => some st
  | PARSE_LINE_INSTRUCTION instruction =>
    let first := second_pass_operand symbol_table (decide (instruction.operand_amount ≥ 1))
      instruction.operand1 ((st.IC + 1) % 2 ^ 32) st
    let second := second_pass_operand symbol_table (decide (instruction.operand_amount ≥ 2))
      instruction.operand2 ((st.IC + 2) % 2 ^ 32) first.1
    let st := second.1
    let instruction_has_invalid_operand := first.2 || second.2
    if instruction_has_invalid_operand then some { st with encountered_error := true }
    else
      match write_instruction instruction st.instruction_image symbol_table st.IC with
      | none => none
      | some written =>
        some { st with instruction_image := written.1, IC := (st.IC + written.2) % 2 ^ 32 }
  | PARSE_LINE_EMPTY => some st

/-- The loop of `second_pass` over the lines of the input. -/
def second_pass_loop (symbol_table : SymbolTable) (lines : List ParseLineData) :
    Option SecondPassState :=
  lines.foldlM (second_pass_line symbol_table) second_pass_init

/-- The function `second_pass`; `none` when the pass dereferences `NULL`. -/
def second_pass (lines : List ParseLineData) (first_pass_result : FirstPassResult) :
    Option SecondPassResult :=
  match second_pass_loop first_pass_result.symbol_table lines with
  | none => none
  | some st =>
    some { instruction_image := st.instruction_image, data_image := first_pass_result.data_image,
           entry_symbols := st.entry_symbols, external_symbols := st.external_symbols,
           symbol_table := first_pass_result.symbol_table,
           encountered_error := st.encountered_error, alloc_fail := false }

/-! ## Macro expansion (`macros.h`, `macros.c`)

The input file is the list of its characters and the output file the list
of the characters written to it. Allocations are taken to succeed, so
`alloc_fail` stays `FALSE`. -/

def MAX_MACRO_NAME_LENGTH : Nat := 31
def LABEL_END_CHAR : Char := ':'

/-- A macro of the table: its name and its body (`data`). -/
structure Macro where
  name : List Char
  data : List Char
  deriving DecidableEq, Repr

abbrev MacroTable := List Macro

/-- The function `macro_table_search`: the first macro of the table with the name. -/
def macro_table_search (table : MacroTable) (name : List Char) : Option Macro :=
  table.find? (fun entry => entry.name = name)

/-- The function `macro_table_insert`: a macro with the first
`MAX_MACRO_NAME_LENGTH` characters of the name and an empty body is pushed. -/
def macro_table_insert (table : MacroTable) (name : List Char) : MacroTable :=
  table ++ [{ name := name.take MAX_MACRO_NAME_LENGTH, data := [] }]

/-- The function `macro_table_write`: the data is appended to the body of
the first macro of the table with the name; without such a macro nothing is done. -/
def macro_table_write (table : MacroTable) (name : List Char) (data : List Char) : MacroTable :=
  match table with
  | [] => []
  | entry :: rest =>
    if entry.name = name then { entry with data := entry.data ++ data } :: rest
    else entry :: macro_table_write rest name data

/-- The function `has_invalid_characters`: `none` for `FALSE`, otherwise the
invalid character and its position. -/
def has_invalid_characters (mcro_name : List Char) : Option (Char × Nat) :=
  let valid := mcro_name.takeWhile (fun c => isalnum c || c = '_')
  match mcro_name.drop valid.length with
  | [] => none
  | invalid_char :: _ => some (invalid_char, valid.length + 1)

/-- The result of the macro expansion. -/
structure MacroExpansionResult where
  encountered_error : Bool
  alloc_fail : Bool
  deriving DecidableEq, Repr

/-- The local variables of `expand_macros` while it reads its input,
together with the rest of the input file, the output file and the errors
delivered so far to `err_callback` (oldest first). The array
`current_macro_name` is not initialised by the source; it is read only by
`macro_table_search` on a table that is not empty, when it has been written. -/
structure ExpandMacrosState where
  input : List Char
  line_num : Nat
  is_in_macro : Bool
  current_macro_name : List Char
  macro_table : MacroTable
  encountered_error : Bool
  out : List Char
  errors : List Error
  deriving DecidableEq, Repr

/-- The state of `expand_macros` before the first line is read. -/
def expand_macros_init (input : List Char) : ExpandMacrosState :=
  { input := input, line_num := 0, is_in_macro := false, current_macro_name := [],
    macro_table := [], encountered_error := false, out := [], errors := [] }

/-- The loop `while ((c = getc(in)) != '\n' && c != EOF)` that counts the
rest of a line that is too long: the number of characters counted and the
rest of the input after the newline. -/
def count_rest_of_line : List Char → Nat × List Char
  | [] => (0, [])
  | c :: input =>
    if c = '\n' then (0, input)
    else ((count_rest_of_line input).1 + 1, (count_rest_of_line input).2)

/-- The part of the first loop of `expand_macros` that handles a line which
starts with `mcro` outside a macro definition. -/
def expand_macros_definition (st : ExpandMacrosState) (line_ptr : List Char) :
    ExpandMacrosState :=
  let st := { st with is_in_macro := true }
  let mcro_name := trim_end (skip_space (line_ptr.drop 4))
  match mcro_name with
  | [] =>
    { st with errors := st.errors ++ [ERROR_TYPE_MACRO st.line_num EXPAND_MACRO_EXPECTED_MACRO_NAME] }
  | c :: _ =>
    if ¬ isalpha c ∧ c ≠ '_' then
      { st with
        errors := st.errors
          ++ [ERROR_TYPE_MACRO st.line_num (EXPAND_MACRO_ERROR_STARTS_WITH_INVALID_CHARACTER c)],
        encountered_error := true }
    else if is_an_instruction mcro_name then
      { st with
        errors := st.errors ++ [ERROR_TYPE_MACRO st.line_num EXPAND_MACRO_ERROR_IS_AN_INSTRUCTION],
        encountered_error := true }
    else if is_a_directive mcro_name then
      { st with
        errors := st.errors ++ [ERROR_TYPE_MACRO st.line_num EXPAND_MACRO_ERROR_IS_A_DIRECTIVE],
        encountered_error := true }
    else if is_a_register mcro_name then
      { st with
        errors := st.errors ++ [ERROR_TYPE_MACRO st.line_num EXPAND_MACRO_ERROR_IS_A_REGISTER],
        encountered_error := true }
    else if mcro_name.length > MAX_MACRO_NAME_LENGTH then
      { st with
        errors := st.errors
          ++ [ERROR_TYPE_MACRO st.line_num
                (EXPAND_MACRO_ERROR_NAME_IS_TOO_LONG mcro_name.length MAX_MACRO_NAME_LENGTH)],
        encountered_error := true }
    else
      match has_invalid_characters mcro_name with
      | some (invalid_character, invalid_character_pos) =>
        { st with
          errors := st.errors
            ++ [ERROR_TYPE_MACRO st.line_num
                  (EXPAND_MACRO_ERROR_INVALID_CHARACTER invalid_character invalid_character_pos)],
          encountered_error := true }
      | none =>
        let current_macro_name := mcro_name.take MAX_MACRO_NAME_LENGTH
        { st with
          current_macro_name := current_macro_name,
          macro_table := macro_table_insert st.macro_table current_macro_name }

/-- One iteration of the first loop of `expand_macros`, on the string `line`
that `fgets` has left in the buffer of `MAX_LINE_LENGTH + 2` bytes; the
field `input` of the state is the input after the characters read. -/
def expand_macros_line (st : ExpandMacrosState) (line : List Char) : ExpandMacrosState :=
  let st := { st with line_num := st.line_num + 1 }
  if line.length = MAX_LINE_LENGTH + 2 - 1
      ∧ buffer_char line (MAX_LINE_LENGTH + 2 - 1) ≠ '\n' then
    let counted := count_rest_of_line st.input
    { st with
      input := counted.2,
      errors := st.errors
        ++ [ERROR_TYPE_MACRO st.line_num
              (EXPAND_MACRO_ERROR_LINE_TOO_LONG (MAX_LINE_LENGTH + 2 - 1 + counted.1)
                MAX_LINE_LENGTH)],
      encountered_error := true }
  else
    let line_ptr := skip_space line
    if st.is_in_macro then
      if strncmp_eq line_ptr "mcroend".toList 7 ∧ skip_space (line_ptr.drop 7) = [] then
        { st with is_in_macro := false }
      else
        { st with macro_table := macro_table_write st.macro_table st.current_macro_name line }
    else if strncmp_eq line_ptr "mcro".toList 4 then
      expand_macros_definition st line_ptr
    else
      match macro_table_search st.macro_table (trim_end line_ptr) with
      | some found => { st with out := st.out ++ found.data }
      | none => { st with out := st.out ++ line }

/-- The first loop of `expand_macros`; `fuel` bounds the number of lines
read, each of which has at least one character. The functions of
`string.h` and `fwrite` see the string in the buffer, which ends at the
first NUL that `fgets` has read. -/
def expand_macros_loop : Nat → ExpandMacrosState → ExpandMacrosState
  | 0, st => st
  | fuel + 1, st =>
    match fgets (MAX_LINE_LENGTH + 2) st.input with
    | none => st
    | some (line, input) =>
      expand_macros_loop fuel (expand_macros_line { st with input := input } (c_string line))

/-- One iteration of the second loop of `expand_macros`: the text before the
first `LABEL_END_CHAR` of the line is looked up in the macro table. -/
def expand_macros_label_line (st : ExpandMacrosState) (line : List Char) : ExpandMacrosState :=
  let st := { st with line_num := st.line_num + 1 }
  let line_ptr := (skip_space line).dropWhile (fun c => c ≠ LABEL_END_CHAR)
  match line_ptr with
  | [] => st
  | _ =>
    let label := (skip_space line).takeWhile (fun c => c ≠ LABEL_END_CHAR)
    match macro_table_search st.macro_table label with
    | some found =>
      { st with
        errors := st.errors
          ++ [ERROR_TYPE_MACRO st.line_num (EXPAND_MACRO_ERROR_MACRO_DEFINED_AS_LABEL found.name)],
        encountered_error := true }
    | none => st

/-- The second loop of `expand_macros`, over the input from its start. -/
def expand_macros_label_loop : Nat → ExpandMacrosState → ExpandMacrosState
  | 0, st => st
  | fuel + 1, st =>
    match fgets (MAX_LINE_LENGTH + 2) st.input with
    | none => st
    | some (line, input) =>
      expand_macros_label_loop fuel
        (expand_macros_label_line { st with input := input } (c_string line))

/-- The state in which `expand_macros` returns. -/
def expand_macros_state (input : List Char) : ExpandMacrosState :=
  let st := expand_macros_loop (input.length + 1) (expand_macros_init input)
  expand_macros_label_loop (input.length + 1) { st with line_num := 0, input := input }

/-- The function `expand_macros`. -/
def expand_macros (input : List Char) : MacroExpansionResult :=
  { encountered_error := (expand_macros_state input).encountered_error, alloc_fail := false }

/-! ## Word counts of a source -/

/-- Number of instruction words of a line: the word count of its instruction. -/
def line_instruction_words (line : ParseLineData) : Nat :=
  match line.val with
  | PARSE_LINE_INSTRUCTION instruction => instruction_encoding_word_count instruction
  | _ => 0

/-- The data words of a line: what its `.data` or `.string` directive pushes. -/
def line_data (line : ParseLineData) : List Nat :=
  match line.val with
  | PARSE_LINE_DIRECTIVE directive => (handle_data_and_string_directive directive []).1
  | _ => []

/-- Number of instruction words of the instruction lines of a source. -/
def instruction_words (lines : List ParseLineData) : Nat :=
  (lines.map line_instruction_words).sum

/-- Number of data words of the `.data` and `.string` lines of a source. -/
def data_words (lines : List ParseLineData) : Nat :=
  (lines.map (fun line => (line_data line).length)).sum

/-- The data words of a source: the data of its lines, in source order. -/
def source_data (lines : List ParseLineData) : List Nat :=
  (lines.map line_data).flatten

/-- What `first_pass` records for a symbol that it inserts while it reads
`line`, the line number `line_num` of the source, with the counters `IC` and
`DC` that the lines before it have produced: the line number, and for a code
label the `IC`, for a data label the `DC`, for an external symbol the
address 0. -/
def symbol_defined_at (IC DC line_num : Nat) (line : ParseLineData) (symbol : Symbol) : Prop :=
  symbol.line = line_num ∧
  match symbol.context with
  | SYMBOL_CONTEXT_CODE =>
    line.parse_label_data = HAS_SYMBOL symbol.name
      ∧ (∃ instruction, line.val = PARSE_LINE_INSTRUCTION instruction)
      ∧ symbol.addr = IC
  | SYMBOL_CONTEXT_DATA =>
    line.parse_label_data = HAS_SYMBOL symbol.name
      ∧ (∃ directive, line.val = PARSE_LINE_DIRECTIVE directive
          ∧ (directive.type = DIRECTIVE_DATA ∨ directive.type = DIRECTIVE_STRING))
      ∧ symbol.addr = DC
  | SYMBOL_CONTEXT_EXTERNAL =>
    line.val = PARSE_LINE_DIRECTIVE (.external symbol.name) ∧ symbol.addr = 0

/-! ## Definitions that follow the words of the specification -/

/-- The register field of an operand in the head word of the specification:
the register number for a register operand, 0 for every other operand. -/
def spec_register_field : Operand → Nat
  | .register register_num => register_num
  | _ => 0

/-- The fields (source mode, source register, destination mode, destination
register) of the head word of the specification. -/
def spec_head_fields (instruction : Instruction) : Nat × Nat × Nat × Nat :=
  if instruction.operand_amount = 2 then
    (instruction.operand1.type.toNat, spec_register_field instruction.operand1,
     instruction.operand2.type.toNat, spec_register_field instruction.operand2)
  else if instruction.operand_amount = 1 then
    (0, 0, instruction.operand1.type.toNat, spec_register_field instruction.operand1)
  else (0, 0, 0, 0)

/-- The table of opcodes and functs of the specification. -/
def spec_instruction_table :
    InstructionType → Nat × Nat × Nat × List OperandType × List OperandType
  | INSTRUCTION_MOV => (0, 0, 2, [OPERAND_IMMEDIATE, OPERAND_SYMBOL, OPERAND_REGISTER], [OPERAND_SYMBOL, OPERAND_REGISTER])
  | INSTRUCTION_CMP => (1, 0, 2, [OPERAND_IMMEDIATE, OPERAND_SYMBOL, OPERAND_REGISTER], [OPERAND_IMMEDIATE, OPERAND_SYMBOL, OPERAND_REGISTER])
  | INSTRUCTION_ADD => (2, 1, 2, [OPERAND_IMMEDIATE, OPERAND_SYMBOL, OPERAND_REGISTER], [OPERAND_SYMBOL, OPERAND_REGISTER])
  | INSTRUCTION_SUB => (2, 2, 2, [OPERAND_IMMEDIATE, OPERAND_SYMBOL, OPERAND_REGISTER], [OPERAND_SYMBOL, OPERAND_REGISTER])
  | INSTRUCTION_LEA => (4, 0, 2, [OPERAND_SYMBOL], [OPERAND_SYMBOL, OPERAND_REGISTER])
  | INSTRUCTION_CLR => (5, 1, 1, [], [OPERAND_SYMBOL, OPERAND_REGISTER])
  | INSTRUCTION_NOT => (5, 2, 1, [], [OPERAND_SYMBOL, OPERAND_REGISTER])
  | INSTRUCTION_INC => (5, 3, 1, [], [OPERAND_SYMBOL, OPERAND_REGISTER])
  | INSTRUCTION_DEC => (5, 4, 1, [], [OPERAND_SYMBOL, OPERAND_REGISTER])
  | INSTRUCTION_JMP => (9, 1, 1, [], [OPERAND_SYMBOL, OPERAND_ADDRESS])
  | INSTRUCTION_BNE => (9, 2, 1, [], [OPERAND_SYMBOL, OPERAND_ADDRESS])
  | INSTRUCTION_JSR => (9, 3, 1, [], [OPERAND_SYMBOL, OPERAND_ADDRESS])
  | INSTRUCTION_RED => (12, 0, 1, [], [OPERAND_SYMBOL, OPERAND_REGISTER])
  | INSTRUCTION_PRN => (13, 0, 1, [], [OPERAND_IMMEDIATE, OPERAND_SYMBOL, OPERAND_REGISTER])
  | INSTRUCTION_RTS => (14, 0, 0, [], [])
  | INSTRUCTION_STOP => (15, 0, 0, [], [])

/-- An operand is defined in a symbol table when it is not a symbol or an
address, or when its name is found in the table. -/
def operand_defined (symbol_table : SymbolTable) (operand : Operand) : Bool :=
  match operand with
  | .symbol symbol_name => (symbol_table_search symbol_table symbol_name).isSome
  | .address symbol_name => (symbol_table_search symbol_table symbol_name).isSome
  | _ => true

/-! ## Example sources -/

/-- The parsed lines of `MAIN: mov #3, r1`, `LST: .data 7, -3, 2097151`, `stop`. -/
def example_source : List ParseLineData :=
  [ ⟨HAS_SYMBOL "MAIN", PARSE_LINE_INSTRUCTION ⟨INSTRUCTION_MOV, 2, .immediate 3, .register 1⟩⟩,
    ⟨HAS_SYMBOL "LST", PARSE_LINE_DIRECTIVE (.data [7, -3, 2097151])⟩,
    ⟨DOES_NOT_HAVE_SYMBOL,
      PARSE_LINE_INSTRUCTION ⟨INSTRUCTION_STOP, 0, .immediate 0, .immediate 0⟩⟩ ]

/-- The symbol that `first_pass` returns for `MAIN` in `example_source`. -/
def example_code_symbol : Symbol :=
  { addr := 100, context := SYMBOL_CONTEXT_CODE, name := "MAIN", line := 1 }

/-- The symbol that `first_pass` returns for `LST` in `example_source`. -/
def example_data_symbol : Symbol :=
  { addr := 103, context := SYMBOL_CONTEXT_DATA, name := "LST", line := 2 }

/-- The parsed lines of `.extern EXT`, `add r1, EXT`: an external symbol as
the second operand after a register. -/
def external_second_operand_source : List ParseLineData :=
  [ ⟨DOES_NOT_HAVE_SYMBOL, PARSE_LINE_DIRECTIVE (.external "EXT")⟩,
    ⟨DOES_NOT_HAVE_SYMBOL,
      PARSE_LINE_INSTRUCTION ⟨INSTRUCTION_ADD, 2, .register 1, .symbol "EXT"⟩⟩ ]

/-! ## Invariants of the passes -/

/-- A line attempts to define `name`: it carries the label `name` before an
instruction or before a `.data` or `.string` directive, or it is `.extern name`. -/
def line_defines (line : ParseLineData) (name : String) : Prop :=
  (line.parse_label_data = HAS_SYMBOL name
      ∧ ((∃ instruction, line.val = PARSE_LINE_INSTRUCTION instruction)
        ∨ ∃ directive, line.val = PARSE_LINE_DIRECTIVE directive
            ∧ (directive.type = DIRECTIVE_DATA ∨ directive.type = DIRECTIVE_STRING)))
    ∨ line.val = PARSE_LINE_DIRECTIVE (.external name)

/-- The invariant of the loop of `first_pass`: the names of the table are
distinct, an external symbol has the address 0, `DC` is the `len` field of
the data image, a delivered error or a failed allocation has set
`encountered_error`, and the counters are 32-bit values. -/
def first_pass_invariant (st : FirstPassState) : Prop :=
  (st.symbol_table.map Symbol.name).Nodup
    ∧ (∀ symbol ∈ st.symbol_table, symbol.context = SYMBOL_CONTEXT_EXTERNAL → symbol.addr = 0)
    ∧ st.DC = st.data_image.length % 2 ^ 32
    ∧ (st.errors ≠ [] → st.encountered_error = true)
    ∧ (st.alloc_fail = true → st.encountered_error = true)
    ∧ st.IC < 2 ^ 32

/-- The second state continues the first: `encountered_error` stays set and
the errors delivered so far are kept, in order. -/
def first_pass_continues (st next : FirstPassState) : Prop :=
  (st.encountered_error = true → next.encountered_error = true)
    ∧ ∃ more, next.errors = st.errors ++ more

/-! ## Sources with errors -/

/-- The parsed lines of `DUP: inc r1`, `DUP: dec r2`: a label defined twice. -/
def duplicate_label_source : List ParseLineData :=
  [ ⟨HAS_SYMBOL "DUP", PARSE_LINE_INSTRUCTION ⟨INSTRUCTION_INC, 1, .register 1, .immediate 0⟩⟩,
    ⟨HAS_SYMBOL "DUP", PARSE_LINE_INSTRUCTION ⟨INSTRUCTION_DEC, 1, .register 2, .immediate 0⟩⟩ ]

/-- The symbol that `first_pass` inserts for the first `DUP` of `duplicate_label_source`. -/
def duplicate_label_symbol : Symbol :=
  { addr := 100, context := SYMBOL_CONTEXT_CODE, name := "DUP", line := 1 }

/-- The element `reference` of the external reference list is a copy of an
entry of the table with context `SYMBOL_CONTEXT_EXTERNAL`, found under its
name, in which only the address has been replaced. -/
def external_reference_of (symbol_table : SymbolTable) (reference : Symbol) : Prop :=
  ∃ symbol, symbol_table_search symbol_table reference.name = some symbol
    ∧ symbol.context = SYMBOL_CONTEXT_EXTERNAL
    ∧ reference = { symbol with addr := reference.addr }

/-- The invariant of the loop of `second_pass`: every external reference is
the copy of an external symbol of the table, every entry symbol is an entry
of the table that is not external, a delivered error has set
`encountered_error`, and `line_num` counts the lines read. -/
def second_pass_invariant (symbol_table : SymbolTable) (read : Nat) (st : SecondPassState) :
    Prop :=
  (∀ reference ∈ st.external_symbols, external_reference_of symbol_table reference)
    ∧ (∀ symbol ∈ st.entry_symbols,
        symbol_table_search symbol_table symbol.name = some symbol
          ∧ symbol.context ≠ SYMBOL_CONTEXT_EXTERNAL)
    ∧ (st.errors ≠ [] → st.encountered_error = true)
    ∧ st.line_num = read

/-- The parsed lines of `.extern E`, `.entry E`. -/
def external_entry_source : List ParseLineData :=
  [ ⟨DOES_NOT_HAVE_SYMBOL, PARSE_LINE_DIRECTIVE (.external "E")⟩,
    ⟨DOES_NOT_HAVE_SYMBOL, PARSE_LINE_DIRECTIVE (.entry "E")⟩ ]

/-- The symbol that `first_pass` inserts for `E` in `external_entry_source`. -/
def external_entry_symbol : Symbol :=
  { addr := 0, context := SYMBOL_CONTEXT_EXTERNAL, name := "E", line := 1 }

/-- The parsed lines of `X: stop`, `.entry X`, `.entry X`. -/
def duplicate_entry_source : List ParseLineData :=
  [ ⟨HAS_SYMBOL "X", PARSE_LINE_INSTRUCTION ⟨INSTRUCTION_STOP, 0, .immediate 0, .immediate 0⟩⟩,
    ⟨DOES_NOT_HAVE_SYMBOL, PARSE_LINE_DIRECTIVE (.entry "X")⟩,
    ⟨DOES_NOT_HAVE_SYMBOL, PARSE_LINE_DIRECTIVE (.entry "X")⟩ ]

/-- The symbol that `first_pass` returns for `X` in `duplicate_entry_source`. -/
def duplicate_entry_symbol : Symbol :=
  { addr := 100, context := SYMBOL_CONTEXT_CODE, name := "X", line := 1 }

/-! ## Words of the specification about the parser -/

/-- The names of the instructions. -/
def spec_instruction_names : List (List Char) :=
  ["mov", "cmp", "add", "sub", "lea", "clr", "not", "inc", "dec", "jmp", "bne", "jsr", "red",
    "prn", "rts", "stop"].map String.toList

/-- The names of the directives, with and without their `.`. -/
def spec_directive_names : List (List Char) :=
  [".data", ".string", ".entry", ".extern", "data", "string", "entry", "extern"].map String.toList

/-- The names of the registers. -/
def spec_register_names : List (List Char) :=
  ["r0", "r1", "r2", "r3", "r4", "r5", "r6", "r7"].map String.toList

/-- A name matches the identifier grammar `[A-Za-z][A-Za-z0-9]{0,30}`: a
letter, followed by at most 30 letters and digits. -/
def spec_identifier (name : List Char) : Bool :=
  match name with
  | [] => false
  | c :: rest =>
    (('A' ≤ c ∧ c ≤ 'Z') ∨ ('a' ≤ c ∧ c ≤ 'z'))
      && rest.all (fun d => ('A' ≤ d ∧ d ≤ 'Z') ∨ ('a' ≤ d ∧ d ≤ 'z') ∨ ('0' ≤ d ∧ d ≤ '9'))
      && decide (rest.length ≤ 30)

/-- An operand is well formed: an immediate value lies in
[-2097152, 2097151], a register number in [0, 7], and the name of a symbol
or of an address matches the identifier grammar. -/
def spec_operand_well_formed (operand : Operand) : Bool :=
  match operand with
  | .immediate immediate => decide (-2097152 ≤ immediate) && decide (immediate ≤ 2097151)
  | .register register_num => decide (register_num ≤ 7)
  | .symbol symbol_name => spec_identifier symbol_name.toList
  | .address symbol_name => spec_identifier symbol_name.toList

/-- An instruction is well formed: `operand_amount` is the arity of its
type; the operand of a 1-operand instruction has a type acceptable as
destination; of a 2-operand instruction the first operand has a type
acceptable as source and the second a type acceptable as destination; and
the operands that are present are well formed. -/
def spec_instruction_well_formed (instruction : Instruction) : Bool :=
  decide (instruction.operand_amount = instruction_operand_amount instruction.type)
    && (decide (instruction.operand_amount ≠ 1)
      || (decide (instruction.operand1.type ∈ acceptable_dest_operands instruction.type)
        && spec_operand_well_formed instruction.operand1))
    && (decide (instruction.operand_amount ≠ 2)
      || (decide (instruction.operand1.type ∈ acceptable_src_operands instruction.type)
        && decide (instruction.operand2.type ∈ acceptable_dest_operands instruction.type)
        && spec_operand_well_formed instruction.operand1
        && spec_operand_well_formed instruction.operand2))

/-- The text `str` is the name of the instruction `instruction_type`
followed by white space or by the end of the line, and `operands` is the
text after that white space. -/
def instruction_text (str : List Char) (instruction_type : InstructionType)
    (operands : List Char) : Prop :=
  str_to_instruction_type str = some instruction_type
    ∧ (str.drop (instruction_name_len instruction_type) = []
      ∨ starts_with_space (str.drop (instruction_name_len instruction_type)) = true)
    ∧ operands = skip_space (str.drop (instruction_name_len instruction_type))

/-- The text `str` starts with a syntactically valid operand:
`parse_operand` succeeds on it with `operand`, and `after` is the text after
the operand and the white space that follows it. -/
def operand_text (str : List Char) (operand : Operand) (after : List Char) : Prop :=
  ∃ operand_len, parse_operand str = some (.parsed (operand, operand_len))
    ∧ after = skip_space (str.drop operand_len)

/-- The value of a run of decimal digits. -/
def spec_digits_value (digits : List Char) : Int :=
  digits.foldl (fun value c => value * 10 + ((c.toNat : Int) - 48)) 0

/-- The value of an integer of the specification: an optional `-`, then at
least one decimal digit, and nothing else. -/
def spec_integer (text : List Char) : Option Int :=
  match text with
  | '-' :: digits =>
    if digits ≠ [] ∧ digits.all isdigit then some (-spec_digits_value digits) else none
  | digits =>
    if digits ≠ [] ∧ digits.all isdigit then some (spec_digits_value digits) else none

/-- A name that the specification accepts for a symbol: it matches the
identifier grammar and is not the name of an instruction, of a directive or
of a register. -/
def spec_symbol_name (name : List Char) : Bool :=
  spec_identifier name && decide (name ∉ spec_instruction_names)
    && decide (name ∉ spec_directive_names) && decide (name ∉ spec_register_names)

/-- The operand that a text is by the operand grammar of the specification:
`#integer` with a value in [-2097152, 2097151], one of `r0` to `r7`,
`&identifier`, or `identifier`. -/
def spec_operand (text : List Char) : Option Operand :=
  match text with
  | '#' :: literal =>
    match spec_integer literal with
    | some value =>
      if -2097152 ≤ value ∧ value ≤ 2097151 then some (.immediate value) else none
    | none => none
  | '&' :: name => if spec_symbol_name name then some (.address (String.mk name)) else none
  | _ =>
    if text ∈ spec_register_names then some (.register ((text.getD 1 '0').toNat - 48))
    else if spec_symbol_name text then some (.symbol (String.mk text))
    else none

/-- The name starts with `r` and a digit. -/
def starts_like_register (name : List Char) : Bool :=
  match name with
  | 'r' :: d :: _ => isdigit d
  | _ => false

/-- The name is `r` followed by digits only. -/
def register_with_digits (name : List Char) : Bool :=
  match name with
  | 'r' :: d :: digits => (d :: digits).all isdigit
  | _ => false

/-- The texts of operands on which the integer parser and the register
tests of the parser go wrong: an immediate written with ten or more digits
(the test of `parse_int32_base10` on ten digits is digit-wise, and more
digits are always rejected), an address whose name is `r` followed by digits
only (`is_a_register` reads a whole integer after the `r`), and a symbol
that starts with `r` and a digit (the register branch of `parse_operand`
reads the integer and does not look at what follows it). -/
def operand_in_defect (text : List Char) : Bool :=
  match text with
  | '#' :: literal => decide (10 ≤ (literal.filter isdigit).length)
  | '&' :: name => register_with_digits name
  | _ => starts_like_register text && decide (text ∉ spec_register_names)

/-- The name of an instruction in the table of the specification. -/
def spec_instruction_name : InstructionType → List Char
  | INSTRUCTION_MOV => "mov".toList
  | INSTRUCTION_CMP => "cmp".toList
  | INSTRUCTION_ADD => "add".toList
  | INSTRUCTION_SUB => "sub".toList
  | INSTRUCTION_LEA => "lea".toList
  | INSTRUCTION_CLR => "clr".toList
  | INSTRUCTION_NOT => "not".toList
  | INSTRUCTION_INC => "inc".toList
  | INSTRUCTION_DEC => "dec".toList
  | INSTRUCTION_JMP => "jmp".toList
  | INSTRUCTION_BNE => "bne".toList
  | INSTRUCTION_JSR => "jsr".toList
  | INSTRUCTION_RED => "red".toList
  | INSTRUCTION_PRN => "prn".toList
  | INSTRUCTION_RTS => "rts".toList
  | INSTRUCTION_STOP => "stop".toList

/-- The text `str` starts with an operand of the specification, `operand`,
that is outside the defects of the parser; white space may follow it, and
`after` is the text after that, empty or starting with a `,`. -/
def spec_operand_text (str : List Char) (operand : Operand) (after : List Char) : Prop :=
  ∃ text spaces, str = text ++ spaces ++ after ∧ spec_operand text = some operand
    ∧ operand_in_defect text = false ∧ (∀ c ∈ spaces, isspace c = true)
    ∧ (after = [] ∨ after.head? = some ',')

/-- The input file with the lines `MAIN: mov #3, r1` and `.extern EXT`. -/
def example_input : List Char := "MAIN: mov #3, r1\n.extern EXT\n".toList

/-! ## Sources for the macro expansion -/

/-- A comment line of exactly 80 characters, without its newline. -/
def comment_of_80 : List Char :=
  "; ------------------------------------------------------------------------------".toList

/-- A comment line of exactly 81 characters, without its newline. -/
def comment_of_81 : List Char := comment_of_80 ++ ['-']

/-! ## Words of the specification about the macro expansion -/

/-- A name matches the grammar of macro names: it is not empty, has at most
31 characters, starts with a letter or `_` and consists of letters, digits
and `_`. -/
def spec_macro_name (name : List Char) : Bool :=
  match name with
  | [] => false
  | c :: rest =>
    (('A' ≤ c ∧ c ≤ 'Z') ∨ ('a' ≤ c ∧ c ≤ 'z') ∨ c = '_')
      && rest.all (fun d =>
        ('A' ≤ d ∧ d ≤ 'Z') ∨ ('a' ≤ d ∧ d ≤ 'z') ∨ ('0' ≤ d ∧ d ≤ '9') ∨ d = '_')
      && decide (name.length ≤ 31)

/-- What the checks of `expand_macros` establish for a name before it is
inserted into the macro table. -/
def macro_name_checked (name : List Char) : Prop :=
  (∃ c rest, name = c :: rest ∧ (isalpha c = true ∨ c = '_'))
    ∧ (∀ c ∈ name, isalnum c = true ∨ c = '_')
    ∧ name.length ≤ MAX_MACRO_NAME_LENGTH
    ∧ is_an_instruction name = false ∧ is_a_directive name = false
    ∧ is_a_register name = false

/-- The lines of a text: each line ends with its newline, except the last
one when the text does not end with a newline. -/
def text_lines : List Char → List (List Char)
  | [] => []
  | c :: input =>
    if c = '\n' then [c] :: text_lines input
    else
      match text_lines input with
      | [] => [[c]]
      | line :: lines => (c :: line) :: lines

/-- The number of characters of a line, its newline excluded. -/
def line_length (line : List Char) : Nat := (line.takeWhile (fun c => c ≠ '\n')).length

/-- The label of a line that contains `:`: the text before its first `:`,
leading white space skipped. -/
def spec_label (line : List Char) : Option (List Char) :=
  if ':' ∈ line then some ((skip_space line).takeWhile (fun c => c ≠ ':')) else none

/-- The macro table that `expand_macros` has built when its first loop has
read the input to its end. -/
def expand_macros_table (input : List Char) : MacroTable :=
  (expand_macros_loop (input.length + 1) (expand_macros_init input)).macro_table

/-- The error is `MACRO_DEFINED_AS_LABEL`. -/
def is_macro_defined_as_label (error : Error) : Bool :=
  match error with
  | ERROR_TYPE_MACRO _ (EXPAND_MACRO_ERROR_MACRO_DEFINED_AS_LABEL _) => true
  | _ => false

/-- The errors `MACRO_DEFINED_AS_LABEL` for the lines `lines`, the first of
which has the number `line_num + 1`: one for each line whose label is the
name of a macro of the table. -/
def label_errors (table : MacroTable) : Nat → List (List Char) → List Error
  | _, [] => []
  | line_num, line :: lines =>
    (match spec_label line with
      | none => []
      | some name =>
        if name ∈ table.map Macro.name then
          [ERROR_TYPE_MACRO (line_num + 1) (EXPAND_MACRO_ERROR_MACRO_DEFINED_AS_LABEL name)]
        else [])
      ++ label_errors table (line_num + 1) lines

/-- The line begins with the letters `mcro` after its leading white space:
the test by which `expand_macros` takes a line, outside a macro body, for
the start of a macro definition. -/
def begins_with_mcro (line : List Char) : Bool := strncmp_eq (skip_space line) "mcro".toList 4

/-- No line of the body of a macro of the table begins with `mcro`. -/
def no_mcro_in_bodies (table : MacroTable) : Prop :=
  ∀ entry ∈ table, ∀ line ∈ text_lines entry.data, begins_with_mcro line = false

/-- A name that the specification accepts for a macro: it matches the
grammar of macro names and is not the name of an instruction, of a directive
or of a register. -/
def spec_macro_name_valid (name : List Char) : Bool :=
  spec_macro_name name && decide (name ∉ spec_instruction_names)
    && decide (name ∉ spec_directive_names) && decide (name ∉ spec_register_names)

/-- The state of the macro expander of the specification: whether it is in
the body of a macro (`IN_BODY`, otherwise `NORMAL`), the name of the macro
whose body is stored (none after a definition that failed), the macros
defined so far and the output. -/
structure SpecMacroState where
  in_body : Bool
  body_of : Option (List Char)
  table : MacroTable
  out : List Char
  deriving DecidableEq, Repr

/-- The name of a trimmed line `mcro <name>`: the line is the word `mcro`,
alone or followed by white space and the name. -/
def spec_mcro_line (trimmed : List Char) : Option (List Char) :=
  if trimmed.take 4 = "mcro".toList
      ∧ (trimmed.drop 4 = [] ∨ starts_with_space (trimmed.drop 4) = true) then
    some (skip_space (trimmed.drop 4))
  else none

/-- One line in the state machine of the specification. In `NORMAL`: a
trimmed line `mcro <name>` enters `IN_BODY`, with an empty macro inserted
when the name is valid; a trimmed line that is the name of a macro puts its
body into the output; any other line is copied. In `IN_BODY`: the trimmed
line `mcroend` returns to `NORMAL`; any other line is appended raw to the
body of the macro. -/
def spec_macro_line (st : SpecMacroState) (line : List Char) : SpecMacroState :=
  let trimmed := trim_end (skip_space line)
  if st.in_body then
    if trimmed = "mcroend".toList then { st with in_body := false, body_of := none }
    else
      match st.body_of with
      | none => st
      | some name =>
        { st with
          table := st.table.map (fun entry =>
            if entry.name = name then { entry with data := entry.data ++ line } else entry) }
  else
    match spec_mcro_line trimmed with
    | some name =>
      if spec_macro_name_valid name then
        { st with
          in_body := true, body_of := some name,
          table := st.table ++ [{ name := name, data := [] }] }
      else { st with in_body := true, body_of := none }
    | none =>
      match st.table.find? (fun entry => entry.name = trimmed) with
      | some found => { st with out := st.out ++ found.data }
      | none => { st with out := st.out ++ line }

/-- The state machine of the specification after the lines of an input. -/
def spec_expand (input : List Char) : SpecMacroState :=
  (text_lines input).foldl spec_macro_line
    { in_body := false, body_of := none, table := [], out := [] }

/-- The macros defined in an input, with their bodies, by the words of the
specification. -/
def spec_macros (input : List Char) : MacroTable := (spec_expand input).table

/-! ## Invariants of the macro expansion -/

/-- A line of at most 80 characters, its newline included, that ends with
its newline. -/
def closed_line (line : List Char) : Prop :=
  line.length ≤ MAX_LINE_LENGTH ∧ ∃ body, line = body ++ ['\n'] ∧ '\n' ∉ body

/-- A line of at most 80 characters without a newline, as `fgets` delivers
it at the end of a file. -/
def open_line (line : List Char) : Prop :=
  line ≠ [] ∧ line.length ≤ MAX_LINE_LENGTH ∧ '\n' ∉ line

/-- The text consists of closed lines with the property `P`, and, only when
the input is at its end, of one more open line with the property `P`. -/
def chunked (P : List Char → Prop) (text input : List Char) : Prop :=
  ∃ (lines : List (List Char)) (last : List Char), text = lines.flatten ++ last
    ∧ (∀ line ∈ lines, closed_line line ∧ P line)
    ∧ (last = [] ∨ (open_line last ∧ P last ∧ input = []))

/-- The bodies of the macros of the table consist of lines that
`expand_macros` has read whole. -/
def macro_bodies_chunked (st : ExpandMacrosState) : Prop :=
  ∀ entry ∈ st.macro_table, chunked (fun _ => True) entry.data st.input

/-- The output consists of lines that `expand_macros` has read whole, none
of which begins with `mcro` when no line of a macro body does. -/
def macro_out_chunked (st : ExpandMacrosState) : Prop :=
  no_mcro_in_bodies st.macro_table →
    chunked (fun line => begins_with_mcro line = false) st.out st.input

/-! # Theorems -/

/-! ## Head word of an instruction -/

theorem shiftLeft_or_eq_add (a b i : Nat) (h : b < 2 ^ i) : a <<< i ||| b = a * 2 ^ i + b := by
  rw [Nat.shiftLeft_eq, Nat.mul_comm, ← Nat.mul_add_lt_is_or h]

theorem head_word_or_eq_add (o sm sr dm dr f : Nat) (hsm : sm < 4) (hsr : sr < 8) (hdm : dm < 4)
    (hdr : dr < 8) (hf : f < 32) :
    o <<< 18 ||| (sm <<< 16 ||| (sr <<< 13 ||| (dm <<< 11 ||| (dr <<< 8 ||| (f <<< 3 ||| 4)))))
      = o * 2 ^ 18 + sm * 2 ^ 16 + sr * 2 ^ 13 + dm * 2 ^ 11 + dr * 2 ^ 8 + f * 2 ^ 3 + 4 := by
  rw [shiftLeft_or_eq_add f 4 3 (by omega), shiftLeft_or_eq_add dr _ 8 (by omega),
    shiftLeft_or_eq_add dm _ 11 (by omega), shiftLeft_or_eq_add sr _ 13 (by omega),
    shiftLeft_or_eq_add sm _ 16 (by omega), shiftLeft_or_eq_add o _ 18 (by omega)]
  omega

theorem head_word_code_order (o sm sr dm dr f : Nat) (ho : o < 64) (hsm : sm < 4) (hsr : sr < 8)
    (hdm : dm < 4) (hdr : dr < 8) (hf : f < 32) :
    (4 ||| f <<< 3 ||| dm <<< 11 ||| dr <<< 8 ||| sm <<< 16 ||| sr <<< 13 ||| o <<< 18) % 2 ^ 32
        = o * 2 ^ 18 + sm * 2 ^ 16 + sr * 2 ^ 13 + dm * 2 ^ 11 + dr * 2 ^ 8 + f * 2 ^ 3 + 4
      ∧ (4 ||| f <<< 3 ||| dm <<< 11 ||| dr <<< 8 ||| sm <<< 16 ||| sr <<< 13 ||| o <<< 18) % 2 ^ 32
        < 2 ^ 24 := by
  have c : 4 ||| f <<< 3 ||| dm <<< 11 ||| dr <<< 8 ||| sm <<< 16 ||| sr <<< 13 ||| o <<< 18
      = o <<< 18 ||| (sm <<< 16 ||| (sr <<< 13 ||| (dm <<< 11 ||| (dr <<< 8 ||| (f <<< 3 ||| 4))))) := by
    ac_rfl
  rw [c, head_word_or_eq_add o sm sr dm dr f hsm hsr hdm hdr hf]
  omega

theorem register_or_eq (operand : Operand) (out k : Nat) :
    (if operand.type = OPERAND_REGISTER then out ||| (operand.register_num <<< k) else out)
      = out ||| (spec_register_field operand <<< k) := by
  cases operand <;> simp [Operand.type, Operand.register_num, spec_register_field]

/-- C1: for an instruction whose operand amount is the arity of its type and
whose register numbers are at most 7, `encode_instruction` is the sum
`opcode * 2^18 + srcMode * 2^16 + srcReg * 2^13 + dstMode * 2^11 + dstReg * 2^8
+ funct * 2^3 + 4` of the fields of the specification, and is below `2^24`. -/
theorem encode_instruction_layout (instruction : Instruction)
    (harity : instruction.operand_amount = instruction_operand_amount instruction.type)
    (hreg1 : instruction.operand_amount ≥ 1 → instruction.operand1.register_num ≤ 7)
    (hreg2 : instruction.operand_amount ≥ 2 → instruction.operand2.register_num ≤ 7) :
    encode_instruction instruction =
        instruction_opcode instruction.type * 2 ^ 18
          + (spec_head_fields instruction).1 * 2 ^ 16
          + (spec_head_fields instruction).2.1 * 2 ^ 13
          + (spec_head_fields instruction).2.2.1 * 2 ^ 11
          + (spec_head_fields instruction).2.2.2 * 2 ^ 8
          + instruction_funct instruction.type * 2 ^ 3 + 4
      ∧ encode_instruction instruction < 2 ^ 24 := by
  have hm : ∀ operand : Operand, operand.type.toNat < 4 := by
    intro operand; cases operand <;> simp [Operand.type, OperandType.toNat]
  have hr : ∀ operand : Operand, operand.register_num ≤ 7 → spec_register_field operand < 8 := by
    intro operand h; cases operand <;> simp_all [Operand.register_num, spec_register_field]
    omega
  have hf : instruction_funct instruction.type < 32 := by
    cases instruction.type <;> simp [instruction_funct]
  have ho : instruction_opcode instruction.type < 64 := by
    cases instruction.type <;> simp [instruction_opcode]
  have ha : instruction.operand_amount = 0 ∨ instruction.operand_amount = 1
      ∨ instruction.operand_amount = 2 := by
    rw [harity]; cases instruction.type <;> simp [instruction_operand_amount]
  have h1 := hm instruction.operand1
  have h2 := hm instruction.operand2
  unfold encode_instruction
  simp only [register_or_eq, OPCODE_START_BIT, SRC_OPERAND_START_BIT, SRC_REGISTER_START_BIT,
    DEST_OPERAND_START_BIT, DEST_REGISTER_START_BIT, FUNCT_START_BIT, Nat.zero_or]
  rcases ha with ha | ha | ha
  · have e := head_word_code_order (instruction_opcode instruction.type) 0 0 0 0
      (instruction_funct instruction.type) ho (by omega) (by omega) (by omega) (by omega) hf
    simp only [Nat.zero_shiftLeft, Nat.or_zero] at e
    simp only [spec_head_fields, ha]
    simpa using e
  · have e := head_word_code_order (instruction_opcode instruction.type) 0 0
      instruction.operand1.type.toNat (spec_register_field instruction.operand1)
      (instruction_funct instruction.type) ho (by omega) (by omega) h1
      (hr _ (hreg1 (by omega))) hf
    simp only [Nat.zero_shiftLeft, Nat.or_zero] at e
    simp only [spec_head_fields, ha]
    simpa using e
  · have e := head_word_code_order (instruction_opcode instruction.type)
      instruction.operand1.type.toNat (spec_register_field instruction.operand1)
      instruction.operand2.type.toNat (spec_register_field instruction.operand2)
      (instruction_funct instruction.type) ho h1 (hr _ (hreg1 (by omega))) h2
      (hr _ (hreg2 (by omega))) hf
    simp only [spec_head_fields, ha]
    simpa using e

/-- Witness of C1 at `mov #3, r1`. -/
theorem encode_instruction_layout_witness :
    encode_instruction ⟨INSTRUCTION_MOV, 2, .immediate 3, .register 1⟩
        = 0 * 2 ^ 18 + 0 * 2 ^ 16 + 0 * 2 ^ 13 + 3 * 2 ^ 11 + 1 * 2 ^ 8 + 0 * 2 ^ 3 + 4
      ∧ encode_instruction ⟨INSTRUCTION_MOV, 2, .immediate 3, .register 1⟩ < 2 ^ 24 :=
  encode_instruction_layout ⟨INSTRUCTION_MOV, 2, .immediate 3, .register 1⟩ (by decide)
    (fun _ => by decide) (fun _ => by decide)

/-- C2: for each of the sixteen instruction types the opcode, funct, operand
amount, source-acceptable and destination-acceptable operand types returned
by the code are those of the table of the specification. -/
theorem instruction_tables_match_spec (type : InstructionType) :
    (instruction_opcode type, instruction_funct type, instruction_operand_amount type,
      acceptable_src_operands type, acceptable_dest_operands type) = spec_instruction_table type := by
  cases type <;> rfl

/-! ## Extra words of operands -/

theorem or_low_bits (x c : Nat) (hx : x % 8 = 0) (hc : c < 8) : x ||| c = x + c := by
  obtain ⟨q, rfl⟩ : ∃ q, x = 2 ^ 3 * q := ⟨x / 8, by omega⟩
  exact (Nat.mul_add_lt_is_or hc q).symm

theorem TO_24_BITS_eq_mod (x : Nat) : TO_24_BITS x = x % 2 ^ 24 := by
  unfold TO_24_BITS
  exact Nat.and_pow_two_sub_one_eq_mod x 24

theorem to_uint32_int_shl (y : Int) : to_uint32 (int_shl y 3) = (y * 8 % 2 ^ 32).toNat := by
  unfold int_shl to_int32 to_uint32
  split <;> omega

theorem shifted_word (y : Int) :
    TO_24_BITS (0 ||| to_uint32 (int_shl y 3) ||| 4) = (y % 2 ^ 21).toNat * 8 + 4 := by
  rw [Nat.zero_or, to_uint32_int_shl, or_low_bits _ 4 (by omega) (by omega), TO_24_BITS_eq_mod]
  omega

theorem shifted_word_ne_zero (y : Int) : 0 ||| to_uint32 (int_shl y 3) ||| 4 ≠ 0 := by
  rw [Nat.zero_or, to_uint32_int_shl, or_low_bits _ 4 (by omega) (by omega)]
  omega

theorem symbol_word (a c : Nat) (hc : c < 8) :
    0 ||| (a <<< 3) % 2 ^ 32 ||| c = (a * 8) % 2 ^ 32 + c := by
  rw [Nat.zero_or, Nat.shiftLeft_eq, or_low_bits _ c (by omega) hc]

/-- C3: for an immediate `v` in `[-2097152, 2097151]` the extra word of
`encode_operand`, truncated to 24 bits, is `((v mod 2^21) * 8) + 4`. -/
theorem encode_operand_immediate (v : Int) (_hmin : -2097152 ≤ v) (_hmax : v ≤ 2097151)
    (symbol_table : SymbolTable) (current_instruction_addr : Nat) :
    (encode_operand (.immediate v) symbol_table current_instruction_addr).map TO_24_BITS
      = some ((v % 2 ^ 21).toNat * 8 + 4) := by
  simp only [encode_operand, OPERAND_WORD_START_BIT, Option.map_some', shifted_word]

/-- Witness of C3 at the immediate `-3`. -/
theorem encode_operand_immediate_witness :
    (encode_operand (.immediate (-3)) [] 100).map TO_24_BITS
      = some (((-3 : Int) % 2 ^ 21).toNat * 8 + 4) :=
  encode_operand_immediate (-3) (by decide) (by decide) [] 100

/-- C4: for a SYMBOL operand whose name is in the symbol table with an
address `a < 2^21`, `encode_operand` returns `a * 8 + 2` when the context of
the symbol is CODE or DATA and `a * 8 + 1` when it is EXTERNAL. -/
theorem encode_operand_symbol (symbol_table : SymbolTable) (symbol_name : String)
    (symbol : Symbol) (current_instruction_addr : Nat)
    (hfound : symbol_table_search symbol_table symbol_name = some symbol)
    (haddr : symbol.addr < 2 ^ 21) :
    (symbol.context = SYMBOL_CONTEXT_CODE ∨ symbol.context = SYMBOL_CONTEXT_DATA →
        encode_operand (.symbol symbol_name) symbol_table current_instruction_addr
          = some (symbol.addr * 8 + 2))
      ∧ (symbol.context = SYMBOL_CONTEXT_EXTERNAL →
        encode_operand (.symbol symbol_name) symbol_table current_instruction_addr
          = some (symbol.addr * 8 + 1)) := by
  have hmod : symbol.addr * 8 % 2 ^ 32 = symbol.addr * 8 := by omega
  constructor
  · intro hctx
    have hne : symbol.context ≠ SYMBOL_CONTEXT_EXTERNAL := by
      rcases hctx with h | h <;> simp [h]
    simp only [encode_operand, hfound, OPERAND_WORD_START_BIT, if_neg hne,
      symbol_word _ 2 (by omega), hmod]
  · intro hctx
    simp only [encode_operand, hfound, OPERAND_WORD_START_BIT, if_pos hctx,
      symbol_word _ 1 (by omega), hmod]

/-- Witness of C4 at a table with a code symbol at address 100. -/
theorem encode_operand_symbol_witness :
    (SYMBOL_CONTEXT_CODE = SYMBOL_CONTEXT_CODE ∨ SYMBOL_CONTEXT_CODE = SYMBOL_CONTEXT_DATA →
        encode_operand (.symbol "MAIN") [⟨100, SYMBOL_CONTEXT_CODE, "MAIN", 1⟩] 100
          = some (100 * 8 + 2))
      ∧ (SYMBOL_CONTEXT_CODE = SYMBOL_CONTEXT_EXTERNAL →
        encode_operand (.symbol "MAIN") [⟨100, SYMBOL_CONTEXT_CODE, "MAIN", 1⟩] 100
          = some (100 * 8 + 1)) :=
  encode_operand_symbol [⟨100, SYMBOL_CONTEXT_CODE, "MAIN", 1⟩] "MAIN"
    ⟨100, SYMBOL_CONTEXT_CODE, "MAIN", 1⟩ 100 (by decide) (by decide)
/-! ## Words written for an instruction -/

/-- The extra word of an operand as `write_instruction` sees it: the value
of `encode_operand` when the operand is present, and no word otherwise. -/
theorem write_instruction_eq (instruction : Instruction) (instruction_image : List Nat)
    (symbol_table : SymbolTable) (IC : Nat) :
    write_instruction instruction instruction_image symbol_table IC =
      match (if instruction.operand_amount ≥ 1 then
               encode_operand instruction.operand1 symbol_table IC else some 0),
            (if instruction.operand_amount ≥ 2 then
               encode_operand instruction.operand2 symbol_table IC else some 0) with
      | some e1, some e2 =>
        some (instruction_image ++ [encode_instruction instruction]
                ++ (if e1 ≠ 0 then [e1] else []) ++ (if e2 ≠ 0 then [e2] else []),
              1 + (if e1 ≠ 0 then 1 else 0) + (if e2 ≠ 0 then 1 else 0))
      | _, _ => none := by
  unfold write_instruction
  by_cases h1 : instruction.operand_amount ≥ 1 <;> by_cases h2 : instruction.operand_amount ≥ 2 <;>
    simp only [h1, h2, if_true, if_false]
  · cases encode_operand instruction.operand1 symbol_table IC with
    | none => rfl
    | some e1 =>
      cases encode_operand instruction.operand2 symbol_table IC with
      | none => by_cases z1 : e1 = 0 <;> simp [z1]
      | some e2 => by_cases z1 : e1 = 0 <;> by_cases z2 : e2 = 0 <;> simp [z1, z2]
  · cases encode_operand instruction.operand1 symbol_table IC with
    | none => rfl
    | some e1 => by_cases z1 : e1 = 0 <;> simp [z1]
  · omega
  · simp

theorem encode_operand_address_eq (symbol_table : SymbolTable) (symbol_name : String)
    (symbol : Symbol) (h : Nat)
    (hfound : symbol_table_search symbol_table symbol_name = some symbol) :
    ∃ w, encode_operand (.address symbol_name) symbol_table h = some w ∧ w ≠ 0
      ∧ TO_24_BITS w = ((((symbol.addr : Int) - (h : Int)) % 2 ^ 21).toNat * 8 + 4) := by
  refine ⟨_, by simp only [encode_operand, hfound, OPERAND_WORD_START_BIT]; rfl,
    shifted_word_ne_zero _, ?_⟩
  rw [shifted_word]
  unfold to_int32 sub_uint32
  split <;> omega

/-- C5: for an ADDRESS operand whose symbol has address `a`, in an instruction
whose head word is at address `h`, the extra word truncated to 24 bits is
`(((a - h) mod 2^21) * 8) + 4`; `write_instruction` writes this word right
after the head word for a first operand and as the last word for a second
operand. -/
theorem encode_operand_address (symbol_table : SymbolTable) (symbol_name : String)
    (symbol : Symbol) (h : Nat)
    (hfound : symbol_table_search symbol_table symbol_name = some symbol) :
    (encode_operand (.address symbol_name) symbol_table h).map TO_24_BITS
        = some ((((symbol.addr : Int) - (h : Int)) % 2 ^ 21).toNat * 8 + 4)
      ∧ ∀ (instruction : Instruction) (instruction_image : List Nat) (written : List Nat × Nat),
          write_instruction instruction instruction_image symbol_table h = some written →
          (instruction.operand_amount ≥ 1 → instruction.operand1 = .address symbol_name →
              (written.1[instruction_image.length + 1]?).map TO_24_BITS
                = some ((((symbol.addr : Int) - (h : Int)) % 2 ^ 21).toNat * 8 + 4))
            ∧ (instruction.operand_amount ≥ 2 → instruction.operand2 = .address symbol_name →
              (written.1.getLast?).map TO_24_BITS
                = some ((((symbol.addr : Int) - (h : Int)) % 2 ^ 21).toNat * 8 + 4)) := by
  obtain ⟨w, hw, hne, hval⟩ := encode_operand_address_eq symbol_table symbol_name symbol h hfound
  refine ⟨by rw [hw, Option.map_some', hval], ?_⟩
  intro instruction instruction_image written hwritten
  rw [write_instruction_eq] at hwritten
  constructor
  · intro h1 hop
    rw [if_pos h1, hop, hw] at hwritten
    split at hwritten
    · rename_i e1 e2 he1 he2
      cases he1
      cases hwritten
      rw [if_pos hne, List.append_assoc, List.append_assoc, List.getElem?_append_right (by omega)]
      simp only [Nat.add_sub_cancel_left, List.singleton_append, List.cons_append,
        List.getElem?_cons_succ, List.getElem?_cons_zero, List.nil_append, Option.map_some', hval]
    · cases hwritten
  · intro h2 hop
    rw [if_pos h2, hop, hw] at hwritten
    split at hwritten
    · rename_i e1 e2 he1 he2
      cases he2
      cases hwritten
      rw [if_pos hne, List.getLast?_append, List.getLast?_singleton]
      simp only [Option.or_some, Option.map_some', hval]
    · cases hwritten

/-- Witness of C5 at `jmp &A` at address 103 with `A` at address 100. -/
theorem encode_operand_address_witness :
    (encode_operand (.address "A") [⟨100, SYMBOL_CONTEXT_CODE, "A", 1⟩] 103).map TO_24_BITS
        = some ((((100 : Int) - (103 : Int)) % 2 ^ 21).toNat * 8 + 4)
      ∧ ∀ (instruction : Instruction) (instruction_image : List Nat) (written : List Nat × Nat),
          write_instruction instruction instruction_image [⟨100, SYMBOL_CONTEXT_CODE, "A", 1⟩] 103
            = some written →
          (instruction.operand_amount ≥ 1 → instruction.operand1 = .address "A" →
              (written.1[instruction_image.length + 1]?).map TO_24_BITS
                = some ((((100 : Int) - (103 : Int)) % 2 ^ 21).toNat * 8 + 4))
            ∧ (instruction.operand_amount ≥ 2 → instruction.operand2 = .address "A" →
              (written.1.getLast?).map TO_24_BITS
                = some ((((100 : Int) - (103 : Int)) % 2 ^ 21).toNat * 8 + 4)) :=
  encode_operand_address [⟨100, SYMBOL_CONTEXT_CODE, "A", 1⟩] "A"
    ⟨100, SYMBOL_CONTEXT_CODE, "A", 1⟩ 103 (by decide)
theorem encode_operand_defined (symbol_table : SymbolTable) (operand : Operand) (IC : Nat)
    (hdef : operand_defined symbol_table operand = true) :
    ∃ e, encode_operand operand symbol_table IC = some e
      ∧ (e ≠ 0 ↔ operand.type ≠ OPERAND_REGISTER) := by
  cases operand with
  | immediate v =>
    exact ⟨_, rfl, iff_of_true (shifted_word_ne_zero v) (by simp [Operand.type])⟩
  | symbol name =>
    simp only [operand_defined, Option.isSome_iff_exists] at hdef
    obtain ⟨symbol, hfound⟩ := hdef
    by_cases hctx : symbol.context = SYMBOL_CONTEXT_EXTERNAL
    · refine ⟨0 ||| (symbol.addr <<< 3) % 2 ^ 32 ||| 1,
        by simp only [encode_operand, hfound, if_pos hctx, OPERAND_WORD_START_BIT], ?_⟩
      rw [symbol_word _ 1 (by omega)]
      simp [Operand.type]
    · refine ⟨0 ||| (symbol.addr <<< 3) % 2 ^ 32 ||| 2,
        by simp only [encode_operand, hfound, if_neg hctx, OPERAND_WORD_START_BIT], ?_⟩
      rw [symbol_word _ 2 (by omega)]
      simp [Operand.type]
  | address name =>
    simp only [operand_defined, Option.isSome_iff_exists] at hdef
    obtain ⟨symbol, hfound⟩ := hdef
    obtain ⟨w, hw, hne, -⟩ := encode_operand_address_eq symbol_table name symbol IC hfound
    exact ⟨w, hw, by simp [hne, Operand.type]⟩
  | register n =>
    exact ⟨0, rfl, by simp [Operand.type]⟩

theorem write_instruction_defined (instruction : Instruction) (instruction_image : List Nat)
    (symbol_table : SymbolTable) (IC : Nat)
    (hdef1 : instruction.operand_amount ≥ 1 →
      operand_defined symbol_table instruction.operand1 = true)
    (hdef2 : instruction.operand_amount ≥ 2 →
      operand_defined symbol_table instruction.operand2 = true) :
    ∃ words, write_instruction instruction instruction_image symbol_table IC
        = some (instruction_image ++ encode_instruction instruction :: words,
            instruction_encoding_word_count instruction)
      ∧ words.length + 1 = instruction_encoding_word_count instruction := by
  rw [write_instruction_eq]
  unfold instruction_encoding_word_count
  by_cases h1 : instruction.operand_amount ≥ 1 <;> by_cases h2 : instruction.operand_amount ≥ 2
  · obtain ⟨e1, he1, hz1⟩ := encode_operand_defined symbol_table _ IC (hdef1 h1)
    obtain ⟨e2, he2, hz2⟩ := encode_operand_defined symbol_table _ IC (hdef2 h2)
    simp only [if_pos h1, if_pos h2, he1, he2, h1, h2, true_and]
    by_cases r1 : instruction.operand1.type = OPERAND_REGISTER <;>
      by_cases r2 : instruction.operand2.type = OPERAND_REGISTER <;>
      simp_all
  · obtain ⟨e1, he1, hz1⟩ := encode_operand_defined symbol_table _ IC (hdef1 h1)
    simp only [if_pos h1, if_neg h2, he1, h1, h2, true_and, false_and]
    by_cases r1 : instruction.operand1.type = OPERAND_REGISTER <;> simp_all
  · omega
  · simp only [if_neg h1, if_neg h2, h1, h2, false_and]
    simp

/-- C6: for an instruction whose symbol and address operands are in the
symbol table, `write_instruction` appends exactly
`instruction_encoding_word_count` words to the instruction image, and this
count is 1, plus 1 when operand 1 exists and is not a register, plus 1 when
operand 2 exists and is not a register. -/
theorem write_instruction_word_count (instruction : Instruction) (instruction_image : List Nat)
    (symbol_table : SymbolTable) (IC : Nat)
    (hdef1 : instruction.operand_amount ≥ 1 →
      operand_defined symbol_table instruction.operand1 = true)
    (hdef2 : instruction.operand_amount ≥ 2 →
      operand_defined symbol_table instruction.operand2 = true) :
    (∃ image, write_instruction instruction instruction_image symbol_table IC
          = some (image, instruction_encoding_word_count instruction)
        ∧ image.length = instruction_image.length + instruction_encoding_word_count instruction)
      ∧ instruction_encoding_word_count instruction
        = 1 + (if instruction.operand_amount ≥ 1 ∧ instruction.operand1.type ≠ OPERAND_REGISTER
                then 1 else 0)
            + (if instruction.operand_amount ≥ 2 ∧ instruction.operand2.type ≠ OPERAND_REGISTER
                then 1 else 0) := by
  constructor
  · obtain ⟨words, hw, hlen⟩ :=
      write_instruction_defined instruction instruction_image symbol_table IC hdef1 hdef2
    refine ⟨_, hw, ?_⟩
    rw [List.length_append, List.length_cons, hlen]
  · unfold instruction_encoding_word_count
    split_ifs <;> rfl

/-- Witness of C6 at `add EXT, r2` with `EXT` in the symbol table. -/
theorem write_instruction_word_count_witness :
    (∃ image, write_instruction ⟨INSTRUCTION_ADD, 2, .symbol "EXT", .register 2⟩ []
            [⟨0, SYMBOL_CONTEXT_EXTERNAL, "EXT", 1⟩] 100
          = some (image,
              instruction_encoding_word_count ⟨INSTRUCTION_ADD, 2, .symbol "EXT", .register 2⟩)
        ∧ image.length = ([] : List Nat).length
            + instruction_encoding_word_count ⟨INSTRUCTION_ADD, 2, .symbol "EXT", .register 2⟩)
      ∧ instruction_encoding_word_count ⟨INSTRUCTION_ADD, 2, .symbol "EXT", .register 2⟩
        = 1 + (if (2 : Nat) ≥ 1 ∧ OPERAND_SYMBOL ≠ OPERAND_REGISTER then 1 else 0)
            + (if (2 : Nat) ≥ 2 ∧ OPERAND_REGISTER ≠ OPERAND_REGISTER then 1 else 0) :=
  write_instruction_word_count ⟨INSTRUCTION_ADD, 2, .symbol "EXT", .register 2⟩ []
    [⟨0, SYMBOL_CONTEXT_EXTERNAL, "EXT", 1⟩] 100 (fun _ => by decide) (fun _ => by decide)

/-! ## Data written by a directive -/

theorem push_fold_eq {α : Type} (f : α → Nat) (xs : List α) (vec : List Nat) (n : Nat) :
    xs.foldl (fun (written : List Nat × Nat) x => (written.1 ++ [f x], written.2 + 1)) (vec, n)
      = (vec ++ xs.map f, n + xs.length) := by
  induction xs generalizing vec n with
  | nil => simp
  | cons x xs ih =>
    rw [List.foldl_cons, ih]
    simp only [List.map_cons, List.length_cons, List.append_assoc, List.singleton_append]
    rw [Nat.add_assoc, Nat.add_comm 1]

theorem handle_data_eq (integers : List Int) (data_vec : List Nat) :
    handle_data_and_string_directive (.data integers) data_vec
      = (data_vec ++ integers.map to_uint32, integers.length) := by
  simp only [handle_data_and_string_directive]
  rw [push_fold_eq to_uint32 integers data_vec 0, Nat.zero_add]

theorem handle_string_eq (string : String) (data_vec : List Nat) :
    handle_data_and_string_directive (.string string) data_vec
      = (data_vec ++ string.toList.map (fun c => to_uint32 (char_to_int c)) ++ [0],
          string.toList.length + 1) := by
  simp only [handle_data_and_string_directive]
  rw [push_fold_eq (fun c => to_uint32 (char_to_int c)) string.toList data_vec 0, Nat.zero_add]

/-! ## The first pass, line by line -/

theorem first_pass_define_spec (st : FirstPassState) (name : String) (addr : Nat)
    (ctx : SymbolContext) (hok : (first_pass_define st name addr ctx).alloc_fail = false) :
    (first_pass_define st name addr ctx).IC = st.IC
      ∧ (first_pass_define st name addr ctx).DC = st.DC
      ∧ (first_pass_define st name addr ctx).line_num = st.line_num
      ∧ (first_pass_define st name addr ctx).data_image = st.data_image
      ∧ st.alloc_fail = false
      ∧ ((first_pass_define st name addr ctx).symbol_table = st.symbol_table
        ∨ (first_pass_define st name addr ctx).symbol_table
            = st.symbol_table ++ [⟨addr, ctx, name, st.line_num⟩]) := by
  unfold first_pass_define at hok ⊢
  cases hsearch : symbol_table_search st.symbol_table name with
  | some symbol =>
    simp only [hsearch] at hok ⊢
    exact ⟨trivial, trivial, trivial, trivial, hok, Or.inl trivial⟩
  | none =>
    simp only [hsearch, symbol_table_insert, strdup] at hok ⊢
    by_cases hlen : name.length = 0
    · simp [hlen] at hok
    · simp only [hlen, if_false] at hok ⊢
      exact ⟨trivial, trivial, trivial, trivial, hok, Or.inr trivial⟩

theorem first_pass_label_spec (line : ParseLineData) (st : FirstPassState)
    (hok : (first_pass_label line st).alloc_fail = false)
    (hcomment : line.val ≠ PARSE_LINE_COMMENT) (hempty : line.val ≠ PARSE_LINE_EMPTY) :
    (first_pass_label line st).IC = st.IC
      ∧ (first_pass_label line st).DC = st.DC
      ∧ (first_pass_label line st).line_num = st.line_num
      ∧ (first_pass_label line st).data_image = st.data_image
      ∧ st.alloc_fail = false
      ∧ ∃ new, (first_pass_label line st).symbol_table = st.symbol_table ++ new
        ∧ ∀ symbol ∈ new, symbol_defined_at st.IC st.DC st.line_num line symbol := by
  unfold first_pass_label at hok ⊢
  cases hlabel : line.parse_label_data with
  | HAS_SYMBOL label =>
    cases hval : line.val with
    | PARSE_LINE_ERROR e =>
      simp only [hlabel, hval] at hok ⊢
      exact ⟨trivial, trivial, trivial, trivial, hok, [], by simp, by simp⟩
    | PARSE_LINE_INSTRUCTION instruction =>
      simp only [hlabel, hval] at hok ⊢
      obtain ⟨h1, h2, h3, h4, h5, h6⟩ := first_pass_define_spec _ _ _ _ hok
      refine ⟨h1, h2, h3, h4, h5, ?_⟩
      rcases h6 with h6 | h6
      · exact ⟨[], by simp [h6], by simp⟩
      · refine ⟨_, h6, ?_⟩
        intro symbol hmem
        simp only [List.mem_singleton] at hmem
        subst hmem
        exact ⟨rfl, hlabel, ⟨_, hval⟩, rfl⟩
    | PARSE_LINE_DIRECTIVE directive =>
      simp only [hlabel, hval] at hok ⊢
      by_cases hd : directive.type = DIRECTIVE_DATA ∨ directive.type = DIRECTIVE_STRING
      · simp only [hd, if_true] at hok ⊢
        obtain ⟨h1, h2, h3, h4, h5, h6⟩ := first_pass_define_spec _ _ _ _ hok
        refine ⟨h1, h2, h3, h4, h5, ?_⟩
        rcases h6 with h6 | h6
        · exact ⟨[], by simp [h6], by simp⟩
        · refine ⟨_, h6, ?_⟩
          intro symbol hmem
          simp only [List.mem_singleton] at hmem
          subst hmem
          exact ⟨rfl, hlabel, ⟨_, hval, hd⟩, rfl⟩
      · simp only [hd, if_false] at hok ⊢
        exact ⟨trivial, trivial, trivial, trivial, hok, [], by simp, by simp⟩
    | PARSE_LINE_COMMENT => exact absurd hval hcomment
    | PARSE_LINE_EMPTY => exact absurd hval hempty
  | DOES_NOT_HAVE_SYMBOL =>
    simp only [hlabel] at hok ⊢
    exact ⟨trivial, trivial, trivial, trivial, hok, [], by simp, by simp⟩
  | SYMBOL_PARSE_ERROR e =>
    simp only [hlabel] at hok ⊢
    exact ⟨trivial, trivial, trivial, trivial, hok, [], by simp, by simp⟩

theorem first_pass_content_spec (line : ParseLineData) (st : FirstPassState)
    (hok : (first_pass_content line st).alloc_fail = false)
    (hIC : st.IC < 2 ^ 32) (hDC : st.DC < 2 ^ 32) :
    (first_pass_content line st).IC = (st.IC + line_instruction_words line) % 2 ^ 32
      ∧ (first_pass_content line st).DC = (st.DC + (line_data line).length) % 2 ^ 32
      ∧ (first_pass_content line st).line_num = st.line_num
      ∧ (first_pass_content line st).data_image = st.data_image ++ line_data line
      ∧ st.alloc_fail = false
      ∧ ∃ new, (first_pass_content line st).symbol_table = st.symbol_table ++ new
        ∧ ∀ symbol ∈ new, symbol_defined_at st.IC st.DC st.line_num line symbol := by
  unfold first_pass_content at hok ⊢
  cases hval : line.val with
  | PARSE_LINE_ERROR e =>
    simp only [hval] at hok ⊢
    simp only [line_instruction_words, line_data, hval]
    exact ⟨by simp; omega, by simp; omega, trivial, by simp, hok, [], by simp, by simp⟩
  | PARSE_LINE_INSTRUCTION instruction =>
    simp only [hval] at hok ⊢
    simp only [line_instruction_words, line_data, hval]
    exact ⟨trivial, by simp; omega, trivial, by simp, hok, [], by simp, by simp⟩
  | PARSE_LINE_DIRECTIVE directive =>
    cases directive with
    | external name =>
      simp only [hval] at hok ⊢
      obtain ⟨h1, h2, h3, h4, h5, h6⟩ := first_pass_define_spec _ _ _ _ hok
      simp only [line_instruction_words, line_data, hval, handle_data_and_string_directive]
      refine ⟨by simp [h1]; omega, by simp [h2]; omega, h3, by simp [h4], h5, ?_⟩
      rcases h6 with h6 | h6
      · exact ⟨[], by simp [h6], by simp⟩
      · refine ⟨_, h6, ?_⟩
        intro symbol hmem
        simp only [List.mem_singleton] at hmem
        subst hmem
        exact ⟨rfl, hval, rfl⟩
    | data integers =>
      simp only [hval] at hok ⊢
      simp only [line_instruction_words, line_data, hval, handle_data_eq]
      exact ⟨by simp; omega, by simp, trivial, by simp, hok, [], by simp, by simp⟩
    | string string =>
      simp only [hval] at hok ⊢
      simp only [line_instruction_words, line_data, hval, handle_string_eq]
      exact ⟨by simp; omega, by simp, trivial, by simp, hok, [], by simp, by simp⟩
    | entry name =>
      simp only [hval] at hok ⊢
      simp only [line_instruction_words, line_data, hval, handle_data_and_string_directive]
      exact ⟨by simp; omega, by simp, trivial, by simp, hok, [], by simp, by simp⟩
  | PARSE_LINE_COMMENT =>
    simp only [hval] at hok ⊢
    simp only [line_instruction_words, line_data, hval]
    exact ⟨by simp; omega, by simp; omega, trivial, by simp, hok, [], by simp, by simp⟩
  | PARSE_LINE_EMPTY =>
    simp only [hval] at hok ⊢
    simp only [line_instruction_words, line_data, hval]
    exact ⟨by simp; omega, by simp; omega, trivial, by simp, hok, [], by simp, by simp⟩

theorem first_pass_memory_check_spec (st : FirstPassState) :
    (first_pass_memory_check st).IC = st.IC
      ∧ (first_pass_memory_check st).DC = st.DC
      ∧ (first_pass_memory_check st).line_num = st.line_num
      ∧ (first_pass_memory_check st).data_image = st.data_image
      ∧ (first_pass_memory_check st).alloc_fail = st.alloc_fail
      ∧ (first_pass_memory_check st).symbol_table = st.symbol_table
      ∧ (first_pass_memory_check st).encountered_error = st.encountered_error
      ∧ (first_pass_memory_check st).errors = st.errors := by
  unfold first_pass_memory_check
  split <;> exact ⟨rfl, rfl, rfl, rfl, rfl, rfl, rfl, rfl⟩

theorem first_pass_line_body (st : FirstPassState) (line : ParseLineData)
    (h0 : st.alloc_fail = false)
    (hcomment : line.val ≠ PARSE_LINE_COMMENT) (hempty : line.val ≠ PARSE_LINE_EMPTY) :
    first_pass_line st line =
      if (first_pass_label line { st with line_num := st.line_num + 1 }).alloc_fail then
        first_pass_label line { st with line_num := st.line_num + 1 }
      else if (first_pass_content line
          (first_pass_label line { st with line_num := st.line_num + 1 })).alloc_fail then
        first_pass_content line (first_pass_label line { st with line_num := st.line_num + 1 })
      else first_pass_memory_check (first_pass_content line
          (first_pass_label line { st with line_num := st.line_num + 1 })) := by
  unfold first_pass_line
  simp only [h0, Bool.false_eq_true, if_false]

theorem first_pass_line_spec (st : FirstPassState) (line : ParseLineData)
    (hok : (first_pass_line st line).alloc_fail = false)
    (hIC : st.IC < 2 ^ 32) (hDC : st.DC < 2 ^ 32) :
    st.alloc_fail = false
      ∧ (first_pass_line st line).IC = (st.IC + line_instruction_words line) % 2 ^ 32
      ∧ (first_pass_line st line).DC = (st.DC + (line_data line).length) % 2 ^ 32
      ∧ (first_pass_line st line).line_num = st.line_num + 1
      ∧ (first_pass_line st line).data_image = st.data_image ++ line_data line
      ∧ ∃ new, (first_pass_line st line).symbol_table = st.symbol_table ++ new
        ∧ ∀ symbol ∈ new, symbol_defined_at st.IC st.DC (st.line_num + 1) line symbol := by
  have h0 : st.alloc_fail = false := by
    by_contra h
    have h' : st.alloc_fail = true := by simpa using h
    simp [first_pass_line, h'] at hok
  refine ⟨h0, ?_⟩
  by_cases hcomment : line.val = PARSE_LINE_COMMENT
  · have e : first_pass_line st line = { st with line_num := st.line_num + 1 } := by
      simp [first_pass_line, h0, hcomment]
    rw [e]
    simp only [line_instruction_words, line_data, hcomment]
    exact ⟨by simp; omega, by simp; omega, trivial, by simp, [], by simp, by simp⟩
  by_cases hempty : line.val = PARSE_LINE_EMPTY
  · have e : first_pass_line st line = { st with line_num := st.line_num + 1 } := by
      simp [first_pass_line, h0, hempty]
    rw [e]
    simp only [line_instruction_words, line_data, hempty]
    exact ⟨by simp; omega, by simp; omega, trivial, by simp, [], by simp, by simp⟩
  rw [first_pass_line_body st line h0 hcomment hempty] at hok ⊢
  by_cases ha : (first_pass_label line { st with line_num := st.line_num + 1 }).alloc_fail = true
  · rw [if_pos ha] at hok
    rw [ha] at hok
    cases hok
  rw [if_neg ha] at hok ⊢
  have ha' : (first_pass_label line { st with line_num := st.line_num + 1 }).alloc_fail = false := by
    simpa using ha
  by_cases hb : (first_pass_content line
      (first_pass_label line { st with line_num := st.line_num + 1 })).alloc_fail = true
  · rw [if_pos hb] at hok
    rw [hb] at hok
    cases hok
  rw [if_neg hb] at hok ⊢
  have hb' : (first_pass_content line
      (first_pass_label line { st with line_num := st.line_num + 1 })).alloc_fail = false := by
    simpa using hb
  obtain ⟨l1, l2, l3, l4, -, new1, l6, l7⟩ := first_pass_label_spec line _ ha' hcomment hempty
  obtain ⟨c1, c2, c3, c4, -, new2, c6, c7⟩ :=
    first_pass_content_spec line _ hb' (by rw [l1]; exact hIC) (by rw [l2]; exact hDC)
  obtain ⟨m1, m2, m3, m4, -, m6, -, -⟩ := first_pass_memory_check_spec (first_pass_content line
      (first_pass_label line { st with line_num := st.line_num + 1 }))
  rw [m1, m2, m3, m4, m6, c1, c2, c3, c4, c6, l1, l2, l3, l4, l6]
  refine ⟨rfl, rfl, rfl, rfl, new1 ++ new2, by simp, ?_⟩
  intro symbol hmem
  rcases List.mem_append.mp hmem with h | h
  · exact l7 symbol h
  · have := c7 symbol h
    rwa [l1, l2, l3] at this

/-! ## The loop of the first pass -/

theorem instruction_words_append (xs ys : List ParseLineData) :
    instruction_words (xs ++ ys) = instruction_words xs + instruction_words ys := by
  simp [instruction_words]

theorem data_words_append (xs ys : List ParseLineData) :
    data_words (xs ++ ys) = data_words xs + data_words ys := by
  simp [data_words]

theorem source_data_append (xs ys : List ParseLineData) :
    source_data (xs ++ ys) = source_data xs ++ source_data ys := by
  simp [source_data]

theorem source_data_length (xs : List ParseLineData) :
    (source_data xs).length = data_words xs := by
  simp [source_data, data_words, Function.comp_def]

theorem first_pass_line_alloc_fail (st : FirstPassState) (line : ParseLineData)
    (h : st.alloc_fail = true) : first_pass_line st line = st := by
  simp [first_pass_line, h]

theorem first_pass_loop_snoc (lines : List ParseLineData) (line : ParseLineData) :
    first_pass_loop (lines ++ [line]) = first_pass_line (first_pass_loop lines) line := by
  simp [first_pass_loop]

theorem first_pass_loop_spec (lines : List ParseLineData)
    (hok : (first_pass_loop lines).alloc_fail = false)
    (hic : 100 + instruction_words lines < 2 ^ 32) (hdc : data_words lines < 2 ^ 32) :
    (first_pass_loop lines).IC = 100 + instruction_words lines
      ∧ (first_pass_loop lines).DC = data_words lines
      ∧ (first_pass_loop lines).line_num = lines.length
      ∧ (first_pass_loop lines).data_image = source_data lines
      ∧ ∀ symbol ∈ (first_pass_loop lines).symbol_table,
          ∃ before line after, lines = before ++ line :: after
            ∧ symbol_defined_at (100 + instruction_words before) (data_words before)
                (before.length + 1) line symbol := by
  induction lines using List.reverseRecOn with
  | nil =>
    refine ⟨rfl, rfl, rfl, rfl, ?_⟩
    intro symbol hmem
    simp [first_pass_loop, first_pass_init] at hmem
  | append_singleton pre line ih =>
    rw [first_pass_loop_snoc] at hok ⊢
    rw [instruction_words_append] at hic
    rw [data_words_append] at hdc
    have hpre : (first_pass_loop pre).alloc_fail = false := by
      by_contra h
      have h' : (first_pass_loop pre).alloc_fail = true := by simpa using h
      rw [first_pass_line_alloc_fail _ _ h', h'] at hok
      cases hok
    obtain ⟨i1, i2, i3, i4, i5⟩ := ih hpre (by omega) (by omega)
    obtain ⟨-, s1, s2, s3, s4, new, s5, s6⟩ :=
      first_pass_line_spec (first_pass_loop pre) line hok (by omega) (by omega)
    have hliw : instruction_words [line] = line_instruction_words line := by
      simp [instruction_words]
    have hldw : data_words [line] = (line_data line).length := by
      simp [data_words]
    have hsd : source_data [line] = line_data line := by
      simp [source_data]
    rw [s1, s2, s3, s4, s5, i1, i2, i3, i4, instruction_words_append, data_words_append,
      source_data_append, hliw, hldw, hsd]
    rw [hliw] at hic
    rw [hldw] at hdc
    refine ⟨by omega, by omega, by simp, rfl, ?_⟩
    intro symbol hmem
    rcases List.mem_append.mp hmem with h | h
    · obtain ⟨before, l, after, hsplit, hdef⟩ := i5 symbol h
      exact ⟨before, l, after ++ [line], by simp [hsplit], hdef⟩
    · have := s6 symbol h
      rw [i1, i2, i3] at this
      exact ⟨pre, line, [], rfl, this⟩

/-! ## An allocation failure is reported as an error -/

theorem first_pass_define_flags (st : FirstPassState) (name : String) (addr : Nat)
    (ctx : SymbolContext) (h : st.alloc_fail = true → st.encountered_error = true) :
    (first_pass_define st name addr ctx).alloc_fail = true →
      (first_pass_define st name addr ctx).encountered_error = true := by
  unfold first_pass_define
  cases symbol_table_search st.symbol_table name with
  | some symbol => intro _; rfl
  | none =>
    simp only
    cases symbol_table_insert st.symbol_table name addr ctx st.line_num with
    | none => intro _; rfl
    | some table => exact h

theorem first_pass_label_flags (line : ParseLineData) (st : FirstPassState)
    (h : st.alloc_fail = true → st.encountered_error = true) :
    (first_pass_label line st).alloc_fail = true →
      (first_pass_label line st).encountered_error = true := by
  unfold first_pass_label
  cases line.parse_label_data with
  | HAS_SYMBOL label =>
    cases line.val with
    | PARSE_LINE_ERROR e => exact h
    | PARSE_LINE_DIRECTIVE directive =>
      simp only
      split
      · exact first_pass_define_flags _ _ _ _ h
      · exact h
    | _ => exact first_pass_define_flags _ _ _ _ h
  | DOES_NOT_HAVE_SYMBOL => exact h
  | SYMBOL_PARSE_ERROR e => intro _; rfl

theorem first_pass_content_flags (line : ParseLineData) (st : FirstPassState)
    (h : st.alloc_fail = true → st.encountered_error = true) :
    (first_pass_content line st).alloc_fail = true →
      (first_pass_content line st).encountered_error = true := by
  unfold first_pass_content
  cases line.val with
  | PARSE_LINE_ERROR e => intro _; rfl
  | PARSE_LINE_DIRECTIVE directive =>
    cases directive with
    | external name => exact first_pass_define_flags _ _ _ _ h
    | _ => exact h
  | _ => exact h

theorem first_pass_line_flags (st : FirstPassState) (line : ParseLineData)
    (h : st.alloc_fail = true → st.encountered_error = true) :
    (first_pass_line st line).alloc_fail = true →
      (first_pass_line st line).encountered_error = true := by
  by_cases h0 : st.alloc_fail = true
  · rw [first_pass_line_alloc_fail st line h0]
    exact h
  have h0' : st.alloc_fail = false := by simpa using h0
  by_cases hcomment : line.val = PARSE_LINE_COMMENT
  · have e : first_pass_line st line = { st with line_num := st.line_num + 1 } := by
      simp [first_pass_line, h0', hcomment]
    rw [e]
    exact h
  by_cases hempty : line.val = PARSE_LINE_EMPTY
  · have e : first_pass_line st line = { st with line_num := st.line_num + 1 } := by
      simp [first_pass_line, h0', hempty]
    rw [e]
    exact h
  rw [first_pass_line_body st line h0' hcomment hempty]
  have hl := first_pass_label_flags line { st with line_num := st.line_num + 1 } h
  have hc := first_pass_content_flags line _ hl
  obtain ⟨-, -, -, -, m5, -, m7, -⟩ := first_pass_memory_check_spec (first_pass_content line
      (first_pass_label line { st with line_num := st.line_num + 1 }))
  split
  · exact hl
  · split
    · exact hc
    · rw [m5, m7]
      exact hc

theorem first_pass_fold_flags (lines : List ParseLineData) (st : FirstPassState)
    (h : st.alloc_fail = true → st.encountered_error = true) :
    (lines.foldl first_pass_line st).alloc_fail = true →
      (lines.foldl first_pass_line st).encountered_error = true := by
  induction lines generalizing st with
  | nil => exact h
  | cons line lines ih => exact ih _ (first_pass_line_flags st line h)

theorem first_pass_no_error_no_alloc_fail (lines : List ParseLineData)
    (h : (first_pass lines).encountered_error = false) :
    (first_pass lines).alloc_fail = false := by
  have hflags : (first_pass_loop lines).alloc_fail = true →
      (first_pass_loop lines).encountered_error = true :=
    first_pass_fold_flags lines first_pass_init (fun h => by cases h)
  unfold first_pass first_pass_state at h ⊢
  by_cases ha : (first_pass_loop lines).alloc_fail = true
  · simp only [ha, if_true] at h
    rw [hflags ha] at h
    cases h
  · have ha' : (first_pass_loop lines).alloc_fail = false := by simpa using ha
    simp only [ha', Bool.false_eq_true, if_false]
    unfold first_pass_report_overflow
    split <;> exact ha'

/-! ## The result of the first pass -/

theorem first_pass_fold_alloc_fail (lines : List ParseLineData) (st : FirstPassState)
    (h : st.alloc_fail = true) : lines.foldl first_pass_line st = st := by
  induction lines with
  | nil => rfl
  | cons line lines ih => rw [List.foldl_cons, first_pass_line_alloc_fail st line h, ih]

theorem first_pass_loop_prefix_ok (before after : List ParseLineData)
    (hok : (first_pass_loop (before ++ after)).alloc_fail = false) :
    (first_pass_loop before).alloc_fail = false := by
  by_contra h
  have h' : (first_pass_loop before).alloc_fail = true := by simpa using h
  have e : first_pass_loop (before ++ after) = first_pass_loop before := by
    unfold first_pass_loop
    rw [List.foldl_append]
    exact first_pass_fold_alloc_fail after _ h'
  rw [e, h'] at hok
  cases hok

theorem first_pass_result_spec (lines : List ParseLineData)
    (hok : (first_pass lines).alloc_fail = false) :
    (first_pass_loop lines).alloc_fail = false
      ∧ (first_pass lines).symbol_table
          = first_pass_finalize (first_pass_loop lines).IC (first_pass_loop lines).symbol_table
      ∧ (first_pass lines).data_image = (first_pass_loop lines).data_image := by
  unfold first_pass first_pass_state at hok ⊢
  by_cases h : (first_pass_loop lines).alloc_fail = true
  · simp [h] at hok
  · have h' : (first_pass_loop lines).alloc_fail = false := by simpa using h
    simp only [h', Bool.false_eq_true, if_false]
    unfold first_pass_report_overflow
    split <;> exact ⟨trivial, rfl, rfl⟩

theorem first_pass_finalize_mem (IC : Nat) (symbol_table : SymbolTable) (symbol : Symbol)
    (hmem : symbol ∈ first_pass_finalize IC symbol_table) :
    ∃ original ∈ symbol_table, symbol.context = original.context ∧ symbol.name = original.name
      ∧ symbol.line = original.line
      ∧ symbol.addr = if original.context = SYMBOL_CONTEXT_DATA then (original.addr + IC) % 2 ^ 32
          else original.addr := by
  unfold first_pass_finalize at hmem
  obtain ⟨original, horiginal, rfl⟩ := List.mem_map.mp hmem
  refine ⟨original, horiginal, ?_⟩
  by_cases hctx : original.context = SYMBOL_CONTEXT_DATA <;> simp [hctx]

theorem first_pass_symbol_origin (lines : List ParseLineData)
    (hfit : 100 + instruction_words lines + data_words lines < 2 ^ 32)
    (hok : (first_pass lines).alloc_fail = false)
    (symbol : Symbol) (hmem : symbol ∈ (first_pass lines).symbol_table) :
    ∃ before line after, lines = before ++ line :: after
      ∧ (first_pass_loop lines).IC = 100 + instruction_words lines
      ∧ (first_pass_loop before).IC = 100 + instruction_words before
      ∧ (first_pass_loop before).DC = data_words before
      ∧ (first_pass_loop before).data_image = source_data before
      ∧ symbol.line = before.length + 1
      ∧ (symbol.context = SYMBOL_CONTEXT_CODE →
          line.parse_label_data = HAS_SYMBOL symbol.name
          ∧ (∃ instruction, line.val = PARSE_LINE_INSTRUCTION instruction)
          ∧ symbol.addr = 100 + instruction_words before)
      ∧ (symbol.context = SYMBOL_CONTEXT_DATA →
          line.parse_label_data = HAS_SYMBOL symbol.name
          ∧ (∃ directive, line.val = PARSE_LINE_DIRECTIVE directive
              ∧ (directive.type = DIRECTIVE_DATA ∨ directive.type = DIRECTIVE_STRING))
          ∧ symbol.addr = data_words before + (100 + instruction_words lines)) := by
  obtain ⟨hloop, htable, -⟩ := first_pass_result_spec lines hok
  obtain ⟨i1, -, -, -, i5⟩ := first_pass_loop_spec lines hloop (by omega) (by omega)
  rw [htable] at hmem
  obtain ⟨original, horiginal, e1, e2, e3, e4⟩ := first_pass_finalize_mem _ _ _ hmem
  obtain ⟨before, line, after, hsplit, hline, hdef⟩ := i5 original horiginal
  have hbefore : (first_pass_loop before).alloc_fail = false :=
    first_pass_loop_prefix_ok before (line :: after) (hsplit ▸ hloop)
  have hiw := instruction_words_append before (line :: after)
  have hdw := data_words_append before (line :: after)
  rw [← hsplit] at hiw hdw
  obtain ⟨b1, b2, -, b4, -⟩ := first_pass_loop_spec before hbefore (by omega) (by omega)
  refine ⟨before, line, after, hsplit, i1, b1, b2, b4, by rw [e3]; exact hline, ?_, ?_⟩
  · intro hctx
    rw [hctx] at e1
    rw [← e1] at hdef
    rw [if_neg (by rw [← e1]; decide)] at e4
    obtain ⟨hlabel, hval, haddr⟩ := hdef
    exact ⟨by rw [e2]; exact hlabel, hval, by rw [e4, haddr]⟩
  · intro hctx
    rw [hctx] at e1
    rw [← e1] at hdef
    rw [if_pos e1.symm] at e4
    obtain ⟨hlabel, hval, haddr⟩ := hdef
    refine ⟨by rw [e2]; exact hlabel, hval, ?_⟩
    rw [e4, haddr, i1]
    omega

/-- C9: after `first_pass`, every symbol with context DATA has the address
`DC + IC`, where `DC` is the data counter at its defining line (the number of
data words of the lines before it) and `IC` the final instruction counter,
which is 100 plus the number of instruction words; so the address is at
least the final `IC`. The source is one whose words fit the 32-bit counters
and on which no allocation fails. -/
theorem first_pass_data_symbol_addr (lines : List ParseLineData)
    (hfit : 100 + instruction_words lines + data_words lines < 2 ^ 32)
    (hok : (first_pass lines).alloc_fail = false)
    (symbol : Symbol) (hmem : symbol ∈ (first_pass lines).symbol_table)
    (hctx : symbol.context = SYMBOL_CONTEXT_DATA) :
    ∃ before line after directive, lines = before ++ line :: after
      ∧ line.parse_label_data = HAS_SYMBOL symbol.name
      ∧ line.val = PARSE_LINE_DIRECTIVE directive
      ∧ (directive.type = DIRECTIVE_DATA ∨ directive.type = DIRECTIVE_STRING)
      ∧ symbol.line = before.length + 1
      ∧ (first_pass_loop before).DC = (first_pass_loop before).data_image.length
      ∧ (first_pass_loop before).DC = data_words before
      ∧ symbol.addr = (first_pass_loop before).DC + (first_pass_loop lines).IC
      ∧ (first_pass_loop lines).IC = 100 + instruction_words lines
      ∧ symbol.addr ≥ (first_pass_loop lines).IC := by
  obtain ⟨before, line, after, hsplit, i1, -, b2, b4, hline, -, hdata⟩ :=
    first_pass_symbol_origin lines hfit hok symbol hmem
  obtain ⟨hlabel, ⟨directive, hval, htype⟩, haddr⟩ := hdata hctx
  exact ⟨before, line, after, directive, hsplit, hlabel, hval, htype, hline,
    by rw [b2, b4, source_data_length], b2, by rw [haddr, b2, i1], i1, by rw [haddr, i1]; omega⟩

/-- C10: after `first_pass`, every symbol with context CODE has the address
`IC` of its defining line, and `100 ≤ addr < final IC`, where the final `IC`
is 100 plus the number of instruction words. The source is one whose words
fit the 32-bit counters and on which no allocation fails. -/
theorem first_pass_code_symbol_addr (lines : List ParseLineData)
    (hfit : 100 + instruction_words lines + data_words lines < 2 ^ 32)
    (hok : (first_pass lines).alloc_fail = false)
    (symbol : Symbol) (hmem : symbol ∈ (first_pass lines).symbol_table)
    (hctx : symbol.context = SYMBOL_CONTEXT_CODE) :
    ∃ before line after instruction, lines = before ++ line :: after
      ∧ line.parse_label_data = HAS_SYMBOL symbol.name
      ∧ line.val = PARSE_LINE_INSTRUCTION instruction
      ∧ symbol.line = before.length + 1
      ∧ symbol.addr = (first_pass_loop before).IC
      ∧ 100 ≤ symbol.addr
      ∧ symbol.addr < (first_pass_loop lines).IC
      ∧ (first_pass_loop lines).IC = 100 + instruction_words lines := by
  obtain ⟨before, line, after, hsplit, i1, b1, -, -, hline, hcode, -⟩ :=
    first_pass_symbol_origin lines hfit hok symbol hmem
  obtain ⟨hlabel, ⟨instruction, hval⟩, haddr⟩ := hcode hctx
  have hiw := instruction_words_append before (line :: after)
  rw [← hsplit] at hiw
  have hline_words : instruction_words (line :: after)
      = instruction_encoding_word_count instruction + instruction_words after := by
    simp [instruction_words, line_instruction_words, hval]
  have hpos : 1 ≤ instruction_encoding_word_count instruction := by
    unfold instruction_encoding_word_count
    simp only
    split_ifs <;> omega
  exact ⟨before, line, after, instruction, hsplit, hlabel, hval, hline, by rw [haddr, b1],
    by rw [haddr]; omega, by rw [haddr, i1]; omega, i1⟩

/-- Witness of C9 at the data label `LST` of `example_source`. -/
theorem first_pass_data_symbol_addr_witness :
    ∃ before line after directive, example_source = before ++ line :: after
      ∧ line.parse_label_data = HAS_SYMBOL example_data_symbol.name
      ∧ line.val = PARSE_LINE_DIRECTIVE directive
      ∧ (directive.type = DIRECTIVE_DATA ∨ directive.type = DIRECTIVE_STRING)
      ∧ example_data_symbol.line = before.length + 1
      ∧ (first_pass_loop before).DC = (first_pass_loop before).data_image.length
      ∧ (first_pass_loop before).DC = data_words before
      ∧ example_data_symbol.addr = (first_pass_loop before).DC + (first_pass_loop example_source).IC
      ∧ (first_pass_loop example_source).IC = 100 + instruction_words example_source
      ∧ example_data_symbol.addr ≥ (first_pass_loop example_source).IC :=
  first_pass_data_symbol_addr example_source (by decide) (by decide) example_data_symbol
    (by decide) rfl

/-- Witness of C10 at the code label `MAIN` of `example_source`. -/
theorem first_pass_code_symbol_addr_witness :
    ∃ before line after instruction, example_source = before ++ line :: after
      ∧ line.parse_label_data = HAS_SYMBOL example_code_symbol.name
      ∧ line.val = PARSE_LINE_INSTRUCTION instruction
      ∧ example_code_symbol.line = before.length + 1
      ∧ example_code_symbol.addr = (first_pass_loop before).IC
      ∧ 100 ≤ example_code_symbol.addr
      ∧ example_code_symbol.addr < (first_pass_loop example_source).IC
      ∧ (first_pass_loop example_source).IC = 100 + instruction_words example_source :=
  first_pass_code_symbol_addr example_source (by decide) (by decide) example_code_symbol
    (by decide) rfl

/-! ## The address space check -/

theorem first_pass_define_overflow (st : FirstPassState) (name : String) (addr : Nat)
    (ctx : SymbolContext) :
    (first_pass_define st name addr ctx).memory_overflown = st.memory_overflown := by
  unfold first_pass_define
  cases symbol_table_search st.symbol_table name with
  | some symbol => rfl
  | none =>
    simp only
    cases symbol_table_insert st.symbol_table name addr ctx st.line_num <;> rfl

theorem first_pass_label_overflow (line : ParseLineData) (st : FirstPassState) :
    (first_pass_label line st).memory_overflown = st.memory_overflown := by
  unfold first_pass_label
  cases line.parse_label_data with
  | HAS_SYMBOL label =>
    cases line.val with
    | PARSE_LINE_ERROR e => rfl
    | PARSE_LINE_DIRECTIVE directive =>
      simp only
      split
      · exact first_pass_define_overflow _ _ _ _
      · rfl
    | _ => exact first_pass_define_overflow _ _ _ _
  | DOES_NOT_HAVE_SYMBOL => rfl
  | SYMBOL_PARSE_ERROR e => rfl

theorem first_pass_content_overflow (line : ParseLineData) (st : FirstPassState) :
    (first_pass_content line st).memory_overflown = st.memory_overflown := by
  unfold first_pass_content
  cases line.val with
  | PARSE_LINE_DIRECTIVE directive =>
    cases directive with
    | external name => exact first_pass_define_overflow _ _ _ _
    | _ => rfl
  | _ => rfl

theorem first_pass_memory_check_overflow (st : FirstPassState)
    (h : (first_pass_memory_check st).memory_overflown = false) :
    st.memory_overflown = false
      ∧ (st.IC + st.data_image.length) % 2 ^ 32 ≤ MAX_ADDRESS := by
  unfold first_pass_memory_check at h
  split at h
  · cases h
  · rename_i hcond
    refine ⟨h, ?_⟩
    simp only [h, Bool.false_eq_true, not_false_eq_true, true_and, not_lt] at hcond
    exact hcond

theorem first_pass_line_overflow (st : FirstPassState) (line : ParseLineData)
    (hok : (first_pass_line st line).alloc_fail = false)
    (hflag : (first_pass_line st line).memory_overflown = false) :
    st.memory_overflown = false
      ∧ (line.val ≠ PARSE_LINE_COMMENT → line.val ≠ PARSE_LINE_EMPTY →
          ((first_pass_line st line).IC + (first_pass_line st line).data_image.length) % 2 ^ 32
            ≤ MAX_ADDRESS) := by
  have h0 : st.alloc_fail = false := by
    by_contra h
    have h' : st.alloc_fail = true := by simpa using h
    rw [first_pass_line_alloc_fail st line h', h'] at hok
    cases hok
  by_cases hcomment : line.val = PARSE_LINE_COMMENT
  · have e : first_pass_line st line = { st with line_num := st.line_num + 1 } := by
      simp [first_pass_line, h0, hcomment]
    rw [e] at hflag
    exact ⟨hflag, fun h => absurd hcomment h⟩
  by_cases hempty : line.val = PARSE_LINE_EMPTY
  · have e : first_pass_line st line = { st with line_num := st.line_num + 1 } := by
      simp [first_pass_line, h0, hempty]
    rw [e] at hflag
    exact ⟨hflag, fun _ h => absurd hempty h⟩
  rw [first_pass_line_body st line h0 hcomment hempty] at hok hflag ⊢
  by_cases ha : (first_pass_label line { st with line_num := st.line_num + 1 }).alloc_fail = true
  · rw [if_pos ha, ha] at hok
    cases hok
  rw [if_neg ha] at hok hflag ⊢
  by_cases hb : (first_pass_content line
      (first_pass_label line { st with line_num := st.line_num + 1 })).alloc_fail = true
  · rw [if_pos hb, hb] at hok
    cases hok
  rw [if_neg hb] at hok hflag ⊢
  obtain ⟨hprev, hbound⟩ := first_pass_memory_check_overflow _ hflag
  rw [first_pass_content_overflow, first_pass_label_overflow] at hprev
  obtain ⟨m1, -, -, m4, -, -, -, -⟩ := first_pass_memory_check_spec (first_pass_content line
      (first_pass_label line { st with line_num := st.line_num + 1 }))
  exact ⟨hprev, fun _ _ => by rw [m1, m4]; exact hbound⟩

theorem line_instruction_words_le (line : ParseLineData) : line_instruction_words line ≤ 3 := by
  unfold line_instruction_words
  split
  · unfold instruction_encoding_word_count
    simp only
    split_ifs <;> omega
  · omega

theorem first_pass_loop_no_overflow (lines : List ParseLineData)
    (hcap : ∀ line ∈ lines, (line_data line).length ≤ MAX_LINE_LENGTH)
    (hok : (first_pass_loop lines).alloc_fail = false)
    (hflag : (first_pass_loop lines).memory_overflown = false) :
    100 + instruction_words lines + data_words lines ≤ MAX_ADDRESS := by
  induction lines using List.reverseRecOn with
  | nil => simp [instruction_words, data_words, MAX_ADDRESS]
  | append_singleton pre line ih =>
    rw [first_pass_loop_snoc] at hok hflag
    have hpre : (first_pass_loop pre).alloc_fail = false := by
      by_contra h
      have h' : (first_pass_loop pre).alloc_fail = true := by simpa using h
      rw [first_pass_line_alloc_fail _ _ h', h'] at hok
      cases hok
    obtain ⟨hprev, hbound⟩ := first_pass_line_overflow _ _ hok hflag
    have hle := ih (fun l hl => hcap l (List.mem_append_left _ hl)) hpre hprev
    have hmax : MAX_ADDRESS = 2097151 := by decide
    have hline := hcap line (by simp)
    have hmll : MAX_LINE_LENGTH = 80 := rfl
    have hwords := line_instruction_words_le line
    obtain ⟨i1, i2, -, i4, -⟩ := first_pass_loop_spec pre hpre (by omega) (by omega)
    obtain ⟨-, s1, -, -, s4, -⟩ :=
      first_pass_line_spec (first_pass_loop pre) line hok (by omega) (by omega)
    have hliw : instruction_words [line] = line_instruction_words line := by
      simp [instruction_words]
    have hldw : data_words [line] = (line_data line).length := by
      simp [data_words]
    rw [instruction_words_append, data_words_append, hliw, hldw]
    by_cases hcomment : line.val = PARSE_LINE_COMMENT
    · have e1 : line_instruction_words line = 0 := by simp [line_instruction_words, hcomment]
      have e2 : line_data line = [] := by simp [line_data, hcomment]
      rw [e1, e2]
      simpa using hle
    by_cases hempty : line.val = PARSE_LINE_EMPTY
    · have e1 : line_instruction_words line = 0 := by simp [line_instruction_words, hempty]
      have e2 : line_data line = [] := by simp [line_data, hempty]
      rw [e1, e2]
      simpa using hle
    have hb := hbound hcomment hempty
    rw [s1, s4, i1, i4, List.length_append, source_data_length] at hb
    omega

theorem first_pass_no_error_no_overflow (lines : List ParseLineData)
    (h : (first_pass lines).encountered_error = false) :
    (first_pass_loop lines).memory_overflown = false := by
  have hok := first_pass_no_error_no_alloc_fail lines h
  obtain ⟨hloop, -, -⟩ := first_pass_result_spec lines hok
  unfold first_pass first_pass_state at h
  simp only [hloop, Bool.false_eq_true, if_false] at h
  unfold first_pass_report_overflow at h
  by_contra hflag
  have hflag' : (first_pass_loop lines).memory_overflown = true := by simpa using hflag
  simp [hflag'] at h

/-! ## The second pass, line by line -/

theorem second_pass_operand_spec (symbol_table : SymbolTable) (is_present : Bool)
    (operand : Operand) (addr : Nat) (st : SecondPassState) :
    (second_pass_operand symbol_table is_present operand addr st).1.IC = st.IC
      ∧ (second_pass_operand symbol_table is_present operand addr st).1.instruction_image
          = st.instruction_image
      ∧ (second_pass_operand symbol_table is_present operand addr st).1.encountered_error
          = st.encountered_error
      ∧ ((second_pass_operand symbol_table is_present operand addr st).2 = false →
          is_present = true → operand_defined symbol_table operand = true) := by
  unfold second_pass_operand
  by_cases hcond : is_present = true
      ∧ (operand.type = OPERAND_SYMBOL ∨ operand.type = OPERAND_ADDRESS)
  · rw [if_pos hcond]
    have hname : operand_defined symbol_table operand
        = (symbol_table_search symbol_table operand.symbol_name).isSome := by
      cases operand <;> simp [Operand.type] at hcond <;> rfl
    cases hsearch : symbol_table_search symbol_table operand.symbol_name with
    | none => exact ⟨rfl, rfl, rfl, by simp⟩
    | some symbol =>
      simp only
      split
      · exact ⟨rfl, rfl, rfl, fun _ _ => by rw [hname, hsearch]; rfl⟩
      · exact ⟨rfl, rfl, rfl, fun _ _ => by rw [hname, hsearch]; rfl⟩
  · rw [if_neg hcond]
    refine ⟨rfl, rfl, rfl, fun _ hp => ?_⟩
    cases operand <;> simp [Operand.type, hp] at hcond <;> rfl

theorem second_pass_line_spec (symbol_table : SymbolTable) (st : SecondPassState)
    (line : ParseLineData) :
    ∃ next, second_pass_line symbol_table st line = some next
      ∧ (next.encountered_error = false →
          st.encountered_error = false
          ∧ ∃ words, next.instruction_image = st.instruction_image ++ words
            ∧ words.length = line_instruction_words line
            ∧ ∀ instruction, line.val = PARSE_LINE_INSTRUCTION instruction →
                ∃ extra, words = encode_instruction instruction :: extra) := by
  unfold second_pass_line
  cases hval : line.val with
  | PARSE_LINE_COMMENT =>
    exact ⟨_, rfl, fun h => ⟨h, [], by simp, by simp [line_instruction_words, hval], by simp⟩⟩
  | PARSE_LINE_EMPTY =>
    exact ⟨_, rfl, fun h => ⟨h, [], by simp, by simp [line_instruction_words, hval], by simp⟩⟩
  | PARSE_LINE_ERROR e =>
    exact ⟨_, rfl, fun h => ⟨h, [], by simp, by simp [line_instruction_words, hval], by simp⟩⟩
  | PARSE_LINE_DIRECTIVE directive =>
    cases directive with
    | entry name =>
      simp only
      cases hsearch : symbol_table_search symbol_table name with
      | none => exact ⟨_, rfl, fun h => by simp at h⟩
      | some symbol =>
        simp only
        split
        · exact ⟨_, rfl, fun h => by simp at h⟩
        · exact ⟨_, rfl,
            fun h => ⟨h, [], by simp, by simp [line_instruction_words, hval], by simp⟩⟩
    | _ =>
      exact ⟨_, rfl, fun h => ⟨h, [], by simp, by simp [line_instruction_words, hval], by simp⟩⟩
  | PARSE_LINE_INSTRUCTION instruction =>
    simp only
    obtain ⟨f1, f2, f3, f4⟩ := second_pass_operand_spec symbol_table
      (decide (instruction.operand_amount ≥ 1)) instruction.operand1 ((st.IC + 1) % 2 ^ 32)
      { st with line_num := st.line_num + 1 }
    generalize second_pass_operand symbol_table (decide (instruction.operand_amount ≥ 1))
      instruction.operand1 ((st.IC + 1) % 2 ^ 32) { st with line_num := st.line_num + 1 }
      = first at f1 f2 f3 f4 ⊢
    obtain ⟨g1, g2, g3, g4⟩ := second_pass_operand_spec symbol_table
      (decide (instruction.operand_amount ≥ 2)) instruction.operand2 ((st.IC + 2) % 2 ^ 32)
      first.1
    generalize second_pass_operand symbol_table (decide (instruction.operand_amount ≥ 2))
      instruction.operand2 ((st.IC + 2) % 2 ^ 32) first.1 = second at g1 g2 g3 g4 ⊢
    by_cases hinvalid : (first.2 || second.2) = true
    · rw [if_pos hinvalid]
      exact ⟨_, rfl, fun h => by simp at h⟩
    · rw [if_neg hinvalid]
      simp only [Bool.or_eq_true, not_or, Bool.not_eq_true] at hinvalid
      obtain ⟨words, hwritten, hlen⟩ := write_instruction_defined instruction
        second.1.instruction_image symbol_table second.1.IC
        (fun h => f4 hinvalid.1 (by simpa using h)) (fun h => g4 hinvalid.2 (by simpa using h))
      rw [hwritten]
      refine ⟨_, rfl, fun h => ⟨?_, encode_instruction instruction :: words, ?_, ?_, ?_⟩⟩
      · simp only at h
        rw [g3, f3] at h
        exact h
      · simp only
        rw [g2, f2]
      · simp only [List.length_cons, line_instruction_words, hval, hlen]
      · intro other hother
        cases hother
        exact ⟨words, rfl⟩

theorem second_pass_fold_spec (symbol_table : SymbolTable) (lines : List ParseLineData)
    (st : SecondPassState) :
    ∃ final, lines.foldlM (second_pass_line symbol_table) st = some final
      ∧ (final.encountered_error = false →
          st.encountered_error = false
          ∧ ∃ words, final.instruction_image = st.instruction_image ++ words
            ∧ words.length = instruction_words lines) := by
  induction lines generalizing st with
  | nil => exact ⟨st, rfl, fun h => ⟨h, [], by simp, by simp [instruction_words]⟩⟩
  | cons line lines ih =>
    obtain ⟨next, hnext, hstep⟩ := second_pass_line_spec symbol_table st line
    obtain ⟨final, hfinal, hrest⟩ := ih next
    refine ⟨final, by rw [List.foldlM_cons, hnext]; exact hfinal, fun h => ?_⟩
    obtain ⟨hne, words2, himage2, hlen2⟩ := hrest h
    obtain ⟨hst, words1, himage1, hlen1, -⟩ := hstep hne
    refine ⟨hst, words1 ++ words2, by rw [himage2, himage1, List.append_assoc], ?_⟩
    have : instruction_words (line :: lines)
        = line_instruction_words line + instruction_words lines := by
      simp [instruction_words]
    rw [List.length_append, hlen1, hlen2, this]

theorem second_pass_loop_spec (symbol_table : SymbolTable) (lines : List ParseLineData) :
    ∃ final, second_pass_loop symbol_table lines = some final
      ∧ (final.encountered_error = false →
          final.instruction_image.length = instruction_words lines
          ∧ ∀ before line after instruction, lines = before ++ line :: after →
              line.val = PARSE_LINE_INSTRUCTION instruction →
              final.instruction_image[instruction_words before]?
                = some (encode_instruction instruction)) := by
  obtain ⟨final, hfinal, hspec⟩ := second_pass_fold_spec symbol_table lines second_pass_init
  refine ⟨final, hfinal, fun h => ?_⟩
  obtain ⟨-, words, himage, hlen⟩ := hspec h
  refine ⟨by rw [himage, ← hlen]; simp [second_pass_init], ?_⟩
  intro before line after instruction hsplit hval
  subst hsplit
  obtain ⟨mid, hmid, hmidspec⟩ := second_pass_fold_spec symbol_table before second_pass_init
  rw [List.foldlM_append, hmid] at hfinal
  obtain ⟨next, hnext, hstep⟩ := second_pass_line_spec symbol_table mid line
  obtain ⟨last, hlast, hrest⟩ := second_pass_fold_spec symbol_table after next
  have hfinal' : some final = some last := by
    rw [← hfinal, ← hlast]
    show (line :: after).foldlM (second_pass_line symbol_table) mid = _
    rw [List.foldlM_cons, hnext]
    rfl
  cases hfinal'
  obtain ⟨hne, words3, himage3, -⟩ := hrest h
  obtain ⟨hm, words2, himage2, -, hhead⟩ := hstep hne
  obtain ⟨-, words1, himage1, hlen1⟩ := hmidspec hm
  obtain ⟨extra, hextra⟩ := hhead instruction hval
  have hinit : second_pass_init.instruction_image = [] := rfl
  rw [himage3, himage2, himage1, hextra, ← hlen1, hinit, List.nil_append, List.append_assoc,
    List.getElem?_append_right (Nat.le_refl _), Nat.sub_self, List.cons_append,
    List.getElem?_cons_zero]

/-! ## Agreement of the two passes -/

/-- C8: on a source on which `first_pass` and `second_pass` report no error,
the instruction image has `IC_final - 100` words and the data image
`DC_final` words; the address of every code label is 100 plus the index of
the head word that the second pass emits for its instruction, and the
address of every data label is 100 plus the length of the instruction image
plus the index in the data image of the data of its directive. The data of
a line is within the capacity of the arrays of `Directive`. -/
theorem passes_agree (lines : List ParseLineData)
    (hcap : ∀ line ∈ lines, (line_data line).length ≤ MAX_LINE_LENGTH)
    (hfirst : (first_pass lines).encountered_error = false) :
    ∃ result, second_pass lines (first_pass lines) = some result
      ∧ (result.encountered_error = false →
          result.instruction_image.length = (first_pass_loop lines).IC - 100
          ∧ result.data_image.length = (first_pass_loop lines).DC
          ∧ result.instruction_image.length + result.data_image.length
              = (first_pass_loop lines).IC - 100 + (first_pass_loop lines).DC
          ∧ (∀ symbol ∈ result.symbol_table, symbol.context = SYMBOL_CONTEXT_CODE →
              ∃ before line after instruction, lines = before ++ line :: after
                ∧ line.parse_label_data = HAS_SYMBOL symbol.name
                ∧ line.val = PARSE_LINE_INSTRUCTION instruction
                ∧ 100 ≤ symbol.addr
                ∧ result.instruction_image[symbol.addr - 100]?
                    = some (encode_instruction instruction))
          ∧ (∀ symbol ∈ result.symbol_table, symbol.context = SYMBOL_CONTEXT_DATA →
              ∃ before line after directive, lines = before ++ line :: after
                ∧ line.parse_label_data = HAS_SYMBOL symbol.name
                ∧ line.val = PARSE_LINE_DIRECTIVE directive
                ∧ result.data_image
                    = source_data before
                        ++ (handle_data_and_string_directive directive []).1
                        ++ source_data after
                ∧ symbol.addr
                    = 100 + result.instruction_image.length + (source_data before).length)) := by
  have hok := first_pass_no_error_no_alloc_fail lines hfirst
  obtain ⟨hloop, -, hdata⟩ := first_pass_result_spec lines hok
  have hfit : 100 + instruction_words lines + data_words lines < 2 ^ 32 := by
    have hle := first_pass_loop_no_overflow lines hcap hloop
      (first_pass_no_error_no_overflow lines hfirst)
    have hmax : MAX_ADDRESS = 2097151 := by decide
    omega
  obtain ⟨i1, i2, -, i4, -⟩ := first_pass_loop_spec lines hloop (by omega) (by omega)
  obtain ⟨final, hfinal, hspec⟩ := second_pass_loop_spec (first_pass lines).symbol_table lines
  refine ⟨_, by unfold second_pass; rw [hfinal], fun herr => ?_⟩
  simp only at herr ⊢
  obtain ⟨hlen, hhead⟩ := hspec herr
  have hdlen : (first_pass lines).data_image.length = data_words lines := by
    rw [hdata, i4, source_data_length]
  refine ⟨by rw [hlen, i1]; omega, by rw [hdlen, i2], by rw [hlen, hdlen, i1, i2]; omega, ?_, ?_⟩
  · intro symbol hmem hctx
    obtain ⟨before, line, after, hsplit, -, -, -, -, -, hcode, -⟩ :=
      first_pass_symbol_origin lines hfit hok symbol hmem
    obtain ⟨hlabel, ⟨instruction, hval⟩, haddr⟩ := hcode hctx
    refine ⟨before, line, after, instruction, hsplit, hlabel, hval, by omega, ?_⟩
    rw [haddr, Nat.add_sub_cancel_left]
    exact hhead before line after instruction hsplit hval
  · intro symbol hmem hctx
    obtain ⟨before, line, after, hsplit, -, -, -, -, -, -, hdatasym⟩ :=
      first_pass_symbol_origin lines hfit hok symbol hmem
    obtain ⟨hlabel, ⟨directive, hval, -⟩, haddr⟩ := hdatasym hctx
    refine ⟨before, line, after, directive, hsplit, hlabel, hval, ?_, ?_⟩
    · rw [hdata, i4]
      conv_lhs => rw [hsplit]
      have hcons : source_data (line :: after) = line_data line ++ source_data after := by
        simp [source_data]
      rw [source_data_append, hcons, List.append_assoc]
      simp only [line_data, hval]
    · rw [haddr, hlen, source_data_length]
      omega

/-- Witness of C8 at `example_source`. -/
theorem passes_agree_witness :
    ∃ result, second_pass example_source (first_pass example_source) = some result
      ∧ (result.encountered_error = false →
          result.instruction_image.length = (first_pass_loop example_source).IC - 100
          ∧ result.data_image.length = (first_pass_loop example_source).DC
          ∧ result.instruction_image.length + result.data_image.length
              = (first_pass_loop example_source).IC - 100 + (first_pass_loop example_source).DC
          ∧ (∀ symbol ∈ result.symbol_table, symbol.context = SYMBOL_CONTEXT_CODE →
              ∃ before line after instruction, example_source = before ++ line :: after
                ∧ line.parse_label_data = HAS_SYMBOL symbol.name
                ∧ line.val = PARSE_LINE_INSTRUCTION instruction
                ∧ 100 ≤ symbol.addr
                ∧ result.instruction_image[symbol.addr - 100]?
                    = some (encode_instruction instruction))
          ∧ (∀ symbol ∈ result.symbol_table, symbol.context = SYMBOL_CONTEXT_DATA →
              ∃ before line after directive, example_source = before ++ line :: after
                ∧ line.parse_label_data = HAS_SYMBOL symbol.name
                ∧ line.val = PARSE_LINE_DIRECTIVE directive
                ∧ result.data_image
                    = source_data before
                        ++ (handle_data_and_string_directive directive []).1
                        ++ source_data after
                ∧ symbol.addr
                    = 100 + result.instruction_image.length + (source_data before).length)) :=
  passes_agree example_source (by decide) (by decide)

/-! ## External references -/

/-- C7: on `.extern EXT`, `add r1, EXT` the second pass writes the head word
at address 100 and the extra word of `EXT` (value 1) at address 101, the index
1 of the instruction image, and records the address 102 for `EXT` in the
external reference list. -/
theorem second_pass_external_second_operand :
    (second_pass external_second_operand_source (first_pass external_second_operand_source)).map
        (fun result => (result.encountered_error, result.instruction_image,
          result.external_symbols.map (fun symbol => (symbol.name, symbol.addr))))
      = some (false, [731148, 1], [("EXT", 102)]) := by
  decide

/-! ## Invariants of the first pass -/

theorem symbol_table_search_some (symbol_table : SymbolTable) (name : String) (symbol : Symbol)
    (h : symbol_table_search symbol_table name = some symbol) :
    symbol ∈ symbol_table ∧ symbol.name = name := by
  unfold symbol_table_search at h
  exact ⟨List.mem_of_find?_eq_some h, by simpa using List.find?_some h⟩

theorem symbol_table_search_none (symbol_table : SymbolTable) (name : String)
    (h : symbol_table_search symbol_table name = none) :
    name ∉ symbol_table.map Symbol.name := by
  unfold symbol_table_search at h
  rw [List.find?_eq_none] at h
  intro hmem
  obtain ⟨symbol, hsymbol, hname⟩ := List.mem_map.mp hmem
  exact absurd (h symbol hsymbol) (by simp [hname])

theorem first_pass_define_cases (st : FirstPassState) (name : String) (addr : Nat)
    (ctx : SymbolContext) :
    (∃ symbol, symbol_table_search st.symbol_table name = some symbol
        ∧ first_pass_define st name addr ctx
          = { st with
              errors := st.errors ++ [ERROR_TYPE_SYMBOL_ALREADY_DEFINED st.line_num symbol],
              encountered_error := true })
      ∨ (symbol_table_search st.symbol_table name = none
        ∧ first_pass_define st name addr ctx
          = { st with alloc_fail := true, encountered_error := true })
      ∨ (symbol_table_search st.symbol_table name = none
        ∧ first_pass_define st name addr ctx
          = { st with symbol_table := st.symbol_table ++ [⟨addr, ctx, name, st.line_num⟩] }) := by
  unfold first_pass_define
  cases hsearch : symbol_table_search st.symbol_table name with
  | some symbol => exact Or.inl ⟨symbol, rfl, rfl⟩
  | none =>
    simp only [symbol_table_insert, strdup]
    by_cases hlen : name.length = 0
    · exact Or.inr (Or.inl ⟨trivial, by simp [hlen]⟩)
    · exact Or.inr (Or.inr ⟨trivial, by simp [hlen]⟩)

theorem first_pass_define_invariant (st : FirstPassState) (name : String) (addr : Nat)
    (ctx : SymbolContext) (haddr : ctx = SYMBOL_CONTEXT_EXTERNAL → addr = 0)
    (h : first_pass_invariant st) :
    first_pass_invariant (first_pass_define st name addr ctx)
      ∧ first_pass_continues st (first_pass_define st name addr ctx) := by
  obtain ⟨h1, h2, h3, h4, h5, h6⟩ := h
  rcases first_pass_define_cases st name addr ctx with ⟨symbol, -, e⟩ | ⟨-, e⟩ | ⟨hnone, e⟩
  · rw [e]
    exact ⟨⟨h1, h2, h3, fun _ => rfl, fun _ => rfl, h6⟩, fun _ => rfl, _, rfl⟩
  · rw [e]
    exact ⟨⟨h1, h2, h3, fun _ => rfl, fun _ => rfl, h6⟩, fun _ => rfl, [], by simp⟩
  · rw [e]
    refine ⟨⟨?_, ?_, h3, h4, h5, h6⟩, fun h => h, [], by simp⟩
    · simp only [List.map_append, List.map_cons, List.map_nil]
      rw [List.nodup_append]
      refine ⟨h1, by simp, ?_⟩
      intro a ha hb
      simp only [List.mem_singleton] at hb
      subst hb
      exact symbol_table_search_none _ _ hnone ha
    · intro symbol hmem hctx
      rcases List.mem_append.mp hmem with hm | hm
      · exact h2 symbol hm hctx
      · simp only [List.mem_singleton] at hm
        subst hm
        exact haddr hctx

theorem first_pass_continues_refl (st : FirstPassState) : first_pass_continues st st :=
  ⟨fun h => h, [], by simp⟩

theorem first_pass_continues_trans (a b c : FirstPassState) (hab : first_pass_continues a b)
    (hbc : first_pass_continues b c) : first_pass_continues a c := by
  obtain ⟨h1, m1, e1⟩ := hab
  obtain ⟨h2, m2, e2⟩ := hbc
  exact ⟨fun h => h2 (h1 h), m1 ++ m2, by rw [e2, e1, List.append_assoc]⟩

theorem first_pass_push_error_invariant (st : FirstPassState) (error : Error)
    (h : first_pass_invariant st) :
    first_pass_invariant { st with errors := st.errors ++ [error], encountered_error := true }
      ∧ first_pass_continues st
          { st with errors := st.errors ++ [error], encountered_error := true } := by
  obtain ⟨h1, h2, h3, h4, h5, h6⟩ := h
  exact ⟨⟨h1, h2, h3, fun _ => rfl, fun _ => rfl, h6⟩, fun _ => rfl, _, rfl⟩

theorem first_pass_label_invariant (line : ParseLineData) (st : FirstPassState)
    (h : first_pass_invariant st) :
    first_pass_invariant (first_pass_label line st)
      ∧ first_pass_continues st (first_pass_label line st) := by
  unfold first_pass_label
  split
  · split
    · exact ⟨h, first_pass_continues_refl st⟩
    · split
      · exact first_pass_define_invariant st _ _ _ (by simp) h
      · exact ⟨h, first_pass_continues_refl st⟩
    · exact first_pass_define_invariant st _ _ _ (by simp) h
  · exact first_pass_push_error_invariant st _ h
  · exact ⟨h, first_pass_continues_refl st⟩

theorem handle_length (directive : Directive) (data_vec : List Nat) :
    (handle_data_and_string_directive directive data_vec).1.length
      = data_vec.length + (handle_data_and_string_directive directive data_vec).2 := by
  cases directive with
  | data integers => simp [handle_data_eq]
  | string string => simp [handle_string_eq, Nat.add_assoc]
  | entry name => simp [handle_data_and_string_directive]
  | external name => simp [handle_data_and_string_directive]

theorem first_pass_content_invariant (line : ParseLineData) (st : FirstPassState)
    (h : first_pass_invariant st) :
    first_pass_invariant (first_pass_content line st)
      ∧ first_pass_continues st (first_pass_content line st) := by
  unfold first_pass_content
  split
  · exact first_pass_push_error_invariant st _ h
  · split
    · exact first_pass_define_invariant st _ _ _ (fun _ => rfl) h
    · obtain ⟨h1, h2, h3, h4, h5, h6⟩ := h
      refine ⟨⟨h1, h2, ?_, h4, h5, h6⟩, fun h => h, [], by simp⟩
      simp only [handle_length, h3]
      omega
  · obtain ⟨h1, h2, h3, h4, h5, h6⟩ := h
    exact ⟨⟨h1, h2, h3, h4, h5, Nat.mod_lt _ (by norm_num)⟩, fun h => h, [], by simp⟩
  · exact ⟨h, first_pass_continues_refl st⟩

theorem first_pass_memory_check_invariant (st : FirstPassState) (h : first_pass_invariant st) :
    first_pass_invariant (first_pass_memory_check st)
      ∧ first_pass_continues st (first_pass_memory_check st) := by
  unfold first_pass_memory_check
  split
  · exact ⟨h, fun h => h, [], by simp⟩
  · exact ⟨h, first_pass_continues_refl st⟩

theorem first_pass_line_invariant (st : FirstPassState) (line : ParseLineData)
    (h : first_pass_invariant st) :
    first_pass_invariant (first_pass_line st line)
      ∧ first_pass_continues st (first_pass_line st line) := by
  have h0 : first_pass_invariant { st with line_num := st.line_num + 1 }
      ∧ first_pass_continues st { st with line_num := st.line_num + 1 } :=
    ⟨h, fun h => h, [], by simp⟩
  have h1 := first_pass_label_invariant line _ h0.1
  have h2 := first_pass_content_invariant line _ h1.1
  have h3 := first_pass_memory_check_invariant _ h2.1
  have c1 := first_pass_continues_trans _ _ _ h0.2 h1.2
  have c2 := first_pass_continues_trans _ _ _ c1 h2.2
  have c3 := first_pass_continues_trans _ _ _ c2 h3.2
  unfold first_pass_line
  by_cases ha : st.alloc_fail = true
  · rw [if_pos ha]
    exact ⟨h, first_pass_continues_refl st⟩
  · rw [if_neg ha]
    cases hval : line.val <;> dsimp only <;> first
      | exact h0
      | (split_ifs
         · exact ⟨h1.1, c1⟩
         · exact ⟨h2.1, c2⟩
         · exact ⟨h3.1, c3⟩)

theorem first_pass_fold_invariant (lines : List ParseLineData) (st : FirstPassState)
    (h : first_pass_invariant st) :
    first_pass_invariant (lines.foldl first_pass_line st)
      ∧ first_pass_continues st (lines.foldl first_pass_line st) := by
  induction lines generalizing st with
  | nil => exact ⟨h, first_pass_continues_refl st⟩
  | cons line rest ih =>
    have h1 := first_pass_line_invariant st line h
    have h2 := ih _ h1.1
    exact ⟨h2.1, first_pass_continues_trans _ _ _ h1.2 h2.2⟩

theorem first_pass_init_invariant : first_pass_invariant first_pass_init := by
  refine ⟨by simp [first_pass_init], by simp [first_pass_init], rfl, by simp [first_pass_init],
    by simp [first_pass_init], by decide⟩

theorem first_pass_loop_invariant (lines : List ParseLineData) :
    first_pass_invariant (first_pass_loop lines) :=
  (first_pass_fold_invariant lines _ first_pass_init_invariant).1

/-! ## The data counter -/

theorem char_to_int_ascii (c : Char) (h : c.toNat < 128) : to_uint32 (char_to_int c) = c.toNat := by
  unfold char_to_int to_uint32
  have h1 : c.toNat % 256 = c.toNat := Nat.mod_eq_of_lt (by omega)
  rw [h1, if_pos h]
  omega

set_option maxRecDepth 8000 in
/-- C20: `handle_data_and_string_directive` appends the words of the integers
of a `.data` directive and returns their number, and appends nothing and
returns 0 for `.entry` and `.extern`; after every line of `first_pass` the
counter `DC` is the length of the data image. For a `.string` directive it
appends one word for each character and then one 0 word and returns the
length plus one, but the word of a character is the value of the `char`
converted to `uint32`: it is the character code only for codes below 128.
For the string that consists of the byte 0xc3, which `parse_line` takes from
the line `.string "Ã"`, the word appended is 4294967235 and not the
character code 195; its 24 bits written to the object file are `ffffc3`. -/
theorem handle_data_and_string_directive_spec :
    parse_line [ '.', 's', 't', 'r', 'i', 'n', 'g', ' ', '"', Char.ofNat 195, '"', '\n' ]
        = some { parse_label_data := DOES_NOT_HAVE_SYMBOL,
                 val := PARSE_LINE_DIRECTIVE (.string (String.mk [Char.ofNat 195])) }
      ∧ handle_data_and_string_directive (.string (String.mk [Char.ofNat 195])) []
        = ([4294967235, 0], 2)
      ∧ (first_pass [ { parse_label_data := DOES_NOT_HAVE_SYMBOL,
                        val := PARSE_LINE_DIRECTIVE (.string (String.mk [Char.ofNat 195])) } ]
          ).data_image = [4294967235, 0]
      ∧ (Char.ofNat 195).toNat = 195
      ∧ TO_24_BITS 4294967235 = 0xffffc3
      ∧ (∀ (integers : List Int) (data_vec : List Nat),
        handle_data_and_string_directive (.data integers) data_vec
          = (data_vec ++ integers.map to_uint32, integers.length))
      ∧ (∀ (string : String) (data_vec : List Nat),
        handle_data_and_string_directive (.string string) data_vec
          = (data_vec ++ string.toList.map (fun c => to_uint32 (char_to_int c)) ++ [0],
              string.length + 1))
      ∧ (∀ (string : String) (data_vec : List Nat), (∀ c ∈ string.toList, c.toNat < 128) →
        handle_data_and_string_directive (.string string) data_vec
          = (data_vec ++ string.toList.map Char.toNat ++ [0], string.length + 1))
      ∧ (∀ (name : String) (data_vec : List Nat),
        handle_data_and_string_directive (.entry name) data_vec = (data_vec, 0))
      ∧ (∀ (name : String) (data_vec : List Nat),
        handle_data_and_string_directive (.external name) data_vec = (data_vec, 0))
      ∧ ∀ lines : List ParseLineData,
        (first_pass_loop lines).DC = (first_pass_loop lines).data_image.length % 2 ^ 32
          ∧ ((first_pass_loop lines).data_image.length < 2 ^ 32 →
              (first_pass_loop lines).DC = (first_pass_loop lines).data_image.length) := by
  refine ⟨by decide, by decide, by decide, by decide, by decide, handle_data_eq, ?_, ?_,
    fun _ _ => rfl, fun _ _ => rfl, ?_⟩
  · intro string data_vec
    rw [handle_string_eq]
    rfl
  · intro string data_vec hascii
    rw [handle_string_eq]
    have hmap : string.toList.map (fun c => to_uint32 (char_to_int c))
        = string.toList.map Char.toNat :=
      List.map_congr_left (fun c hc => char_to_int_ascii c (hascii c hc))
    rw [hmap]
    rfl
  · intro lines
    have h := (first_pass_loop_invariant lines).2.2.1
    exact ⟨h, fun hlt => by rw [h, Nat.mod_eq_of_lt hlt]⟩

/-! ## Names are defined once -/

theorem first_pass_finalize_names (IC : Nat) (symbol_table : SymbolTable) :
    (first_pass_finalize IC symbol_table).map Symbol.name = symbol_table.map Symbol.name := by
  unfold first_pass_finalize
  rw [List.map_map]
  apply List.map_congr_left
  intro symbol _
  simp only [Function.comp]
  split <;> rfl

theorem first_pass_report_overflow_continues (st : FirstPassState) :
    first_pass_continues st (first_pass_report_overflow st) := by
  unfold first_pass_report_overflow
  split
  · exact ⟨fun _ => rfl, _, rfl⟩
  · exact first_pass_continues_refl st

theorem first_pass_state_continues (lines : List ParseLineData) :
    first_pass_continues (first_pass_loop lines) (first_pass_state lines) := by
  unfold first_pass_state
  dsimp only
  split
  · exact first_pass_continues_refl _
  · exact first_pass_report_overflow_continues _

theorem first_pass_names (lines : List ParseLineData) :
    (first_pass lines).symbol_table.map Symbol.name
      = (first_pass_loop lines).symbol_table.map Symbol.name := by
  unfold first_pass first_pass_state
  dsimp only
  split
  · rfl
  · rw [first_pass_finalize_names]
    unfold first_pass_report_overflow
    split <;> rfl

theorem symbol_defined_at_defines (IC DC line_num : Nat) (line : ParseLineData) (symbol : Symbol)
    (h : symbol_defined_at IC DC line_num line symbol) :
    symbol.line = line_num ∧ line_defines line symbol.name := by
  obtain ⟨hline, hctx⟩ := h
  refine ⟨hline, ?_⟩
  cases hc : symbol.context <;> simp only [hc] at hctx
  · exact Or.inl ⟨hctx.1, Or.inl hctx.2.1⟩
  · exact Or.inl ⟨hctx.1, Or.inr hctx.2.1⟩
  · exact Or.inr hctx.1

theorem first_pass_loop_origin (lines : List ParseLineData)
    (hok : (first_pass_loop lines).alloc_fail = false) :
    (first_pass_loop lines).line_num = lines.length
      ∧ ∀ symbol ∈ (first_pass_loop lines).symbol_table,
          ∃ before line after, lines = before ++ line :: after
            ∧ symbol.line = before.length + 1 ∧ line_defines line symbol.name := by
  induction lines using List.reverseRecOn with
  | nil => exact ⟨rfl, fun symbol hmem => by simp [first_pass_loop, first_pass_init] at hmem⟩
  | append_singleton before line ih =>
    rw [first_pass_loop_snoc] at hok ⊢
    have hinv := first_pass_loop_invariant before
    have hDC : (first_pass_loop before).DC < 2 ^ 32 := by
      rw [hinv.2.2.1]
      exact Nat.mod_lt _ (by norm_num)
    obtain ⟨hprev, -, -, hnum, -, new, htable, hnew⟩ :=
      first_pass_line_spec _ line hok hinv.2.2.2.2.2 hDC
    obtain ⟨ihnum, ihorigin⟩ := ih hprev
    refine ⟨by rw [hnum, ihnum, List.length_append]; rfl, ?_⟩
    intro symbol hmem
    rw [htable] at hmem
    rcases List.mem_append.mp hmem with hm | hm
    · obtain ⟨b, l, a, hb, horigin⟩ := ihorigin symbol hm
      exact ⟨b, l, a ++ [line], by rw [hb]; simp, horigin⟩
    · have h := symbol_defined_at_defines _ _ _ _ _ (hnew symbol hm)
      exact ⟨before, line, [], rfl, by rw [h.1, ihnum], h.2⟩

theorem first_pass_line_duplicate (st : FirstPassState) (line : ParseLineData) (name : String)
    (symbol : Symbol) (hok : st.alloc_fail = false)
    (hsearch : symbol_table_search st.symbol_table name = some symbol)
    (hdef : line_defines line name) :
    (first_pass_line st line).symbol_table = st.symbol_table
      ∧ (first_pass_line st line).encountered_error = true
      ∧ (first_pass_line st line).alloc_fail = false
      ∧ ERROR_TYPE_SYMBOL_ALREADY_DEFINED (st.line_num + 1) symbol
          ∈ (first_pass_line st line).errors := by
  rcases hdef with ⟨hlabel, ⟨instruction, hval⟩ | ⟨directive, hval, htype⟩⟩ | hval
  · simp [first_pass_line, first_pass_label, first_pass_content, first_pass_define,
      first_pass_memory_check, hok, hlabel, hval, hsearch]
    split <;> simp
  · cases directive with
    | data integers =>
      simp [first_pass_line, first_pass_label, first_pass_content, first_pass_define,
        first_pass_memory_check, hok, hlabel, hval, hsearch, Directive.type]
      split <;> simp
    | string string =>
      simp [first_pass_line, first_pass_label, first_pass_content, first_pass_define,
        first_pass_memory_check, hok, hlabel, hval, hsearch, Directive.type]
      split <;> simp
    | entry name => simp [Directive.type] at htype
    | external name => simp [Directive.type] at htype
  · cases hlabel : line.parse_label_data <;>
      simp [first_pass_line, first_pass_label, first_pass_content, first_pass_define,
        first_pass_memory_check, hok, hlabel, hval, hsearch, Directive.type] <;>
      split <;> simp

/-- C11: after `first_pass` on any source no two symbols of the table have
the same name; and when a line that is read defines a name (by its label
before an instruction, `.data` or `.string`, or by `.extern`) that the table
already holds as `symbol`, the line leaves the table unchanged,
`encountered_error` is set in the result, and
`ERROR_TYPE_SYMBOL_ALREADY_DEFINED` is delivered with the number of the line
and with `symbol`, the entry of the earlier line that defined the name. -/
theorem first_pass_names_defined_once :
    (∀ lines : List ParseLineData, ((first_pass lines).symbol_table.map Symbol.name).Nodup)
      ∧ ∀ (before : List ParseLineData) (line : ParseLineData) (after : List ParseLineData)
          (name : String) (symbol : Symbol),
          (first_pass_loop before).alloc_fail = false →
          line_defines line name →
          symbol_table_search (first_pass_loop before).symbol_table name = some symbol →
          (first_pass_loop (before ++ [line])).symbol_table
              = (first_pass_loop before).symbol_table
            ∧ (first_pass (before ++ line :: after)).encountered_error = true
            ∧ ERROR_TYPE_SYMBOL_ALREADY_DEFINED (before.length + 1) symbol
                ∈ (first_pass_state (before ++ line :: after)).errors
            ∧ symbol.name = name
            ∧ ∃ earlier first between, before = earlier ++ first :: between
                ∧ symbol.line = earlier.length + 1 ∧ line_defines first name := by
  refine ⟨fun lines => ?_, ?_⟩
  · rw [first_pass_names]
    exact (first_pass_loop_invariant lines).1
  · intro before line after name symbol hok hdef hsearch
    obtain ⟨hnum, horigin⟩ := first_pass_loop_origin before hok
    obtain ⟨hmem, hname⟩ := symbol_table_search_some _ _ _ hsearch
    obtain ⟨htable, herror, -, hdelivered⟩ :=
      first_pass_line_duplicate _ line name symbol hok hsearch hdef
    rw [hnum] at hdelivered
    have hsplit : first_pass_loop (before ++ line :: after)
        = after.foldl first_pass_line (first_pass_line (first_pass_loop before) line) := by
      simp [first_pass_loop, List.foldl_append]
    have hcont : first_pass_continues (first_pass_line (first_pass_loop before) line)
        (first_pass_state (before ++ line :: after)) := by
      refine first_pass_continues_trans _ _ _ ?_ (first_pass_state_continues _)
      rw [hsplit]
      exact (first_pass_fold_invariant after _
        (first_pass_line_invariant _ line (first_pass_loop_invariant before)).1).2
    obtain ⟨hflag, more, hmore⟩ := hcont
    refine ⟨by rw [first_pass_loop_snoc]; exact htable, hflag herror, ?_, hname, ?_⟩
    · rw [hmore]
      exact List.mem_append_left _ hdelivered
    · obtain ⟨earlier, first, between, hb, hline, hfirst⟩ := horigin symbol hmem
      exact ⟨earlier, first, between, hb, hline, hname ▸ hfirst⟩

/-- Witness of C11 at `DUP: inc r1`, `DUP: dec r2`: the second line leaves
the table as it was and the error carries the entry of line 1. -/
theorem first_pass_names_defined_once_witness :
    (first_pass_loop ([duplicate_label_source.get ⟨0, by decide⟩]
        ++ [duplicate_label_source.get ⟨1, by decide⟩])).symbol_table = [duplicate_label_symbol]
      ∧ (first_pass duplicate_label_source).encountered_error = true
      ∧ (first_pass_state duplicate_label_source).errors
          = [ERROR_TYPE_SYMBOL_ALREADY_DEFINED 2 duplicate_label_symbol] := by
  have h := first_pass_names_defined_once.2 [duplicate_label_source.get ⟨0, by decide⟩]
    (duplicate_label_source.get ⟨1, by decide⟩) [] "DUP" duplicate_label_symbol (by decide)
    (Or.inl ⟨rfl, Or.inl ⟨_, rfl⟩⟩) (by decide)
  exact ⟨h.1.trans (by decide), h.2.1, by decide⟩

/-! ## Invariants of the second pass -/

theorem second_pass_operand_lists (symbol_table : SymbolTable) (is_present : Bool)
    (operand : Operand) (addr : Nat) (st : SecondPassState) :
    (second_pass_operand symbol_table is_present operand addr st).1.entry_symbols
        = st.entry_symbols
      ∧ (second_pass_operand symbol_table is_present operand addr st).1.line_num = st.line_num
      ∧ ((second_pass_operand symbol_table is_present operand addr st).2 = false →
          (second_pass_operand symbol_table is_present operand addr st).1.errors = st.errors)
      ∧ ((∀ reference ∈ st.external_symbols, external_reference_of symbol_table reference) →
          ∀ reference ∈ (second_pass_operand symbol_table is_present operand addr st).1.external_symbols,
            external_reference_of symbol_table reference) := by
  unfold second_pass_operand
  split
  · cases hsearch : symbol_table_search symbol_table operand.symbol_name with
    | none => exact ⟨rfl, rfl, by simp, fun h => h⟩
    | some symbol =>
      simp only
      split
      · rename_i hctx
        refine ⟨rfl, rfl, fun _ => rfl, fun h reference hmem => ?_⟩
        rcases List.mem_append.mp hmem with hm | hm
        · exact h reference hm
        · simp only [List.mem_singleton] at hm
          subst hm
          have hname := (symbol_table_search_some _ _ _ hsearch).2
          exact ⟨symbol, by simpa [hname] using hsearch, hctx, rfl⟩
      · exact ⟨rfl, rfl, fun _ => rfl, fun h => h⟩
  · exact ⟨rfl, rfl, fun _ => rfl, fun h => h⟩

theorem second_pass_line_invariant (symbol_table : SymbolTable) (read : Nat)
    (st : SecondPassState) (line : ParseLineData)
    (h : second_pass_invariant symbol_table read st) :
    ∃ next, second_pass_line symbol_table st line = some next
      ∧ second_pass_invariant symbol_table (read + 1) next := by
  obtain ⟨next, hnext, -⟩ := second_pass_line_spec symbol_table st line
  refine ⟨next, hnext, ?_⟩
  obtain ⟨h1, h2, h3, h4⟩ := h
  unfold second_pass_line at hnext
  cases hval : line.val with
  | PARSE_LINE_COMMENT =>
    simp only [hval, Option.some.injEq] at hnext
    subst hnext
    exact ⟨h1, h2, h3, by simp [h4]⟩
  | PARSE_LINE_EMPTY =>
    simp only [hval, Option.some.injEq] at hnext
    subst hnext
    exact ⟨h1, h2, h3, by simp [h4]⟩
  | PARSE_LINE_ERROR e =>
    simp only [hval, Option.some.injEq] at hnext
    subst hnext
    exact ⟨h1, h2, h3, by simp [h4]⟩
  | PARSE_LINE_DIRECTIVE directive =>
    cases directive with
    | entry name =>
      simp only [hval] at hnext
      cases hsearch : symbol_table_search symbol_table name with
      | none =>
        simp only [hsearch, Option.some.injEq] at hnext
        subst hnext
        exact ⟨h1, h2, fun _ => rfl, by simp [h4]⟩
      | some symbol =>
        simp only [hsearch] at hnext
        by_cases hctx : symbol.context = SYMBOL_CONTEXT_EXTERNAL
        · rw [if_pos hctx, Option.some.injEq] at hnext
          subst hnext
          exact ⟨h1, h2, fun _ => rfl, by simp [h4]⟩
        · rw [if_neg hctx, Option.some.injEq] at hnext
          subst hnext
          refine ⟨h1, ?_, h3, by simp [h4]⟩
          intro entry hmem
          rcases List.mem_append.mp hmem with hm | hm
          · exact h2 entry hm
          · simp only [List.mem_singleton] at hm
            subst hm
            have hname := (symbol_table_search_some _ _ _ hsearch).2
            exact ⟨by rw [hname]; exact hsearch, hctx⟩
    | data integers =>
      simp only [hval, Option.some.injEq] at hnext
      subst hnext
      exact ⟨h1, h2, h3, by simp [h4]⟩
    | string string =>
      simp only [hval, Option.some.injEq] at hnext
      subst hnext
      exact ⟨h1, h2, h3, by simp [h4]⟩
    | external name =>
      simp only [hval, Option.some.injEq] at hnext
      subst hnext
      exact ⟨h1, h2, h3, by simp [h4]⟩
  | PARSE_LINE_INSTRUCTION instruction =>
    simp only [hval] at hnext
    obtain ⟨f1, f2, f3, f4⟩ := second_pass_operand_lists symbol_table
      (decide (instruction.operand_amount ≥ 1)) instruction.operand1 ((st.IC + 1) % 2 ^ 32)
      { st with line_num := st.line_num + 1 }
    obtain ⟨-, -, e1, -⟩ := second_pass_operand_spec symbol_table
      (decide (instruction.operand_amount ≥ 1)) instruction.operand1 ((st.IC + 1) % 2 ^ 32)
      { st with line_num := st.line_num + 1 }
    generalize second_pass_operand symbol_table (decide (instruction.operand_amount ≥ 1))
      instruction.operand1 ((st.IC + 1) % 2 ^ 32) { st with line_num := st.line_num + 1 }
      = first at f1 f2 f3 f4 e1 hnext
    obtain ⟨g1, g2, g3, g4⟩ := second_pass_operand_lists symbol_table
      (decide (instruction.operand_amount ≥ 2)) instruction.operand2 ((st.IC + 2) % 2 ^ 32)
      first.1
    obtain ⟨-, -, e2, -⟩ := second_pass_operand_spec symbol_table
      (decide (instruction.operand_amount ≥ 2)) instruction.operand2 ((st.IC + 2) % 2 ^ 32)
      first.1
    generalize second_pass_operand symbol_table (decide (instruction.operand_amount ≥ 2))
      instruction.operand2 ((st.IC + 2) % 2 ^ 32) first.1 = second at g1 g2 g3 g4 e2 hnext
    have hentries : ∀ symbol ∈ second.1.entry_symbols,
        symbol_table_search symbol_table symbol.name = some symbol
          ∧ symbol.context ≠ SYMBOL_CONTEXT_EXTERNAL := by
      rw [g1, f1]
      exact h2
    have hnum : second.1.line_num = read + 1 := by
      rw [g2, f2, ← h4]
    by_cases hinvalid : (first.2 || second.2) = true
    · rw [if_pos hinvalid, Option.some.injEq] at hnext
      subst hnext
      exact ⟨g4 (f4 h1), hentries, fun _ => rfl, hnum⟩
    · rw [if_neg hinvalid] at hnext
      simp only [Bool.or_eq_true, not_or, Bool.not_eq_true] at hinvalid
      have herrors : second.1.errors ≠ [] → second.1.encountered_error = true := by
        rw [g3 hinvalid.2, f3 hinvalid.1, e2, e1]
        exact h3
      cases hwritten : write_instruction instruction second.1.instruction_image symbol_table
          second.1.IC with
      | none => simp [hwritten] at hnext
      | some written =>
        simp only [hwritten, Option.some.injEq] at hnext
        subst hnext
        exact ⟨g4 (f4 h1), hentries, herrors, hnum⟩

theorem second_pass_fold_invariant (symbol_table : SymbolTable) (lines : List ParseLineData)
    (read : Nat) (st : SecondPassState) (h : second_pass_invariant symbol_table read st) :
    ∃ final, lines.foldlM (second_pass_line symbol_table) st = some final
      ∧ second_pass_invariant symbol_table (read + lines.length) final := by
  induction lines generalizing st read with
  | nil => exact ⟨st, rfl, h⟩
  | cons line rest ih =>
    obtain ⟨next, hnext, hinv⟩ := second_pass_line_invariant symbol_table read st line h
    obtain ⟨final, hfinal, hfinv⟩ := ih (read + 1) next hinv
    refine ⟨final, by rw [List.foldlM_cons, hnext]; exact hfinal, ?_⟩
    rw [List.length_cons, Nat.add_comm rest.length 1, ← Nat.add_assoc]
    exact hfinv

theorem second_pass_loop_invariant (symbol_table : SymbolTable) (lines : List ParseLineData) :
    ∃ final, second_pass_loop symbol_table lines = some final
      ∧ second_pass_invariant symbol_table lines.length final := by
  have h := second_pass_fold_invariant symbol_table lines 0 second_pass_init
    ⟨by simp [second_pass_init], by simp [second_pass_init], by simp [second_pass_init], rfl⟩
  rw [Nat.zero_add] at h
  exact h

/-! ## Entry directives and the lists of the second pass -/

theorem second_pass_loop_snoc (symbol_table : SymbolTable) (before : List ParseLineData)
    (line : ParseLineData) (st : SecondPassState)
    (h : second_pass_loop symbol_table before = some st) :
    second_pass_loop symbol_table (before ++ [line]) = second_pass_line symbol_table st line := by
  unfold second_pass_loop at h ⊢
  rw [List.foldlM_append, h]
  simp [List.foldlM_cons]

/-- C13: in `second_pass` a line `.entry name` read after the lines `before`
delivers `ERROR_TYPE_SYMBOL_NOT_DEFINED` when the name is not in the table
and `ERROR_TYPE_EXTERNAL_SYMBOL_USED_IN_ENTRY_DIRECTIVE` when its entry has
the context `SYMBOL_CONTEXT_EXTERNAL`, in both cases sets `encountered_error`
and leaves the entry list as it was; otherwise it appends the entry of the
table to the entry list and delivers no error. -/
theorem second_pass_entry_directive (symbol_table : SymbolTable) (before : List ParseLineData)
    (line : ParseLineData) (name : String)
    (hval : line.val = PARSE_LINE_DIRECTIVE (.entry name)) :
    ∃ st next, second_pass_loop symbol_table before = some st
      ∧ second_pass_loop symbol_table (before ++ [line]) = some next
      ∧ (symbol_table_search symbol_table name = none →
          next = { st with
            line_num := before.length + 1,
            errors := st.errors ++ [ERROR_TYPE_SYMBOL_NOT_DEFINED (before.length + 1) name],
            encountered_error := true })
      ∧ (∀ symbol, symbol_table_search symbol_table name = some symbol →
          symbol.context = SYMBOL_CONTEXT_EXTERNAL →
          next = { st with
            line_num := before.length + 1,
            errors := st.errors
              ++ [ERROR_TYPE_EXTERNAL_SYMBOL_USED_IN_ENTRY_DIRECTIVE (before.length + 1) symbol],
            encountered_error := true })
      ∧ (∀ symbol, symbol_table_search symbol_table name = some symbol →
          symbol.context ≠ SYMBOL_CONTEXT_EXTERNAL →
          next = { st with
            line_num := before.length + 1,
            entry_symbols := st.entry_symbols ++ [symbol] }
            ∧ symbol ∈ symbol_table ∧ symbol.name = name) := by
  obtain ⟨st, hst, -, -, -, hnum⟩ := second_pass_loop_invariant symbol_table before
  obtain ⟨next, hnext, -⟩ := second_pass_line_spec symbol_table st line
  refine ⟨st, next, hst, by rw [second_pass_loop_snoc _ _ _ _ hst]; exact hnext, ?_, ?_, ?_⟩
  · intro hsearch
    simp only [second_pass_line, hval, hsearch, hnum, Option.some.injEq] at hnext
    exact hnext.symm
  · intro symbol hsearch hctx
    simp only [second_pass_line, hval, hsearch, hnum, hctx, if_true, Option.some.injEq] at hnext
    exact hnext.symm
  · intro symbol hsearch hctx
    simp only [second_pass_line, hval, hsearch, hnum, hctx, if_false, Option.some.injEq] at hnext
    exact ⟨hnext.symm, symbol_table_search_some _ _ _ hsearch⟩

/-- Witness of C13 at `.extern E`, `.entry E`: the entry of `E` is external,
so the line delivers the error and the entry list stays empty. -/
theorem second_pass_entry_directive_witness :
    second_pass_loop [external_entry_symbol] external_entry_source
      = some { second_pass_init with
          line_num := 2,
          errors := [ERROR_TYPE_EXTERNAL_SYMBOL_USED_IN_ENTRY_DIRECTIVE 2 external_entry_symbol],
          encountered_error := true } := by
  obtain ⟨st, next, hst, hnext, -, h, -⟩ := second_pass_entry_directive [external_entry_symbol]
    [⟨DOES_NOT_HAVE_SYMBOL, PARSE_LINE_DIRECTIVE (.external "E")⟩]
    ⟨DOES_NOT_HAVE_SYMBOL, PARSE_LINE_DIRECTIVE (.entry "E")⟩ "E" rfl
  have hbefore : st = { second_pass_init with line_num := 1 } :=
    Option.some.inj (hst.symm.trans (by decide))
  have hresult := h external_entry_symbol (by decide) rfl
  rw [hbefore] at hresult
  exact hnext.trans (congrArg some hresult)

/-- C14: for every source and every result of the first pass, `second_pass`
returns, every element of its external reference list has a name whose
entry in the symbol table has the context `SYMBOL_CONTEXT_EXTERNAL`, and
every element of its entry list is the entry of the table found under its
name, whose context is not `SYMBOL_CONTEXT_EXTERNAL`. -/
theorem second_pass_list_contexts (lines : List ParseLineData)
    (first_pass_result : FirstPassResult) :
    ∃ result, second_pass lines first_pass_result = some result
      ∧ (∀ reference ∈ result.external_symbols,
          ∃ symbol, symbol_table_search result.symbol_table reference.name = some symbol
            ∧ symbol.context = SYMBOL_CONTEXT_EXTERNAL)
      ∧ (∀ entry ∈ result.entry_symbols,
          symbol_table_search result.symbol_table entry.name = some entry
            ∧ entry.context ≠ SYMBOL_CONTEXT_EXTERNAL) := by
  obtain ⟨final, hfinal, h1, h2, -, -⟩ :=
    second_pass_loop_invariant first_pass_result.symbol_table lines
  refine ⟨_, by unfold second_pass; rw [hfinal], ?_, h2⟩
  intro reference hmem
  obtain ⟨symbol, hsearch, hctx, -⟩ := h1 reference hmem
  exact ⟨symbol, hsearch, hctx⟩

/-- C12 at `X: stop`, `.entry X`, `.entry X`: both directives are accepted
without an error and the entry list of `second_pass` holds `X` twice. -/
theorem second_pass_duplicate_entry :
    (second_pass duplicate_entry_source (first_pass duplicate_entry_source)).map
        (fun result => (result.entry_symbols, result.encountered_error))
      = some ([duplicate_entry_symbol, duplicate_entry_symbol], false) := by
  decide

/-! ## The second pass keeps the table and the data image -/

theorem first_pass_external_addr (lines : List ParseLineData) (symbol : Symbol)
    (hmem : symbol ∈ (first_pass lines).symbol_table)
    (hctx : symbol.context = SYMBOL_CONTEXT_EXTERNAL) : symbol.addr = 0 := by
  have hinv := (first_pass_loop_invariant lines).2.1
  unfold first_pass first_pass_state at hmem
  dsimp only at hmem
  split at hmem
  · exact hinv symbol hmem hctx
  · have htable : (first_pass_report_overflow (first_pass_loop lines)).symbol_table
        = (first_pass_loop lines).symbol_table := by
      unfold first_pass_report_overflow
      split <;> rfl
    simp only [htable, first_pass_finalize, List.mem_map] at hmem
    obtain ⟨original, horiginal, heq⟩ := hmem
    by_cases hdata : original.context = SYMBOL_CONTEXT_DATA
    · rw [if_pos hdata] at heq
      subst heq
      simp only at hctx
      rw [hdata] at hctx
      cases hctx
    · rw [if_neg hdata] at heq
      subst heq
      exact hinv _ horiginal hctx

/-- C16: `second_pass` returns the symbol table and the data image that it
received, for every source; and after `first_pass` every element of the
external reference list is a copy of an external symbol of the table in
which only the address differs, while the entry of the table keeps the
address 0. -/
theorem second_pass_frame (lines : List ParseLineData) :
    (∀ first_pass_result : FirstPassResult,
        ∃ result, second_pass lines first_pass_result = some result
          ∧ result.symbol_table = first_pass_result.symbol_table
          ∧ result.data_image = first_pass_result.data_image)
      ∧ ∃ result, second_pass lines (first_pass lines) = some result
          ∧ ∀ reference ∈ result.external_symbols,
              ∃ symbol ∈ result.symbol_table,
                symbol_table_search result.symbol_table reference.name = some symbol
                  ∧ symbol.context = SYMBOL_CONTEXT_EXTERNAL
                  ∧ symbol.addr = 0
                  ∧ reference = { symbol with addr := reference.addr } := by
  constructor
  · intro first_pass_result
    obtain ⟨final, hfinal, -⟩ := second_pass_loop_invariant first_pass_result.symbol_table lines
    exact ⟨_, by unfold second_pass; rw [hfinal], rfl, rfl⟩
  · obtain ⟨final, hfinal, h1, -⟩ :=
      second_pass_loop_invariant (first_pass lines).symbol_table lines
    refine ⟨_, by unfold second_pass; rw [hfinal], ?_⟩
    intro reference hmem
    obtain ⟨symbol, hsearch, hctx, hcopy⟩ := h1 reference hmem
    have hin := (symbol_table_search_some _ _ _ hsearch).1
    exact ⟨symbol, hin, hsearch, hctx, first_pass_external_addr lines symbol hin hctx, hcopy⟩

/-! ## Errors and `encountered_error` -/

theorem first_pass_errors_flag (lines : List ParseLineData)
    (h : (first_pass_state lines).errors ≠ []) : (first_pass lines).encountered_error = true := by
  have hinv := first_pass_loop_invariant lines
  have hflag := hinv.2.2.2.1
  have halloc := hinv.2.2.2.2.1
  unfold first_pass
  unfold first_pass_state at h ⊢
  dsimp only at h ⊢
  by_cases ha : (first_pass_loop lines).alloc_fail = true
  · rw [if_pos ha] at h ⊢
    exact halloc ha
  · rw [if_neg ha] at h ⊢
    unfold first_pass_report_overflow at h ⊢
    by_cases ho : (first_pass_loop lines).memory_overflown = true
    · simp only [ho, if_true]
    · simp only [ho] at h ⊢
      exact hflag h

theorem second_pass_errors_flag (lines : List ParseLineData)
    (first_pass_result : FirstPassResult) :
    ∃ st result, second_pass_loop first_pass_result.symbol_table lines = some st
      ∧ second_pass lines first_pass_result = some result
      ∧ (st.errors ≠ [] → result.encountered_error = true) := by
  obtain ⟨final, hfinal, -, -, herrors, -⟩ :=
    second_pass_loop_invariant first_pass_result.symbol_table lines
  exact ⟨final, _, hfinal, by unfold second_pass; rw [hfinal], herrors⟩

set_option maxRecDepth 8000 in
/-- C15: an error delivered by `first_pass` or by `second_pass` sets
`encountered_error` in the result; but on the input `mcro` followed by a
newline `expand_macros` delivers `EXPAND_MACRO_EXPECTED_MACRO_NAME` for line
1 and returns `encountered_error = FALSE`. -/
theorem expand_macros_expected_name_no_flag :
    (∀ lines : List ParseLineData,
        (first_pass_state lines).errors ≠ [] → (first_pass lines).encountered_error = true)
      ∧ (∀ (lines : List ParseLineData) (first_pass_result : FirstPassResult),
        ∃ st result, second_pass_loop first_pass_result.symbol_table lines = some st
          ∧ second_pass lines first_pass_result = some result
          ∧ (st.errors ≠ [] → result.encountered_error = true))
      ∧ (expand_macros_state "mcro\n".toList).errors
          = [ERROR_TYPE_MACRO 1 EXPAND_MACRO_EXPECTED_MACRO_NAME]
      ∧ expand_macros "mcro\n".toList = { encountered_error := false, alloc_fail := false } :=
  ⟨first_pass_errors_flag, second_pass_errors_flag, by decide, by decide⟩

/-! ## Integers of the parser -/

set_option maxRecDepth 8000 in
/-- C17: `parse_int32_base10` returns `FALSE` on `1999999999`, on
`-1999999999` and on `0000000009`, whose values lie in
[-2147483648, 2147483647], while it returns `TRUE` on `2147483647`. -/
theorem parse_int32_base10_rejects_in_range :
    parse_int32_base10 "1999999999".toList
        = { success := false, integer := 1999999999, chars_read := 10, is_negative := false }
      ∧ parse_int32_base10 "-1999999999".toList
        = { success := false, integer := 1999999999, chars_read := 11, is_negative := true }
      ∧ parse_int32_base10 "0000000009".toList
        = { success := false, integer := 9, chars_read := 10, is_negative := false }
      ∧ parse_int32_base10 "2147483647".toList
        = { success := true, integer := 2147483647, chars_read := 10, is_negative := false } := by
  decide

set_option maxRecDepth 8000 in
/-- C18: `parse_data_directive` fails on the list `0000000009`, and on the
list `1, 00000000002`, with `PARSE_ERROR_DATA_DIRECTIVE_INTEGER_BIGGER_THAN_LIMIT`
although every value lies in [-2097152, 2097151]; without the leading zeros
the list `1, 2` succeeds. -/
theorem parse_data_directive_rejects_leading_zeros :
    parse_data_directive "0000000009".toList
        = some (.parse_error (.PARSE_ERROR_DATA_DIRECTIVE_INTEGER_BIGGER_THAN_LIMIT 0))
      ∧ parse_data_directive "1, 00000000002".toList
        = some (.parse_error (.PARSE_ERROR_DATA_DIRECTIVE_INTEGER_BIGGER_THAN_LIMIT 0))
      ∧ parse_data_directive "1, 2".toList = some (.parsed (.data [1, 2])) := by
  decide

set_option maxRecDepth 8000 in
/-- C19: for the literals `1999999999` and `-1999999999`, which are
representable in 32 bits, `parse_data_directive` fails with
`overflown_integer = 0`; the literals `2097152` and `-2097153` are rejected
with their values and `2097151` and `-2097152` are accepted. -/
theorem parse_data_directive_overflown_integer :
    parse_data_directive "1999999999".toList
        = some (.parse_error (.PARSE_ERROR_DATA_DIRECTIVE_INTEGER_BIGGER_THAN_LIMIT 0))
      ∧ parse_data_directive "-1999999999".toList
        = some (.parse_error (.PARSE_ERROR_DATA_DIRECTIVE_INTEGER_SMALLER_THAN_LIMIT 0))
      ∧ parse_data_directive "2097152".toList
        = some (.parse_error (.PARSE_ERROR_DATA_DIRECTIVE_INTEGER_BIGGER_THAN_LIMIT 2097152))
      ∧ parse_data_directive "-2097153".toList
        = some (.parse_error (.PARSE_ERROR_DATA_DIRECTIVE_INTEGER_SMALLER_THAN_LIMIT (-2097153)))
      ∧ parse_data_directive "2097151".toList = some (.parsed (.data [2097151]))
      ∧ parse_data_directive "-2097152".toList = some (.parsed (.data [-2097152])) := by
  decide

/-! ## Symbols -/

theorem isalnum_not_label_end (c : Char) (h : isalnum c = true) :
    parse_line_label_end_indicator c = false := by
  by_contra hend
  simp only [parse_line_label_end_indicator, decide_eq_false_iff_not, not_not] at hend
  subst hend
  revert h
  decide

theorem isalnum_not_space (c : Char) (h : isalnum c = true) : isspace c = false := by
  by_contra hspace
  simp only [isspace, Bool.or_eq_true, decide_eq_true_eq, Bool.not_eq_false] at hspace
  rcases hspace with ((((h1 | h1) | h1) | h1) | h1) | h1 <;> subst h1 <;> revert h <;> decide

theorem isalnum_not_default_end (c : Char) (h : isalnum c = true) :
    default_symbol_end_indicator c = false := by
  by_contra hend
  simp only [default_symbol_end_indicator, decide_eq_false_iff_not, not_not] at hend
  subst hend
  revert h
  decide

theorem isalnum_not_operand_end (c : Char) (h : isalnum c = true) :
    parse_operand_symbol_end_indicator c = false := by
  have h1 := isalnum_not_space c h
  have h2 := isalnum_not_default_end c h
  simp only [default_symbol_end_indicator, decide_eq_false_iff_not] at h2
  have h3 : c ≠ ',' := by
    intro hc
    subst hc
    revert h
    decide
  simp [parse_operand_symbol_end_indicator, h1, h2, h3]

theorem parse_symbol_loop_spec (symbol_end_indicator : Char → Bool) (line : List Char)
    (character_position : Nat) (error : Option SymbolScanError) :
    (parse_symbol_loop symbol_end_indicator line character_position error).1
        = decide ((line.dropWhile (fun c => !symbol_end_indicator c)) ≠ [])
      ∧ (parse_symbol_loop symbol_end_indicator line character_position error).2.1
        = character_position + (line.takeWhile (fun c => !symbol_end_indicator c)).length
      ∧ ((parse_symbol_loop symbol_end_indicator line character_position error).2.2 = none →
          error = none
            ∧ ∀ c ∈ line.takeWhile (fun c => !symbol_end_indicator c), isalnum c = true)
      ∧ (error = none →
          (∀ c ∈ line.takeWhile (fun c => !symbol_end_indicator c), isalnum c = true) →
          (parse_symbol_loop symbol_end_indicator line character_position error).2.2 = none) := by
  induction line generalizing character_position error with
  | nil => simp [parse_symbol_loop]
  | cons c line ih =>
    unfold parse_symbol_loop
    by_cases hend : symbol_end_indicator c = true
    · simp [hend]
    · simp only [hend, Bool.false_eq_true, if_false]
      have hend2 : symbol_end_indicator c = false := by simpa using hend
      by_cases halnum : isalnum c = true
      · obtain ⟨h1, h2, h3, h4⟩ := ih (character_position + 1) error
        simp only [halnum, Bool.not_true, Bool.false_eq_true, if_false]
        refine ⟨by simpa [List.dropWhile, hend2] using h1,
          by rw [h2]; simp [List.takeWhile, hend2]; omega, ?_, ?_⟩
        · intro hnone
          obtain ⟨he, hall⟩ := h3 hnone
          refine ⟨he, ?_⟩
          intro d hd
          simp only [List.takeWhile, hend2, Bool.not_false, List.mem_cons] at hd
          rcases hd with rfl | hd
          · exact halnum
          · exact hall d hd
        · intro he hall
          apply h4 he
          intro d hd
          apply hall
          simp only [List.takeWhile, hend2, Bool.not_false, List.mem_cons]
          exact Or.inr hd
      · obtain ⟨h1, h2, h3, h4⟩ := ih (character_position + 1)
          (some (.invalid_char_in_symbol c character_position))
        have halnum2 : isalnum c = false := by simpa using halnum
        simp only [halnum2, Bool.not_false, if_true]
        refine ⟨by simpa [List.dropWhile, hend2] using h1,
          by rw [h2]; simp [List.takeWhile, hend2]; omega, ?_, ?_⟩
        · intro hnone
          exact absurd (h3 hnone).1 (by simp)
        · intro _ hall
          have := hall c (by simp [List.takeWhile, hend2])
          rw [halnum2] at this
          cases this

theorem take_length_takeWhile (p : Char → Bool) (l : List Char) :
    l.take (l.takeWhile p).length = l.takeWhile p := by
  induction l with
  | nil => rfl
  | cons c l ih =>
    by_cases hp : p c = true
    · simp [List.takeWhile, hp, ih]
    · simp [List.takeWhile, hp]

theorem takeWhile_length_eq (p : Char → Bool) (l : List Char)
    (h : l.length ≤ (l.takeWhile p).length) : l.dropWhile p = [] := by
  have hl := congrArg List.length (List.takeWhile_append_dropWhile p l)
  rw [List.length_append] at hl
  exact List.length_eq_zero.mp (by omega)

theorem spec_identifier_iff (name : List Char) :
    spec_identifier name = true
      ↔ ∃ c rest, name = c :: rest ∧ isalpha c = true ∧ (∀ d ∈ rest, isalnum d = true)
          ∧ rest.length ≤ 30 := by
  cases name with
  | nil => simp [spec_identifier]
  | cons c rest =>
    unfold spec_identifier
    simp only [Bool.and_eq_true, Bool.or_eq_true, decide_eq_true_eq, List.all_eq_true]
    constructor
    · rintro ⟨⟨h1, h2⟩, h3⟩
      refine ⟨c, rest, rfl, ?_, ?_, h3⟩
      · simp only [isalpha, Bool.or_eq_true, Bool.and_eq_true, decide_eq_true_eq]
        tauto
      · intro d hd
        have := h2 d hd
        simp only [isalnum, isalpha, isdigit, Bool.or_eq_true, Bool.and_eq_true,
          decide_eq_true_eq]
        tauto
    · rintro ⟨c2, rest2, heq, h1, h2, h3⟩
      cases heq
      simp only [isalpha, Bool.or_eq_true, Bool.and_eq_true, decide_eq_true_eq] at h1
      refine ⟨⟨by tauto, ?_⟩, h3⟩
      intro d hd
      have := h2 d hd
      simp only [isalnum, isalpha, isdigit, Bool.or_eq_true, Bool.and_eq_true,
        decide_eq_true_eq] at this
      tauto

/-- What `parse_symbol` guarantees when it returns `HAS_SYMBOL`. -/
theorem parse_symbol_has_symbol (line : List Char) (symbol_end_indicator : Char → Bool)
    (parsed : ParseSymbol) (name : String)
    (h : parse_symbol line symbol_end_indicator = some parsed)
    (hname : parsed.data = HAS_SYMBOL name) :
    name = String.mk (line.take parsed.symbol_length)
      ∧ line.take parsed.symbol_length
          = line.takeWhile (fun c => !symbol_end_indicator c)
      ∧ spec_identifier (line.take parsed.symbol_length) = true
      ∧ is_a_directive (line.take parsed.symbol_length) = false
      ∧ is_an_instruction (line.take parsed.symbol_length) = false
      ∧ is_a_register (line.take parsed.symbol_length) = false
      ∧ (line.drop parsed.symbol_length = [] → symbol_end_indicator NUL = true) := by
  cases line with
  | nil =>
    simp only [parse_symbol] at h
    split at h
    · cases h
      cases hname
    · cases h
  | cons c rest =>
    simp only [parse_symbol] at h
    by_cases hend : symbol_end_indicator c = true
    · rw [if_pos hend] at h
      cases h
      cases hname
    · rw [if_neg hend] at h
      have hend2 : symbol_end_indicator c = false := by simpa using hend
      obtain ⟨l1, l2, l3, -⟩ := parse_symbol_loop_spec symbol_end_indicator rest 1
        (if (!isalpha c) = true then some (.starts_with_non_alphabethic_char c) else none)
      generalize parse_symbol_loop symbol_end_indicator rest 1
        (if (!isalpha c) = true then some (.starts_with_non_alphabethic_char c) else none)
        = scanned at h l1 l2 l3
      obtain ⟨found, symbol_len, error⟩ := scanned
      simp only at h l1 l2 l3
      have htake : (c :: rest).take symbol_len
          = (c :: rest).takeWhile (fun c => !symbol_end_indicator c) := by
        rw [l2, Nat.add_comm, List.take_succ_cons, take_length_takeWhile]
        simp [List.takeWhile, hend2]
      split at h
      · cases h
        cases hname
      · rename_i hsymbol
        split at h
        · cases h
          cases hname
        · rename_i hlen
          cases error with
          | some e =>
            cases e <;> simp only [Option.some.injEq] at h <;> subst h <;> cases hname
          | none =>
            obtain ⟨hstart, hall⟩ := l3 rfl
            simp only at h
            split at h
            · cases h
              cases hname
            · rename_i hdir
              split at h
              · cases h
                cases hname
              · rename_i hins
                split at h
                · cases h
                  cases hname
                · rename_i hreg
                  simp only [Option.some.injEq] at h
                  subst h
                  simp only [HAS_SYMBOL.injEq] at hname
                  subst hname
                  simp only
                  refine ⟨trivial, htake, ?_, by simpa using hdir, by simpa using hins,
                    by simpa using hreg, ?_⟩
                  · rw [spec_identifier_iff]
                    have halpha : isalpha c = true := by
                      by_contra hc
                      simp [hc] at hstart
                    refine ⟨c, rest.takeWhile (fun c => !symbol_end_indicator c), ?_, halpha,
                      hall, ?_⟩
                    · rw [htake]
                      simp [List.takeWhile, hend2]
                    · simp only [MAX_LABEL_SIZE] at hlen
                      omega
                  · intro hdrop
                    have hfound : found = false := by
                      rw [l1]
                      simp only [decide_eq_false_iff_not, not_not]
                      have hlen2 : (c :: rest).length ≤ symbol_len := by
                        simpa using List.drop_eq_nil_iff.mp hdrop
                      rw [l2, List.length_cons] at hlen2
                      exact takeWhile_length_eq _ rest (by omega)
                    simpa [hfound] using hsymbol

theorem takeWhile_append_stop (p : Char → Bool) (tail after : List Char)
    (htail : ∀ d ∈ tail, p d = true)
    (hafter : ∀ t rest, after = t :: rest → p t = false) :
    (tail ++ after).takeWhile p = tail ∧ (tail ++ after).dropWhile p = after := by
  induction tail with
  | nil =>
    cases after with
    | nil => simp
    | cons t rest => simp [List.takeWhile, List.dropWhile, hafter t rest rfl]
  | cons d tail ih =>
    have hd := htail d (by simp)
    have := ih (fun e he => htail e (by simp [he]))
    simp [List.takeWhile, List.dropWhile, hd, this]

/-! ## Registers, comments and strings -/

set_option maxRecDepth 8000 in
/-- C23: `is_a_register` returns `TRUE` on `r07`, on `r00` and on
`r0000000007`, which are not among the strings `r0`, ..., `r7`; it returns
`TRUE` on `r0` and `r7` and `FALSE` on `r8`, `r`, `r-1` and `r4 random`. -/
theorem is_a_register_leading_zeros :
    is_a_register "r07".toList = true
      ∧ is_a_register "r00".toList = true
      ∧ is_a_register "r0000000007".toList = true
      ∧ is_a_register "r0".toList = true
      ∧ is_a_register "r7".toList = true
      ∧ is_a_register "r8".toList = false
      ∧ is_a_register "r".toList = false
      ∧ is_a_register "r-1".toList = false
      ∧ is_a_register "r4 random".toList = false := by
  decide

set_option maxRecDepth 8000 in
/-- C24: on `r1x` and on `r2d2,` (identifiers that are not reserved names)
`parse_operand` returns a register operand with `operand_length = 2`, and on
`r07` the register 7 with `operand_length = 3`; on `LOOP,` it returns the
symbol `LOOP` with `operand_length = 4` and on `r7,` the register 7. -/
theorem parse_operand_register_text :
    parse_operand "r1x".toList = some (.parsed (.register 1, 2))
      ∧ parse_operand "r2d2,".toList = some (.parsed (.register 2, 2))
      ∧ parse_operand "r07".toList = some (.parsed (.register 7, 3))
      ∧ parse_operand "LOOP,".toList = some (.parsed (.symbol "LOOP", 4))
      ∧ parse_operand "r7,".toList = some (.parsed (.register 7, 2))
      ∧ parse_symbol "r1x:".toList parse_line_label_end_indicator
          = some { data := HAS_SYMBOL "r1x", symbol_length := 3 }
      ∧ parse_line "jmp r1x\n".toList
          = some { parse_label_data := DOES_NOT_HAVE_SYMBOL,
                   val := PARSE_LINE_ERROR
                     (.PARSE_ERROR_OPERAND_INVALID_CHARACTER_AFTER_OPERAND 'x') } := by
  decide

theorem parse_line_semicolon_first (rest : List Char) :
    parse_line (';' :: rest)
      = some { parse_label_data := DOES_NOT_HAVE_SYMBOL, val := PARSE_LINE_COMMENT } := by
  simp [parse_line]

set_option maxRecDepth 8000 in
/-- C28: a line whose first character is `;` is a comment; but for the line
` ; comment`, in which a space precedes the `;`, `parse_line` returns an
error, the invalid instruction `;`. -/
theorem parse_line_indented_comment :
    (∀ rest : List Char, parse_line (';' :: rest)
        = some { parse_label_data := DOES_NOT_HAVE_SYMBOL, val := PARSE_LINE_COMMENT })
      ∧ parse_line " ; comment\n".toList
        = some { parse_label_data := DOES_NOT_HAVE_SYMBOL,
                 val := PARSE_LINE_ERROR (.PARSE_ERROR_INVALID_INSTRUCTION ";") } :=
  ⟨parse_line_semicolon_first, by decide⟩

theorem parse_string_directive_no_start (str : List Char) (h : str.head? ≠ some '"') :
    parse_string_directive str
      = .parse_error .PARSE_ERROR_STRING_DIRECTIVE_DOES_NOT_START_WITH_QUOTE := by
  cases str with
  | nil => rfl
  | cons c rest =>
    have hc : c ≠ '"' := by simpa using h
    simp [parse_string_directive, hc]

theorem parse_string_directive_no_end (rest : List Char) (h : '"' ∉ rest) :
    parse_string_directive ('"' :: rest)
      = .parse_error .PARSE_ERROR_STRING_DIRECTIVE_DOES_NOT_END_WITH_QUOTE := by
  have hdrop : rest.reverse.dropWhile (fun c => c ≠ '"') = [] := by
    rw [List.dropWhile_eq_nil_iff]
    intro c hc
    have : c ≠ '"' := fun heq => h (heq ▸ List.mem_reverse.mp hc)
    simpa using this
  simp only [parse_string_directive, ne_eq, not_true_eq_false, if_false]
  rw [hdrop]

theorem parse_string_directive_last_quote (text after : List Char) (h : '"' ∉ after) :
    parse_string_directive ('"' :: text ++ '"' :: after) = .parsed (.string (String.mk text)) := by
  have hdrop : (text ++ '"' :: after).reverse.dropWhile (fun c => c ≠ '"')
      = '"' :: text.reverse := by
    rw [List.reverse_append, List.reverse_cons, List.append_assoc]
    have := takeWhile_append_stop (fun c => c ≠ '"') after.reverse (['"'] ++ text.reverse)
      (fun d hd => by
        have : d ≠ '"' := fun heq => h (heq ▸ List.mem_reverse.mp hd)
        simpa using this)
      (fun t rest ht => by
        cases ht
        simp)
    exact this.2
  simp only [parse_string_directive, List.cons_append, ne_eq, not_true_eq_false, if_false]
  rw [hdrop]
  simp

set_option maxRecDepth 8000 in
/-- C30: on the argument `"abc" xyz`, whose last character that is not white
space is not a quote, `parse_string_directive` succeeds with the string
`abc`: it takes the text up to the last quote and ignores what follows it.
An argument that does not start with a quote fails with
`PARSE_ERROR_STRING_DIRECTIVE_DOES_NOT_START_WITH_QUOTE`, and one that starts
with a quote and has no other quote fails with
`PARSE_ERROR_STRING_DIRECTIVE_DOES_NOT_END_WITH_QUOTE`. -/
theorem parse_string_directive_text_after_quote :
    parse_string_directive "\"abc\" xyz".toList = .parsed (.string "abc")
      ∧ (∀ text after : List Char, '"' ∉ after →
          parse_string_directive ('"' :: text ++ '"' :: after)
            = .parsed (.string (String.mk text)))
      ∧ (∀ str : List Char, str.head? ≠ some '"' →
          parse_string_directive str
            = .parse_error .PARSE_ERROR_STRING_DIRECTIVE_DOES_NOT_START_WITH_QUOTE)
      ∧ (∀ rest : List Char, '"' ∉ rest →
          parse_string_directive ('"' :: rest)
            = .parse_error .PARSE_ERROR_STRING_DIRECTIVE_DOES_NOT_END_WITH_QUOTE) :=
  ⟨by decide, parse_string_directive_last_quote, parse_string_directive_no_start,
    parse_string_directive_no_end⟩

theorem parse_symbol_loop_not_found (symbol_end_indicator : Char → Bool) (line : List Char)
    (character_position : Nat) (error : Option SymbolScanError)
    (h : ∀ c ∈ line, symbol_end_indicator c = false) :
    (parse_symbol_loop symbol_end_indicator line character_position error).1 = false := by
  rw [(parse_symbol_loop_spec symbol_end_indicator line character_position error).1]
  simp only [ne_eq, decide_not, Bool.not_eq_false', decide_eq_true_eq]
  rw [List.dropWhile_eq_nil_iff]
  intro c hc
  simp [h c hc]

theorem parse_line_string_directive (text : List Char) (h : ':' ∉ text) :
    parse_line (".string \"".toList ++ text ++ "\"\n".toList)
      = some { parse_label_data := DOES_NOT_HAVE_SYMBOL,
               val := PARSE_LINE_DIRECTIVE (.string (String.mk text)) } := by
  have hstart : ".string \"".toList = ['.', 's', 't', 'r', 'i', 'n', 'g', ' ', '"'] := rfl
  have hend : "\"\n".toList = ['"', '\n'] := rfl
  rw [hstart, hend]
  have hfound := parse_symbol_loop_not_found parse_line_label_end_indicator
    (['s', 't', 'r', 'i', 'n', 'g', ' ', '"'] ++ text ++ ['"', '\n']) 1
    (some (.starts_with_non_alphabethic_char '.'))
    (fun c hc => by
      simp only [parse_line_label_end_indicator, decide_eq_false_iff_not]
      intro heq
      subst heq
      simp only [List.cons_append, List.nil_append, List.mem_cons, List.mem_append,
        List.mem_singleton] at hc
      rcases hc with hc | hc | hc | hc | hc | hc | hc | hc | hc | hc | hc
      all_goals first
        | exact h hc
        | exact absurd hc (by decide))
  have hsymbol : parse_symbol (['.', 's', 't', 'r', 'i', 'n', 'g', ' ', '"'] ++ text ++ ['"', '\n'])
      parse_line_label_end_indicator
      = some { data := DOES_NOT_HAVE_SYMBOL, symbol_length := 0 } := by
    have h1 : parse_line_label_end_indicator '.' = false := by decide
    have h2 : parse_line_label_end_indicator NUL = false := by decide
    have h3 : isalpha '.' = false := by decide
    simp only [List.cons_append, List.nil_append] at hfound ⊢
    simp only [parse_symbol, h1, h2, h3, hfound, Bool.false_eq_true, if_false, Bool.not_false,
      if_true, Bool.or_false]
  have hspace : skip_space (['.', 's', 't', 'r', 'i', 'n', 'g', ' ', '"'] ++ text ++ ['"', '\n'])
      = ['.', 's', 't', 'r', 'i', 'n', 'g', ' ', '"'] ++ text ++ ['"', '\n'] := by
    have h1 : isspace '.' = false := by decide
    simp [skip_space, List.dropWhile, h1]
  have hdirective : parse_directive (['s', 't', 'r', 'i', 'n', 'g', ' ', '"'] ++ text ++ ['"', '\n'])
      = some (.parsed (.string (String.mk text))) := by
    have h1 : isspace ' ' = true := by decide
    have h2 : isspace '"' = false := by decide
    have h3 := parse_string_directive_last_quote text ['\n'] (by decide)
    simp only [List.cons_append, List.nil_append] at h3 ⊢
    simp [parse_directive, str_to_directive_type, strncmp_eq, directive_name_len,
      starts_with_space, skip_space, List.dropWhile, h1, h2, h3]
  simp only [parse_line, hspace, hsymbol]
  simp only [List.cons_append, List.nil_append] at hspace hdirective
  simp [parse_line_content, hdirective, hspace]

set_option maxRecDepth 8000 in
/-- C29: for the line `.string "a:b"` `parse_line` returns an error and not
the directive with the string `a:b`: the text up to the `:` is taken for a
label. For every text without `:` the line `.string "text"` gives the
directive of type `DIRECTIVE_STRING` with exactly that text. -/
theorem parse_line_string_with_colon :
    parse_line ".string \"a:b\"\n".toList
        = some { parse_label_data := SYMBOL_PARSE_ERROR
                   (.INVALID_CHARACTER_IN_SYMBOL ".string \"a" '"' 8),
                 val := PARSE_LINE_ERROR .PARSE_ERROR_EXPECTED_A_SPACE_AFTER_LABEL }
      ∧ ∀ text : List Char, ':' ∉ text →
          parse_line (".string \"".toList ++ text ++ "\"\n".toList)
            = some { parse_label_data := DOES_NOT_HAVE_SYMBOL,
                     val := PARSE_LINE_DIRECTIVE (.string (String.mk text)) } :=
  ⟨by decide, parse_line_string_directive⟩

/-! ## Integers accepted by `parse_int32_base10` -/

theorem wrap_int32_eq (x : Int) (h0 : -2147483648 ≤ x) (h1 : x < 2147483648) :
    wrap_int32 x = x := by
  unfold wrap_int32 to_int32 to_uint32
  have hpos : (0 : Int) ≤ x % 2 ^ 32 := Int.emod_nonneg _ (by norm_num)
  have hlt : x % 2 ^ 32 < 2 ^ 32 := Int.emod_lt_of_pos _ (by norm_num)
  have hnat : ((x % 2 ^ 32).toNat : Int) = x % 2 ^ 32 := Int.toNat_of_nonneg hpos
  have hmod : (x % 2 ^ 32).toNat % 2 ^ 32 = (x % 2 ^ 32).toNat := by
    apply Nat.mod_eq_of_lt
    omega
  rw [hmod]
  split
  · rename_i hlow
    rw [hnat]
    omega
  · rename_i hhigh
    rw [hnat]
    omega

theorem wrap_int32_top : wrap_int32 2147483648 = -2147483648 := by decide

theorem digit_step (a d : Int) (ha : 0 ≤ a) (hd0 : 0 ≤ d) (h : a * 10 + d < 2147483648) :
    wrap_int32 (wrap_int32 (a * 10) + d) = a * 10 + d := by
  rw [wrap_int32_eq (a * 10) (by omega) (by omega), wrap_int32_eq _ (by omega) h]

theorem digit_step_top (a d : Int) (ha : 0 ≤ a) (hd0 : 0 ≤ d) (h : a * 10 + d = 2147483648) :
    wrap_int32 (wrap_int32 (a * 10) + d) = -2147483648 := by
  rw [wrap_int32_eq (a * 10) (by omega) (by omega), h]
  exact wrap_int32_top

theorem isdigit_value (c : Char) (h : isdigit c = true) :
    0 ≤ CHAR_DIGIT_TO_INT c ∧ CHAR_DIGIT_TO_INT c ≤ 9 := by
  simp only [isdigit, Bool.and_eq_true, decide_eq_true_eq] at h
  obtain ⟨h1, h2⟩ := h
  have h1n : '0'.toNat ≤ c.toNat := h1
  have h2n : c.toNat ≤ '9'.toNat := h2
  have e0 : '0'.toNat = 48 := rfl
  have e9 : '9'.toNat = 57 := rfl
  unfold CHAR_DIGIT_TO_INT
  rw [e0] at h1n ⊢
  rw [e9] at h2n
  omega

theorem digits_fold_bound (digits : List Char) (a : Int)
    (hdigits : ∀ c ∈ digits, isdigit c = true) (ha : 0 ≤ a)
    (hfit : (a + 1) * 10 ^ digits.length ≤ 2147483648) :
    0 ≤ digits.foldl (fun integer c => wrap_int32 (wrap_int32 (integer * 10) + CHAR_DIGIT_TO_INT c)) a
      ∧ digits.foldl (fun integer c => wrap_int32 (wrap_int32 (integer * 10) + CHAR_DIGIT_TO_INT c)) a
          + 1 ≤ (a + 1) * 10 ^ digits.length := by
  induction digits generalizing a with
  | nil => simpa using ha
  | cons c digits ih =>
    obtain ⟨hc0, hc9⟩ := isdigit_value c (hdigits c (by simp))
    have hpow : (1 : Int) ≤ 10 ^ digits.length := one_le_pow₀ (by norm_num)
    rw [List.length_cons, pow_succ] at hfit
    have hstep : (a * 10 + CHAR_DIGIT_TO_INT c + 1) * 10 ^ digits.length
        ≤ (a + 1) * (10 ^ digits.length * 10) := by nlinarith
    have hsmall : a * 10 + CHAR_DIGIT_TO_INT c < 2147483648 := by nlinarith
    rw [List.foldl_cons, digit_step a _ ha hc0 hsmall]
    obtain ⟨h1, h2⟩ := ih (a * 10 + CHAR_DIGIT_TO_INT c)
      (fun d hd => hdigits d (by simp [hd])) (by omega) (le_trans hstep hfit)
    refine ⟨h1, le_trans h2 ?_⟩
    rw [List.length_cons, pow_succ]
    exact hstep

theorem ten_digits_fold (d0 d1 d2 d3 d4 d5 d6 d7 d8 d9 : Char)
    (hdigits : ∀ c ∈ [d0, d1, d2, d3, d4, d5, d6, d7, d8, d9], isdigit c = true)
    (hcheck : (List.range (BITS_32_INT_MAX_DIGITS - 1)).reverse.any
        (fun i => decide (CHAR_DIGIT_TO_INT ([d0, d1, d2, d3, d4, d5, d6, d7, d8, d9].getD i '0')
          > bits_32_max_int_digits.getD i 0)) = false)
    (hlast : ¬ CHAR_DIGIT_TO_INT
        ([d0, d1, d2, d3, d4, d5, d6, d7, d8, d9].getD (BITS_32_INT_MAX_DIGITS - 1) '0')
      > bits_32_max_int_digits.getD (BITS_32_INT_MAX_DIGITS - 1) 0 + 1) :
    0 ≤ [d0, d1, d2, d3, d4, d5, d6, d7, d8, d9].foldl
          (fun integer c => wrap_int32 (wrap_int32 (integer * 10) + CHAR_DIGIT_TO_INT c)) 0
      ∨ [d0, d1, d2, d3, d4, d5, d6, d7, d8, d9].foldl
          (fun integer c => wrap_int32 (wrap_int32 (integer * 10) + CHAR_DIGIT_TO_INT c)) 0
        = -2147483648 := by
  have hrange : (List.range (BITS_32_INT_MAX_DIGITS - 1)).reverse = [8, 7, 6, 5, 4, 3, 2, 1, 0] := by
    decide
  rw [hrange] at hcheck
  simp only [List.any_cons, List.any_nil, Bool.or_false, Bool.or_eq_false_iff,
    decide_eq_false_iff_not, bits_32_max_int_digits, List.getD_cons_succ, List.getD_cons_zero,
    not_lt] at hcheck
  simp only [bits_32_max_int_digits, BITS_32_INT_MAX_DIGITS, List.getD_cons_succ,
    List.getD_cons_zero, not_lt] at hlast
  obtain ⟨h8, h7, h6, h5, h4, h3, h2, h1, h0⟩ := hcheck
  have p0 := (isdigit_value d0 (hdigits d0 (by simp))).1
  have p1 := (isdigit_value d1 (hdigits d1 (by simp))).1
  have p2 := (isdigit_value d2 (hdigits d2 (by simp))).1
  have p3 := (isdigit_value d3 (hdigits d3 (by simp))).1
  have p4 := (isdigit_value d4 (hdigits d4 (by simp))).1
  have p5 := (isdigit_value d5 (hdigits d5 (by simp))).1
  have p6 := (isdigit_value d6 (hdigits d6 (by simp))).1
  have p7 := (isdigit_value d7 (hdigits d7 (by simp))).1
  have p8 := (isdigit_value d8 (hdigits d8 (by simp))).1
  have p9 := (isdigit_value d9 (hdigits d9 (by simp))).1
  simp only [List.foldl_cons, List.foldl_nil]
  generalize CHAR_DIGIT_TO_INT d0 = x0 at *
  generalize CHAR_DIGIT_TO_INT d1 = x1 at *
  generalize CHAR_DIGIT_TO_INT d2 = x2 at *
  generalize CHAR_DIGIT_TO_INT d3 = x3 at *
  generalize CHAR_DIGIT_TO_INT d4 = x4 at *
  generalize CHAR_DIGIT_TO_INT d5 = x5 at *
  generalize CHAR_DIGIT_TO_INT d6 = x6 at *
  generalize CHAR_DIGIT_TO_INT d7 = x7 at *
  generalize CHAR_DIGIT_TO_INT d8 = x8 at *
  generalize CHAR_DIGIT_TO_INT d9 = x9 at *
  rw [digit_step 0 x0 (by omega) p0 (by omega)]
  rw [digit_step _ x1 (by omega) p1 (by omega)]
  rw [digit_step _ x2 (by omega) p2 (by omega)]
  rw [digit_step _ x3 (by omega) p3 (by omega)]
  rw [digit_step _ x4 (by omega) p4 (by omega)]
  rw [digit_step _ x5 (by omega) p5 (by omega)]
  rw [digit_step _ x6 (by omega) p6 (by omega)]
  rw [digit_step _ x7 (by omega) p7 (by omega)]
  rw [digit_step _ x8 (by omega) p8 (by omega)]
  by_cases htop : (((((((((0 * 10 + x0) * 10 + x1) * 10 + x2) * 10 + x3) * 10 + x4) * 10 + x5)
      * 10 + x6) * 10 + x7) * 10 + x8) * 10 + x9 = 2147483648
  · right
    exact digit_step_top _ x9 (by omega) p9 htop
  · left
    rw [digit_step _ x9 (by omega) p9 (by omega)]
    omega

theorem parse_int32_base10_is_negative (str : List Char) :
    (parse_int32_base10 str).is_negative = decide (str.head? = some '-') := by
  unfold parse_int32_base10
  dsimp only
  split_ifs <;> rfl

theorem length_ten (l : List Char) (h : l.length = 10) :
    ∃ d0 d1 d2 d3 d4 d5 d6 d7 d8 d9, l = [d0, d1, d2, d3, d4, d5, d6, d7, d8, d9] := by
  rcases l with _ | ⟨d0, _ | ⟨d1, _ | ⟨d2, _ | ⟨d3, _ | ⟨d4, _ | ⟨d5, _ | ⟨d6, _ | ⟨d7, _ | ⟨d8,
    _ | ⟨d9, _ | ⟨d10, l⟩⟩⟩⟩⟩⟩⟩⟩⟩⟩⟩ <;> simp at h
  exact ⟨d0, d1, d2, d3, d4, d5, d6, d7, d8, d9, rfl⟩

theorem parse_int32_base10_accepted (str : List Char)
    (hsuccess : (parse_int32_base10 str).success = true)
    (hsign : (parse_int32_base10 str).is_negative = false) :
    0 ≤ (parse_int32_base10 str).integer ∨ (parse_int32_base10 str).integer = -2147483648 := by
  rw [parse_int32_base10_is_negative] at hsign
  have hdigits : ∀ c ∈ str.takeWhile isdigit, isdigit c = true :=
    fun c hc => (List.mem_takeWhile_imp hc)
  revert hsuccess
  unfold parse_int32_base10
  dsimp only
  simp only [hsign, Bool.false_eq_true, if_false]
  generalize str.takeWhile isdigit = digits at hdigits
  intro hsuccess
  by_cases hlong : digits.length > BITS_32_INT_MAX_DIGITS
  · rw [if_pos hlong] at hsuccess
    cases hsuccess
  · rw [if_neg hlong] at hsuccess ⊢
    by_cases hzero : digits.length = 0
    · rw [if_pos hzero] at hsuccess
      cases hsuccess
    · rw [if_neg hzero] at hsuccess ⊢
      by_cases hten : digits.length = BITS_32_INT_MAX_DIGITS
      · simp only [hten, decide_True, Bool.true_and, if_true] at hsuccess ⊢
        split at hsuccess
        · cases hsuccess
        · rename_i hover
          rw [if_neg hover]
          simp only [Bool.or_eq_true, not_or, Bool.not_eq_true, decide_eq_false_iff_not]
            at hover
          obtain ⟨hcheck, hlast⟩ := hover
          obtain ⟨d0, d1, d2, d3, d4, d5, d6, d7, d8, d9, rfl⟩ := length_ten digits hten
          dsimp only
          exact ten_digits_fold d0 d1 d2 d3 d4 d5 d6 d7 d8 d9 hdigits hcheck hlast
      · have hshort : digits.length ≤ 9 := by
          simp only [BITS_32_INT_MAX_DIGITS] at hlong hten
          omega
        have hover : (decide (digits.length = BITS_32_INT_MAX_DIGITS)) = false := by
          simpa using hten
        simp only [hover, Bool.false_and, Bool.false_eq_true, if_false]
        left
        refine (digits_fold_bound digits 0 hdigits (le_refl 0) ?_).1
        calc (0 + 1) * (10 : Int) ^ digits.length = 10 ^ digits.length := by ring
          _ ≤ 10 ^ 9 := pow_le_pow_right₀ (by norm_num) hshort
          _ ≤ 2147483648 := by norm_num

/-! ## The length limit of symbols -/

theorem strncmp_eq_take (s1 s2 : List Char) (n : Nat) (h : strncmp_eq s1 s2 n = true) :
    s1.take n = s2.take n := of_decide_eq_true h

theorem ite_some_cases {α : Type} (c : Prop) [Decidable c] (a : α) (rest : Option α) (x : α)
    (h : (if c then some a else rest) = some x) : (c ∧ a = x) ∨ (¬ c ∧ rest = some x) := by
  by_cases hc : c
  · rw [if_pos hc] at h
    exact Or.inl ⟨hc, Option.some.inj h⟩
  · rw [if_neg hc] at h
    exact Or.inr ⟨hc, h⟩

theorem str_to_instruction_type_take (str : List Char) (type : InstructionType)
    (h : str_to_instruction_type str = some type) :
    str.take (instruction_name_len type) ∈ spec_instruction_names := by
  unfold str_to_instruction_type at h
  rcases ite_some_cases _ _ _ _ h with ⟨hc, rfl⟩ | ⟨-, h⟩
  · simp only [instruction_name_len]
    rw [strncmp_eq_take _ _ _ hc]
    decide
  rcases ite_some_cases _ _ _ _ h with ⟨hc, rfl⟩ | ⟨-, h⟩
  · simp only [instruction_name_len]
    rw [strncmp_eq_take _ _ _ hc]
    decide
  rcases ite_some_cases _ _ _ _ h with ⟨hc, rfl⟩ | ⟨-, h⟩
  · simp only [instruction_name_len]
    rw [strncmp_eq_take _ _ _ hc]
    decide
  rcases ite_some_cases _ _ _ _ h with ⟨hc, rfl⟩ | ⟨-, h⟩
  · simp only [instruction_name_len]
    rw [strncmp_eq_take _ _ _ hc]
    decide
  rcases ite_some_cases _ _ _ _ h with ⟨hc, rfl⟩ | ⟨-, h⟩
  · simp only [instruction_name_len]
    rw [strncmp_eq_take _ _ _ hc]
    decide
  rcases ite_some_cases _ _ _ _ h with ⟨hc, rfl⟩ | ⟨-, h⟩
  · simp only [instruction_name_len]
    rw [strncmp_eq_take _ _ _ hc]
    decide
  rcases ite_some_cases _ _ _ _ h with ⟨hc, rfl⟩ | ⟨-, h⟩
  · simp only [instruction_name_len]
    rw [strncmp_eq_take _ _ _ hc]
    decide
  rcases ite_some_cases _ _ _ _ h with ⟨hc, rfl⟩ | ⟨-, h⟩
  · simp only [instruction_name_len]
    rw [strncmp_eq_take _ _ _ hc]
    decide
  rcases ite_some_cases _ _ _ _ h with ⟨hc, rfl⟩ | ⟨-, h⟩
  · simp only [instruction_name_len]
    rw [strncmp_eq_take _ _ _ hc]
    decide
  rcases ite_some_cases _ _ _ _ h with ⟨hc, rfl⟩ | ⟨-, h⟩
  · simp only [instruction_name_len]
    rw [strncmp_eq_take _ _ _ hc]
    decide
  rcases ite_some_cases _ _ _ _ h with ⟨hc, rfl⟩ | ⟨-, h⟩
  · simp only [instruction_name_len]
    rw [strncmp_eq_take _ _ _ hc]
    decide
  rcases ite_some_cases _ _ _ _ h with ⟨hc, rfl⟩ | ⟨-, h⟩
  · simp only [instruction_name_len]
    rw [strncmp_eq_take _ _ _ hc]
    decide
  rcases ite_some_cases _ _ _ _ h with ⟨hc, rfl⟩ | ⟨-, h⟩
  · simp only [instruction_name_len]
    rw [strncmp_eq_take _ _ _ hc]
    decide
  rcases ite_some_cases _ _ _ _ h with ⟨hc, rfl⟩ | ⟨-, h⟩
  · simp only [instruction_name_len]
    rw [strncmp_eq_take _ _ _ hc]
    decide
  rcases ite_some_cases _ _ _ _ h with ⟨hc, rfl⟩ | ⟨-, h⟩
  · simp only [instruction_name_len]
    rw [strncmp_eq_take _ _ _ hc]
    decide
  rcases ite_some_cases _ _ _ _ h with ⟨hc, rfl⟩ | ⟨-, h⟩
  · simp only [instruction_name_len]
    rw [strncmp_eq_take _ _ _ hc]
    decide
  cases h

theorem is_an_instruction_mem (name : List Char) (h : is_an_instruction name = true) :
    name ∈ spec_instruction_names := by
  unfold is_an_instruction at h
  cases htype : str_to_instruction_type name with
  | none =>
    rw [htype] at h
    cases h
  | some type =>
    rw [htype] at h
    have hdrop : name.drop (instruction_name_len type) = [] := by simpa using h
    have hsplit := List.take_append_drop (instruction_name_len type) name
    rw [hdrop, List.append_nil] at hsplit
    rw [← hsplit]
    exact str_to_instruction_type_take name type htype

theorem str_to_directive_type_take (str : List Char) (type : DirectiveType)
    (h : str_to_directive_type str = some type) :
    str.take (directive_name_len type) ∈ spec_directive_names := by
  unfold str_to_directive_type at h
  rcases ite_some_cases _ _ _ _ h with ⟨hc, rfl⟩ | ⟨-, h⟩
  · rw [directive_name_len, ← strncmp_eq_take _ _ _ hc]
    decide
  rcases ite_some_cases _ _ _ _ h with ⟨hc, rfl⟩ | ⟨-, h⟩
  · rw [directive_name_len, ← strncmp_eq_take _ _ _ hc]
    decide
  rcases ite_some_cases _ _ _ _ h with ⟨hc, rfl⟩ | ⟨-, h⟩
  · rw [directive_name_len, ← strncmp_eq_take _ _ _ hc]
    decide
  rcases ite_some_cases _ _ _ _ h with ⟨hc, rfl⟩ | ⟨-, h⟩
  · rw [directive_name_len, ← strncmp_eq_take _ _ _ hc]
    decide
  cases h

theorem is_a_directive_mem (name : List Char) (h : is_a_directive name = true) :
    name ∈ spec_directive_names := by
  unfold is_a_directive at h
  cases htype : str_to_directive_type name with
  | none =>
    rw [htype] at h
    cases h
  | some type =>
    rw [htype] at h
    have hdrop : name.drop (directive_name_len type) = [] := by simpa using h
    have hsplit := List.take_append_drop (directive_name_len type) name
    rw [hdrop, List.append_nil] at hsplit
    rw [← hsplit]
    exact str_to_directive_type_take name type htype

theorem parse_int32_base10_success (str : List Char)
    (hsuccess : (parse_int32_base10 str).success = true) (hsign : str.head? ≠ some '-') :
    (parse_int32_base10 str).chars_read = (str.takeWhile isdigit).length
      ∧ str.takeWhile isdigit ≠ [] := by
  revert hsuccess
  unfold parse_int32_base10
  dsimp only
  simp only [hsign, decide_False, Bool.false_eq_true, if_false]
  split_ifs with h1 h2 h3
  · intro h; cases h
  · intro h; cases h
  · intro h; cases h
  · intro _
    refine ⟨by simp, ?_⟩
    intro hnil
    exact h2 (by rw [hnil]; rfl)

theorem is_a_register_digits (name : List Char) (h : is_a_register name = true) :
    ∃ tail, name = 'r' :: tail ∧ tail ≠ [] ∧ ∀ d ∈ tail, isdigit d = true := by
  unfold is_a_register at h
  simp only [Bool.and_eq_true, decide_eq_true_eq, Bool.not_eq_true'] at h
  obtain ⟨⟨⟨⟨hhead, hsuccess⟩, hdrop⟩, -⟩, hneg⟩ := h
  cases name with
  | nil => cases hhead
  | cons c tail =>
    simp only [List.head?_cons, Option.some.injEq] at hhead
    subst hhead
    simp only [List.tail_cons] at hsuccess hdrop hneg
    rw [parse_int32_base10_is_negative] at hneg
    have hsign : tail.head? ≠ some '-' := by simpa using hneg
    obtain ⟨hread, hne⟩ := parse_int32_base10_success tail hsuccess hsign
    rw [hread, Nat.add_comm, List.drop_succ_cons] at hdrop
    have hall : tail.takeWhile isdigit = tail := by
      have hsplit := List.takeWhile_append_dropWhile isdigit tail
      have hlen : (tail.dropWhile isdigit) = [] := by
        have := congrArg List.length hsplit
        rw [List.length_append] at this
        have hd : (tail.drop (tail.takeWhile isdigit).length).length = 0 := by rw [hdrop]; rfl
        rw [List.length_drop] at hd
        exact List.length_eq_zero.mp (by omega)
      rw [hlen, List.append_nil] at hsplit
      exact hsplit
    refine ⟨tail, rfl, ?_, ?_⟩
    · rw [← hall]
      exact hne
    · intro d hd
      rw [← hall] at hd
      exact List.mem_takeWhile_imp hd

theorem parse_symbol_scan (c : Char) (tail after : List Char)
    (symbol_end_indicator : Char → Bool)
    (halpha : isalpha c = true) (halnum : ∀ d ∈ tail, isalnum d = true)
    (hnot : ∀ d, isalnum d = true → symbol_end_indicator d = false)
    (hterminator : (after = [] ∧ symbol_end_indicator NUL = true)
      ∨ ∃ t rest, after = t :: rest ∧ symbol_end_indicator t = true) :
    symbol_end_indicator c = false
      ∧ (symbol_end_indicator NUL
          || (parse_symbol_loop symbol_end_indicator (tail ++ after) 1 none).1) = true
      ∧ (parse_symbol_loop symbol_end_indicator (tail ++ after) 1 none).2.1 = 1 + tail.length
      ∧ (parse_symbol_loop symbol_end_indicator (tail ++ after) 1 none).2.2 = none
      ∧ List.take (1 + tail.length) (c :: (tail ++ after)) = c :: tail := by
  have hc : symbol_end_indicator c = false :=
    hnot c (by simp [isalnum, halpha])
  have hstop := takeWhile_append_stop (fun c => !symbol_end_indicator c) tail after
    (fun d hd => by simp [hnot d (halnum d hd)])
    (fun t rest ht => by
      rcases hterminator with ⟨h, -⟩ | ⟨t2, rest2, h, hend⟩
      · rw [h] at ht
        cases ht
      · rw [h] at ht
        cases ht
        simp [hend])
  obtain ⟨l1, l2, -, l4⟩ := parse_symbol_loop_spec symbol_end_indicator (tail ++ after) 1 none
  rw [hstop.2] at l1
  rw [hstop.1] at l2
  have l5 := l4 rfl (by rw [hstop.1]; exact halnum)
  have hsymbol : (symbol_end_indicator NUL
      || (parse_symbol_loop symbol_end_indicator (tail ++ after) 1 none).1) = true := by
    rw [l1]
    rcases hterminator with ⟨-, h⟩ | ⟨t, rest, h, -⟩
    · simp [h]
    · simp [h]
  have htake : List.take (1 + tail.length) (c :: (tail ++ after)) = c :: tail := by
    rw [Nat.add_comm, List.take_succ_cons, List.take_left']
    rfl
  exact ⟨hc, hsymbol, l2, l5, htake⟩

/-- A string of at most 31 letters and digits that starts with a letter, on
which `is_a_directive`, `is_an_instruction` and `is_a_register` return
`FALSE`, and which is immediately followed by the terminator (a character
that the end indicator accepts, or the end of the line when the indicator
accepts NUL) is returned by `parse_symbol` as `HAS_SYMBOL`. -/
theorem parse_symbol_accepts (c : Char) (tail after : List Char)
    (symbol_end_indicator : Char → Bool)
    (halpha : isalpha c = true) (halnum : ∀ d ∈ tail, isalnum d = true)
    (hnot : ∀ d, isalnum d = true → symbol_end_indicator d = false)
    (hterminator : (after = [] ∧ symbol_end_indicator NUL = true)
      ∨ ∃ t rest, after = t :: rest ∧ symbol_end_indicator t = true)
    (hdirective : is_a_directive (c :: tail) = false)
    (hinstruction : is_an_instruction (c :: tail) = false)
    (hregister : is_a_register (c :: tail) = false)
    (hlen : (c :: tail).length ≤ 31) :
    parse_symbol (c :: tail ++ after) symbol_end_indicator
      = some { data := HAS_SYMBOL (String.mk (c :: tail)),
               symbol_length := (c :: tail).length } := by
  obtain ⟨hc, hsymbol, l2, l5, htake⟩ :=
    parse_symbol_scan c tail after symbol_end_indicator halpha halnum hnot hterminator
  simp only [List.length_cons] at hlen
  simp only [List.cons_append, parse_symbol, hc, halpha, Bool.false_eq_true, if_false,
    Bool.not_true, hsymbol, l2, l5, MAX_LABEL_SIZE, htake, hdirective, hinstruction,
    hregister, List.length_cons]
  rw [if_neg (by omega)]
  simp [Nat.add_comm]

/-- A string of 32 or more letters and digits that starts with a letter and
is immediately followed by the terminator is rejected by `parse_symbol` with
`BUFFER_TOO_SMALL` and its length. -/
theorem parse_symbol_too_long (c : Char) (tail after : List Char)
    (symbol_end_indicator : Char → Bool)
    (halpha : isalpha c = true) (halnum : ∀ d ∈ tail, isalnum d = true)
    (hnot : ∀ d, isalnum d = true → symbol_end_indicator d = false)
    (hterminator : (after = [] ∧ symbol_end_indicator NUL = true)
      ∨ ∃ t rest, after = t :: rest ∧ symbol_end_indicator t = true)
    (hlen : 32 ≤ (c :: tail).length) :
    parse_symbol (c :: tail ++ after) symbol_end_indicator
      = some { data := SYMBOL_PARSE_ERROR (.BUFFER_TOO_SMALL (c :: tail).length),
               symbol_length := (c :: tail).length } := by
  obtain ⟨hc, hsymbol, l2, -, -⟩ :=
    parse_symbol_scan c tail after symbol_end_indicator halpha halnum hnot hterminator
  simp only [List.length_cons] at hlen
  simp only [List.cons_append, parse_symbol, hc, halpha, Bool.false_eq_true, if_false,
    Bool.not_true, hsymbol, l2, MAX_LABEL_SIZE, List.length_cons]
  rw [if_pos (by omega)]
  simp [Nat.add_comm]

theorem spec_names_not_reserved (name : List Char)
    (hinstruction : name ∉ spec_instruction_names) (hdirective : name ∉ spec_directive_names)
    (hregister : ¬ ∃ tail, name = 'r' :: tail ∧ tail ≠ [] ∧ ∀ d ∈ tail, isdigit d = true) :
    is_a_directive name = false ∧ is_an_instruction name = false
      ∧ is_a_register name = false := by
  refine ⟨?_, ?_, ?_⟩
  · cases h : is_a_directive name with
    | false => rfl
    | true => exact absurd (is_a_directive_mem _ h) hdirective
  · cases h : is_an_instruction name with
    | false => rfl
    | true => exact absurd (is_an_instruction_mem _ h) hinstruction
  · cases h : is_a_register name with
    | false => rfl
    | true => exact absurd (is_a_register_digits _ h) hregister

set_option maxRecDepth 8000 in
/-- C21: the string `r07` consists of letters and digits, starts with a
letter, has 3 characters and is not the name of an instruction, of a
directive or of a register, but `parse_symbol` returns `SYMBOL_PARSE_ERROR`
with `SYMBOL_IS_A_REGISTER` for it, at the end of a line and before the `:`
of a label (the label `MAIN` is returned, a label of 32 characters is
rejected with `BUFFER_TOO_SMALL`). For every other string of letters and digits that starts with a
letter, is not the name of an instruction or of a directive, is not `r`
followed by digits only, and is immediately followed by the terminator (a
character that the end indicator accepts, or the end of the line when the
indicator accepts NUL), `parse_symbol` returns `HAS_SYMBOL` with the string
when its length is at most 31; for every string of letters and digits of
length 32 or more that starts with a letter it returns `SYMBOL_PARSE_ERROR`
with `BUFFER_TOO_SMALL` and the length. -/
theorem parse_symbol_length_limit :
    spec_identifier "r07".toList = true
      ∧ "r07".toList ∉ spec_instruction_names ∧ "r07".toList ∉ spec_directive_names
      ∧ "r07".toList ∉ spec_register_names
      ∧ parse_symbol "r07".toList default_symbol_end_indicator
        = some { data := SYMBOL_PARSE_ERROR (.SYMBOL_IS_A_REGISTER "r07"), symbol_length := 3 }
      ∧ parse_symbol "r07: stop\n".toList parse_line_label_end_indicator
        = some { data := SYMBOL_PARSE_ERROR (.SYMBOL_IS_A_REGISTER "r07"), symbol_length := 3 }
      ∧ parse_symbol "MAIN: stop\n".toList parse_line_label_end_indicator
        = some { data := HAS_SYMBOL "MAIN", symbol_length := 4 }
      ∧ parse_symbol "LABCDEFGHIJKLMNOPQRSTUVWXYZ01234: stop\n".toList
          parse_line_label_end_indicator
        = some { data := SYMBOL_PARSE_ERROR (.BUFFER_TOO_SMALL 32), symbol_length := 32 }
      ∧ ∀ (c : Char) (tail after : List Char) (symbol_end_indicator : Char → Bool),
          isalpha c = true → (∀ d ∈ tail, isalnum d = true) →
          (∀ d, isalnum d = true → symbol_end_indicator d = false) →
          ((after = [] ∧ symbol_end_indicator NUL = true)
            ∨ ∃ t rest, after = t :: rest ∧ symbol_end_indicator t = true) →
          ((c :: tail).length ≤ 31 →
              c :: tail ∉ spec_instruction_names → c :: tail ∉ spec_directive_names →
              ¬ (c = 'r' ∧ tail ≠ [] ∧ ∀ d ∈ tail, isdigit d = true) →
              parse_symbol (c :: tail ++ after) symbol_end_indicator
                = some { data := HAS_SYMBOL (String.mk (c :: tail)),
                         symbol_length := (c :: tail).length })
            ∧ (32 ≤ (c :: tail).length →
              parse_symbol (c :: tail ++ after) symbol_end_indicator
                = some { data := SYMBOL_PARSE_ERROR (.BUFFER_TOO_SMALL (c :: tail).length),
                         symbol_length := (c :: tail).length }) := by
  refine ⟨by decide, by decide, by decide, by decide, by decide, by decide, by decide,
    by decide, ?_⟩
  intro c tail after symbol_end_indicator halpha halnum hnot hterminator
  constructor
  · intro hlen hinstruction hdirective hregister
    obtain ⟨h1, h2, h3⟩ := spec_names_not_reserved (c :: tail) hinstruction hdirective
      (by
        rintro ⟨t, heq, hne, hdigits⟩
        cases heq
        exact hregister ⟨rfl, hne, hdigits⟩)
    exact parse_symbol_accepts c tail after symbol_end_indicator halpha halnum hnot hterminator
      h1 h2 h3 hlen
  · intro hlen
    exact parse_symbol_too_long c tail after symbol_end_indicator halpha halnum hnot hterminator
      hlen

/-! ## Operands -/

theorem parse_symbol_with_end (str : List Char) (symbol_end_indicator : Char → Bool)
    (hnul : symbol_end_indicator NUL = true) :
    ∃ parsed, parse_symbol str symbol_end_indicator = some parsed
      ∧ parsed.data ≠ DOES_NOT_HAVE_SYMBOL
      ∧ ∀ name, parsed.data = HAS_SYMBOL name →
          ∃ c rest, str = c :: rest ∧ symbol_end_indicator c = false := by
  have hsome : ∃ parsed, parse_symbol str symbol_end_indicator = some parsed
      ∧ parsed.data ≠ DOES_NOT_HAVE_SYMBOL := by
    cases str with
    | nil => exact ⟨⟨SYMBOL_PARSE_ERROR .SYMBOL_EMPTY, 0⟩, by simp [parse_symbol, hnul], by simp⟩
    | cons c rest =>
      simp only [parse_symbol, hnul, Bool.true_or, Bool.not_true, Bool.false_eq_true, if_false]
      repeat' split
      all_goals exact ⟨_, rfl, by simp⟩
  obtain ⟨parsed, hparsed, hdata⟩ := hsome
  refine ⟨parsed, hparsed, hdata, ?_⟩
  intro name hname
  obtain ⟨-, htake, hident, -⟩ := parse_symbol_has_symbol _ _ parsed name hparsed hname
  rw [spec_identifier_iff] at hident
  obtain ⟨c, tail, hc, -⟩ := hident
  cases str with
  | nil =>
    rw [htake] at hc
    cases hc
  | cons d rest =>
    refine ⟨d, rest, rfl, ?_⟩
    rw [htake] at hc
    by_cases hd : symbol_end_indicator d = true
    · simp [List.takeWhile, hd] at hc
    · simpa using hd

theorem to_uint8_register (integer : Int) (h : 0 ≤ integer ∨ integer = -2147483648)
    (hcount : integer < REGISTER_COUNT) : to_uint8 integer ≤ 7 := by
  unfold to_uint8
  simp only [REGISTER_COUNT] at hcount
  rcases h with h | h
  · have : integer % 2 ^ 8 = integer := Int.emod_eq_of_lt h (by omega)
    rw [this]
    omega
  · subst h
    decide

theorem parse_operand_parsed (str : List Char) (operand : Operand) (operand_len : Nat)
    (h : parse_operand str = some (.parsed (operand, operand_len))) :
    spec_operand_well_formed operand = true ∧ str ≠ [] ∧ str.head? ≠ some ',' := by
  unfold parse_operand at h
  by_cases hhash : str.head? = some '#'
  · have hne : str ≠ [] ∧ str.head? ≠ some ',' := by
      constructor
      · intro he
        rw [he] at hhash
        cases hhash
      · rw [hhash]
        decide
    rw [if_pos hhash] at h
    dsimp only at h
    split at h
    · cases h
    · split at h
      · cases h
      · split at h
        · cases h
        · rename_i hsmall hbig
          simp only [Option.some.injEq, ParseResult.parsed.injEq, Prod.mk.injEq] at h
          obtain ⟨rfl, -⟩ := h
          refine ⟨?_, hne⟩
          simp only [not_or, not_lt, MIN_INTEGER, MAX_INTEGER] at hsmall hbig
          simp only [spec_operand_well_formed, Bool.and_eq_true, decide_eq_true_eq]
          have e1 : (-1 * ((2 <<< (24 - 3 - 1) : Nat) : Int)) = -2097152 := by decide
          have e2 : (((2 <<< (24 - 3 - 1) : Nat) : Int) - 1) = 2097151 := by decide
          rw [e1] at hsmall
          rw [e2] at hbig
          exact ⟨hsmall.1, hbig.1⟩
  · rw [if_neg hhash] at h
    dsimp only at h
    split at h
    · rename_i hreg
      obtain ⟨hr, hsuccess, hcount, hsign⟩ := hreg
      simp only [Option.some.injEq, ParseResult.parsed.injEq, Prod.mk.injEq] at h
      obtain ⟨rfl, -⟩ := h
      refine ⟨?_, ?_, ?_⟩
      · simp only [spec_operand_well_formed, decide_eq_true_eq]
        exact to_uint8_register _
          (parse_int32_base10_accepted _ hsuccess (by simpa using hsign)) hcount
      · intro he
        rw [he] at hr
        cases hr
      · rw [hr]
        decide
    · obtain ⟨parsed, hparsed, hhas, hstart⟩ := parse_symbol_with_end
        (if decide (str.head? = some '&') = true then str.tail else str)
        parse_operand_symbol_end_indicator (by decide)
      rw [hparsed] at h
      dsimp only at h
      cases hdata : parsed.data with
      | DOES_NOT_HAVE_SYMBOL => exact absurd hdata hhas
      | SYMBOL_PARSE_ERROR e =>
        rw [hdata] at h
        cases h
      | HAS_SYMBOL name =>
        rw [hdata] at h
        simp only [Option.some.injEq, ParseResult.parsed.injEq, Prod.mk.injEq] at h
        obtain ⟨hop, -⟩ := h
        obtain ⟨hn, -, hident, -⟩ := parse_symbol_has_symbol _ _ parsed name hparsed hdata
        obtain ⟨c, rest, hstr, hc⟩ := hstart name hdata
        have hwf : spec_identifier name.toList = true := by
          rw [hn]
          exact hident
        by_cases hamp : str.head? = some '&'
        · simp only [hamp, decide_True, if_true] at hop
          subst hop
          refine ⟨hwf, ?_, ?_⟩
          · intro he
            rw [he] at hamp
            cases hamp
          · rw [hamp]
            decide
        · simp only [hamp, decide_False, Bool.false_eq_true, if_false] at hop hstr
          subst hop
          refine ⟨hwf, ?_, ?_⟩
          · rw [hstr]
            simp
          · rw [hstr]
            simp only [List.head?_cons, ne_eq, Option.some.injEq]
            intro hcomma
            subst hcomma
            revert hc
            decide
/-! ## Instructions -/

theorem is_acceptable_operand_fold (operand : Operand) (acceptable_operands : List OperandType)
    (is_acceptable : Bool) :
    acceptable_operands.foldl
        (fun is_acceptable type => if operand.type = type then true else is_acceptable)
        is_acceptable
      = (is_acceptable || decide (operand.type ∈ acceptable_operands)) := by
  induction acceptable_operands generalizing is_acceptable with
  | nil => simp
  | cons type rest ih =>
    rw [List.foldl_cons, ih]
    by_cases h : operand.type = type
    · simp [h]
    · have h2 : ¬ type = operand.type := fun e => h e.symm
      cases is_acceptable <;> simp [h, List.mem_cons]

theorem is_acceptable_operand_iff (operand : Operand) (acceptable_operands : List OperandType) :
    is_acceptable_operand operand acceptable_operands = true
      ↔ operand.type ∈ acceptable_operands := by
  unfold is_acceptable_operand
  rw [is_acceptable_operand_fold]
  simp

theorem instruction_operand_amount_le (type : InstructionType) :
    instruction_operand_amount type = 0 ∨ instruction_operand_amount type = 1
      ∨ instruction_operand_amount type = 2 := by
  cases type <;> simp [instruction_operand_amount]

theorem parse_instruction_of_text (str : List Char) (type : InstructionType)
    (operands : List Char) (h : instruction_text str type operands) :
    parse_instruction str = parse_instruction_operands type operands := by
  obtain ⟨htype, hafter, hoperands⟩ := h
  unfold parse_instruction
  rw [htype, hoperands]
  dsimp only
  rw [if_neg]
  rcases hafter with h | h
  · simp [h]
  · simp [h]

theorem parse_instruction_text (str : List Char) (instruction : Instruction)
    (h : parse_instruction str = some (.parsed instruction)) :
    ∃ type operands, instruction_text str type operands
      ∧ parse_instruction_operands type operands = some (.parsed instruction) := by
  unfold parse_instruction at h
  cases htype : str_to_instruction_type str with
  | none =>
    rw [htype] at h
    cases h
  | some type =>
    rw [htype] at h
    dsimp only at h
    split at h
    · cases h
    · rename_i hafter
      refine ⟨type, _, ⟨htype, ?_, rfl⟩, h⟩
      by_cases hnil : str.drop (instruction_name_len type) = []
      · exact Or.inl hnil
      · right
        by_contra hspace
        exact hafter ⟨by simpa using hspace, hnil⟩

theorem operand_text_start (str : List Char) (operand : Operand) (after : List Char)
    (h : operand_text str operand after) :
    spec_operand_well_formed operand = true ∧ str ≠ [] ∧ str.head? ≠ some ',' := by
  obtain ⟨operand_len, hparsed, -⟩ := h
  exact parse_operand_parsed str operand operand_len hparsed

theorem parse_instruction_first (type : InstructionType) (str : List Char) (operand : Operand)
    (after : List Char) (harity : 0 < instruction_operand_amount type)
    (h : operand_text str operand after) :
    parse_instruction_operands type str
      = parse_instruction_after_first
          { type := type, operand_amount := instruction_operand_amount type,
            operand1 := operand, operand2 := unwritten_operand } after := by
  obtain ⟨-, hne, hcomma⟩ := operand_text_start str operand after h
  obtain ⟨operand_len, hparsed, hafter⟩ := h
  unfold parse_instruction_operands
  dsimp only
  rw [if_neg (by omega), if_neg (fun hc => hne hc.1), if_neg (fun hc => hne hc.1), if_neg hcomma,
    hparsed, hafter]

theorem parse_instruction_second (instruction : Instruction) (rest : List Char)
    (operand : Operand) (after : List Char) (harity : instruction.operand_amount = 2)
    (h : operand_text (skip_space rest) operand after) :
    parse_instruction_after_first instruction (',' :: rest)
      = some (parse_instruction_after_second { instruction with operand2 := operand } after) := by
  obtain ⟨-, hne, -⟩ := operand_text_start _ operand after h
  obtain ⟨operand_len, hparsed, hafter⟩ := h
  unfold parse_instruction_after_first
  dsimp only
  rw [if_neg (by simp), if_neg (by simp), if_neg (by simp [harity]), if_neg (by simp),
    if_neg (by simp [harity])]
  simp only [List.tail_cons]
  rw [if_neg hne, hparsed, hafter]

theorem parse_instruction_after_second_end (instruction : Instruction) :
    parse_instruction_after_second instruction []
      = if !is_acceptable_operand instruction.operand1
            (acceptable_src_operands instruction.type) then
          .parse_error (.PARSE_ERROR_INSTRUCTION_EXPECTED_A_DIFFERENT_OPERAND_TYPE 1
            instruction.operand1.type (acceptable_src_operands instruction.type))
        else if !is_acceptable_operand instruction.operand2
            (acceptable_dest_operands instruction.type) then
          .parse_error (.PARSE_ERROR_INSTRUCTION_EXPECTED_A_DIFFERENT_OPERAND_TYPE 2
            instruction.operand2.type (acceptable_dest_operands instruction.type))
        else .parsed instruction := by
  simp [parse_instruction_after_second]

/-- On a line of a 2-operand instruction with two operands that
`parse_operand` accepts, `parse_instruction` fails with
`PARSE_ERROR_INSTRUCTION_EXPECTED_A_DIFFERENT_OPERAND_TYPE` for `op_index`
1, the type of the first operand and the operand types acceptable as source
when that type is not among them (whatever the second operand is);
otherwise, when the type of the second operand is not acceptable as
destination, for `op_index` 2, the type of the second operand and the types
acceptable as destination; otherwise it succeeds with both operands. -/
theorem parse_instruction_types_of_text (str : List Char) (type : InstructionType)
    (operands rest : List Char) (operand1 operand2 : Operand)
    (hname : instruction_text str type operands)
    (harity : instruction_operand_amount type = 2)
    (hfirst : operand_text operands operand1 (',' :: rest))
    (hsecond : operand_text (skip_space rest) operand2 []) :
    (operand1.type ∉ acceptable_src_operands type →
        parse_instruction str
          = some (.parse_error (.PARSE_ERROR_INSTRUCTION_EXPECTED_A_DIFFERENT_OPERAND_TYPE 1
              operand1.type (acceptable_src_operands type))))
      ∧ (operand1.type ∈ acceptable_src_operands type →
          operand2.type ∉ acceptable_dest_operands type →
          parse_instruction str
            = some (.parse_error (.PARSE_ERROR_INSTRUCTION_EXPECTED_A_DIFFERENT_OPERAND_TYPE 2
                operand2.type (acceptable_dest_operands type))))
      ∧ (operand1.type ∈ acceptable_src_operands type →
          operand2.type ∈ acceptable_dest_operands type →
          parse_instruction str
            = some (.parsed { type := type, operand_amount := 2, operand1 := operand1,
                              operand2 := operand2 })) := by
  rw [parse_instruction_of_text str type operands hname,
    parse_instruction_first type operands operand1 _ (by omega) hfirst,
    parse_instruction_second _ rest operand2 [] harity hsecond,
    parse_instruction_after_second_end]
  dsimp only
  refine ⟨fun h1 => ?_, fun h1 h2 => ?_, fun h1 h2 => ?_⟩
  · have := (is_acceptable_operand_iff operand1 (acceptable_src_operands type)).not.mpr h1
    simp [this]
  · have a1 := (is_acceptable_operand_iff operand1 (acceptable_src_operands type)).mpr h1
    have a2 := (is_acceptable_operand_iff operand2 (acceptable_dest_operands type)).not.mpr h2
    simp [a1, a2]
  · have a1 := (is_acceptable_operand_iff operand1 (acceptable_src_operands type)).mpr h1
    have a2 := (is_acceptable_operand_iff operand2 (acceptable_dest_operands type)).mpr h2
    simp [a1, a2, harity]

theorem skip_space_spaces (ws : List Char) (hws : ∀ c ∈ ws, isspace c = true) :
    skip_space ws = [] := by
  unfold skip_space
  rw [List.dropWhile_eq_nil_iff]
  exact hws

theorem digits_fold_eq (digits : List Char) (a : Int)
    (hdigits : ∀ c ∈ digits, isdigit c = true) (ha : 0 ≤ a)
    (hfit : (a + 1) * 10 ^ digits.length ≤ 2147483648) :
    digits.foldl (fun integer c => wrap_int32 (wrap_int32 (integer * 10) + CHAR_DIGIT_TO_INT c)) a
      = digits.foldl (fun value c => value * 10 + ((c.toNat : Int) - 48)) a := by
  induction digits generalizing a with
  | nil => rfl
  | cons c digits ih =>
    obtain ⟨hc0, hc9⟩ := isdigit_value c (hdigits c (by simp))
    have hpow : (1 : Int) ≤ 10 ^ digits.length := one_le_pow₀ (by norm_num)
    rw [List.length_cons, pow_succ] at hfit
    have hstep : (a * 10 + CHAR_DIGIT_TO_INT c + 1) * 10 ^ digits.length
        ≤ (a + 1) * (10 ^ digits.length * 10) := by nlinarith
    have hsmall : a * 10 + CHAR_DIGIT_TO_INT c < 2147483648 := by nlinarith
    rw [List.foldl_cons, List.foldl_cons, digit_step a _ ha hc0 hsmall]
    exact ih (a * 10 + CHAR_DIGIT_TO_INT c)
      (fun d hd => hdigits d (by simp [hd])) (by omega) (le_trans hstep hfit)

theorem spec_digits_value_bound (digits : List Char)
    (hdigits : ∀ c ∈ digits, isdigit c = true) (hlen : digits.length ≤ 9) :
    digits.foldl (fun integer c => wrap_int32 (wrap_int32 (integer * 10) + CHAR_DIGIT_TO_INT c)) 0
        = spec_digits_value digits
      ∧ 0 ≤ spec_digits_value digits ∧ spec_digits_value digits < 2147483648 := by
  have hfit : ((0 : Int) + 1) * 10 ^ digits.length ≤ 2147483648 :=
    calc ((0 : Int) + 1) * (10 : Int) ^ digits.length = 10 ^ digits.length := by ring
      _ ≤ 10 ^ 9 := pow_le_pow_right₀ (by norm_num) hlen
      _ ≤ 2147483648 := by norm_num
  have heq := digits_fold_eq digits 0 hdigits (le_refl 0) hfit
  obtain ⟨h1, h2⟩ := digits_fold_bound digits 0 hdigits (le_refl 0) hfit
  rw [heq] at h1 h2
  refine ⟨heq, h1, ?_⟩
  have : spec_digits_value digits + 1 ≤ 2147483648 := le_trans h2 hfit
  omega

theorem takeWhile_isdigit_append (digits rest : List Char)
    (hdigits : ∀ c ∈ digits, isdigit c = true)
    (hrest : ∀ t r, rest = t :: r → isdigit t = false) :
    (digits ++ rest).takeWhile isdigit = digits := by
  induction digits with
  | nil =>
    cases rest with
    | nil => rfl
    | cons t r => simp [List.takeWhile, hrest t r rfl]
  | cons d digits ih =>
    have hd := hdigits d (by simp)
    rw [List.cons_append, List.takeWhile_cons, if_pos hd,
      ih (fun c hc => hdigits c (by simp [hc]))]

theorem parse_int32_base10_digits (digits rest : List Char) (hne : digits ≠ [])
    (hdigits : ∀ c ∈ digits, isdigit c = true) (hlen : digits.length ≤ 9)
    (hrest : ∀ t r, rest = t :: r → isdigit t = false) :
    parse_int32_base10 (digits ++ rest)
        = { success := true, integer := spec_digits_value digits,
            chars_read := digits.length, is_negative := false }
      ∧ parse_int32_base10 ('-' :: (digits ++ rest))
        = { success := true, integer := -spec_digits_value digits,
            chars_read := 1 + digits.length, is_negative := true } := by
  obtain ⟨hvalue, h0, h1⟩ := spec_digits_value_bound digits hdigits hlen
  have htake := takeWhile_isdigit_append digits rest hdigits hrest
  have hpos : 0 < digits.length := List.length_pos.mpr hne
  have hhead : (digits ++ rest).head? ≠ some '-' := by
    cases digits with
    | nil => exact absurd rfl hne
    | cons d digits =>
      have hd := hdigits d (by simp)
      intro h
      simp only [List.cons_append, List.head?_cons, Option.some.injEq] at h
      rw [h] at hd
      revert hd
      decide
  constructor
  · unfold parse_int32_base10
    simp only [hhead, decide_False, Bool.false_eq_true, if_false, htake, hvalue,
      BITS_32_INT_MAX_DIGITS]
    rw [if_neg (by omega), if_neg (by omega)]
    have hten : decide (digits.length = 10) = false := by
      simp only [decide_eq_false_iff_not]
      omega
    simp [hten]
  · unfold parse_int32_base10
    simp only [List.head?_cons, decide_True, if_true, List.tail_cons, htake, hvalue,
      BITS_32_INT_MAX_DIGITS]
    rw [if_neg (by omega), if_neg (by omega)]
    have hten : decide (digits.length = 10) = false := by
      simp only [decide_eq_false_iff_not]
      omega
    simp only [hten, Bool.false_and, Bool.false_eq_true, if_false]
    rw [wrap_int32_eq _ (by omega) (by omega)]
    simp

theorem parse_int32_base10_no_digit (str : List Char)
    (hhead : ∀ t r, str = t :: r → isdigit t = false ∧ t ≠ '-') :
    (parse_int32_base10 str).success = false := by
  have hsign : str.head? ≠ some '-' := by
    cases str with
    | nil => simp
    | cons t r =>
      simp only [List.head?_cons, ne_eq, Option.some.injEq]
      exact (hhead t r rfl).2
  have htake : str.takeWhile isdigit = [] := by
    cases str with
    | nil => rfl
    | cons t r => simp [List.takeWhile, (hhead t r rfl).1]
  unfold parse_int32_base10
  simp [hsign, htake, BITS_32_INT_MAX_DIGITS]

theorem operand_end_char (t : Char) (h : isspace t = true ∨ t = ',') :
    isdigit t = false ∧ t ≠ '-' ∧ parse_operand_symbol_end_indicator t = true := by
  rcases h with h | h
  · refine ⟨?_, ?_, by simp [parse_operand_symbol_end_indicator, h]⟩
    · cases hd : isdigit t with
      | false => rfl
      | true =>
        have := isalnum_not_space t (by simp [isalnum, hd])
        rw [h] at this
        cases this
    · intro he
      rw [he] at h
      revert h
      decide
  · subst h
    exact ⟨by decide, by decide, by decide⟩

theorem register_with_digits_false (name : List Char) (h : register_with_digits name = false) :
    ¬ ∃ tail, name = 'r' :: tail ∧ tail ≠ [] ∧ ∀ d ∈ tail, isdigit d = true := by
  rintro ⟨tail, heq, hne, hdigits⟩
  subst heq
  cases tail with
  | nil => exact hne rfl
  | cons d digits =>
    have hall : (d :: digits).all isdigit = true := List.all_eq_true.mpr hdigits
    simp only [register_with_digits] at h
    rw [hall] at h
    cases h

theorem starts_like_register_false (name : List Char) (h : starts_like_register name = false) :
    ¬ ∃ tail, name = 'r' :: tail ∧ tail ≠ [] ∧ ∀ d ∈ tail, isdigit d = true := by
  rintro ⟨tail, heq, hne, hdigits⟩
  subst heq
  cases tail with
  | nil => exact hne rfl
  | cons d digits =>
    have hd := hdigits d (by simp)
    simp [starts_like_register, hd] at h

theorem spec_symbol_name_parsed (name rest : List Char) (hname : spec_symbol_name name = true)
    (hregister : ¬ ∃ tail, name = 'r' :: tail ∧ tail ≠ [] ∧ ∀ d ∈ tail, isdigit d = true)
    (hrest : rest = [] ∨ ∃ t r, rest = t :: r ∧ (isspace t = true ∨ t = ',')) :
    parse_symbol (name ++ rest) parse_operand_symbol_end_indicator
      = some { data := HAS_SYMBOL (String.mk name), symbol_length := name.length } := by
  simp only [spec_symbol_name, Bool.and_eq_true, decide_eq_true_eq] at hname
  obtain ⟨⟨⟨hident, hinstruction⟩, hdirective⟩, -⟩ := hname
  obtain ⟨c, tail, heq, halpha, halnum, hlen⟩ := (spec_identifier_iff name).mp hident
  subst heq
  obtain ⟨h1, h2, h3⟩ := spec_names_not_reserved (c :: tail) hinstruction hdirective hregister
  refine parse_symbol_accepts c tail rest parse_operand_symbol_end_indicator halpha halnum
    isalnum_not_operand_end ?_ h1 h2 h3 (by simp only [List.length_cons]; omega)
  rcases hrest with hrest | ⟨t, r, hrest, ht⟩
  · exact Or.inl ⟨hrest, by decide⟩
  · exact Or.inr ⟨t, r, hrest, (operand_end_char t ht).2.2⟩

theorem spec_integer_digits (literal : List Char) (value : Int)
    (h : spec_integer literal = some value) :
    (∃ digits, literal = digits ∧ digits ≠ [] ∧ (∀ c ∈ digits, isdigit c = true)
        ∧ literal.filter isdigit = digits ∧ value = spec_digits_value digits
        ∧ digits.head? ≠ some '-')
      ∨ ∃ digits, literal = '-' :: digits ∧ digits ≠ [] ∧ (∀ c ∈ digits, isdigit c = true)
        ∧ literal.filter isdigit = digits ∧ value = -spec_digits_value digits := by
  have hfilter : ∀ digits : List Char, (∀ c ∈ digits, isdigit c = true) →
      digits.filter isdigit = digits := fun digits hd => List.filter_eq_self.mpr hd
  unfold spec_integer at h
  split at h
  · rename_i digits
    split at h
    · rename_i hd
      right
      have hall : ∀ c ∈ digits, isdigit c = true := by simpa using hd.2
      refine ⟨digits, rfl, hd.1, hall, ?_, (Option.some.inj h).symm⟩
      rw [List.filter_cons_of_neg (by decide), hfilter digits hall]
    · cases h
  · rename_i hnot
    split at h
    · rename_i hd
      left
      have hall : ∀ c ∈ literal, isdigit c = true := by simpa using hd.2
      refine ⟨literal, rfl, hd.1, hall, hfilter literal hall, (Option.some.inj h).symm, ?_⟩
      intro hhead
      cases literal with
      | nil => cases hhead
      | cons d digits =>
        simp only [List.head?_cons, Option.some.injEq] at hhead
        subst hhead
        exact hnot digits rfl
    · cases h

theorem parse_operand_immediate (literal rest : List Char) (value : Int)
    (hliteral : spec_integer literal = some value)
    (hrange : -2097152 ≤ value ∧ value ≤ 2097151)
    (hshort : (literal.filter isdigit).length < 10)
    (hrest : rest = [] ∨ ∃ t r, rest = t :: r ∧ (isspace t = true ∨ t = ',')) :
    parse_operand ('#' :: literal ++ rest)
      = some (.parsed (.immediate value, ('#' :: literal).length)) := by
  have hdigit : ∀ t r, rest = t :: r → isdigit t = false := by
    intro t r h
    rcases hrest with hrest | ⟨t2, r2, hrest, ht⟩
    · rw [hrest] at h
      cases h
    · rw [hrest] at h
      cases h
      exact (operand_end_char t ht).1
  have e1 : MIN_INTEGER = -2097152 := by decide
  have e2 : MAX_INTEGER = 2097151 := by decide
  rcases spec_integer_digits literal value hliteral with
    ⟨digits, hl, hne, hall, hfilter, hvalue, -⟩ | ⟨digits, hl, hne, hall, hfilter, hvalue⟩
  · rw [hfilter] at hshort
    subst hl
    have hparsed := (parse_int32_base10_digits literal rest hne hall (by omega) hdigit).1
    have hpos : 0 < literal.length := List.length_pos.mpr hne
    unfold parse_operand
    simp only [List.cons_append, List.head?_cons, if_true, List.tail_cons, hparsed,
      Bool.not_true, Bool.false_eq_true, false_and, or_false, e1, e2, ← hvalue,
      List.length_cons]
    rw [if_neg (by omega), if_neg (by omega), if_neg (by omega), Nat.add_comm]
  · rw [hfilter] at hshort
    subst hl
    have hparsed := (parse_int32_base10_digits digits rest hne hall (by omega) hdigit).2
    unfold parse_operand
    simp only [List.cons_append, List.head?_cons, if_true, List.tail_cons, hparsed,
      Bool.not_true, Bool.false_eq_true, false_and, or_false, e1, e2, ← hvalue,
      List.length_cons]
    rw [if_neg (by omega), if_neg (by omega), if_neg (by omega)]
    congr 3
    omega

theorem parse_operand_register (d : Char) (rest : List Char)
    (hd : ['r', d] ∈ spec_register_names)
    (hrest : rest = [] ∨ ∃ t r, rest = t :: r ∧ (isspace t = true ∨ t = ',')) :
    parse_operand ('r' :: d :: rest) = some (.parsed (.register (d.toNat - 48), 2)) := by
  have hdigit : ∀ t r, rest = t :: r → isdigit t = false := by
    intro t r h
    rcases hrest with hrest | ⟨t2, r2, hrest, ht⟩
    · rw [hrest] at h
      cases h
    · rw [hrest] at h
      cases h
      exact (operand_end_char t ht).1
  have hparsed : ∀ e : Char, isdigit e = true → parse_int32_base10 (e :: rest)
      = { success := true, integer := spec_digits_value [e], chars_read := 1,
          is_negative := false } := fun e he =>
    (parse_int32_base10_digits [e] rest (by simp) (by simpa using he) (by simp) hdigit).1
  simp only [spec_register_names, List.map_cons, List.map_nil, List.mem_cons,
    List.mem_singleton, List.not_mem_nil, or_false] at hd
  have hd2 : d = '0' ∨ d = '1' ∨ d = '2' ∨ d = '3' ∨ d = '4' ∨ d = '5' ∨ d = '6' ∨ d = '7' := by
    rcases hd with h | h | h | h | h | h | h | h <;> (cases h; simp)
  rcases hd2 with h | h | h | h | h | h | h | h <;>
    (subst h
     unfold parse_operand
     rw [if_neg (by simp)]
     simp only [List.tail_cons]
     rw [hparsed _ (by decide), if_pos ⟨rfl, rfl, by decide, by decide⟩]
     decide)

theorem parse_operand_of_spec (text rest : List Char) (operand : Operand)
    (hoperand : spec_operand text = some operand) (hdefect : operand_in_defect text = false)
    (hrest : rest = [] ∨ ∃ t r, rest = t :: r ∧ (isspace t = true ∨ t = ',')) :
    parse_operand (text ++ rest) = some (.parsed (operand, text.length)) := by
  unfold spec_operand at hoperand
  unfold operand_in_defect at hdefect
  split at hoperand
  · rename_i literal
    split at hoperand
    · rename_i value hvalue
      split at hoperand
      · rename_i hrange
        cases hoperand
        exact parse_operand_immediate literal rest value hvalue hrange
          (by simpa using hdefect) hrest
      · cases hoperand
    · cases hoperand
  · rename_i name
    split at hoperand
    · rename_i hname
      cases hoperand
      have hparsed := spec_symbol_name_parsed name rest hname
        (register_with_digits_false name hdefect) hrest
      unfold parse_operand
      rw [if_neg (by simp)]
      simp only [List.cons_append, List.head?_cons, List.tail_cons, Option.some.injEq]
      rw [if_neg (fun h => absurd h.1 (by decide))]
      simp only [decide_True, if_true, hparsed, List.length_cons]
    · cases hoperand
  · rename_i hhash hamp
    split at hdefect
    · rename_i literal
      exact absurd rfl (hhash literal)
    · rename_i name
      exact absurd rfl (hamp name)
    · split at hoperand
      · rename_i hmem
        cases hoperand
        have hshape : ∃ d, text = ['r', d] := by
          have h := hmem
          simp only [spec_register_names, List.map_cons, List.map_nil, List.mem_cons,
            List.mem_singleton, List.not_mem_nil, or_false] at h
          rcases h with h | h | h | h | h | h | h | h <;> exact ⟨_, h⟩
        obtain ⟨d, rfl⟩ := hshape
        exact parse_operand_register d rest hmem hrest
      · rename_i hmem
        split at hoperand
        · rename_i hname
          cases hoperand
          have hregister : starts_like_register text = false := by simpa [hmem] using hdefect
          have hparsed := spec_symbol_name_parsed text rest hname
            (starts_like_register_false text hregister) hrest
          have hident : spec_identifier text = true := by
            simp only [spec_symbol_name, Bool.and_eq_true] at hname
            exact hname.1.1.1
          obtain ⟨c, tail, heq, halpha, halnum, -⟩ := (spec_identifier_iff text).mp hident
          subst heq
          have hc1 : c ≠ '#' := fun h => hhash tail (by rw [h])
          have hc2 : c ≠ '&' := fun h => hamp tail (by rw [h])
          have hfail : ¬ ((c :: tail ++ rest).head? = some 'r'
              ∧ (parse_int32_base10 (c :: tail ++ rest).tail).success = true
              ∧ (parse_int32_base10 (c :: tail ++ rest).tail).integer < REGISTER_COUNT
              ∧ ¬ (parse_int32_base10 (c :: tail ++ rest).tail).is_negative = true) := by
            rintro ⟨hr, hsuccess, -, -⟩
            simp only [List.cons_append, List.head?_cons, Option.some.injEq] at hr
            subst hr
            have hno := parse_int32_base10_no_digit (tail ++ rest) (by
              intro t r ht
              cases tail with
              | nil =>
                rcases hrest with hrest | ⟨t2, r2, hrest, ht2⟩
                · rw [hrest] at ht
                  cases ht
                · rw [hrest] at ht
                  cases ht
                  exact ⟨(operand_end_char t ht2).1, (operand_end_char t ht2).2.1⟩
              | cons d tail =>
                cases ht
                have hd : isdigit t = false := by simpa [starts_like_register] using hregister
                refine ⟨hd, ?_⟩
                intro he
                have := halnum t (by simp)
                rw [he] at this
                revert this
                decide)
            simp only [List.cons_append, List.tail_cons] at hsuccess
            rw [hno] at hsuccess
            cases hsuccess
          unfold parse_operand
          rw [if_neg (by simpa using hc1)]
          dsimp only
          rw [if_neg hfail]
          have haddress : decide ((c :: tail ++ rest).head? = some '&') = false := by
            simpa using hc2
          simp only [haddress, Bool.false_eq_true, if_false, hparsed, Nat.add_zero]
        · cases hoperand

theorem skip_space_before (spaces text : List Char) (hspaces : ∀ c ∈ spaces, isspace c = true)
    (htext : starts_with_space text = false) : skip_space (spaces ++ text) = text := by
  unfold skip_space
  rw [List.dropWhile_append, List.dropWhile_eq_nil_iff.mpr hspaces]
  simp only [List.isEmpty_nil, if_true]
  cases text with
  | nil => rfl
  | cons t r =>
    have ht : isspace t = false := htext
    simp [List.dropWhile, ht]

theorem operand_text_of_spec (str : List Char) (operand : Operand) (after : List Char)
    (h : spec_operand_text str operand after) : operand_text str operand after := by
  obtain ⟨text, spaces, hstr, hoperand, hdefect, hspaces, hafter⟩ := h
  have hstart : starts_with_space after = false := by
    rcases hafter with h | h
    · rw [h]
      rfl
    · cases after with
      | nil => rfl
      | cons t r =>
        simp only [List.head?_cons, Option.some.injEq] at h
        subst h
        rfl
  have hrest : spaces ++ after = [] ∨ ∃ t r, spaces ++ after = t :: r
      ∧ (isspace t = true ∨ t = ',') := by
    cases spaces with
    | nil =>
      rcases hafter with h | h
      · exact Or.inl (by rw [h]; rfl)
      · cases after with
        | nil => exact Or.inl rfl
        | cons t r =>
          simp only [List.head?_cons, Option.some.injEq] at h
          exact Or.inr ⟨t, r, rfl, Or.inr h⟩
    | cons s spaces => exact Or.inr ⟨s, spaces ++ after, rfl, Or.inl (hspaces s (by simp))⟩
  refine ⟨text.length, ?_, ?_⟩
  · rw [hstr, List.append_assoc]
    exact parse_operand_of_spec text (spaces ++ after) operand hoperand hdefect hrest
  · rw [hstr, List.append_assoc, List.drop_left, skip_space_before spaces after hspaces hstart]

theorem str_to_instruction_type_name (type : InstructionType) (rest : List Char) :
    str_to_instruction_type (spec_instruction_name type ++ rest) = some type
      ∧ (spec_instruction_name type ++ rest).drop (instruction_name_len type) = rest := by
  cases type <;> exact ⟨rfl, rfl⟩

theorem spec_operand_start (text : List Char) (operand : Operand)
    (h : spec_operand text = some operand) :
    ∃ c tail, text = c :: tail ∧ isspace c = false := by
  unfold spec_operand at h
  split at h
  · exact ⟨'#', _, rfl, by decide⟩
  · exact ⟨'&', _, rfl, by decide⟩
  · split at h
    · rename_i hmem
      simp only [spec_register_names, List.map_cons, List.map_nil, List.mem_cons,
        List.mem_singleton, List.not_mem_nil, or_false] at hmem
      rcases hmem with h | h | h | h | h | h | h | h <;> exact ⟨'r', _, h, by decide⟩
    · split at h
      · rename_i hname
        simp only [spec_symbol_name, Bool.and_eq_true] at hname
        obtain ⟨c, tail, heq, halpha, -, -⟩ := (spec_identifier_iff text).mp hname.1.1.1
        exact ⟨c, tail, heq, isalnum_not_space c (by simp [isalnum, halpha])⟩
      · cases h

theorem spec_operand_text_start (str : List Char) (operand : Operand) (after : List Char)
    (h : spec_operand_text str operand after) : str ≠ [] ∧ starts_with_space str = false := by
  obtain ⟨text, spaces, hstr, hoperand, -, -, -⟩ := h
  obtain ⟨c, tail, heq, hc⟩ := spec_operand_start text operand hoperand
  rw [hstr, heq]
  exact ⟨by simp, hc⟩

theorem instruction_text_of_name (type : InstructionType) (spaces text : List Char)
    (hspaces : ∀ c ∈ spaces, isspace c = true) (htext : starts_with_space text = false)
    (hsep : text ≠ [] → spaces ≠ []) :
    instruction_text (spec_instruction_name type ++ spaces ++ text) type text := by
  obtain ⟨htype, hdrop⟩ := str_to_instruction_type_name type (spaces ++ text)
  rw [List.append_assoc]
  refine ⟨htype, ?_, ?_⟩
  · rw [hdrop]
    cases spaces with
    | nil =>
      left
      by_cases hnil : text = []
      · rw [hnil]
        rfl
      · exact absurd rfl (hsep hnil)
    | cons s spaces =>
      right
      exact hspaces s (by simp)
  · rw [hdrop, skip_space_before spaces text hspaces htext]

set_option maxRecDepth 8000 in
/-- C26: in the line `mov r1x, #5` both operands are operands of the
specification, the symbol `r1x` and the immediate 5; the type of the first
is acceptable as source of `mov` and the type of the second is not
acceptable as destination, so `EXPECTED_A_DIFFERENT_OPERAND_TYPE` with
`op_index` 2 is due. `parse_operand` takes `r1` for a register and leaves
the `x`, and `parse_instruction` fails with
`INVALID_CHARACTER_AFTER_OPERAND` for `x`; with the symbol `LOOP` in place
of `r1x` the error is the one that is due, and in `lea r1, #2`, where both
operands have a type that is not acceptable, the first is reported. For
operands outside the defects of the parser, `parse_instruction` reports the
first operand with `op_index` 1 and the types acceptable as source when its
type is not among them, whatever the second operand is; otherwise the second
operand with `op_index` 2 and the types acceptable as destination when its
type is not among those; otherwise it succeeds. -/
theorem parse_instruction_operand_types :
    spec_operand "r1x".toList = some (.symbol "r1x")
      ∧ spec_operand "#5".toList = some (.immediate 5)
      ∧ instruction_operand_amount INSTRUCTION_MOV = 2
      ∧ OPERAND_SYMBOL ∈ acceptable_src_operands INSTRUCTION_MOV
      ∧ OPERAND_IMMEDIATE ∉ acceptable_dest_operands INSTRUCTION_MOV
      ∧ parse_operand "r1x, #5".toList = some (.parsed (.register 1, 2))
      ∧ parse_instruction "mov r1x, #5".toList
        = some (.parse_error (.PARSE_ERROR_OPERAND_INVALID_CHARACTER_AFTER_OPERAND 'x'))
      ∧ parse_instruction "mov LOOP, #5".toList
        = some (.parse_error (.PARSE_ERROR_INSTRUCTION_EXPECTED_A_DIFFERENT_OPERAND_TYPE 2
            OPERAND_IMMEDIATE [OPERAND_SYMBOL, OPERAND_REGISTER]))
      ∧ parse_instruction "lea r1, #2".toList
        = some (.parse_error (.PARSE_ERROR_INSTRUCTION_EXPECTED_A_DIFFERENT_OPERAND_TYPE 1
            OPERAND_REGISTER [OPERAND_SYMBOL]))
      ∧ ∀ (type : InstructionType) (spaces text rest : List Char) (operand1 operand2 : Operand),
          instruction_operand_amount type = 2 →
          spaces ≠ [] → (∀ c ∈ spaces, isspace c = true) →
          spec_operand_text text operand1 (',' :: rest) →
          spec_operand_text (skip_space rest) operand2 [] →
          (operand1.type ∉ acceptable_src_operands type →
              parse_instruction (spec_instruction_name type ++ spaces ++ text)
                = some (.parse_error
                    (.PARSE_ERROR_INSTRUCTION_EXPECTED_A_DIFFERENT_OPERAND_TYPE 1
                      operand1.type (acceptable_src_operands type))))
            ∧ (operand1.type ∈ acceptable_src_operands type →
                operand2.type ∉ acceptable_dest_operands type →
                parse_instruction (spec_instruction_name type ++ spaces ++ text)
                  = some (.parse_error
                      (.PARSE_ERROR_INSTRUCTION_EXPECTED_A_DIFFERENT_OPERAND_TYPE 2
                        operand2.type (acceptable_dest_operands type))))
            ∧ (operand1.type ∈ acceptable_src_operands type →
                operand2.type ∈ acceptable_dest_operands type →
                parse_instruction (spec_instruction_name type ++ spaces ++ text)
                  = some (.parsed { type := type, operand_amount := 2, operand1 := operand1,
                                    operand2 := operand2 })) := by
  refine ⟨by decide, by decide, by decide, by decide, by decide, by decide, by decide,
    by decide, by decide, ?_⟩
  intro type spaces text rest operand1 operand2 harity hne hspaces hfirst hsecond
  have hstart := spec_operand_text_start text operand1 _ hfirst
  exact parse_instruction_types_of_text _ type text rest operand1 operand2
    (instruction_text_of_name type spaces text hspaces hstart.2 (fun _ => hne)) harity
    (operand_text_of_spec _ _ _ hfirst) (operand_text_of_spec _ _ _ hsecond)

theorem parse_instruction_after_second_parsed (instruction : Instruction) (str : List Char)
    (result : Instruction)
    (h : parse_instruction_after_second instruction str = .parsed result) :
    result = instruction
      ∧ instruction.operand1.type ∈ acceptable_src_operands instruction.type
      ∧ instruction.operand2.type ∈ acceptable_dest_operands instruction.type := by
  unfold parse_instruction_after_second at h
  split at h
  · cases h
  · split at h
    · cases h
    · split at h
      · split at h
        · cases h
        · rename_i h1
          split at h
          · cases h
          · rename_i h2
            simp only [ParseResult.parsed.injEq] at h
            refine ⟨h.symm, ?_, ?_⟩
            · exact (is_acceptable_operand_iff _ _).mp (by simpa using h1)
            · exact (is_acceptable_operand_iff _ _).mp (by simpa using h2)
      · cases h

theorem parse_instruction_after_first_parsed (instruction : Instruction) (str : List Char)
    (result : Instruction)
    (h : parse_instruction_after_first instruction str = some (.parsed result)) :
    (instruction.operand_amount = 1 ∧ result = instruction
        ∧ instruction.operand1.type ∈ acceptable_dest_operands instruction.type)
      ∨ (instruction.operand_amount ≠ 1
        ∧ ∃ operand2, spec_operand_well_formed operand2 = true
          ∧ result = { instruction with operand2 := operand2 }
          ∧ instruction.operand1.type ∈ acceptable_src_operands instruction.type
          ∧ operand2.type ∈ acceptable_dest_operands instruction.type) := by
  unfold parse_instruction_after_first at h
  dsimp only at h
  split at h
  · cases h
  · split at h
    · cases h
    · split at h
      · cases h
      · split at h
        · rename_i hone
          split at h
          · cases h
          · rename_i hacceptable
            simp only [Option.some.injEq, ParseResult.parsed.injEq] at h
            exact Or.inl ⟨hone.2, h.symm,
              (is_acceptable_operand_iff _ _).mp (by simpa using hacceptable)⟩
        · split at h
          · cases h
          · rename_i hnotone
            split at h
            · cases h
            · cases hparsed : parse_operand (skip_space str.tail) with
              | none =>
                rw [hparsed] at h
                cases h
              | some parsed =>
                rw [hparsed] at h
                cases parsed with
                | parse_error error => cases h
                | parsed value =>
                  obtain ⟨operand2, operand_len⟩ := value
                  simp only [Option.some.injEq] at h
                  obtain ⟨hresult, hsrc, hdest⟩ :=
                    parse_instruction_after_second_parsed _ _ result h
                  exact Or.inr ⟨hnotone, operand2,
                    (parse_operand_parsed _ operand2 operand_len hparsed).1, hresult, hsrc,
                    hdest⟩

theorem parse_instruction_operands_parsed (type : InstructionType) (text : List Char)
    (instruction : Instruction)
    (h : parse_instruction_operands type text = some (.parsed instruction)) :
    spec_instruction_well_formed instruction = true := by
  unfold parse_instruction_operands at h
  dsimp only at h
  split at h
  · cases h
  · rename_i hmany
    split at h
    · cases h
    · rename_i hlittle
      split at h
      · rename_i hzero
        simp only [Option.some.injEq, ParseResult.parsed.injEq] at h
        subst h
        simp [spec_instruction_well_formed, hzero.2]
      · rename_i hnone
        split at h
        · cases h
        · cases hparsed : parse_operand text with
          | none =>
            rw [hparsed] at h
            cases h
          | some parsed =>
            rw [hparsed] at h
            cases parsed with
            | parse_error error => cases h
            | parsed value =>
              obtain ⟨operand1, operand_len⟩ := value
              dsimp only at h
              have hwf1 := (parse_operand_parsed _ operand1 operand_len hparsed).1
              rcases parse_instruction_after_first_parsed _ _ instruction h with
                ⟨hone, hresult, hdest⟩ | ⟨hnotone, operand2, hwf2, hresult, hsrc, hdest⟩
              · subst hresult
                simp only at hone hdest
                simp [spec_instruction_well_formed, hone, hdest, hwf1]
              · subst hresult
                simp only at hnotone hsrc hdest
                have htwo : instruction_operand_amount type = 2 := by
                  rcases instruction_operand_amount_le type with h0 | h1 | h2
                  · exfalso
                    by_cases htext : text = []
                    · exact hnone ⟨htext, h0⟩
                    · exact hmany ⟨h0, htext⟩
                  · exact absurd h1 hnotone
                  · exact h2
                simp [spec_instruction_well_formed, htwo, hsrc, hdest, hwf1, hwf2]

theorem parse_line_content_val (line : List Char) (data : ParseLineData)
    (h : parse_line line = some data) :
    (∀ instruction, data.val = PARSE_LINE_INSTRUCTION instruction →
        ∃ str, parse_instruction str = some (.parsed instruction))
      ∧ (∀ directive, data.val = PARSE_LINE_DIRECTIVE directive →
        ∃ str suffix, line = suffix ++ str
          ∧ parse_directive str = some (.parsed directive)) := by
  have hcontent : ∀ (line_ptr : List Char) (val : ParseLineVal) (before : List Char),
      line = before ++ line_ptr → parse_line_content line_ptr = some val →
      (∀ instruction, val = PARSE_LINE_INSTRUCTION instruction →
          ∃ str, parse_instruction str = some (.parsed instruction))
        ∧ (∀ directive, val = PARSE_LINE_DIRECTIVE directive →
          ∃ str suffix, line = suffix ++ str
            ∧ parse_directive str = some (.parsed directive)) := by
    intro line_ptr val before hline hval
    unfold parse_line_content at hval
    cases line_ptr with
    | nil =>
      simp only [Option.some.injEq] at hval
      subst hval
      exact ⟨fun _ hc => (by cases hc), fun _ hc => (by cases hc)⟩
    | cons c after_dot =>
      dsimp only at hval
      split at hval
      · cases hdirective : parse_directive after_dot with
        | none =>
          rw [hdirective] at hval
          cases hval
        | some parsed =>
          rw [hdirective] at hval
          cases parsed with
          | parse_error error =>
            simp only [Option.some.injEq] at hval
            subst hval
            exact ⟨fun _ hc => (by cases hc), fun _ hc => (by cases hc)⟩
          | parsed directive =>
            simp only [Option.some.injEq] at hval
            subst hval
            refine ⟨fun _ hc => (by cases hc), fun d hd => ?_⟩
            cases hd
            exact ⟨after_dot, before ++ [c], by rw [hline]; simp, hdirective⟩
      · cases hinstruction : parse_instruction (c :: after_dot) with
        | none =>
          rw [hinstruction] at hval
          cases hval
        | some parsed =>
          rw [hinstruction] at hval
          cases parsed with
          | parse_error error =>
            simp only [Option.some.injEq] at hval
            subst hval
            exact ⟨fun _ hc => (by cases hc), fun _ hc => (by cases hc)⟩
          | parsed instruction =>
            simp only [Option.some.injEq] at hval
            subst hval
            refine ⟨fun i hi => ?_, fun _ hc => (by cases hc)⟩
            cases hi
            exact ⟨_, hinstruction⟩
  unfold parse_line at h
  split at h
  · simp only [Option.some.injEq] at h
    subst h
    exact ⟨fun _ hc => (by cases hc), fun _ hc => (by cases hc)⟩
  · split at h
    · simp only [Option.some.injEq] at h
      subst h
      exact ⟨fun _ hc => (by cases hc), fun _ hc => (by cases hc)⟩
    · dsimp only at h
      cases hsymbol : parse_symbol (skip_space line) parse_line_label_end_indicator with
      | none =>
        rw [hsymbol] at h
        cases h
      | some parsed =>
        rw [hsymbol] at h
        dsimp only at h
        have hsuffix : ∀ n : Nat, ∃ before, line = before ++ (skip_space line).drop n := by
          intro n
          refine ⟨line.takeWhile isspace ++ (skip_space line).take n, ?_⟩
          rw [List.append_assoc, List.take_append_drop]
          exact (List.takeWhile_append_dropWhile isspace line).symm
        split at h
        · split at h
          · simp only [Option.some.injEq] at h
            subst h
            exact ⟨fun _ hc => (by cases hc), fun _ hc => (by cases hc)⟩
          · simp only [Option.map_eq_some'] at h
            obtain ⟨val, hval, hdata⟩ := h
            subst hdata
            obtain ⟨before, hbefore⟩ := hsuffix (parsed.symbol_length + 1)
            refine hcontent _ val
              (before ++ ((skip_space line).drop parsed.symbol_length).tail.takeWhile isspace)
              ?_ hval
            rw [List.append_assoc]
            unfold skip_space
            rw [List.takeWhile_append_dropWhile, List.tail_drop]
            exact hbefore
        · simp only [Option.map_eq_some'] at h
          obtain ⟨val, hval, hdata⟩ := h
          subst hdata
          obtain ⟨before, hbefore⟩ := hsuffix parsed.symbol_length
          refine hcontent _ val
            (before ++ ((skip_space line).drop parsed.symbol_length).takeWhile isspace) ?_ hval
          rw [List.append_assoc]
          unfold skip_space
          rw [List.takeWhile_append_dropWhile]
          exact hbefore

/-! ## Names stored by the first pass -/

theorem first_pass_define_names (st : FirstPassState) (name : String) (addr : Nat)
    (ctx : SymbolContext) :
    ∀ symbol ∈ (first_pass_define st name addr ctx).symbol_table,
      symbol ∈ st.symbol_table ∨ symbol.name = name := by
  intro symbol hmem
  rcases first_pass_define_cases st name addr ctx with ⟨found, -, e⟩ | ⟨-, e⟩ | ⟨-, e⟩
  · rw [e] at hmem
    exact Or.inl hmem
  · rw [e] at hmem
    exact Or.inl hmem
  · rw [e] at hmem
    rcases List.mem_append.mp hmem with h | h
    · exact Or.inl h
    · simp only [List.mem_singleton] at h
      subst h
      exact Or.inr rfl

theorem first_pass_memory_check_table (st : FirstPassState) :
    (first_pass_memory_check st).symbol_table = st.symbol_table := by
  unfold first_pass_memory_check
  split <;> rfl

theorem first_pass_line_names (st : FirstPassState) (line : ParseLineData) :
    ∀ symbol ∈ (first_pass_line st line).symbol_table,
      symbol ∈ st.symbol_table ∨ line_defines line symbol.name := by
  have hlabel : ∀ st1 : FirstPassState,
      line.val ≠ PARSE_LINE_COMMENT → line.val ≠ PARSE_LINE_EMPTY →
      ∀ symbol ∈ (first_pass_label line st1).symbol_table,
        symbol ∈ st1.symbol_table ∨ line_defines line symbol.name := by
    intro st1 hcomment hempty symbol hmem
    unfold first_pass_label at hmem
    cases hl : line.parse_label_data with
    | DOES_NOT_HAVE_SYMBOL =>
      rw [hl] at hmem
      exact Or.inl hmem
    | SYMBOL_PARSE_ERROR e =>
      rw [hl] at hmem
      exact Or.inl hmem
    | HAS_SYMBOL label =>
      rw [hl] at hmem
      cases hval : line.val with
      | PARSE_LINE_COMMENT => exact absurd hval hcomment
      | PARSE_LINE_EMPTY => exact absurd hval hempty
      | PARSE_LINE_ERROR e =>
        rw [hval] at hmem
        exact Or.inl hmem
      | PARSE_LINE_INSTRUCTION instruction =>
        rw [hval] at hmem
        rcases first_pass_define_names _ _ _ _ symbol hmem with h | h
        · exact Or.inl h
        · exact Or.inr (Or.inl ⟨by rw [h]; exact hl, Or.inl ⟨instruction, hval⟩⟩)
      | PARSE_LINE_DIRECTIVE directive =>
        rw [hval] at hmem
        dsimp only at hmem
        split at hmem
        · rename_i htype
          rcases first_pass_define_names _ _ _ _ symbol hmem with h | h
          · exact Or.inl h
          · exact Or.inr (Or.inl ⟨by rw [h]; exact hl, Or.inr ⟨directive, hval, htype⟩⟩)
        · exact Or.inl hmem
  have hcontent : ∀ st1 : FirstPassState,
      ∀ symbol ∈ (first_pass_content line st1).symbol_table,
        symbol ∈ st1.symbol_table ∨ line_defines line symbol.name := by
    intro st1 symbol hmem
    unfold first_pass_content at hmem
    cases hval : line.val with
    | PARSE_LINE_COMMENT =>
      rw [hval] at hmem
      exact Or.inl hmem
    | PARSE_LINE_EMPTY =>
      rw [hval] at hmem
      exact Or.inl hmem
    | PARSE_LINE_ERROR e =>
      rw [hval] at hmem
      exact Or.inl hmem
    | PARSE_LINE_INSTRUCTION instruction =>
      rw [hval] at hmem
      exact Or.inl hmem
    | PARSE_LINE_DIRECTIVE directive =>
      rw [hval] at hmem
      cases directive with
      | external name =>
        rcases first_pass_define_names _ _ _ _ symbol hmem with h | h
        · exact Or.inl h
        · exact Or.inr (Or.inr (by rw [h]; exact hval))
      | data integers => exact Or.inl hmem
      | string string => exact Or.inl hmem
      | entry name => exact Or.inl hmem
  have hstep : line.val ≠ PARSE_LINE_COMMENT → line.val ≠ PARSE_LINE_EMPTY →
      (∀ s ∈ (first_pass_label line { st with line_num := st.line_num + 1 }).symbol_table,
        s ∈ st.symbol_table ∨ line_defines line s.name)
      ∧ ∀ s ∈ (first_pass_content line
          (first_pass_label line { st with line_num := st.line_num + 1 })).symbol_table,
          s ∈ st.symbol_table ∨ line_defines line s.name := by
    intro hcomment hempty
    have h1 : ∀ s ∈ (first_pass_label line { st with line_num := st.line_num + 1 }).symbol_table,
        s ∈ st.symbol_table ∨ line_defines line s.name :=
      fun s hs => hlabel { st with line_num := st.line_num + 1 } hcomment hempty s hs
    refine ⟨h1, fun s hs => ?_⟩
    rcases hcontent _ s hs with h | h
    · exact h1 s h
    · exact Or.inr h
  unfold first_pass_line
  by_cases ha : st.alloc_fail = true
  · rw [if_pos ha]
    exact fun s hs => Or.inl hs
  · rw [if_neg ha]
    cases hval : line.val <;> dsimp only <;> first
      | exact fun s hs => Or.inl hs
      | (obtain ⟨h1, h2⟩ := hstep (by rw [hval]; simp) (by rw [hval]; simp)
         split_ifs
         · exact h1
         · exact h2
         · rw [first_pass_memory_check_table]
           exact h2)

theorem first_pass_fold_names (lines : List ParseLineData) (st : FirstPassState) :
    ∀ symbol ∈ (lines.foldl first_pass_line st).symbol_table,
      symbol ∈ st.symbol_table ∨ ∃ line ∈ lines, line_defines line symbol.name := by
  induction lines generalizing st with
  | nil => exact fun s hs => Or.inl hs
  | cons line rest ih =>
    intro symbol hmem
    rcases ih (first_pass_line st line) symbol hmem with h | ⟨l, hl, hd⟩
    · rcases first_pass_line_names st line symbol h with h2 | h2
      · exact Or.inl h2
      · exact Or.inr ⟨line, by simp, h2⟩
    · exact Or.inr ⟨l, by simp [hl], hd⟩

theorem first_pass_table_names (lines : List ParseLineData) :
    ∀ symbol ∈ (first_pass lines).symbol_table, ∃ line ∈ lines, line_defines line symbol.name := by
  intro symbol hmem
  have hname : symbol.name ∈ (first_pass lines).symbol_table.map Symbol.name :=
    List.mem_map_of_mem _ hmem
  rw [first_pass_names] at hname
  obtain ⟨original, horiginal, heq⟩ := List.mem_map.mp hname
  rcases first_pass_fold_names lines first_pass_init original horiginal with h | h
  · simp [first_pass_init] at h
  · rw [← heq]
    exact h

/-- A name that the first pass may store: it matches the identifier grammar
and is not the name of an instruction, of a directive or of a register. -/
theorem parse_symbol_name (line : List Char) (symbol_end_indicator : Char → Bool)
    (parsed : ParseSymbol) (name : String)
    (h : parse_symbol line symbol_end_indicator = some parsed)
    (hname : parsed.data = HAS_SYMBOL name) :
    spec_identifier name.toList = true ∧ is_an_instruction name.toList = false
      ∧ is_a_directive name.toList = false ∧ is_a_register name.toList = false := by
  obtain ⟨hn, -, h1, h2, h3, h4, -⟩ := parse_symbol_has_symbol line _ parsed name h hname
  rw [hn]
  exact ⟨h1, h3, h2, h4⟩

theorem parse_symbol_default_whole (str : List Char) (parsed : ParseSymbol) (name : String)
    (hnul : NUL ∉ str)
    (h : parse_symbol str default_symbol_end_indicator = some parsed)
    (hname : parsed.data = HAS_SYMBOL name) : name = String.mk str := by
  obtain ⟨hn, htake, -⟩ := parse_symbol_has_symbol str _ parsed name h hname
  rw [hn, htake]
  congr 1
  rw [List.takeWhile_eq_self_iff]
  intro c hc
  have : c ≠ NUL := fun he => hnul (he ▸ hc)
  simpa [default_symbol_end_indicator] using this

theorem trim_end_subset (str : List Char) : ∀ c ∈ trim_end str, c ∈ str := by
  intro c hc
  cases str with
  | nil => simp [trim_end] at hc
  | cons d rest =>
    simp only [trim_end, List.mem_reverse] at hc
    exact List.mem_reverse.mp ((List.dropWhile_sublist _).subset hc)

theorem parse_directive_symbol_parsed (str : List Char) (directive : String → Directive)
    (got_no_symbol : ParseError) (got_invalid_symbol : ParseSymbolError → ParseError)
    (result : Directive) (hnul : NUL ∉ str)
    (h : parse_directive_symbol str directive got_no_symbol got_invalid_symbol
      = some (.parsed result)) :
    ∃ name, result = directive name ∧ spec_identifier name.toList = true
      ∧ is_an_instruction name.toList = false ∧ is_a_directive name.toList = false
      ∧ is_a_register name.toList = false := by
  unfold parse_directive_symbol at h
  dsimp only at h
  cases hparsed : parse_symbol (trim_end str) default_symbol_end_indicator with
  | none =>
    rw [hparsed] at h
    cases h
  | some parsed =>
    rw [hparsed] at h
    dsimp only at h
    cases hdata : parsed.data with
    | DOES_NOT_HAVE_SYMBOL =>
      rw [hdata] at h
      cases h
    | SYMBOL_PARSE_ERROR e =>
      rw [hdata] at h
      dsimp only at h
      split at h <;> cases h
    | HAS_SYMBOL name =>
      rw [hdata] at h
      simp only [Option.some.injEq, ParseResult.parsed.injEq] at h
      have hwhole := parse_symbol_default_whole (trim_end str) parsed name
        (fun hc => hnul (trim_end_subset str _ hc)) hparsed hdata
      refine ⟨name, ?_, parse_symbol_name _ _ parsed name hparsed hdata⟩
      rw [← h, hwhole]

theorem parse_directive_external (str : List Char) (name : String) (hnul : NUL ∉ str)
    (h : parse_directive str = some (.parsed (.external name))) :
    spec_identifier name.toList = true ∧ is_an_instruction name.toList = false
      ∧ is_a_directive name.toList = false ∧ is_a_register name.toList = false := by
  unfold parse_directive at h
  cases htype : str_to_directive_type str with
  | none =>
    rw [htype] at h
    cases h
  | some type =>
    rw [htype] at h
    dsimp only at h
    split at h
    · cases h
    · have hsub : NUL ∉ skip_space (str.drop (directive_name_len type)) := by
        intro hc
        exact hnul (List.mem_of_mem_drop ((List.dropWhile_sublist _).subset hc))
      cases type with
      | DIRECTIVE_DATA =>
        dsimp only at h
        unfold parse_data_directive at h
        split at h
        · cases h
        · simp only [Option.map_eq_some'] at h
          obtain ⟨r, -, hr⟩ := h
          cases r <;> cases hr
      | DIRECTIVE_STRING =>
        dsimp only at h
        unfold parse_string_directive at h
        split at h
        · cases h
        · split at h
          · cases h
          · split at h <;> cases h
      | DIRECTIVE_ENTRY =>
        dsimp only at h
        obtain ⟨n, hn, -⟩ := parse_directive_symbol_parsed _ _ _ _ _ hsub h
        cases hn
      | DIRECTIVE_EXTERN =>
        dsimp only at h
        obtain ⟨n, hn, hvalid⟩ := parse_directive_symbol_parsed _ _ _ _ _ hsub h
        cases hn
        exact hvalid

theorem parse_line_names (line : List Char) (data : ParseLineData) (name : String)
    (hnul : NUL ∉ line) (h : parse_line line = some data) (hdefines : line_defines data name) :
    spec_identifier name.toList = true ∧ is_an_instruction name.toList = false
      ∧ is_a_directive name.toList = false ∧ is_a_register name.toList = false := by
  rcases hdefines with ⟨hlabel, -⟩ | hexternal
  · unfold parse_line at h
    split at h
    · simp only [Option.some.injEq] at h
      subst h
      cases hlabel
    · split at h
      · simp only [Option.some.injEq] at h
        subst h
        cases hlabel
      · dsimp only at h
        cases hsymbol : parse_symbol (skip_space line) parse_line_label_end_indicator with
        | none =>
          rw [hsymbol] at h
          cases h
        | some parsed =>
          rw [hsymbol] at h
          dsimp only at h
          have hdata : data.parse_label_data = parsed.data := by
            split at h
            · split at h
              · simp only [Option.some.injEq] at h
                subst h
                rfl
              · simp only [Option.map_eq_some'] at h
                obtain ⟨val, -, hd⟩ := h
                subst hd
                rfl
            · simp only [Option.map_eq_some'] at h
              obtain ⟨val, -, hd⟩ := h
              subst hd
              rfl
          rw [hdata] at hlabel
          exact parse_symbol_name _ _ parsed name hsymbol hlabel
  · obtain ⟨str, suffix, hline, hdirective⟩ :=
      (parse_line_content_val line data h).2 (.external name) hexternal
    refine parse_directive_external str name ?_ hdirective
    intro hc
    exact hnul (by rw [hline]; exact List.mem_append_right _ hc)

theorem fgets_read_subset (n : Nat) (input : List Char) :
    (∀ c ∈ (fgets_read n input).1, c ∈ input) ∧ (∀ c ∈ (fgets_read n input).2, c ∈ input) := by
  induction input generalizing n with
  | nil => cases n <;> simp [fgets_read]
  | cons d input ih =>
    cases n with
    | zero => simp [fgets_read]
    | succ n =>
      unfold fgets_read
      split
      · exact ⟨by simp, fun c hc => List.mem_cons_of_mem _ hc⟩
      · obtain ⟨h1, h2⟩ := ih n
        refine ⟨fun c hc => ?_, fun c hc => List.mem_cons_of_mem _ (h2 c hc)⟩
        rcases List.mem_cons.mp hc with h | h
        · simp [h]
        · exact List.mem_cons_of_mem _ (h1 c h)

theorem parse_symbol_length_le (line : List Char) (symbol_end_indicator : Char → Bool)
    (parsed : ParseSymbol) (h : parse_symbol line symbol_end_indicator = some parsed) :
    parsed.symbol_length ≤ line.length := by
  cases line with
  | nil =>
    simp only [parse_symbol] at h
    split at h
    · cases h
      simp
    · cases h
  | cons c rest =>
    simp only [parse_symbol] at h
    have hlen := (parse_symbol_loop_spec symbol_end_indicator rest 1
      (if (!isalpha c) = true then some (.starts_with_non_alphabethic_char c) else none)).2.1
    have hle := (List.takeWhile_sublist (fun c => !symbol_end_indicator c) (l := rest)).length_le
    generalize parse_symbol_loop symbol_end_indicator rest 1
      (if (!isalpha c) = true then some (.starts_with_non_alphabethic_char c) else none)
      = scanned at h hlen
    have hbound : scanned.2.1 ≤ (c :: rest).length := by
      rw [hlen, List.length_cons]
      omega
    repeat' split at h
    all_goals
      simp only [Option.some.injEq] at h
      subst h
      first
        | exact hbound
        | exact Nat.zero_le _

theorem read_lines_subset (fuel : Nat) (input : List Char) :
    ∀ text ∈ read_lines fuel input, ∀ c ∈ text, c ∈ input := by
  induction fuel generalizing input with
  | zero => simp [read_lines]
  | succ fuel ih =>
    intro text htext c hc
    unfold read_lines at htext
    cases input with
    | nil => simp [fgets] at htext
    | cons d input =>
      simp only [fgets, List.mem_cons] at htext
      obtain ⟨h1, h2⟩ := fgets_read_subset (MAX_LINE_LENGTH + 2 - 1) (d :: input)
      rcases htext with h | h
      · subst h
        exact h1 c hc
      · exact h2 c (ih _ text h c hc)

theorem parse_texts_mem (texts : List (List Char)) (lines : List ParseLineData)
    (h : parse_texts texts = some lines) :
    ∀ line ∈ lines, ∃ text ∈ texts, parse_line text = some line := by
  induction texts generalizing lines with
  | nil =>
    simp only [parse_texts, Option.some.injEq] at h
    subst h
    simp
  | cons text texts ih =>
    unfold parse_texts at h
    cases hline : parse_line text with
    | none => simp [hline] at h
    | some first =>
      cases hrest : parse_texts texts with
      | none => simp [hline, hrest] at h
      | some rest =>
        simp only [hline, hrest, Option.some.injEq] at h
        subst h
        intro line hmem
        rcases List.mem_cons.mp hmem with h1 | h1
        · subst h1
          exact ⟨text, by simp, hline⟩
        · obtain ⟨t, ht, hp⟩ := ih rest hrest line h1
          exact ⟨t, by simp [ht], hp⟩

theorem macro_name_checked_spec (name : List Char) (h : macro_name_checked name) :
    spec_macro_name name = true ∧ name ∉ spec_instruction_names
      ∧ name ∉ spec_directive_names ∧ name ∉ spec_register_names := by
  obtain ⟨⟨c, rest, hname, hfirst⟩, hall, hlen, hinstruction, hdirective, hregister⟩ := h
  refine ⟨?_, ?_, ?_, ?_⟩
  · subst hname
    unfold spec_macro_name
    simp only [Bool.and_eq_true, Bool.or_eq_true, decide_eq_true_eq, List.all_eq_true]
    refine ⟨⟨?_, ?_⟩, hlen⟩
    · simp only [isalpha, Bool.or_eq_true, Bool.and_eq_true, decide_eq_true_eq] at hfirst
      tauto
    · intro d hd
      have := hall d (List.mem_cons_of_mem _ hd)
      simp only [isalnum, isalpha, isdigit, Bool.or_eq_true, Bool.and_eq_true,
        decide_eq_true_eq] at this
      tauto
  · intro hmem
    simp only [spec_instruction_names, List.map_cons, List.map_nil, List.mem_cons,
      List.mem_singleton, List.not_mem_nil, or_false] at hmem
    rcases hmem with h | h | h | h | h | h | h | h | h | h | h | h | h | h | h | h <;>
      (subst h; revert hinstruction; decide)
  · intro hmem
    simp only [spec_directive_names, List.map_cons, List.map_nil, List.mem_cons,
      List.mem_singleton, List.not_mem_nil, or_false] at hmem
    rcases hmem with h | h | h | h | h | h | h | h
    · subst h
      rcases hfirst with hf | hf
      · revert hf; cases hname; decide
      · cases hname; revert hf; decide
    · subst h
      rcases hfirst with hf | hf
      · revert hf; cases hname; decide
      · cases hname; revert hf; decide
    · subst h
      rcases hfirst with hf | hf
      · revert hf; cases hname; decide
      · cases hname; revert hf; decide
    · subst h
      rcases hfirst with hf | hf
      · revert hf; cases hname; decide
      · cases hname; revert hf; decide
    all_goals (subst h; revert hdirective; decide)
  · intro hmem
    simp only [spec_register_names, List.map_cons, List.map_nil, List.mem_cons,
      List.mem_singleton, List.not_mem_nil, or_false] at hmem
    rcases hmem with h | h | h | h | h | h | h | h <;>
      (subst h; revert hregister; decide)

theorem symbol_name_spec (name : List Char) (hident : spec_identifier name = true)
    (hinstruction : is_an_instruction name = false) (hdirective : is_a_directive name = false)
    (hregister : is_a_register name = false) :
    name ∉ spec_instruction_names ∧ name ∉ spec_directive_names
      ∧ name ∉ spec_register_names := by
  obtain ⟨c, rest, hname, halpha, halnum, hlen⟩ := (spec_identifier_iff name).mp hident
  have hchecked : macro_name_checked name := by
    refine ⟨⟨c, rest, hname, Or.inl halpha⟩, ?_, ?_, hinstruction, hdirective, hregister⟩
    · intro d hd
      rw [hname] at hd
      rcases List.mem_cons.mp hd with h | h
      · left
        rw [h]
        simp [isalnum, halpha]
      · exact Or.inl (halnum d h)
    · rw [hname]
      simp only [List.length_cons, MAX_MACRO_NAME_LENGTH]
      omega
  exact (macro_name_checked_spec name hchecked).2

/-- C22: for every input file (a text without NUL whose lines `parse_line`
can parse), every name in the symbol table that `first_pass` returns matches
the identifier grammar and is not in the list of the instruction names, of
the directive names or of the register names; and whenever `parse_symbol`
returns `HAS_SYMBOL`, the name is the text of the line up to the first
character that the end indicator accepts, and it satisfies the same rules.
The functions `is_an_instruction`, `is_a_directive` and `is_a_register`
return `FALSE` on these names. -/
theorem first_pass_symbol_names :
    (∀ (input : List Char) (lines : List ParseLineData), NUL ∉ input →
        parse_lines input = some lines →
        ∀ symbol ∈ (first_pass lines).symbol_table,
          spec_identifier symbol.name.toList = true
            ∧ symbol.name.toList ∉ spec_instruction_names
            ∧ symbol.name.toList ∉ spec_directive_names
            ∧ symbol.name.toList ∉ spec_register_names
            ∧ is_an_instruction symbol.name.toList = false
            ∧ is_a_directive symbol.name.toList = false
            ∧ is_a_register symbol.name.toList = false)
      ∧ ∀ (line : List Char) (symbol_end_indicator : Char → Bool) (parsed : ParseSymbol)
          (name : String),
          parse_symbol line symbol_end_indicator = some parsed →
          parsed.data = HAS_SYMBOL name →
          name = String.mk (line.takeWhile (fun c => !symbol_end_indicator c))
            ∧ parsed.symbol_length = name.toList.length
            ∧ spec_identifier name.toList = true
            ∧ name.toList ∉ spec_instruction_names
            ∧ name.toList ∉ spec_directive_names
            ∧ name.toList ∉ spec_register_names
            ∧ is_an_instruction name.toList = false
            ∧ is_a_directive name.toList = false
            ∧ is_a_register name.toList = false := by
  constructor
  · intro input lines hnul hlines symbol hmem
    obtain ⟨line, hline, hdefines⟩ := first_pass_table_names lines symbol hmem
    obtain ⟨text, htext, hparsed⟩ := parse_texts_mem _ lines hlines line hline
    obtain ⟨h1, h2, h3, h4⟩ := parse_line_names text line symbol.name
      (fun hc => hnul (read_lines_subset _ input text htext _ hc)) hparsed hdefines
    obtain ⟨s1, s2, s3⟩ := symbol_name_spec _ h1 h2 h3 h4
    exact ⟨h1, s1, s2, s3, h2, h3, h4⟩
  · intro line symbol_end_indicator parsed name h hname
    obtain ⟨hn, htake, -⟩ := parse_symbol_has_symbol line _ parsed name h hname
    obtain ⟨h1, h2, h3, h4⟩ := parse_symbol_name line _ parsed name h hname
    obtain ⟨s1, s2, s3⟩ := symbol_name_spec _ h1 h2 h3 h4
    refine ⟨by rw [hn, htake], ?_, h1, s1, s2, s3, h2, h3, h4⟩
    rw [hn]
    have hident := h1
    rw [hn, spec_identifier_iff] at hident
    obtain ⟨c, rest, hc, -⟩ := hident
    show parsed.symbol_length = (line.take parsed.symbol_length).length
    rw [List.length_take]
    have := parse_symbol_length_le line _ parsed h
    omega

set_option maxRecDepth 8000 in
/-- Witness of C22 at the input `MAIN: mov #3, r1`, `.extern EXT`, for the
symbol `EXT` of the table. -/
theorem first_pass_symbol_names_witness :
    parse_lines example_input
        = some [ ⟨HAS_SYMBOL "MAIN",
                   PARSE_LINE_INSTRUCTION ⟨INSTRUCTION_MOV, 2, .immediate 3, .register 1⟩⟩,
                 ⟨DOES_NOT_HAVE_SYMBOL, PARSE_LINE_DIRECTIVE (.external "EXT")⟩ ]
      ∧ spec_identifier "EXT".toList = true
      ∧ "EXT".toList ∉ spec_instruction_names
      ∧ "EXT".toList ∉ spec_directive_names
      ∧ "EXT".toList ∉ spec_register_names
      ∧ is_an_instruction "EXT".toList = false
      ∧ is_a_directive "EXT".toList = false
      ∧ is_a_register "EXT".toList = false :=
  ⟨by decide,
    first_pass_symbol_names.1 example_input
      [ ⟨HAS_SYMBOL "MAIN",
          PARSE_LINE_INSTRUCTION ⟨INSTRUCTION_MOV, 2, .immediate 3, .register 1⟩⟩,
        ⟨DOES_NOT_HAVE_SYMBOL, PARSE_LINE_DIRECTIVE (.external "EXT")⟩ ]
      (by decide) (by decide) ⟨0, SYMBOL_CONTEXT_EXTERNAL, "EXT", 2⟩ (by decide)⟩

/-! ## Instructions are well formed -/

/-- C25: for every line on which `parse_line` returns an instruction, the
instruction is well formed: `operand_amount` is the arity of its type, the
operand of a 1-operand instruction has a type acceptable as destination, the
operands of a 2-operand instruction have types acceptable as source and as
destination, every immediate value lies in [-2097152, 2097151], every
register number in [0, 7], and every name of a symbol or of an address
matches the identifier grammar. -/
theorem parse_line_instruction_well_formed (line : List Char) (data : ParseLineData)
    (instruction : Instruction) (h : parse_line line = some data)
    (hval : data.val = PARSE_LINE_INSTRUCTION instruction) :
    spec_instruction_well_formed instruction = true := by
  obtain ⟨str, hstr⟩ := (parse_line_content_val line data h).1 instruction hval
  obtain ⟨type, operands, -, hoperands⟩ := parse_instruction_text str instruction hstr
  exact parse_instruction_operands_parsed type operands instruction hoperands

set_option maxRecDepth 8000 in
/-- Witness of C25 at the line `MAIN: mov #3, r1`. -/
theorem parse_line_instruction_well_formed_witness :
    parse_line "MAIN: mov #3, r1\n".toList
        = some ⟨HAS_SYMBOL "MAIN",
            PARSE_LINE_INSTRUCTION ⟨INSTRUCTION_MOV, 2, .immediate 3, .register 1⟩⟩
      ∧ spec_instruction_well_formed ⟨INSTRUCTION_MOV, 2, .immediate 3, .register 1⟩ = true :=
  ⟨by decide,
    parse_line_instruction_well_formed "MAIN: mov #3, r1\n".toList
      ⟨HAS_SYMBOL "MAIN",
        PARSE_LINE_INSTRUCTION ⟨INSTRUCTION_MOV, 2, .immediate 3, .register 1⟩⟩
      ⟨INSTRUCTION_MOV, 2, .immediate 3, .register 1⟩ (by decide) rfl⟩

/-! ## Immediates that share an extra word -/

set_option maxRecDepth 8000 in
/-- C38 (code defect): the immediates `-1` and `2097151`, both accepted by
`parse_operand`, have the same 24-bit extra word `fffffc`. In general two
immediates of the accepted range have the same 24-bit extra word exactly
when they are congruent modulo `2 ^ 21`; the extra words differ for distinct
immediates of the 21-bit signed range `[-1048576, 1048575]`, and the 32-bit
values returned by `encode_operand` differ on the whole accepted range. -/
theorem encode_operand_immediate_not_injective :
    parse_operand "#-1".toList = some (.parsed (.immediate (-1), 3))
    ∧ parse_operand "#2097151".toList = some (.parsed (.immediate 2097151, 8))
    ∧ (-1 : Int) ≠ 2097151
    ∧ (encode_operand (.immediate (-1)) [] 100).map TO_24_BITS = some 0xfffffc
    ∧ (encode_operand (.immediate 2097151) [] 100).map TO_24_BITS = some 0xfffffc
    ∧ (∀ (v1 v2 : Int) (symbol_table : SymbolTable) (current_instruction_addr : Nat),
        ((encode_operand (.immediate v1) symbol_table current_instruction_addr).map TO_24_BITS
          = (encode_operand (.immediate v2) symbol_table current_instruction_addr).map TO_24_BITS
          ↔ v1 % 2 ^ 21 = v2 % 2 ^ 21))
    ∧ (∀ (v1 v2 : Int) (symbol_table : SymbolTable) (current_instruction_addr : Nat),
        -1048576 ≤ v1 → v1 ≤ 1048575 → -1048576 ≤ v2 → v2 ≤ 1048575 → v1 ≠ v2 →
        (encode_operand (.immediate v1) symbol_table current_instruction_addr).map TO_24_BITS
          ≠ (encode_operand (.immediate v2) symbol_table current_instruction_addr).map TO_24_BITS)
    ∧ (∀ (v1 v2 : Int) (symbol_table : SymbolTable) (current_instruction_addr : Nat),
        MIN_INTEGER ≤ v1 → v1 ≤ MAX_INTEGER → MIN_INTEGER ≤ v2 → v2 ≤ MAX_INTEGER → v1 ≠ v2 →
        encode_operand (.immediate v1) symbol_table current_instruction_addr
          ≠ encode_operand (.immediate v2) symbol_table current_instruction_addr) := by
  have h24 : ∀ (v1 v2 : Int) (symbol_table : SymbolTable) (current_instruction_addr : Nat),
      ((encode_operand (.immediate v1) symbol_table current_instruction_addr).map TO_24_BITS
        = (encode_operand (.immediate v2) symbol_table current_instruction_addr).map TO_24_BITS
        ↔ v1 % 2 ^ 21 = v2 % 2 ^ 21) := by
    intro v1 v2 symbol_table current_instruction_addr
    simp only [encode_operand, OPERAND_WORD_START_BIT, Option.map_some', shifted_word,
      Option.some.injEq]
    omega
  refine ⟨by decide, by decide, by decide, ?_, ?_, h24, ?_, ?_⟩
  · simp only [encode_operand, OPERAND_WORD_START_BIT, Option.map_some', shifted_word]
    rfl
  · simp only [encode_operand, OPERAND_WORD_START_BIT, Option.map_some', shifted_word]
    rfl
  · intro v1 v2 symbol_table current_instruction_addr h1 h2 h3 h4 hne heq
    have := (h24 v1 v2 symbol_table current_instruction_addr).1 heq
    omega
  · intro v1 v2 symbol_table current_instruction_addr h1 h2 h3 h4 hne heq
    have hmax : MAX_INTEGER = 2097151 := by decide
    have hmin : MIN_INTEGER = -2097152 := by decide
    rw [hmax] at h2 h4
    rw [hmin] at h1 h3
    simp only [encode_operand, OPERAND_WORD_START_BIT, Option.some.injEq, Nat.zero_or,
      to_uint32_int_shl] at heq
    rw [or_low_bits _ 4 (by omega) (by omega), or_low_bits _ 4 (by omega) (by omega)] at heq
    omega
/-! ## The bytes read by `parse_symbol` -/

theorem parse_symbol_loop_last_read_le (symbol_end_indicator : Char → Bool)
    (line behind : List Char) (character_position : Nat) (hnul : NUL ∉ line) :
    ∃ i, parse_symbol_loop_last_read symbol_end_indicator (line ++ NUL :: behind)
        character_position = some i ∧ i ≤ character_position + line.length := by
  induction line generalizing character_position with
  | nil => exact ⟨character_position, by simp [parse_symbol_loop_last_read], by simp⟩
  | cons c line ih =>
    have hc : c ≠ NUL := fun h => hnul (h ▸ List.mem_cons_self _ _)
    have hline : NUL ∉ line := fun h => hnul (List.mem_cons_of_mem _ h)
    simp only [List.cons_append, parse_symbol_loop_last_read, if_neg hc]
    split
    · exact ⟨character_position, rfl, by simp⟩
    · obtain ⟨i, hi, hle⟩ := ih (character_position + 1) hline
      exact ⟨i, hi, by simp only [List.length_cons]; omega⟩

theorem parse_symbol_memory_string (c : Char) (rest behind : List Char)
    (symbol_end_indicator : Char → Bool) (hnul : NUL ∉ c :: rest) :
    parse_symbol_memory (c :: rest ++ NUL :: behind) symbol_end_indicator
      = parse_symbol (c :: rest) symbol_end_indicator := by
  have hrest : NUL ∉ rest := fun h => hnul (List.mem_cons_of_mem _ h)
  obtain ⟨i, hi, -⟩ := parse_symbol_loop_last_read_le symbol_end_indicator rest behind 1 hrest
  have hscan : (rest ++ NUL :: behind).takeWhile (fun c => c ≠ NUL) = rest :=
    (takeWhile_append_stop (fun c => c ≠ NUL) rest (NUL :: behind)
      (fun d hd => by
        have : d ≠ NUL := fun he => hrest (he ▸ hd)
        simpa using this)
      (fun t r ht => by
        cases ht
        simp)).1
  have hlen := fun error =>
    (parse_symbol_loop_spec symbol_end_indicator rest 1 error).2.1
  have hle := (List.takeWhile_sublist (fun c => !symbol_end_indicator c) (l := rest)).length_le
  have htake : ∀ error,
      ((c :: (rest ++ NUL :: behind)).take
          (parse_symbol_loop symbol_end_indicator rest 1 error).2.1).takeWhile
          (fun c => c ≠ NUL)
        = (c :: rest).take (parse_symbol_loop symbol_end_indicator rest 1 error).2.1 := by
    intro error
    rw [← List.cons_append, List.take_append_of_le_length
      (by rw [hlen error, List.length_cons]; omega), List.takeWhile_eq_self_iff]
    intro d hd
    have hmem : d ∈ c :: rest := List.mem_of_mem_take hd
    have : d ≠ NUL := fun he => hnul (he ▸ hmem)
    simpa using this
  simp only [List.cons_append, parse_symbol_memory, parse_symbol, hi, hscan, htake]

set_option maxRecDepth 8000 in
/-- C39 (code defect): on the empty string with the end indicator of labels
`parse_symbol` enters its loop at index 1, behind the terminator at index 0:
with the bytes `P`, `:` behind the terminator the greatest index read is 2,
and whatever lies behind the terminator the greatest index read is at least
1. The result depends on those bytes: it is `DOES_NOT_HAVE_SYMBOL` with
`symbol_length` 0 when the next byte is NUL, and a `SYMBOL_PARSE_ERROR` with
`symbol_length` 2 when the bytes `P: inc r1` of an earlier line lie behind
the terminator. On the string alone the result is not determined (`none`),
and neither is that of `parse_line` on a line of white space. On a string
that is not empty, and on the empty string with an end indicator that accepts
NUL, no index greater than that of the terminator is read, and the result is
that of `parse_symbol` on the string. -/
theorem parse_symbol_reads_behind_terminator :
    parse_symbol_last_read [NUL, 'P', ':', ' '] parse_line_label_end_indicator = some 2
    ∧ (∀ behind i, parse_symbol_last_read (NUL :: behind) parse_line_label_end_indicator = some i →
        1 ≤ i)
    ∧ parse_symbol_memory (NUL :: NUL :: "P: inc r1\n".toList ++ [NUL])
          parse_line_label_end_indicator
        = some { data := DOES_NOT_HAVE_SYMBOL, symbol_length := 0 }
    ∧ parse_symbol_memory (NUL :: "P: inc r1\n".toList ++ [NUL]) parse_line_label_end_indicator
        = some { data := SYMBOL_PARSE_ERROR
                   (.SYMBOL_STARTS_WITH_NON_ALPHABETHIC_CHARACTER "" NUL),
                 symbol_length := 2 }
    ∧ parse_symbol [] parse_line_label_end_indicator = none
    ∧ parse_line " \n".toList = none
    ∧ (∀ (line behind : List Char) (symbol_end_indicator : Char → Bool), NUL ∉ line →
        (line ≠ [] ∨ symbol_end_indicator NUL = true) →
        ∃ i, parse_symbol_last_read (line ++ NUL :: behind) symbol_end_indicator = some i
          ∧ i ≤ line.length)
    ∧ (∀ (c : Char) (rest behind : List Char) (symbol_end_indicator : Char → Bool),
        NUL ∉ c :: rest →
        parse_symbol_memory (c :: rest ++ NUL :: behind) symbol_end_indicator
          = parse_symbol (c :: rest) symbol_end_indicator) := by
  refine ⟨by decide, ?_, by decide, by decide, by decide, by decide, ?_,
    parse_symbol_memory_string⟩
  · intro behind i h
    have hlabel : parse_line_label_end_indicator NUL = false := by decide
    simp only [parse_symbol_last_read, hlabel, Bool.false_eq_true, if_false] at h
    cases behind with
    | nil => simp [parse_symbol_loop_last_read] at h
    | cons c behind =>
      simp only [parse_symbol_loop_last_read] at h
      split at h
      · simp only [Option.some.injEq] at h
        omega
      · split at h
        · simp only [Option.some.injEq] at h
          omega
        · have hmono : ∀ (memory : List Char) (position j : Nat),
              parse_symbol_loop_last_read parse_line_label_end_indicator memory position = some j →
              position ≤ j := by
            intro memory
            induction memory with
            | nil => intro position j hj; simp [parse_symbol_loop_last_read] at hj
            | cons e memory ih =>
              intro position j hj
              simp only [parse_symbol_loop_last_read] at hj
              split at hj
              · simp only [Option.some.injEq] at hj
                omega
              · split at hj
                · simp only [Option.some.injEq] at hj
                  omega
                · have := ih _ _ hj
                  omega
          have := hmono _ _ _ h
          omega
  · intro line behind symbol_end_indicator hnul hcase
    cases line with
    | nil =>
      rcases hcase with h | h
      · exact absurd rfl h
      · exact ⟨0, by simp [parse_symbol_last_read, h], by simp⟩
    | cons c line =>
      have hline : NUL ∉ line := fun h => hnul (List.mem_cons_of_mem _ h)
      simp only [List.cons_append, parse_symbol_last_read]
      split
      · exact ⟨0, rfl, by simp⟩
      · obtain ⟨i, hi, hle⟩ :=
          parse_symbol_loop_last_read_le symbol_end_indicator line behind 1 hline
        exact ⟨i, hi, by simp only [List.length_cons]; omega⟩
/-! ## The integers stored by `parse_data_directive` -/

theorem skip_space_length_le (str : List Char) : (skip_space str).length ≤ str.length :=
  (List.dropWhile_sublist _).length_le

theorem parse_data_directive_stores_le (fuel : Nat) (str : List Char) (amount_of_integers : Nat) :
    parse_data_directive_stores fuel str amount_of_integers
      ≤ amount_of_integers + (str.length + 1) / 2 := by
  induction fuel generalizing str amount_of_integers with
  | zero => simp [parse_data_directive_stores]
  | succ fuel ih =>
    unfold parse_data_directive_stores
    cases str with
    | nil => simp
    | cons d rest =>
      dsimp only
      split_ifs with h1 h2 h3
      · omega
      · omega
      · omega
      · have hdrop : (skip_space ((d :: rest).drop (parse_int32_base10 (d :: rest)).chars_read)).length
            + 1 ≤ (d :: rest).length := by
          have := skip_space_length_le
            ((d :: rest).drop (parse_int32_base10 (d :: rest)).chars_read)
          rw [List.length_drop] at this
          simp only [List.length_cons] at this ⊢
          omega
        generalize skip_space ((d :: rest).drop (parse_int32_base10 (d :: rest)).chars_read)
          = after at hdrop ⊢
        cases after with
        | nil =>
          dsimp only
          have := ih [] (amount_of_integers + 1)
          simp only [List.length_nil, List.length_cons] at this ⊢
          omega
        | cons c after_comma =>
          dsimp only
          split_ifs with h4 h5
          · simp only [List.length_cons]
            omega
          · simp only [List.length_cons]
            omega
          · have := ih (skip_space after_comma) (amount_of_integers + 1)
            have hlen := skip_space_length_le after_comma
            simp only [List.length_cons] at hdrop ⊢
            omega

theorem parse_data_directive_loop_length (fuel : Nat) (str : List Char) (integers result : List Int)
    (h : parse_data_directive_loop fuel str integers = some (.parsed result)) :
    result.length = parse_data_directive_stores fuel str integers.length := by
  induction fuel generalizing str integers with
  | zero => simp [parse_data_directive_loop] at h
  | succ fuel ih =>
    unfold parse_data_directive_loop at h
    unfold parse_data_directive_stores
    cases str with
    | nil =>
      simp only [Option.some.injEq, ParseResult.parsed.injEq] at h
      subst h
      rfl
    | cons d rest =>
      dsimp only at h ⊢
      by_cases h1 : (parse_int32_base10 (d :: rest)).chars_read = 0
      · rw [if_pos h1] at h
        cases h
      rw [if_neg h1] at h ⊢
      by_cases h2 : (parse_int32_base10 (d :: rest)).integer < MIN_INTEGER
          ∨ ((!(parse_int32_base10 (d :: rest)).success) = true
            ∧ (parse_int32_base10 (d :: rest)).is_negative = true)
      · rw [if_pos h2] at h
        cases h
      rw [if_neg h2] at h ⊢
      by_cases h3 : (parse_int32_base10 (d :: rest)).integer > MAX_INTEGER
          ∨ (!(parse_int32_base10 (d :: rest)).success) = true
      · rw [if_pos h3] at h
        cases h
      rw [if_neg h3] at h ⊢
      generalize skip_space ((d :: rest).drop (parse_int32_base10 (d :: rest)).chars_read)
        = after at h ⊢
      cases after with
      | nil =>
        have := ih [] _ h
        simpa using this
      | cons c after_comma =>
        dsimp only at h ⊢
        by_cases h4 : c ≠ ','
        · rw [if_pos h4] at h
          cases h
        rw [if_neg h4] at h ⊢
        by_cases h5 : skip_space after_comma = []
        · rw [if_pos h5] at h
          cases h
        rw [if_neg h5] at h ⊢
        have := ih _ _ h
        simpa using this

theorem parse_data_directive_length (str : List Char) (integers : List Int)
    (h : parse_data_directive str = some (.parsed (.data integers))) :
    integers.length = parse_data_directive_amount str := by
  unfold parse_data_directive at h
  unfold parse_data_directive_amount
  cases str with
  | nil => simp at h
  | cons d rest =>
    dsimp only at h ⊢
    cases hloop : parse_data_directive_loop ((d :: rest).length + 1) (d :: rest) [] with
    | none =>
      rw [hloop] at h
      cases h
    | some result =>
      rw [hloop] at h
      cases result with
      | parse_error error => simp [ParseResult.map] at h
      | parsed result =>
        simp only [Option.map_some', ParseResult.map, Option.some.injEq,
          ParseResult.parsed.injEq, Directive.data.injEq] at h
        subst h
        exact parse_data_directive_loop_length _ _ _ _ hloop

theorem parse_data_directive_amount_le (str : List Char) :
    parse_data_directive_amount str ≤ (str.length + 1) / 2 := by
  unfold parse_data_directive_amount
  cases str with
  | nil => simp
  | cons d rest =>
    have := parse_data_directive_stores_le ((d :: rest).length + 1) (d :: rest) 0
    simpa using this

theorem parse_directive_data (str : List Char) (integers : List Int)
    (h : parse_directive str = some (.parsed (.data integers))) :
    str_to_directive_type str = some DIRECTIVE_DATA
      ∧ parse_data_directive (skip_space (str.drop (directive_name_len DIRECTIVE_DATA)))
          = some (.parsed (.data integers)) := by
  unfold parse_directive at h
  cases htype : str_to_directive_type str with
  | none =>
    rw [htype] at h
    cases h
  | some type =>
    rw [htype] at h
    dsimp only at h
    split at h
    · cases h
    · cases type with
      | DIRECTIVE_DATA => exact ⟨rfl, h⟩
      | DIRECTIVE_STRING =>
        exfalso
        dsimp only at h
        unfold parse_string_directive at h
        repeat' split at h
        all_goals simp at h
      | DIRECTIVE_ENTRY =>
        exfalso
        dsimp only at h
        unfold parse_directive_symbol at h
        dsimp only at h
        repeat' split at h
        all_goals simp at h
      | DIRECTIVE_EXTERN =>
        exfalso
        dsimp only at h
        unfold parse_directive_symbol at h
        dsimp only at h
        repeat' split at h
        all_goals simp at h

/-- C40: `parse_data_directive` stores at most `(n + 1) / 2` integers for a
text of `n` characters, whether it returns an error or not, and on success
the list of the directive has that many integers. For a line of at most 81
characters the text that `parse_directive` passes on, after the name `data`
of a text of at most 80 characters behind the `.`, holds at most
`MAX_LINE_LENGTH / 2 = 40` integers, and so does every `.data` directive
that `parse_line` returns. -/
theorem parse_data_directive_within_array :
    (∀ str, parse_data_directive_amount str ≤ (str.length + 1) / 2)
    ∧ (∀ str integers, parse_data_directive str = some (.parsed (.data integers)) →
        integers.length = parse_data_directive_amount str)
    ∧ (∀ line before str, line.length ≤ MAX_LINE_LENGTH + 1 → line = before ++ '.' :: str →
        str_to_directive_type str = some DIRECTIVE_DATA →
        parse_data_directive_amount (skip_space (str.drop (directive_name_len DIRECTIVE_DATA)))
          ≤ MAX_LINE_LENGTH / 2)
    ∧ (∀ line data integers, line.length ≤ MAX_LINE_LENGTH + 1 → parse_line line = some data →
        data.val = PARSE_LINE_DIRECTIVE (.data integers) →
        integers.length ≤ MAX_LINE_LENGTH / 2) := by
  refine ⟨parse_data_directive_amount_le, parse_data_directive_length, ?_, ?_⟩
  · intro line before str hlen hline _
    have h1 := parse_data_directive_amount_le
      (skip_space (str.drop (directive_name_len DIRECTIVE_DATA)))
    have h2 := skip_space_length_le (str.drop (directive_name_len DIRECTIVE_DATA))
    rw [List.length_drop] at h2
    subst hline
    simp only [List.length_append, List.length_cons, MAX_LINE_LENGTH] at hlen
    simp only [directive_name_len, MAX_LINE_LENGTH] at h1 h2 ⊢
    omega
  · intro line data integers hlen hparse hval
    obtain ⟨str, suffix, hline, hdirective⟩ :=
      (parse_line_content_val line data hparse).2 (.data integers) hval
    obtain ⟨-, hdata⟩ := parse_directive_data str integers hdirective
    rw [parse_data_directive_length _ _ hdata]
    have h1 := parse_data_directive_amount_le
      (skip_space (str.drop (directive_name_len DIRECTIVE_DATA)))
    have h2 := skip_space_length_le (str.drop (directive_name_len DIRECTIVE_DATA))
    rw [List.length_drop] at h2
    subst hline
    simp only [List.length_append, MAX_LINE_LENGTH] at hlen
    simp only [directive_name_len, MAX_LINE_LENGTH] at h1 h2 ⊢
    omega
/-! ## Lines that are too long for the macro expansion -/

theorem expand_macros_line_full_buffer (st : ExpandMacrosState) (line : List Char)
    (h : line.length = MAX_LINE_LENGTH + 1) :
    expand_macros_line st line
      = { st with
          line_num := st.line_num + 1,
          input := (count_rest_of_line st.input).2,
          errors := st.errors
            ++ [ERROR_TYPE_MACRO (st.line_num + 1)
                  (EXPAND_MACRO_ERROR_LINE_TOO_LONG
                    (MAX_LINE_LENGTH + 1 + (count_rest_of_line st.input).1) MAX_LINE_LENGTH)],
          encountered_error := true } := by
  have hchar : buffer_char line (MAX_LINE_LENGTH + 2 - 1) ≠ '\n' := by
    unfold buffer_char
    rw [List.getD_eq_default _ _ (by simp only [MAX_LINE_LENGTH] at h ⊢; omega)]
    decide
  have hlen : line.length = MAX_LINE_LENGTH + 2 - 1 := by
    simp only [MAX_LINE_LENGTH] at h ⊢
    omega
  unfold expand_macros_line
  simp only [hlen, hchar, ne_eq, not_false_eq_true, and_self, if_true]
  rfl

set_option maxRecDepth 20000 in
/-- C31 (code defect): a comment line of exactly 80 characters that ends
with a newline is reported by `expand_macros` as too long, with the length
85 when the line `stop` follows it, and neither line is copied to the
output: `fgets` stores 81 characters, and the test for a line that is too
long holds for every string of 81 characters, the byte it looks at being the
terminator. A line of 80 characters at the end of the file, without a
newline, is copied, and so is a line of 79 characters; a line of 81
characters is reported with the length 81 and not copied. -/
theorem expand_macros_line_of_80_characters :
    comment_of_80.length = 80
    ∧ (expand_macros_state (comment_of_80 ++ "\nstop\n".toList)).errors
        = [ERROR_TYPE_MACRO 1 (EXPAND_MACRO_ERROR_LINE_TOO_LONG 85 80)]
    ∧ (expand_macros_state (comment_of_80 ++ "\nstop\n".toList)).out = []
    ∧ expand_macros (comment_of_80 ++ "\nstop\n".toList)
        = { encountered_error := true, alloc_fail := false }
    ∧ (expand_macros_state (comment_of_80 ++ "\n".toList)).errors
        = [ERROR_TYPE_MACRO 1 (EXPAND_MACRO_ERROR_LINE_TOO_LONG 81 80)]
    ∧ (expand_macros_state comment_of_80).errors = []
    ∧ (expand_macros_state comment_of_80).out = comment_of_80
    ∧ (expand_macros_state (comment_of_80.tail ++ "\nstop\n".toList)).errors = []
    ∧ (expand_macros_state (comment_of_80.tail ++ "\nstop\n".toList)).out
        = comment_of_80.tail ++ "\nstop\n".toList
    ∧ (expand_macros_state (comment_of_81 ++ "\nstop\n".toList)).errors
        = [ERROR_TYPE_MACRO 1 (EXPAND_MACRO_ERROR_LINE_TOO_LONG 81 80)]
    ∧ (expand_macros_state (comment_of_81 ++ "\nstop\n".toList)).out = "stop\n".toList
    ∧ (∀ (st : ExpandMacrosState) (line : List Char), line.length = MAX_LINE_LENGTH + 1 →
        (expand_macros_line st line).errors
          = st.errors
            ++ [ERROR_TYPE_MACRO (st.line_num + 1)
                  (EXPAND_MACRO_ERROR_LINE_TOO_LONG
                    (MAX_LINE_LENGTH + 1 + (count_rest_of_line st.input).1) MAX_LINE_LENGTH)]
        ∧ (expand_macros_line st line).out = st.out
        ∧ (expand_macros_line st line).input = (count_rest_of_line st.input).2) := by
  refine ⟨by decide, by decide, by decide, by decide, by decide, by decide, by decide,
    by decide, by decide, by decide, by decide, ?_⟩
  intro st line h
  rw [expand_macros_line_full_buffer st line h]
  exact ⟨rfl, rfl, rfl⟩
/-! ## Macro definitions and their use -/

set_option maxRecDepth 20000 in
/-- C32 (code defect): the macro `mcrox` is defined with a valid name, but
the later line `mcrox` is not replaced by its body `inc r1`: it starts with
the letters `mcro`, so it is taken for the definition of a macro `x`, which
swallows the line `stop` after it; no error is delivered and the output is
empty. After a `mcro` line with an invalid name the lines up to `mcroend`
are appended to the body of the macro defined before, and the body of a
macro that is defined twice is that of both definitions: in both cases the
line `X` is replaced by `inc r1`, `dec r2`. For the input `mcro X`,
`  inc r1`, `mcroend`, `X` the output is the body `  inc r1` as written. -/
theorem expand_macros_use_of_macro :
    (expand_macros_state "mcro mcrox\ninc r1\nmcroend\nmcrox\nstop\n".toList).out = []
    ∧ (expand_macros_state "mcro mcrox\ninc r1\nmcroend\nmcrox\nstop\n".toList).errors = []
    ∧ (expand_macros_state "mcro mcrox\ninc r1\nmcroend\nmcrox\nstop\n".toList).macro_table
        = [{ name := "mcrox".toList, data := "inc r1\n".toList },
           { name := "x".toList, data := "stop\n".toList }]
    ∧ expand_macros "mcro mcrox\ninc r1\nmcroend\nmcrox\nstop\n".toList
        = { encountered_error := false, alloc_fail := false }
    ∧ (expand_macros_state
          "mcro X\ninc r1\nmcroend\nmcro 1bad\ndec r2\nmcroend\nX\n".toList).out
        = "inc r1\ndec r2\n".toList
    ∧ (expand_macros_state
          "mcro X\ninc r1\nmcroend\nmcro 1bad\ndec r2\nmcroend\nX\n".toList).errors
        = [ERROR_TYPE_MACRO 4 (EXPAND_MACRO_ERROR_STARTS_WITH_INVALID_CHARACTER '1')]
    ∧ (expand_macros_state
          "mcro X\ninc r1\nmcroend\nmcro X\ndec r2\nmcroend\nX\n".toList).out
        = "inc r1\ndec r2\n".toList
    ∧ (expand_macros_state
          "mcro X\ninc r1\nmcroend\nmcro X\ndec r2\nmcroend\nX\n".toList).errors = []
    ∧ (expand_macros_state "mcro X\n  inc r1\nmcroend\nX\n".toList).out = "  inc r1\n".toList
    ∧ (expand_macros_state "mcro X\n  inc r1\nmcroend\nX\n".toList).errors = []
    ∧ (expand_macros_state "mcro X\n  inc r1\nmcroend\n X \nstop\n".toList).out
        = "  inc r1\nstop\n".toList := by
  refine ⟨by decide, by decide, by decide, by decide, by decide, by decide, by decide,
    by decide, by decide, by decide, by decide⟩

/-! ## Lines that start with the letters `mcro` -/

set_option maxRecDepth 20000 in
/-- C33 (code defect): the line `mcrox: stop`, met outside a macro body, is
not copied to the output: it starts with the letters `mcro`, so it is taken
for the definition of a macro named `x: stop`, the error
`INVALID_CHARACTER` (`:` at position 2) is delivered for it, and the lines
after it are taken for a macro body. The line `mcroend` outside a macro
body defines a macro `end`. A line of at most 80 characters, newline
included, that does not start with the letters `mcro` after its leading
white space and whose trimmed text is not the name of a macro of the table
is copied unchanged, without an error and without a change of the table. -/
theorem expand_macros_line_starting_with_mcro :
    (expand_macros_state "mcrox: stop\ninc r1\n".toList).out = []
    ∧ (expand_macros_state "mcrox: stop\ninc r1\n".toList).errors
        = [ERROR_TYPE_MACRO 1 (EXPAND_MACRO_ERROR_INVALID_CHARACTER ':' 2)]
    ∧ expand_macros "mcrox: stop\ninc r1\n".toList
        = { encountered_error := true, alloc_fail := false }
    ∧ (expand_macros_state "LOOP: stop\ninc r1\n".toList).out = "LOOP: stop\ninc r1\n".toList
    ∧ (expand_macros_state "mcroend\ninc r1\n".toList).out = []
    ∧ (expand_macros_state "mcroend\ninc r1\n".toList).errors = []
    ∧ (expand_macros_state "mcroend\ninc r1\n".toList).macro_table
        = [{ name := "end".toList, data := "inc r1\n".toList }]
    ∧ (∀ (st : ExpandMacrosState) (line : List Char), st.is_in_macro = false →
        line.length ≤ MAX_LINE_LENGTH →
        strncmp_eq (skip_space line) "mcro".toList 4 = false →
        macro_table_search st.macro_table (trim_end (skip_space line)) = none →
        expand_macros_line st line
          = { st with line_num := st.line_num + 1, out := st.out ++ line }) := by
  refine ⟨by decide, by decide, by decide, by decide, by decide, by decide, by decide, ?_⟩
  intro st line hnormal hlen hmcro hsearch
  have hlen2 : ¬ (line.length = MAX_LINE_LENGTH + 2 - 1
      ∧ buffer_char line (MAX_LINE_LENGTH + 2 - 1) ≠ '\n') := by
    intro h
    omega
  unfold expand_macros_line
  simp only [hlen2, if_false, hnormal, Bool.false_eq_true, hmcro, hsearch]

/-! ## The loops of the macro expansion -/

theorem expand_macros_loop_induction (P : ExpandMacrosState → Prop)
    (hstep : ∀ st line input, fgets (MAX_LINE_LENGTH + 2) st.input = some (line, input) → P st →
      P (expand_macros_line { st with input := input } (c_string line)))
    (fuel : Nat) (st : ExpandMacrosState) (h : P st) : P (expand_macros_loop fuel st) := by
  induction fuel generalizing st with
  | zero => exact h
  | succ fuel ih =>
    unfold expand_macros_loop
    cases hread : fgets (MAX_LINE_LENGTH + 2) st.input with
    | none => exact h
    | some read =>
      obtain ⟨line, input⟩ := read
      exact ih _ (hstep st line input hread h)

theorem expand_macros_label_loop_induction (P : ExpandMacrosState → Prop)
    (hstep : ∀ st line input, fgets (MAX_LINE_LENGTH + 2) st.input = some (line, input) → P st →
      P (expand_macros_label_line { st with input := input } (c_string line)))
    (fuel : Nat) (st : ExpandMacrosState) (h : P st) : P (expand_macros_label_loop fuel st) := by
  induction fuel generalizing st with
  | zero => exact h
  | succ fuel ih =>
    unfold expand_macros_label_loop
    cases hread : fgets (MAX_LINE_LENGTH + 2) st.input with
    | none => exact h
    | some read =>
      obtain ⟨line, input⟩ := read
      exact ih _ (hstep st line input hread h)

theorem c_string_eq (line : List Char) (h : NUL ∉ line) : c_string line = line := by
  unfold c_string
  rw [List.takeWhile_eq_self_iff]
  intro c hc
  have hne : c ≠ NUL := fun e => h (e ▸ hc)
  simpa using hne

theorem c_string_not_mem (buffer : List Char) : NUL ∉ c_string buffer := by
  unfold c_string
  intro h
  have := List.mem_takeWhile_imp h
  simp at this

theorem expand_macros_label_line_frame (st : ExpandMacrosState) (line : List Char) :
    (expand_macros_label_line st line).macro_table = st.macro_table
      ∧ (expand_macros_label_line st line).out = st.out
      ∧ (expand_macros_label_line st line).input = st.input := by
  unfold expand_macros_label_line
  dsimp only
  split
  · exact ⟨rfl, rfl, rfl⟩
  · split
    · exact ⟨rfl, rfl, rfl⟩
    · exact ⟨rfl, rfl, rfl⟩

theorem expand_macros_label_loop_frame (fuel : Nat) (st : ExpandMacrosState) :
    (expand_macros_label_loop fuel st).macro_table = st.macro_table
      ∧ (expand_macros_label_loop fuel st).out = st.out :=
  expand_macros_label_loop_induction
    (fun final => final.macro_table = st.macro_table ∧ final.out = st.out)
    (fun s line input _ h => by
      obtain ⟨h1, h2, -⟩ :=
        expand_macros_label_line_frame { s with input := input } (c_string line)
      exact ⟨h1.trans h.1, h2.trans h.2⟩)
    fuel st ⟨rfl, rfl⟩

theorem expand_macros_state_frame (input : List Char) :
    (expand_macros_state input).macro_table
        = (expand_macros_loop (input.length + 1) (expand_macros_init input)).macro_table
      ∧ (expand_macros_state input).out
        = (expand_macros_loop (input.length + 1) (expand_macros_init input)).out := by
  unfold expand_macros_state
  exact expand_macros_label_loop_frame _ _

/-! ## Names of the macro table -/

theorem macro_table_write_names (table : MacroTable) (name data : List Char) :
    (macro_table_write table name data).map Macro.name = table.map Macro.name := by
  induction table with
  | nil => rfl
  | cons entry rest ih =>
    unfold macro_table_write
    split
    · rfl
    · simp only [List.map_cons, ih]

theorem has_invalid_characters_none (mcro_name : List Char)
    (h : has_invalid_characters mcro_name = none) :
    ∀ c ∈ mcro_name, isalnum c = true ∨ c = '_' := by
  unfold has_invalid_characters at h
  dsimp only at h
  split at h
  · rename_i hdrop
    have hlen := congrArg List.length hdrop
    rw [List.length_drop, List.length_nil] at hlen
    have hle := (List.takeWhile_sublist (fun c => isalnum c || decide (c = '_'))
      (l := mcro_name)).length_le
    have heq : mcro_name.takeWhile (fun c => isalnum c || decide (c = '_')) = mcro_name :=
      (List.takeWhile_sublist _).eq_of_length_le (by omega)
    intro c hc
    have := (List.takeWhile_eq_self_iff.mp heq) c hc
    simpa using this
  · cases h

theorem expand_macros_definition_names (st : ExpandMacrosState) (line_ptr : List Char)
    (h : ∀ entry ∈ st.macro_table, macro_name_checked entry.name) :
    ∀ entry ∈ (expand_macros_definition st line_ptr).macro_table,
      macro_name_checked entry.name := by
  unfold expand_macros_definition
  dsimp only
  split
  · exact h
  · rename_i c rest hname
    split_ifs with h1 h2 h3 h4 h5
    · exact h
    · exact h
    · exact h
    · exact h
    · exact h
    · split
      · exact h
      · rename_i hvalid
        intro entry hentry
        simp only [macro_table_insert, List.mem_append, List.mem_singleton] at hentry
        rcases hentry with hentry | hentry
        · exact h entry hentry
        · subst hentry
          dsimp only
          rw [hname] at h2 h3 h4 h5 hvalid ⊢
          have hlen : (c :: rest).length ≤ MAX_MACRO_NAME_LENGTH := by omega
          rw [List.take_of_length_le hlen, List.take_of_length_le hlen]
          refine ⟨⟨c, rest, rfl, ?_⟩, has_invalid_characters_none _ hvalid, hlen, ?_, ?_, ?_⟩
          · by_contra hc
            exact h1 ⟨fun ha => hc (Or.inl ha), fun hu => hc (Or.inr hu)⟩
          · simpa using h2
          · simpa using h3
          · simpa using h4

theorem expand_macros_line_names (st : ExpandMacrosState) (line : List Char)
    (h : ∀ entry ∈ st.macro_table, macro_name_checked entry.name) :
    ∀ entry ∈ (expand_macros_line st line).macro_table, macro_name_checked entry.name := by
  unfold expand_macros_line
  dsimp only
  split_ifs with h1 h2 h3 h4
  · exact h
  · exact h
  · intro entry hentry
    have hmap := macro_table_write_names st.macro_table st.current_macro_name line
    have hmem : entry.name ∈ (macro_table_write st.macro_table st.current_macro_name line).map
        Macro.name := List.mem_map_of_mem _ hentry
    rw [hmap] at hmem
    obtain ⟨old, hold, hname⟩ := List.mem_map.mp hmem
    rw [← hname]
    exact h old hold
  · exact expand_macros_definition_names _ _ h
  · split
    · exact h
    · exact h

theorem expand_macros_loop_names (fuel : Nat) (input : List Char) :
    ∀ entry ∈ (expand_macros_loop fuel (expand_macros_init input)).macro_table,
      macro_name_checked entry.name :=
  expand_macros_loop_induction
    (fun st => ∀ entry ∈ st.macro_table, macro_name_checked entry.name)
    (fun st line input _ h =>
      expand_macros_line_names { st with input := input } (c_string line) h)
    fuel _ (fun entry hentry => by simp [expand_macros_init] at hentry)

/-- C34: every macro of the table of `expand_macros`, after any number of
lines read and when the function returns, has a name that is not empty, has
at most 31 characters, starts with a letter or `_`, consists of letters,
digits and `_`, and is not the name of an instruction, of a directive or of
a register; `is_an_instruction`, `is_a_directive` and `is_a_register` return
`FALSE` on it. The table only grows, so these are all the names inserted. -/
theorem expand_macros_table_names (input : List Char) (fuel : Nat) (entry : Macro)
    (h : entry ∈ (expand_macros_loop fuel (expand_macros_init input)).macro_table
      ∨ entry ∈ (expand_macros_state input).macro_table) :
    spec_macro_name entry.name = true ∧ entry.name ∉ spec_instruction_names
      ∧ entry.name ∉ spec_directive_names ∧ entry.name ∉ spec_register_names
      ∧ is_an_instruction entry.name = false ∧ is_a_directive entry.name = false
      ∧ is_a_register entry.name = false := by
  have hchecked : macro_name_checked entry.name := by
    rcases h with h | h
    · exact expand_macros_loop_names fuel input entry h
    · rw [(expand_macros_state_frame input).1] at h
      exact expand_macros_loop_names _ input entry h
  obtain ⟨h1, h2, h3, h4⟩ := macro_name_checked_spec entry.name hchecked
  exact ⟨h1, h2, h3, h4, hchecked.2.2.2.1, hchecked.2.2.2.2.1, hchecked.2.2.2.2.2⟩

set_option maxRecDepth 20000 in
/-- Witness of C34: the macro `X` of the input `mcro X`, `inc r1`, `mcroend`. -/
theorem expand_macros_table_names_witness :
    ({ name := "X".toList, data := "inc r1\n".toList } : Macro)
        ∈ (expand_macros_state "mcro X\ninc r1\nmcroend\n".toList).macro_table
    ∧ spec_macro_name "X".toList = true ∧ "X".toList ∉ spec_instruction_names
      ∧ "X".toList ∉ spec_directive_names ∧ "X".toList ∉ spec_register_names
      ∧ is_an_instruction "X".toList = false ∧ is_a_directive "X".toList = false
      ∧ is_a_register "X".toList = false :=
  ⟨by decide,
    expand_macros_table_names "mcro X\ninc r1\nmcroend\n".toList 0
      { name := "X".toList, data := "inc r1\n".toList } (Or.inr (by decide))⟩

/-! ## Lines of a text and lines read by `fgets` -/

theorem fgets_read_text_line (input : List Char) (hne : input ≠ []) :
    ∃ line rest, text_lines input = line :: text_lines rest ∧ input = line ++ rest ∧ line ≠ []
      ∧ ∀ n, line_length line ≤ n → fgets_read (n + 1) input = (line, rest) := by
  induction input with
  | nil => exact absurd rfl hne
  | cons c tail ih =>
    by_cases hc : c = '\n'
    · refine ⟨[c], tail, by simp [text_lines, hc], rfl, by simp, fun n _ => ?_⟩
      simp [fgets_read, hc]
    · cases tail with
      | nil =>
        refine ⟨[c], [], by simp [text_lines, hc], rfl, by simp, fun n hn => ?_⟩
        have h1 : line_length [c] = 1 := by simp [line_length, List.takeWhile, hc]
        obtain ⟨m, rfl⟩ : ∃ m, n = m + 1 := ⟨n - 1, by omega⟩
        simp [fgets_read, hc]
      | cons d tail =>
        obtain ⟨line, rest, hlines, htail, hline, hread⟩ := ih (by simp)
        refine ⟨c :: line, rest, ?_, by rw [htail]; rfl, by simp, fun n hn => ?_⟩
        · rw [text_lines, if_neg hc, hlines]
        · have h1 : line_length (c :: line) = line_length line + 1 := by
            simp [line_length, List.takeWhile, hc]
          obtain ⟨m, rfl⟩ : ∃ m, n = m + 1 := ⟨n - 1, by omega⟩
          rw [fgets_read, if_neg hc, hread m (by omega)]

theorem read_lines_text_lines (fuel : Nat) (input : List Char) (hfuel : input.length < fuel)
    (hlines : ∀ line ∈ text_lines input, line_length line ≤ MAX_LINE_LENGTH) :
    read_lines fuel input = text_lines input := by
  induction fuel generalizing input with
  | zero => omega
  | succ fuel ih =>
    cases input with
    | nil => simp [read_lines, fgets, text_lines]
    | cons c tail =>
      obtain ⟨line, rest, htext, hinput, hline, hread⟩ :=
        fgets_read_text_line (c :: tail) (by simp)
      have hlen : line_length line ≤ MAX_LINE_LENGTH :=
        hlines line (by rw [htext]; exact List.mem_cons_self _ _)
      have hfgets : fgets (MAX_LINE_LENGTH + 2) (c :: tail) = some (line, rest) := by
        simp only [fgets]
        rw [show MAX_LINE_LENGTH + 2 - 1 = MAX_LINE_LENGTH + 1 from rfl,
          hread MAX_LINE_LENGTH hlen]
      rw [read_lines, hfgets, htext]
      dsimp only
      rw [ih rest ?_ ?_]
      · have h1 := congrArg List.length hinput
        rw [List.length_append] at h1
        have h2 : 0 < line.length := List.length_pos.mpr hline
        simp only [List.length_cons] at hfuel h1
        omega
      · intro l hl
        exact hlines l (by rw [htext]; exact List.mem_cons_of_mem _ hl)

/-! ## Labels that are names of macros -/

theorem macro_table_search_some (table : MacroTable) (name : List Char) (found : Macro)
    (h : macro_table_search table name = some found) : found ∈ table ∧ found.name = name := by
  unfold macro_table_search at h
  exact ⟨List.mem_of_find?_eq_some h, by simpa using List.find?_some h⟩

theorem macro_table_search_none (table : MacroTable) (name : List Char)
    (h : macro_table_search table name = none) : name ∉ table.map Macro.name := by
  unfold macro_table_search at h
  intro hmem
  obtain ⟨entry, hentry, hname⟩ := List.mem_map.mp hmem
  have := List.find?_eq_none.mp h entry hentry
  simp [hname] at this

theorem mem_skip_space (line : List Char) (c : Char) (hc : isspace c = false) :
    c ∈ skip_space line ↔ c ∈ line := by
  constructor
  · exact fun h => (List.dropWhile_sublist _).subset h
  · intro h
    induction line with
    | nil => cases h
    | cons d line ih =>
      unfold skip_space
      rw [List.dropWhile_cons]
      split
      · rename_i hd
        rcases List.mem_cons.mp h with heq | hmem
        · subst heq
          rw [hc] at hd
          cases hd
        · exact ih hmem
      · exact h

theorem expand_macros_label_line_errors (st : ExpandMacrosState) (line : List Char) :
    (expand_macros_label_line st line).errors
        = st.errors ++ label_errors st.macro_table st.line_num [line]
      ∧ (expand_macros_label_line st line).line_num = st.line_num + 1
      ∧ (expand_macros_label_line st line).encountered_error
        = (st.encountered_error || !(label_errors st.macro_table st.line_num [line]).isEmpty) := by
  have hcolon : (skip_space line).dropWhile (fun c => c ≠ LABEL_END_CHAR) = [] ↔ ':' ∉ line := by
    rw [List.dropWhile_eq_nil_iff, ← mem_skip_space line ':' (by decide)]
    simp only [LABEL_END_CHAR, ne_eq, decide_not, Bool.not_eq_true', decide_eq_false_iff_not]
    exact ⟨fun h hmem => h ':' hmem rfl, fun h c hc heq => h (heq ▸ hc)⟩
  unfold expand_macros_label_line
  simp only [LABEL_END_CHAR] at hcolon ⊢
  by_cases hmem : ':' ∈ line
  · have hne : (skip_space line).dropWhile (fun c => c ≠ ':') ≠ [] :=
      fun h => (hcolon.mp h) hmem
    have hlabel : spec_label line = some ((skip_space line).takeWhile (fun c => c ≠ ':')) := by
      rw [spec_label, if_pos hmem]
    cases hdrop : (skip_space line).dropWhile (fun c => c ≠ ':') with
    | nil => exact absurd hdrop hne
    | cons d rest =>
      dsimp only
      cases hsearch : macro_table_search st.macro_table
          ((skip_space line).takeWhile (fun c => c ≠ ':')) with
      | none =>
        have hnot := macro_table_search_none _ _ hsearch
        have hnil : label_errors st.macro_table st.line_num [line] = [] := by
          rw [label_errors, hlabel]
          dsimp only
          rw [if_neg hnot]
          rfl
        rw [hnil]
        exact ⟨by simp, rfl, by simp⟩
      | some found =>
        obtain ⟨hfound, hname⟩ := macro_table_search_some _ _ _ hsearch
        have hin : (skip_space line).takeWhile (fun c => c ≠ ':')
            ∈ st.macro_table.map Macro.name := by
          rw [← hname]
          exact List.mem_map_of_mem _ hfound
        have hone : label_errors st.macro_table st.line_num [line]
            = [ERROR_TYPE_MACRO (st.line_num + 1)
                (EXPAND_MACRO_ERROR_MACRO_DEFINED_AS_LABEL found.name)] := by
          rw [label_errors, hlabel]
          dsimp only
          rw [if_pos hin, hname]
          rfl
        rw [hone]
        exact ⟨rfl, rfl, by simp⟩
  · have hlabel : spec_label line = none := by
      rw [spec_label, if_neg hmem]
    have hnil : label_errors st.macro_table st.line_num [line] = [] := by
      rw [label_errors, hlabel]
      rfl
    rw [hcolon.mpr hmem, hnil]
    exact ⟨by simp, rfl, by simp⟩

theorem label_errors_cons (table : MacroTable) (line_num : Nat) (line : List Char)
    (lines : List (List Char)) :
    label_errors table line_num (line :: lines)
      = label_errors table line_num [line] ++ label_errors table (line_num + 1) lines := by
  simp [label_errors]

theorem expand_macros_label_loop_errors (fuel : Nat) (st : ExpandMacrosState) :
    (expand_macros_label_loop fuel st).errors
        = st.errors
          ++ label_errors st.macro_table st.line_num ((read_lines fuel st.input).map c_string)
      ∧ (expand_macros_label_loop fuel st).encountered_error
        = (st.encountered_error
          || !(label_errors st.macro_table st.line_num
                ((read_lines fuel st.input).map c_string)).isEmpty) := by
  induction fuel generalizing st with
  | zero => simp [expand_macros_label_loop, read_lines, label_errors]
  | succ fuel ih =>
    unfold expand_macros_label_loop read_lines
    cases hread : fgets (MAX_LINE_LENGTH + 2) st.input with
    | none => simp [label_errors]
    | some read =>
      obtain ⟨line, input⟩ := read
      dsimp only
      obtain ⟨h1, h2, h3⟩ :=
        expand_macros_label_line_errors { st with input := input } (c_string line)
      obtain ⟨h4, -, h5⟩ :=
        expand_macros_label_line_frame { st with input := input } (c_string line)
      obtain ⟨h6, h7⟩ := ih (expand_macros_label_line { st with input := input } (c_string line))
      dsimp only at h1 h2 h3 h4 h5
      rw [List.map_cons,
        label_errors_cons st.macro_table st.line_num (c_string line)
          ((read_lines fuel input).map c_string),
        h6, h7, h1, h2, h3, h4, h5]
      constructor
      · rw [List.append_assoc]
      · cases st.encountered_error <;>
          cases hl1 : label_errors st.macro_table st.line_num [c_string line] <;>
          simp

theorem mem_label_errors (table : MacroTable) (line_num : Nat) (lines : List (List Char))
    (error : Error) :
    error ∈ label_errors table line_num lines
      ↔ ∃ i line name, lines[i]? = some line ∧ spec_label line = some name
          ∧ name ∈ table.map Macro.name
          ∧ error = ERROR_TYPE_MACRO (line_num + i + 1)
              (EXPAND_MACRO_ERROR_MACRO_DEFINED_AS_LABEL name) := by
  induction lines generalizing line_num with
  | nil => simp [label_errors]
  | cons first lines ih =>
    rw [label_errors_cons, List.mem_append, ih]
    constructor
    · rintro (h | ⟨i, line, name, hline, hlabel, hname, herror⟩)
      · simp only [label_errors, List.append_nil] at h
        cases hlabel : spec_label first with
        | none => simp [hlabel] at h
        | some name =>
          rw [hlabel] at h
          dsimp only at h
          split_ifs at h with hname
          · exact ⟨0, first, name, by simp, hlabel, hname, by simpa using h⟩
          · cases h
      · exact ⟨i + 1, line, name, by simpa using hline, hlabel, hname,
          by rw [herror]; congr 1; omega⟩
    · rintro ⟨i, line, name, hline, hlabel, hname, herror⟩
      cases i with
      | zero =>
        left
        simp only [List.getElem?_cons_zero, Option.some.injEq] at hline
        subst hline
        simp [label_errors, hlabel, hname, herror]
      | succ i =>
        right
        exact ⟨i, line, name, by simpa using hline, hlabel, hname,
          by rw [herror]; congr 1; omega⟩

theorem expand_macros_definition_errors (st : ExpandMacrosState) (line_ptr : List Char) :
    (expand_macros_definition st line_ptr).errors = st.errors
      ∨ ∃ error, (expand_macros_definition st line_ptr).errors = st.errors ++ [error]
          ∧ is_macro_defined_as_label error = false := by
  unfold expand_macros_definition
  dsimp only
  split
  · exact Or.inr ⟨_, rfl, rfl⟩
  · split_ifs
    · exact Or.inr ⟨_, rfl, rfl⟩
    · exact Or.inr ⟨_, rfl, rfl⟩
    · exact Or.inr ⟨_, rfl, rfl⟩
    · exact Or.inr ⟨_, rfl, rfl⟩
    · exact Or.inr ⟨_, rfl, rfl⟩
    · split
      · exact Or.inr ⟨_, rfl, rfl⟩
      · exact Or.inl rfl

theorem expand_macros_line_errors (st : ExpandMacrosState) (line : List Char) :
    (expand_macros_line st line).errors = st.errors
      ∨ ∃ error, (expand_macros_line st line).errors = st.errors ++ [error]
          ∧ is_macro_defined_as_label error = false := by
  unfold expand_macros_line
  dsimp only
  split_ifs
  · exact Or.inr ⟨_, rfl, rfl⟩
  · exact Or.inl rfl
  · exact Or.inl rfl
  · exact expand_macros_definition_errors _ _
  · split
    · exact Or.inl rfl
    · exact Or.inl rfl

theorem expand_macros_loop_errors_not_label (fuel : Nat) (input : List Char) :
    ∀ error ∈ (expand_macros_loop fuel (expand_macros_init input)).errors,
      is_macro_defined_as_label error = false :=
  expand_macros_loop_induction
    (fun st => ∀ error ∈ st.errors, is_macro_defined_as_label error = false)
    (fun st line input _ h error herror => by
      rcases expand_macros_line_errors { st with input := input } (c_string line) with
        heq | ⟨e, heq, he⟩
      · rw [heq] at herror
        exact h error herror
      · rw [heq, List.mem_append, List.mem_singleton] at herror
        rcases herror with herror | herror
        · exact h error herror
        · rw [herror]
          exact he)
    fuel _ (fun error herror => by simp [expand_macros_init] at herror)

theorem read_lines_c_string (fuel : Nat) (input : List Char) (hnul : NUL ∉ input) :
    (read_lines fuel input).map c_string = read_lines fuel input := by
  conv_rhs => rw [← List.map_id (read_lines fuel input)]
  apply List.map_congr_left
  intro line hline
  exact c_string_eq line (fun hc => hnul (read_lines_subset _ _ line hline _ hc))

/-- The second loop of `expand_macros` on an input without NUL whose lines
have at most 80 characters: `MACRO_DEFINED_AS_LABEL` with the name `name` is
delivered for the line number `line_num` exactly when the line with that
number contains `:` and its text before the first `:`, leading white space
skipped, is `name`, the name of a macro of the table that the first loop
has built; and when there is such a line, `encountered_error` is `TRUE`. -/
theorem expand_macros_label_loop_check (input : List Char) (hnul : NUL ∉ input)
    (hlines : ∀ line ∈ text_lines input, line_length line ≤ MAX_LINE_LENGTH) :
    (∀ line_num name,
        ERROR_TYPE_MACRO line_num (EXPAND_MACRO_ERROR_MACRO_DEFINED_AS_LABEL name)
            ∈ (expand_macros_state input).errors
          ↔ ∃ line, 1 ≤ line_num ∧ (text_lines input)[line_num - 1]? = some line
              ∧ spec_label line = some name
              ∧ name ∈ (expand_macros_table input).map Macro.name)
      ∧ ((∃ line ∈ text_lines input, ∃ name, spec_label line = some name
            ∧ name ∈ (expand_macros_table input).map Macro.name) →
          (expand_macros input).encountered_error = true) := by
  have hread := read_lines_text_lines (input.length + 1) input (by omega) hlines
  obtain ⟨herrors, hflag⟩ := expand_macros_label_loop_errors (input.length + 1)
    { expand_macros_loop (input.length + 1) (expand_macros_init input) with
      line_num := 0, input := input }
  dsimp only at herrors hflag
  rw [read_lines_c_string _ _ hnul, hread] at herrors hflag
  have hstate : expand_macros_state input
      = expand_macros_label_loop (input.length + 1)
          { expand_macros_loop (input.length + 1) (expand_macros_init input) with
            line_num := 0, input := input } := rfl
  constructor
  · intro line_num name
    rw [hstate, herrors, List.mem_append, mem_label_errors]
    constructor
    · rintro (h | ⟨i, line, name2, hline, hlabel, hname, herror⟩)
      · have := expand_macros_loop_errors_not_label _ _ _ h
        cases this
      · simp only [Error.ERROR_TYPE_MACRO.injEq,
          ExpandMacroError.EXPAND_MACRO_ERROR_MACRO_DEFINED_AS_LABEL.injEq] at herror
        obtain ⟨hnum, hn⟩ := herror
        subst hn
        refine ⟨line, by omega, ?_, hlabel, hname⟩
        rw [show line_num - 1 = i by omega]
        exact hline
    · rintro ⟨line, hnum, hline, hlabel, hname⟩
      right
      exact ⟨line_num - 1, line, name, hline, hlabel, hname, by congr 1; omega⟩
  · rintro ⟨line, hline, name, hlabel, hname⟩
    unfold expand_macros
    dsimp only
    rw [hstate, hflag]
    obtain ⟨i, hi⟩ := List.getElem?_of_mem hline
    have hmem := (mem_label_errors
      (expand_macros_loop (input.length + 1) (expand_macros_init input)).macro_table 0
      (text_lines input) _).mpr ⟨i, line, name, hi, hlabel, hname, rfl⟩
    cases hl : label_errors
        (expand_macros_loop (input.length + 1) (expand_macros_init input)).macro_table 0
        (text_lines input) with
    | nil =>
      rw [hl] at hmem
      cases hmem
    | cons e rest => simp

set_option maxRecDepth 20000 in
/-- C35: the input `mcrox`, `mcro X`, `mcroend`, `X: stop` has lines of at
most 80 characters and no NUL; by the words of the specification it defines
the macro `X`, the label of its line 4 is `X`, and `MACRO_DEFINED_AS_LABEL`
with the name `X` is due for line 4. `expand_macros` takes the line `mcrox`
for the definition of a macro `x`, whose body becomes the line `mcro X`; its
table holds no macro `X`, it delivers no error and returns
`encountered_error = FALSE`. In the input `mcroend`, `end: stop` no macro is
defined, and `expand_macros` delivers `MACRO_DEFINED_AS_LABEL` with the name
`end` for line 2. -/
theorem expand_macros_label_check :
    NUL ∉ "mcrox\nmcro X\nmcroend\nX: stop\n".toList
      ∧ (∀ line ∈ text_lines "mcrox\nmcro X\nmcroend\nX: stop\n".toList,
          line_length line ≤ MAX_LINE_LENGTH)
      ∧ spec_macros "mcrox\nmcro X\nmcroend\nX: stop\n".toList
        = [{ name := "X".toList, data := [] }]
      ∧ (text_lines "mcrox\nmcro X\nmcroend\nX: stop\n".toList)[3]? = some "X: stop\n".toList
      ∧ spec_label "X: stop\n".toList = some "X".toList
      ∧ label_errors (spec_macros "mcrox\nmcro X\nmcroend\nX: stop\n".toList) 0
          (text_lines "mcrox\nmcro X\nmcroend\nX: stop\n".toList)
        = [ERROR_TYPE_MACRO 4 (EXPAND_MACRO_ERROR_MACRO_DEFINED_AS_LABEL "X".toList)]
      ∧ expand_macros_table "mcrox\nmcro X\nmcroend\nX: stop\n".toList
        = [{ name := "x".toList, data := "mcro X\n".toList }]
      ∧ (expand_macros_state "mcrox\nmcro X\nmcroend\nX: stop\n".toList).errors = []
      ∧ expand_macros "mcrox\nmcro X\nmcroend\nX: stop\n".toList
        = { encountered_error := false, alloc_fail := false }
      ∧ spec_macros "mcroend\nend: stop\n".toList = []
      ∧ (expand_macros_state "mcroend\nend: stop\n".toList).errors
        = [ERROR_TYPE_MACRO 2 (EXPAND_MACRO_ERROR_MACRO_DEFINED_AS_LABEL "end".toList)] := by
  decide

/-! ## Lines delivered by `fgets` -/

theorem fgets_read_chunk (n : Nat) (input : List Char) :
    input = (fgets_read n input).1 ++ (fgets_read n input).2
      ∧ (fgets_read n input).1.length ≤ n
      ∧ ((∃ body, (fgets_read n input).1 = body ++ ['\n'] ∧ '\n' ∉ body)
        ∨ ('\n' ∉ (fgets_read n input).1
          ∧ ((fgets_read n input).1.length = n ∨ (fgets_read n input).2 = []))) := by
  induction input generalizing n with
  | nil => cases n <;> simp [fgets_read]
  | cons c input ih =>
    cases n with
    | zero => simp [fgets_read]
    | succ n =>
      unfold fgets_read
      split
      · rename_i hc
        subst hc
        exact ⟨rfl, by simp, Or.inl ⟨[], rfl, by simp⟩⟩
      · rename_i hc
        obtain ⟨h1, h2, h3⟩ := ih n
        refine ⟨by simp only [List.cons_append]; rw [← h1], by simp only [List.length_cons]; omega,
          ?_⟩
        rcases h3 with ⟨body, hbody, hnot⟩ | ⟨hnot, hlen⟩
        · left
          refine ⟨c :: body, by simp only [hbody, List.cons_append], ?_⟩
          intro hmem
          rcases List.mem_cons.mp hmem with h | h
          · exact hc h.symm
          · exact hnot h
        · right
          refine ⟨?_, ?_⟩
          · intro hmem
            rcases List.mem_cons.mp hmem with h | h
            · exact hc h.symm
            · exact hnot h
          · rcases hlen with h | h
            · left
              simp only [List.length_cons, h]
            · right
              exact h

theorem fgets_chunk (input line rest : List Char)
    (h : fgets (MAX_LINE_LENGTH + 2) input = some (line, rest)) :
    line.length = MAX_LINE_LENGTH + 1 ∨ closed_line line ∨ (open_line line ∧ rest = []) := by
  cases input with
  | nil => simp [fgets] at h
  | cons c input =>
    simp only [fgets, Option.some.injEq] at h
    obtain ⟨h1, h2, h3⟩ := fgets_read_chunk (MAX_LINE_LENGTH + 2 - 1) (c :: input)
    rw [h] at h1 h2 h3
    dsimp only at h1 h2 h3
    have h2 : line.length ≤ MAX_LINE_LENGTH + 1 := h2
    by_cases hfull : line.length = MAX_LINE_LENGTH + 1
    · exact Or.inl hfull
    · right
      rcases h3 with ⟨body, hbody, hnot⟩ | ⟨hnot, hlen⟩
      · exact Or.inl ⟨by omega, body, hbody, hnot⟩
      · rcases hlen with hlen | hlen
        · exact absurd hlen hfull
        · refine Or.inr ⟨⟨?_, by omega, hnot⟩, hlen⟩
          intro hnil
          rw [hnil, hlen] at h1
          cases h1

theorem fgets_read_closed (n : Nat) (body rest : List Char) (hnot : '\n' ∉ body)
    (hlen : body.length < n) :
    fgets_read n (body ++ '\n' :: rest) = (body ++ ['\n'], rest) := by
  induction body generalizing n with
  | nil =>
    obtain ⟨m, rfl⟩ : ∃ m, n = m + 1 := ⟨n - 1, by simp at hlen; omega⟩
    simp [fgets_read]
  | cons c body ih =>
    obtain ⟨m, rfl⟩ : ∃ m, n = m + 1 := ⟨n - 1, by simp at hlen; omega⟩
    have hc : c ≠ '\n' := fun h => hnot (h ▸ List.mem_cons_self _ _)
    have hbody : '\n' ∉ body := fun h => hnot (List.mem_cons_of_mem _ h)
    rw [List.cons_append, fgets_read, if_neg hc,
      ih m hbody (by simp only [List.length_cons] at hlen; omega)]
    rfl

theorem fgets_read_open (n : Nat) (line : List Char) (hnot : '\n' ∉ line)
    (hlen : line.length ≤ n) : fgets_read n line = (line, []) := by
  induction line generalizing n with
  | nil => cases n <;> rfl
  | cons c line ih =>
    obtain ⟨m, rfl⟩ : ∃ m, n = m + 1 := ⟨n - 1, by simp at hlen; omega⟩
    have hc : c ≠ '\n' := fun h => hnot (h ▸ List.mem_cons_self _ _)
    have hline : '\n' ∉ line := fun h => hnot (List.mem_cons_of_mem _ h)
    rw [fgets_read, if_neg hc, ih m hline (by simp only [List.length_cons] at hlen; omega)]

theorem fgets_of_ne_nil (size : Nat) (input : List Char) (h : input ≠ []) :
    fgets size input = some (fgets_read (size - 1) input) := by
  cases input with
  | nil => exact absurd rfl h
  | cons c tail => rfl

theorem fgets_closed_line (line rest : List Char) (h : closed_line line) :
    fgets (MAX_LINE_LENGTH + 2) (line ++ rest) = some (line, rest) := by
  obtain ⟨hlen, body, hbody, hnot⟩ := h
  subst hbody
  have hne : (body ++ ['\n']) ++ rest = body ++ '\n' :: rest := by simp
  rw [hne, fgets_of_ne_nil _ _ (by simp),
    fgets_read_closed _ body rest hnot
      (by simp only [List.length_append, List.length_singleton, MAX_LINE_LENGTH] at hlen ⊢; omega)]

theorem fgets_open_line (line : List Char) (h : open_line line) :
    fgets (MAX_LINE_LENGTH + 2) line = some (line, []) := by
  obtain ⟨hne, hlen, hnot⟩ := h
  rw [fgets_of_ne_nil _ _ hne,
    fgets_read_open _ line hnot (by simp only [MAX_LINE_LENGTH] at hlen ⊢; omega)]

/-! ## Lines of a text made of lines -/

theorem text_lines_closed (body rest : List Char) (hnot : '\n' ∉ body) :
    text_lines (body ++ '\n' :: rest) = (body ++ ['\n']) :: text_lines rest := by
  induction body with
  | nil => simp [text_lines]
  | cons c body ih =>
    have hc : c ≠ '\n' := fun h => hnot (h ▸ List.mem_cons_self _ _)
    have hbody : '\n' ∉ body := fun h => hnot (List.mem_cons_of_mem _ h)
    rw [List.cons_append, text_lines, if_neg hc, ih hbody]
    rfl

theorem text_lines_open (line : List Char) (hne : line ≠ []) (hnot : '\n' ∉ line) :
    text_lines line = [line] := by
  induction line with
  | nil => exact absurd rfl hne
  | cons c line ih =>
    have hc : c ≠ '\n' := fun h => hnot (h ▸ List.mem_cons_self _ _)
    have hline : '\n' ∉ line := fun h => hnot (List.mem_cons_of_mem _ h)
    cases line with
    | nil => simp [text_lines, hc]
    | cons d line =>
      rw [text_lines, if_neg hc, ih (by simp) hline]

theorem text_lines_flatten (lines : List (List Char)) (text : List Char)
    (h : ∀ line ∈ lines, closed_line line) :
    text_lines (lines.flatten ++ text) = lines ++ text_lines text := by
  induction lines with
  | nil => simp
  | cons line lines ih =>
    obtain ⟨-, body, hbody, hnot⟩ := h line (List.mem_cons_self _ _)
    subst hbody
    have : ((body ++ ['\n']) :: lines).flatten ++ text
        = body ++ '\n' :: (lines.flatten ++ text) := by simp
    rw [this, text_lines_closed _ _ hnot, ih (fun l hl => h l (List.mem_cons_of_mem _ hl))]
    simp

/-! ## The texts written by the macro expansion -/

theorem chunked_closed (P : List Char → Prop) (text input : List Char)
    (h : chunked P text input) (hinput : input ≠ []) :
    ∃ lines : List (List Char), text = lines.flatten ∧ ∀ line ∈ lines, closed_line line ∧ P line := by
  obtain ⟨lines, last, htext, hlines, hlast⟩ := h
  rcases hlast with hlast | ⟨-, -, hnil⟩
  · exact ⟨lines, by rw [htext, hlast, List.append_nil], hlines⟩
  · exact absurd hnil hinput

theorem chunked_of_closed (P : List Char → Prop) (text input : List Char)
    (lines : List (List Char)) (htext : text = lines.flatten)
    (hlines : ∀ line ∈ lines, closed_line line ∧ P line) : chunked P text input :=
  ⟨lines, [], by rw [htext, List.append_nil], hlines, Or.inl rfl⟩

theorem chunked_append_line (P : List Char → Prop) (text line rest : List Char)
    (lines : List (List Char)) (htext : text = lines.flatten)
    (hlines : ∀ l ∈ lines, closed_line l ∧ P l)
    (hline : closed_line line ∨ (open_line line ∧ rest = [])) (hP : P line) :
    chunked P (text ++ line) rest := by
  rcases hline with hline | ⟨hline, hrest⟩
  · refine ⟨lines ++ [line], [], by simp [htext], ?_, Or.inl rfl⟩
    intro l hl
    rcases List.mem_append.mp hl with h | h
    · exact hlines l h
    · rw [List.mem_singleton.mp h]
      exact ⟨hline, hP⟩
  · exact ⟨lines, line, by rw [htext], hlines, Or.inr ⟨hline, hP, hrest⟩⟩

theorem macro_table_write_data (table : MacroTable) (name data : List Char) (changed : Macro)
    (h : changed ∈ macro_table_write table name data) :
    ∃ entry ∈ table, changed.data = entry.data ∨ changed.data = entry.data ++ data := by
  induction table with
  | nil => simp [macro_table_write] at h
  | cons first table ih =>
    unfold macro_table_write at h
    split at h
    · rcases List.mem_cons.mp h with h | h
      · exact ⟨first, List.mem_cons_self _ _, Or.inr (by rw [h])⟩
      · exact ⟨changed, List.mem_cons_of_mem _ h, Or.inl rfl⟩
    · rcases List.mem_cons.mp h with h | h
      · exact ⟨first, List.mem_cons_self _ _, Or.inl (by rw [h])⟩
      · obtain ⟨entry, hentry, hdata⟩ := ih h
        exact ⟨entry, List.mem_cons_of_mem _ hentry, hdata⟩

theorem macro_table_write_data_of_mem (table : MacroTable) (name data : List Char)
    (entry : Macro) (h : entry ∈ table) :
    ∃ changed ∈ macro_table_write table name data,
      changed.data = entry.data ∨ changed.data = entry.data ++ data := by
  induction table with
  | nil => cases h
  | cons first table ih =>
    unfold macro_table_write
    split
    · rcases List.mem_cons.mp h with h | h
      · exact ⟨_, List.mem_cons_self _ _, Or.inr (by rw [h])⟩
      · exact ⟨entry, List.mem_cons_of_mem _ h, Or.inl rfl⟩
    · rcases List.mem_cons.mp h with h | h
      · exact ⟨first, List.mem_cons_self _ _, Or.inl (by rw [h])⟩
      · obtain ⟨changed, hchanged, hdata⟩ := ih h
        exact ⟨changed, List.mem_cons_of_mem _ hchanged, hdata⟩

theorem expand_macros_definition_frame (st : ExpandMacrosState) (line_ptr : List Char) :
    (expand_macros_definition st line_ptr).out = st.out
      ∧ (expand_macros_definition st line_ptr).input = st.input
      ∧ ((expand_macros_definition st line_ptr).macro_table = st.macro_table
        ∨ ∃ name, (expand_macros_definition st line_ptr).macro_table
            = st.macro_table ++ [{ name := name, data := [] }]) := by
  unfold expand_macros_definition
  dsimp only
  split
  · exact ⟨rfl, rfl, Or.inl rfl⟩
  · split_ifs
    · exact ⟨rfl, rfl, Or.inl rfl⟩
    · exact ⟨rfl, rfl, Or.inl rfl⟩
    · exact ⟨rfl, rfl, Or.inl rfl⟩
    · exact ⟨rfl, rfl, Or.inl rfl⟩
    · exact ⟨rfl, rfl, Or.inl rfl⟩
    · split
      · exact ⟨rfl, rfl, Or.inl rfl⟩
      · exact ⟨rfl, rfl, Or.inr ⟨_, rfl⟩⟩

theorem buffer_char_full (line : List Char) (h : line.length = MAX_LINE_LENGTH + 1) :
    line.length = MAX_LINE_LENGTH + 2 - 1 ∧ buffer_char line (MAX_LINE_LENGTH + 2 - 1) ≠ '\n' := by
  refine ⟨h, ?_⟩
  unfold buffer_char
  rw [List.getD_eq_default _ _ (by simp only [MAX_LINE_LENGTH] at h ⊢; omega)]
  decide

theorem macro_bodies_chunked_step (st : ExpandMacrosState) (line rest : List Char)
    (hread : fgets (MAX_LINE_LENGTH + 2) st.input = some (line, rest))
    (h : macro_bodies_chunked st) :
    macro_bodies_chunked (expand_macros_line { st with input := rest } line) := by
  have hne : st.input ≠ [] := by
    intro hnil
    rw [hnil] at hread
    cases hread
  have hclosed := fun entry hentry => chunked_closed _ _ _ (h entry hentry) hne
  have hchunk := fgets_chunk _ _ _ hread
  unfold macro_bodies_chunked expand_macros_line
  dsimp only
  split_ifs with h1 h2 h3 h4
  · intro entry hentry
    obtain ⟨lines, htext, hlines⟩ := hclosed entry hentry
    exact chunked_of_closed _ _ _ lines htext hlines
  · intro entry hentry
    obtain ⟨lines, htext, hlines⟩ := hclosed entry hentry
    exact chunked_of_closed _ _ _ lines htext hlines
  · intro changed hchanged
    obtain ⟨entry, hentry, hdata⟩ := macro_table_write_data _ _ _ _ hchanged
    obtain ⟨lines, htext, hlines⟩ := hclosed entry hentry
    rcases hdata with hdata | hdata
    · rw [hdata]
      exact chunked_of_closed _ _ _ lines htext hlines
    · rw [hdata]
      refine chunked_append_line _ _ _ _ lines htext hlines ?_ trivial
      rcases hchunk with hfull | hclosed | hopen
      · exact absurd (buffer_char_full line hfull) h1
      · exact Or.inl hclosed
      · exact Or.inr hopen
  · obtain ⟨-, hinput, htable⟩ :=
      expand_macros_definition_frame
        { st with input := rest, line_num := st.line_num + 1 } (skip_space line)
    rw [hinput]
    dsimp only
    rcases htable with htable | ⟨name, htable⟩
    · rw [htable]
      intro entry hentry
      obtain ⟨lines, htext, hlines⟩ := hclosed entry hentry
      exact chunked_of_closed _ _ _ lines htext hlines
    · rw [htable]
      intro entry hentry
      rcases List.mem_append.mp hentry with hentry | hentry
      · obtain ⟨lines, htext, hlines⟩ := hclosed entry hentry
        exact chunked_of_closed _ _ _ lines htext hlines
      · rw [List.mem_singleton.mp hentry]
        exact chunked_of_closed _ _ _ [] rfl (by simp)
  · split
    · intro entry hentry
      obtain ⟨lines, htext, hlines⟩ := hclosed entry hentry
      exact chunked_of_closed _ _ _ lines htext hlines
    · intro entry hentry
      obtain ⟨lines, htext, hlines⟩ := hclosed entry hentry
      exact chunked_of_closed _ _ _ lines htext hlines

theorem text_lines_of_closed (lines : List (List Char)) (h : ∀ line ∈ lines, closed_line line) :
    text_lines lines.flatten = lines := by
  have := text_lines_flatten lines [] h
  simpa [text_lines] using this

theorem no_mcro_in_bodies_of_write (table : MacroTable) (name data : List Char)
    (hclosed : ∀ entry ∈ table, ∃ lines : List (List Char), entry.data = lines.flatten
      ∧ ∀ line ∈ lines, closed_line line ∧ True)
    (h : no_mcro_in_bodies (macro_table_write table name data)) : no_mcro_in_bodies table := by
  intro entry hentry line hline
  obtain ⟨changed, hchanged, hdata⟩ := macro_table_write_data_of_mem table name data entry hentry
  rcases hdata with hdata | hdata
  · exact h changed hchanged line (by rw [hdata]; exact hline)
  · obtain ⟨lines, htext, hlines⟩ := hclosed entry hentry
    refine h changed hchanged line ?_
    rw [hdata, htext, text_lines_flatten lines data (fun l hl => (hlines l hl).1)]
    rw [htext, text_lines_of_closed lines (fun l hl => (hlines l hl).1)] at hline
    exact List.mem_append_left _ hline

theorem macro_out_chunked_step (st : ExpandMacrosState) (line rest : List Char)
    (hread : fgets (MAX_LINE_LENGTH + 2) st.input = some (line, rest))
    (hbodies : macro_bodies_chunked st) (h : macro_out_chunked st) :
    macro_out_chunked (expand_macros_line { st with input := rest } line) := by
  have hne : st.input ≠ [] := by
    intro hnil
    rw [hnil] at hread
    cases hread
  have hclosed := fun entry hentry => chunked_closed _ _ _ (hbodies entry hentry) hne
  have hout : no_mcro_in_bodies st.macro_table →
      ∃ lines : List (List Char), st.out = lines.flatten
        ∧ ∀ l ∈ lines, closed_line l ∧ begins_with_mcro l = false :=
    fun hno => chunked_closed _ _ _ (h hno) hne
  have hchunk := fgets_chunk _ _ _ hread
  unfold macro_out_chunked expand_macros_line
  dsimp only
  split_ifs with h1 h2 h3 h4
  · intro hno
    obtain ⟨lines, htext, hlines⟩ := hout hno
    exact chunked_of_closed _ _ _ lines htext hlines
  · intro hno
    obtain ⟨lines, htext, hlines⟩ := hout hno
    exact chunked_of_closed _ _ _ lines htext hlines
  · intro hno
    obtain ⟨lines, htext, hlines⟩ := hout (no_mcro_in_bodies_of_write _ _ _ hclosed hno)
    exact chunked_of_closed _ _ _ lines htext hlines
  · obtain ⟨hsame, hinput, htable⟩ :=
      expand_macros_definition_frame
        { st with input := rest, line_num := st.line_num + 1 } (skip_space line)
    rw [hinput, hsame]
    dsimp only
    intro hno
    have hno2 : no_mcro_in_bodies st.macro_table := by
      rcases htable with htable | ⟨name, htable⟩
      · rw [htable] at hno
        exact hno
      · rw [htable] at hno
        exact fun entry hentry => hno entry (List.mem_append_left _ hentry)
    obtain ⟨lines, htext, hlines⟩ := hout hno2
    exact chunked_of_closed _ _ _ lines htext hlines
  · split
    · rename_i found hsearch
      intro hno
      obtain ⟨lines, htext, hlines⟩ := hout hno
      obtain ⟨hfound, -⟩ := macro_table_search_some _ _ _ hsearch
      obtain ⟨body, hbody, hbodylines⟩ := hclosed found hfound
      refine chunked_of_closed _ _ _ (lines ++ body) (by simp [htext, hbody]) ?_
      intro l hl
      rcases List.mem_append.mp hl with hl | hl
      · exact hlines l hl
      · refine ⟨(hbodylines l hl).1, hno found hfound l ?_⟩
        rw [hbody, text_lines_of_closed body (fun l hl => (hbodylines l hl).1)]
        exact hl
    · intro hno
      obtain ⟨lines, htext, hlines⟩ := hout hno
      refine chunked_append_line _ _ _ _ lines htext hlines ?_ ?_
      · rcases hchunk with hfull | hclosed | hopen
        · exact absurd (buffer_char_full line hfull) h1
        · exact Or.inl hclosed
        · exact Or.inr hopen
      · simpa [begins_with_mcro] using h4

theorem count_rest_of_line_subset (input : List Char) :
    ∀ c ∈ (count_rest_of_line input).2, c ∈ input := by
  induction input with
  | nil => simp [count_rest_of_line]
  | cons d input ih =>
    unfold count_rest_of_line
    split
    · intro c hc
      exact List.mem_cons_of_mem _ hc
    · intro c hc
      exact List.mem_cons_of_mem _ (ih c hc)

theorem expand_macros_line_input_subset (st : ExpandMacrosState) (line : List Char) :
    ∀ c ∈ (expand_macros_line st line).input, c ∈ st.input := by
  unfold expand_macros_line
  dsimp only
  split_ifs
  · exact count_rest_of_line_subset _
  · exact fun c hc => hc
  · exact fun c hc => hc
  · rw [(expand_macros_definition_frame _ _).2.1]
    exact fun c hc => hc
  · split
    · exact fun c hc => hc
    · exact fun c hc => hc

theorem fgets_subset (input line rest : List Char)
    (h : fgets (MAX_LINE_LENGTH + 2) input = some (line, rest)) :
    (∀ c ∈ line, c ∈ input) ∧ (∀ c ∈ rest, c ∈ input) := by
  cases input with
  | nil => simp [fgets] at h
  | cons d input =>
    simp only [fgets, Option.some.injEq] at h
    have := fgets_read_subset (MAX_LINE_LENGTH + 2 - 1) (d :: input)
    rw [h] at this
    exact this

/-- The first loop of `expand_macros` on an input without NUL: every string
in the buffer is the whole of what `fgets` has read. -/
theorem expand_macros_loop_induction_text (P : ExpandMacrosState → Prop)
    (hstep : ∀ st line input, fgets (MAX_LINE_LENGTH + 2) st.input = some (line, input) → P st →
      P (expand_macros_line { st with input := input } line))
    (fuel : Nat) (st : ExpandMacrosState) (hnul : NUL ∉ st.input) (h : P st) :
    P (expand_macros_loop fuel st) :=
  (expand_macros_loop_induction (fun st => NUL ∉ st.input ∧ P st)
    (fun st line input hread h => by
      obtain ⟨hline, hinput⟩ := fgets_subset _ _ _ hread
      rw [c_string_eq line (fun hc => h.1 (hline _ hc))]
      refine ⟨fun hc => h.1 (hinput _ ?_), hstep st line input hread h.2⟩
      exact expand_macros_line_input_subset { st with input := input } line _ hc)
    fuel st ⟨hnul, h⟩).2

theorem expand_macros_loop_chunked (fuel : Nat) (input : List Char) (hnul : NUL ∉ input) :
    macro_out_chunked (expand_macros_loop fuel (expand_macros_init input)) :=
  (expand_macros_loop_induction_text (fun st => macro_bodies_chunked st ∧ macro_out_chunked st)
    (fun st line rest hread h =>
      ⟨macro_bodies_chunked_step st line rest hread h.1,
        macro_out_chunked_step st line rest hread h.1 h.2⟩)
    fuel _ hnul
    ⟨fun entry hentry => by simp [expand_macros_init] at hentry,
      fun _ => ⟨[], [], rfl, by simp, Or.inl rfl⟩⟩).2

theorem expand_macros_line_no_nul (st : ExpandMacrosState) (line : List Char)
    (hline : NUL ∉ line)
    (h : (∀ entry ∈ st.macro_table, NUL ∉ entry.data) ∧ NUL ∉ st.out) :
    (∀ entry ∈ (expand_macros_line st line).macro_table, NUL ∉ entry.data)
      ∧ NUL ∉ (expand_macros_line st line).out := by
  unfold expand_macros_line
  dsimp only
  split_ifs
  · exact h
  · exact h
  · refine ⟨?_, h.2⟩
    intro changed hchanged
    obtain ⟨entry, hentry, hdata⟩ := macro_table_write_data _ _ _ _ hchanged
    rcases hdata with hdata | hdata
    · rw [hdata]
      exact h.1 entry hentry
    · rw [hdata]
      intro hc
      rcases List.mem_append.mp hc with hc | hc
      · exact h.1 entry hentry hc
      · exact hline hc
  · obtain ⟨hout, -, htable⟩ :=
      expand_macros_definition_frame { st with line_num := st.line_num + 1 } (skip_space line)
    rw [hout]
    refine ⟨?_, h.2⟩
    rcases htable with htable | ⟨name, htable⟩
    · rw [htable]
      exact h.1
    · rw [htable]
      intro entry hentry
      rcases List.mem_append.mp hentry with hentry | hentry
      · exact h.1 entry hentry
      · rw [List.mem_singleton.mp hentry]
        simp
  · split
    · rename_i found hsearch
      refine ⟨h.1, ?_⟩
      intro hc
      rcases List.mem_append.mp hc with hc | hc
      · exact h.2 hc
      · exact h.1 found (macro_table_search_some _ _ _ hsearch).1 hc
    · refine ⟨h.1, ?_⟩
      intro hc
      rcases List.mem_append.mp hc with hc | hc
      · exact h.2 hc
      · exact hline hc

/-- The output of `expand_macros` holds no NUL: what is written are strings. -/
theorem expand_macros_out_no_nul (fuel : Nat) (input : List Char) :
    NUL ∉ (expand_macros_loop fuel (expand_macros_init input)).out :=
  (expand_macros_loop_induction
    (fun st => (∀ entry ∈ st.macro_table, NUL ∉ entry.data) ∧ NUL ∉ st.out)
    (fun st line input _ h =>
      expand_macros_line_no_nul { st with input := input } (c_string line)
        (c_string_not_mem line) h)
    fuel _
    ⟨fun entry hentry => by simp [expand_macros_init] at hentry,
      by simp [expand_macros_init]⟩).2

/-! ## The macro expansion of a text without macro definitions -/

theorem expand_macros_line_copy (st : ExpandMacrosState) (line : List Char)
    (hnormal : st.is_in_macro = false) (htable : st.macro_table = [])
    (hlen : line.length ≤ MAX_LINE_LENGTH) (hmcro : begins_with_mcro line = false) :
    expand_macros_line st line
      = { st with line_num := st.line_num + 1, out := st.out ++ line } := by
  have hlen2 : ¬ (line.length = MAX_LINE_LENGTH + 2 - 1
      ∧ buffer_char line (MAX_LINE_LENGTH + 2 - 1) ≠ '\n') := by
    intro h
    omega
  unfold begins_with_mcro at hmcro
  unfold expand_macros_line
  simp only [hlen2, if_false, hnormal, Bool.false_eq_true, hmcro, htable, macro_table_search,
    List.find?_nil]

theorem expand_macros_loop_copy (lines : List (List Char)) (last : List Char)
    (hlines : ∀ line ∈ lines, closed_line line ∧ begins_with_mcro line = false)
    (hlast : last = [] ∨ (open_line last ∧ begins_with_mcro last = false))
    (fuel : Nat) (st : ExpandMacrosState) (hfuel : lines.length + last.length < fuel)
    (hnormal : st.is_in_macro = false) (htable : st.macro_table = [])
    (hinput : st.input = lines.flatten ++ last) (hnul : NUL ∉ st.input) :
    (expand_macros_loop fuel st).out = st.out ++ (lines.flatten ++ last)
      ∧ (expand_macros_loop fuel st).errors = st.errors
      ∧ (expand_macros_loop fuel st).macro_table = []
      ∧ (expand_macros_loop fuel st).encountered_error = st.encountered_error := by
  induction lines generalizing fuel st with
  | nil =>
    obtain ⟨fuel, rfl⟩ : ∃ m, fuel = m + 1 := ⟨fuel - 1, by omega⟩
    rcases hlast with hlast | ⟨hopen, hmcro⟩
    · subst hlast
      simp only [List.flatten_nil, List.append_nil] at hinput
      rw [expand_macros_loop, hinput]
      simp [fgets, htable]
    · simp only [List.flatten_nil, List.nil_append] at hinput ⊢
      have hnul2 : NUL ∉ last := by
        rw [hinput] at hnul
        exact hnul
      rw [expand_macros_loop, hinput, fgets_open_line last hopen]
      dsimp only
      rw [c_string_eq last hnul2,
        expand_macros_line_copy { st with input := [] } last hnormal htable hopen.2.1 hmcro]
      cases fuel with
      | zero => exact ⟨rfl, rfl, htable, rfl⟩
      | succ fuel =>
        rw [expand_macros_loop]
        simp [fgets, htable]
  | cons line lines ih =>
    obtain ⟨fuel, rfl⟩ : ∃ m, fuel = m + 1 := ⟨fuel - 1, by omega⟩
    obtain ⟨hclosed, hmcro⟩ := hlines line (List.mem_cons_self _ _)
    have hin : st.input = line ++ (lines.flatten ++ last) := by
      rw [hinput]
      simp
    have hnul2 : NUL ∉ line := by
      rw [hin] at hnul
      exact fun hc => hnul (List.mem_append_left _ hc)
    have hnul3 : NUL ∉ lines.flatten ++ last := by
      rw [hin] at hnul
      exact fun hc => hnul (List.mem_append_right _ hc)
    rw [expand_macros_loop, hin, fgets_closed_line line _ hclosed]
    dsimp only
    rw [c_string_eq line hnul2,
      expand_macros_line_copy { st with input := lines.flatten ++ last } line hnormal htable
        hclosed.1 hmcro]
    obtain ⟨h1, h2, h3, h4⟩ := ih (fun l hl => hlines l (List.mem_cons_of_mem _ hl)) fuel
      { st with input := lines.flatten ++ last, line_num := st.line_num + 1,
                out := st.out ++ line }
      (by simp only [List.length_cons] at hfuel; omega) hnormal htable rfl hnul3
    rw [h1, h2, h3, h4]
    exact ⟨by simp, rfl, rfl, rfl⟩

theorem label_errors_empty_table (line_num : Nat) (lines : List (List Char)) :
    label_errors [] line_num lines = [] := by
  induction lines generalizing line_num with
  | nil => rfl
  | cons line lines ih =>
    rw [label_errors_cons, ih]
    cases h : spec_label line <;> simp [label_errors, h]

theorem chunked_length (P : List Char → Prop) (lines : List (List Char))
    (h : ∀ line ∈ lines, closed_line line ∧ P line) : lines.length ≤ lines.flatten.length := by
  induction lines with
  | nil => simp
  | cons line lines ih =>
    obtain ⟨⟨-, body, hbody, -⟩, -⟩ := h line (List.mem_cons_self _ _)
    have := ih (fun l hl => h l (List.mem_cons_of_mem _ hl))
    simp only [List.length_cons, List.flatten_cons, List.length_append, hbody,
      List.length_singleton]
    omega

/-- On an input without NUL, when no line of the body of a macro of the
table that `expand_macros` has built begins, after its leading white space,
with the letters `mcro`: `expand_macros` on the output that it has produced
delivers no error and produces that same output. -/
theorem expand_macros_rerun (input : List Char) (hnul : NUL ∉ input)
    (hbodies : no_mcro_in_bodies (expand_macros_table input)) :
    (expand_macros_state (expand_macros_state input).out).errors = []
      ∧ (expand_macros_state (expand_macros_state input).out).out
        = (expand_macros_state input).out
      ∧ expand_macros (expand_macros_state input).out
        = { encountered_error := false, alloc_fail := false } := by
  obtain ⟨lines, last, htext, hlines, hlast⟩ :=
    expand_macros_loop_chunked (input.length + 1) input hnul hbodies
  have hout := expand_macros_out_no_nul (input.length + 1) input
  rw [← (expand_macros_state_frame input).2] at htext hout
  generalize (expand_macros_state input).out = out at htext hout ⊢
  have hlast2 : last = [] ∨ (open_line last ∧ begins_with_mcro last = false) := by
    rcases hlast with h | ⟨h1, h2, -⟩
    · exact Or.inl h
    · exact Or.inr ⟨h1, h2⟩
  have hfuel : lines.length + last.length < out.length + 1 := by
    have := chunked_length _ lines hlines
    rw [htext, List.length_append]
    omega
  obtain ⟨h1, h2, h3, h6⟩ := expand_macros_loop_copy lines last hlines hlast2 (out.length + 1)
    (expand_macros_init out) hfuel rfl rfl htext hout
  have hstate : expand_macros_state out
      = expand_macros_label_loop (out.length + 1)
          { expand_macros_loop (out.length + 1) (expand_macros_init out) with
            line_num := 0, input := out } := rfl
  generalize expand_macros_loop (out.length + 1) (expand_macros_init out) = first
    at h1 h2 h3 h6 hstate
  obtain ⟨h4, h5⟩ := expand_macros_label_loop_errors (out.length + 1)
    { first with line_num := 0, input := out }
  obtain ⟨-, h7⟩ := expand_macros_label_loop_frame (out.length + 1)
    { first with line_num := 0, input := out }
  dsimp only at h4 h5 h7
  refine ⟨?_, ?_, ?_⟩
  · rw [hstate, h4, h2, h3, label_errors_empty_table]
    rfl
  · rw [hstate, h7, h1, ← htext]
    rfl
  · unfold expand_macros
    rw [hstate, h5, h3, label_errors_empty_table, h6]
    rfl

set_option maxRecDepth 20000 in
/-- C36: on the input `mcroend`, `mcro X`, `mcroend`, `end`, in which by the
words of the specification the only macro is `X`, with an empty body,
`expand_macros` delivers no error and writes the output `mcro X`: it takes
the first line for the definition of a macro `end`, whose body becomes the
line `mcro X`, and the last line for its use. On that output `expand_macros`
delivers no error and writes nothing, so the second run does not reproduce
the output of the first. The state machine of the specification writes
`mcroend`, `end`. -/
theorem expand_macros_idempotent :
    NUL ∉ "mcroend\nmcro X\nmcroend\nend\n".toList
      ∧ spec_macros "mcroend\nmcro X\nmcroend\nend\n".toList
        = [{ name := "X".toList, data := [] }]
      ∧ (∀ entry ∈ spec_macros "mcroend\nmcro X\nmcroend\nend\n".toList,
          ∀ line ∈ text_lines entry.data, begins_with_mcro line = false)
      ∧ (spec_expand "mcroend\nmcro X\nmcroend\nend\n".toList).out = "mcroend\nend\n".toList
      ∧ expand_macros_table "mcroend\nmcro X\nmcroend\nend\n".toList
        = [{ name := "end".toList, data := "mcro X\n".toList }]
      ∧ (expand_macros_state "mcroend\nmcro X\nmcroend\nend\n".toList).errors = []
      ∧ expand_macros "mcroend\nmcro X\nmcroend\nend\n".toList
        = { encountered_error := false, alloc_fail := false }
      ∧ (expand_macros_state "mcroend\nmcro X\nmcroend\nend\n".toList).out = "mcro X\n".toList
      ∧ (expand_macros_state "mcro X\n".toList).errors = []
      ∧ (expand_macros_state "mcro X\n".toList).out = []
      ∧ (expand_macros_state
          (expand_macros_state "mcroend\nmcro X\nmcroend\nend\n".toList).out).out
        ≠ (expand_macros_state "mcroend\nmcro X\nmcroend\nend\n".toList).out := by
  decide

/-! ## White space at the end of a line -/

theorem getLast?_of_suffix (p b : List Char) (e : Char) (hsuffix : p <:+ b) (hne : p ≠ [])
    (hlast : b.getLast? = some e) : p.getLast? = some e := by
  obtain ⟨t, rfl⟩ := hsuffix
  rw [List.getLast?_append] at hlast
  cases hp : p.getLast? with
  | none => exact absurd (List.getLast?_eq_none_iff.mp hp) hne
  | some d =>
    rw [hp] at hlast
    exact hlast

theorem skip_space_ne_nil (x : List Char) (e : Char) (hlast : x.getLast? = some e)
    (he : isspace e = false) : skip_space x ≠ [] := by
  intro h
  unfold skip_space at h
  rw [List.dropWhile_eq_nil_iff] at h
  have := h e (List.mem_of_getLast?_eq_some hlast)
  rw [he] at this
  cases this

theorem skip_space_append (x ws : List Char) (h : skip_space x ≠ []) :
    skip_space (x ++ ws) = skip_space x ++ ws := by
  unfold skip_space at h ⊢
  rw [List.dropWhile_append]
  cases hx : List.dropWhile isspace x with
  | nil => exact absurd hx h
  | cons c rest => rfl

theorem starts_with_space_append (x ws : List Char) (h : x ≠ []) :
    starts_with_space (x ++ ws) = starts_with_space x := by
  cases x with
  | nil => exact absurd rfl h
  | cons c rest => rfl

theorem trim_end_append_spaces (s ws : List Char) (hws : ∀ c ∈ ws, isspace c = true) :
    trim_end (s ++ ws) = trim_end s := by
  have hdrop : (s ++ ws).reverse.dropWhile isspace = s.reverse.dropWhile isspace := by
    rw [List.reverse_append, List.dropWhile_append,
      (List.dropWhile_eq_nil_iff).mpr (fun c hc => hws c (List.mem_reverse.mp hc))]
    rfl
  cases hs : s ++ ws with
  | nil =>
    have hnil : s = [] := (List.append_eq_nil.mp hs).1
    subst hnil
    rfl
  | cons c rest =>
    rw [← hs]
    cases s with
    | nil =>
      have hcase : trim_end ([] ++ ws) = ((([] : List Char) ++ ws).reverse.dropWhile isspace).reverse := by
        rw [hs]
        rfl
      rw [hcase, hdrop]
      rfl
    | cons d s =>
      have hcase : trim_end (d :: s ++ ws) = ((d :: s ++ ws).reverse.dropWhile isspace).reverse := rfl
      rw [hcase, hdrop]
      rfl

theorem trim_end_spec (s : List Char) :
    ∃ ws, (∀ c ∈ ws, isspace c = true) ∧ s = trim_end s ++ ws
      ∧ ∀ e, (trim_end s).getLast? = some e → isspace e = false := by
  cases s with
  | nil => exact ⟨[], by simp, rfl, by simp [trim_end]⟩
  | cons d s =>
    have htrim : trim_end (d :: s) = ((d :: s).reverse.dropWhile isspace).reverse := rfl
    refine ⟨((d :: s).reverse.takeWhile isspace).reverse, ?_, ?_, ?_⟩
    · intro c hc
      exact List.mem_takeWhile_imp (List.mem_reverse.mp hc)
    · rw [htrim, ← List.reverse_append, List.takeWhile_append_dropWhile, List.reverse_reverse]
    · intro e he
      rw [htrim, List.getLast?_reverse] at he
      cases hdrop : (d :: s).reverse.dropWhile isspace with
      | nil => rw [hdrop] at he; cases he
      | cons c rest =>
        rw [hdrop] at he
        simp only [List.head?_cons, Option.some.injEq] at he
        subst he
        have := List.head_dropWhile_not isspace (d :: s).reverse (by rw [hdrop]; simp)
        simp only [hdrop, List.head_cons] at this
        simpa using this

theorem strncmp_eq_append_spaces (name s ws : List Char) (n : Nat) (hlen : name.length = n)
    (hname : ∀ c ∈ name, isspace c = false) (hws : ∀ c ∈ ws, isspace c = true) :
    strncmp_eq name (s ++ ws) n = strncmp_eq name s n := by
  unfold strncmp_eq
  by_cases hs : n ≤ s.length
  · rw [List.take_append_of_le_length hs]
  · have h1 : ¬ (name.take n = s.take n) := by
      intro h
      have := congrArg List.length h
      rw [List.length_take, List.length_take] at this
      omega
    have h2 : ¬ (name.take n = (s ++ ws).take n) := by
      intro h
      rw [List.take_of_length_le (by omega)] at h
      have hget : name[s.length]? = ((s ++ ws).take n)[s.length]? := by rw [← h]
      rw [List.getElem?_take_of_lt (by omega), List.getElem?_append_right (by omega),
        Nat.sub_self] at hget
      cases hch : name[s.length]? with
      | none =>
        have := List.getElem?_eq_none_iff.mp hch
        omega
      | some ch =>
        rw [hch] at hget
        cases ws with
        | nil => simp at hget
        | cons w ws =>
          simp only [List.getElem?_cons_zero, Option.some.injEq] at hget
          have h3 := hname ch (List.getElem?_mem hch)
          have h4 := hws w (List.mem_cons_self _ _)
          rw [hget, h4] at h3
          cases h3
    simp [h1, h2]

theorem str_to_directive_type_append (s ws : List Char) (hws : ∀ c ∈ ws, isspace c = true) :
    str_to_directive_type (s ++ ws) = str_to_directive_type s := by
  unfold str_to_directive_type
  rw [strncmp_eq_append_spaces "data".toList s ws 4 rfl (by decide) hws,
    strncmp_eq_append_spaces "string".toList s ws 6 rfl (by decide) hws,
    strncmp_eq_append_spaces "entry".toList s ws 5 rfl (by decide) hws,
    strncmp_eq_append_spaces "extern".toList s ws 6 rfl (by decide) hws]

/-! ## The label of a line and the white space at its end -/

theorem parse_symbol_loop_append (symbol_end_indicator : Char → Bool) (rest ws : List Char)
    (character_position : Nat) (error : Option SymbolScanError)
    (h : ∃ d ∈ rest, symbol_end_indicator d = true) :
    parse_symbol_loop symbol_end_indicator (rest ++ ws) character_position error
      = parse_symbol_loop symbol_end_indicator rest character_position error := by
  induction rest generalizing character_position error with
  | nil =>
    obtain ⟨d, hd, -⟩ := h
    cases hd
  | cons c rest ih =>
    rw [List.cons_append, parse_symbol_loop, parse_symbol_loop]
    by_cases hc : symbol_end_indicator c = true
    · rw [if_pos hc, if_pos hc]
    · rw [if_neg hc, if_neg hc]
      have hrest : ∃ d ∈ rest, symbol_end_indicator d = true := by
        obtain ⟨d, hd, hend⟩ := h
        rcases List.mem_cons.mp hd with heq | hmem
        · rw [heq] at hend
          exact absurd hend hc
        · exact ⟨d, hmem, hend⟩
      rw [ih _ _ hrest, ih _ _ hrest]

theorem parse_symbol_append_spaces (x ws : List Char) (hx : x ≠ [])
    (hws : ∀ c ∈ ws, isspace c = true) :
    parse_symbol (x ++ ws) parse_line_label_end_indicator
      = parse_symbol x parse_line_label_end_indicator := by
  cases x with
  | nil => exact absurd rfl hx
  | cons c rest =>
    have hnul : parse_line_label_end_indicator NUL = false := by decide
    by_cases hmem : ∃ d ∈ rest, parse_line_label_end_indicator d = true
    · have hloop := fun position error =>
        parse_symbol_loop_append parse_line_label_end_indicator rest ws position error hmem
      have hlen := fun error =>
        (parse_symbol_loop_spec parse_line_label_end_indicator rest 1 error).2.1
      have hle := (List.takeWhile_sublist (fun c => !parse_line_label_end_indicator c)
        (l := rest)).length_le
      have htake : ∀ error,
          (c :: (rest ++ ws)).take
              (parse_symbol_loop parse_line_label_end_indicator rest 1 error).2.1
            = (c :: rest).take
              (parse_symbol_loop parse_line_label_end_indicator rest 1 error).2.1 := by
        intro error
        rw [← List.cons_append, List.take_append_of_le_length]
        rw [hlen error, List.length_cons]
        omega
      simp only [List.cons_append, parse_symbol, hloop, htake]
    · have hnot : ∀ d ∈ rest ++ ws, parse_line_label_end_indicator d = false := by
        intro d hd
        rcases List.mem_append.mp hd with h | h
        · by_contra hcon
          exact hmem ⟨d, h, by simpa using hcon⟩
        · have := hws d h
          cases hd2 : parse_line_label_end_indicator d with
          | false => rfl
          | true =>
            simp only [parse_line_label_end_indicator, decide_eq_true_eq] at hd2
            subst hd2
            revert this
            decide
      have hnot2 : ∀ d ∈ rest, parse_line_label_end_indicator d = false :=
        fun d hd => hnot d (List.mem_append_left _ hd)
      have h1 := fun position error =>
        parse_symbol_loop_not_found parse_line_label_end_indicator (rest ++ ws) position error hnot
      have h2 := fun position error =>
        parse_symbol_loop_not_found parse_line_label_end_indicator rest position error hnot2
      simp only [List.cons_append, parse_symbol, hnul, h1, h2, Bool.or_self, Bool.not_false,
        if_true]

theorem drop_length_takeWhile (p : Char → Bool) (l : List Char) :
    l.drop (l.takeWhile p).length = l.dropWhile p := by
  induction l with
  | nil => rfl
  | cons c l ih =>
    by_cases hp : p c = true
    · simp [List.takeWhile, List.dropWhile, hp, ih]
    · simp [List.takeWhile, List.dropWhile, hp]

theorem dropWhile_head (p : Char → Bool) (l : List Char) (d : Char) (r : List Char)
    (h : l.dropWhile p = d :: r) : p d = false := by
  induction l with
  | nil => cases h
  | cons c l ih =>
    by_cases hp : p c = true
    · rw [List.dropWhile_cons_of_pos hp] at h
      exact ih h
    · rw [List.dropWhile_cons_of_neg hp] at h
      cases h
      simpa using hp

theorem parse_symbol_label_found (line : List Char) (parsed : ParseSymbol)
    (h : parse_symbol line parse_line_label_end_indicator = some parsed) :
    (parsed.data = DOES_NOT_HAVE_SYMBOL ∧ parsed.symbol_length = 0)
      ∨ (parsed.data ≠ DOES_NOT_HAVE_SYMBOL
        ∧ ∃ r, line.drop parsed.symbol_length = ':' :: r) := by
  have hnul : parse_line_label_end_indicator NUL = false := by decide
  cases line with
  | nil =>
    simp only [parse_symbol, hnul] at h
    cases h
  | cons c rest =>
    simp only [parse_symbol] at h
    by_cases hc : parse_line_label_end_indicator c = true
    · rw [if_pos hc] at h
      simp only [Option.some.injEq] at h
      subst h
      right
      simp only [parse_line_label_end_indicator, decide_eq_true_eq] at hc
      exact ⟨by simp, rest, by simp [hc]⟩
    · rw [if_neg hc, hnul] at h
      simp only [Bool.false_or] at h
      obtain ⟨hfound, hlen, -⟩ := parse_symbol_loop_spec parse_line_label_end_indicator rest 1
        (if (!isalpha c) = true then some (.starts_with_non_alphabethic_char c) else none)
      generalize parse_symbol_loop parse_line_label_end_indicator rest 1
        (if (!isalpha c) = true then some (.starts_with_non_alphabethic_char c) else none)
        = scanned at h hfound hlen
      by_cases hs : scanned.1 = true
      · right
        have hdrop : rest.dropWhile (fun c => !parse_line_label_end_indicator c) ≠ [] := by
          rw [hs] at hfound
          simpa using hfound.symm
        have hparsed : parsed.symbol_length = scanned.2.1
            ∧ parsed.data ≠ DOES_NOT_HAVE_SYMBOL := by
          rw [hs] at h
          simp only [Bool.not_true, Bool.false_eq_true, if_false] at h
          repeat' split at h
          all_goals
            simp only [Option.some.injEq] at h
            subst h
            exact ⟨rfl, by simp⟩
        refine ⟨hparsed.2, ?_⟩
        rw [hparsed.1, hlen]
        have hdrop2 : (c :: rest).drop
            (1 + (rest.takeWhile (fun c => !parse_line_label_end_indicator c)).length)
            = rest.dropWhile (fun c => !parse_line_label_end_indicator c) := by
          rw [Nat.add_comm, List.drop_succ_cons, drop_length_takeWhile]
        rw [hdrop2]
        cases hd : rest.dropWhile (fun c => !parse_line_label_end_indicator c) with
        | nil => exact absurd hd hdrop
        | cons d r =>
          have := dropWhile_head _ _ _ _ hd
          simp only [Bool.not_eq_false', parse_line_label_end_indicator,
            decide_eq_true_eq] at this
          exact ⟨r, by rw [this]⟩
      · left
        have hs2 : scanned.1 = false := by simpa using hs
        rw [hs2] at h
        simp only [Bool.not_false, if_true, Option.some.injEq] at h
        subst h
        exact ⟨rfl, rfl⟩

/-! ## Directives and the white space at the end of a line -/

theorem takeWhile_append_spaces (s ws : List Char) (hws : ∀ c ∈ ws, isspace c = true) :
    trim_after_space (s ++ ws) = trim_after_space s := by
  unfold trim_after_space
  induction s with
  | nil =>
    cases ws with
    | nil => rfl
    | cons w ws => simp [List.takeWhile, hws w (List.mem_cons_self _ _)]
  | cons c s ih =>
    by_cases hc : isspace c = true
    · simp [List.takeWhile, hc]
    · simp only [List.cons_append, List.takeWhile, hc, Bool.not_false, Bool.not_eq_true] at ih ⊢
      simp [ih]

theorem str_to_directive_type_length (s : List Char) (type : DirectiveType)
    (h : str_to_directive_type s = some type) : directive_name_len type ≤ s.length := by
  have hlen : ∀ (name : List Char) (n : Nat), name.length = n → strncmp_eq name s n = true →
      n ≤ s.length := by
    intro name n hn heq
    simp only [strncmp_eq, decide_eq_true_eq] at heq
    have := congrArg List.length heq
    rw [List.length_take, List.length_take] at this
    omega
  unfold str_to_directive_type at h
  split_ifs at h with h1 h2 h3 h4
  · cases h
    exact hlen "data".toList 4 rfl h1
  · cases h
    exact hlen "string".toList 6 rfl h2
  · cases h
    exact hlen "entry".toList 5 rfl h3
  · cases h
    exact hlen "extern".toList 6 rfl h4

theorem trim_end_skip_space_append (s ws : List Char) (hws : ∀ c ∈ ws, isspace c = true) :
    trim_end (skip_space (s ++ ws)) = trim_end (skip_space s) := by
  by_cases hs : skip_space s = []
  · have hall : ∀ c ∈ s ++ ws, isspace c = true := by
      intro c hc
      rcases List.mem_append.mp hc with h | h
      · unfold skip_space at hs
        exact (List.dropWhile_eq_nil_iff.mp hs) c h
      · exact hws c h
    rw [hs, skip_space_spaces _ hall]
  · rw [skip_space_append s ws hs, trim_end_append_spaces _ _ hws]

theorem parse_directive_append_spaces (s ws : List Char) (hws : ∀ c ∈ ws, isspace c = true)
    (h : str_to_directive_type s = some DIRECTIVE_ENTRY
      ∨ str_to_directive_type s = some DIRECTIVE_EXTERN) :
    parse_directive (s ++ ws) = parse_directive s := by
  have hcond : ∀ after : List Char,
      ((!starts_with_space (after ++ ws)) = true ∧ after ++ ws ≠ [])
        ↔ ((!starts_with_space after) = true ∧ after ≠ []) := by
    intro after
    cases after with
    | nil =>
      cases ws with
      | nil => simp
      | cons w ws => simp [starts_with_space, hws w (List.mem_cons_self _ _)]
    | cons c after => simp [starts_with_space]
  unfold parse_directive
  rw [str_to_directive_type_append s ws hws]
  rcases h with h | h
  · have hlen := str_to_directive_type_length s _ h
    rw [h]
    dsimp only
    rw [List.drop_append_of_le_length hlen, takeWhile_append_spaces s ws hws]
    simp only [hcond]
    unfold parse_directive_symbol
    dsimp only
    rw [trim_end_skip_space_append _ ws hws]
  · have hlen := str_to_directive_type_length s _ h
    rw [h]
    dsimp only
    rw [List.drop_append_of_le_length hlen, takeWhile_append_spaces s ws hws]
    simp only [hcond]
    unfold parse_directive_symbol
    dsimp only
    rw [trim_end_skip_space_append _ ws hws]

theorem parse_directive_symbol_type (str : List Char) (directive : String → Directive)
    (got_no_symbol : ParseError) (got_invalid_symbol : ParseSymbolError → ParseError)
    (result : Directive)
    (h : parse_directive_symbol str directive got_no_symbol got_invalid_symbol
      = some (.parsed result)) :
    result = directive (String.mk (trim_end str)) ∧ trim_end str ≠ [] := by
  unfold parse_directive_symbol at h
  dsimp only at h
  cases hparsed : parse_symbol (trim_end str) default_symbol_end_indicator with
  | none =>
    rw [hparsed] at h
    cases h
  | some parsed =>
    rw [hparsed] at h
    dsimp only at h
    cases hdata : parsed.data with
    | DOES_NOT_HAVE_SYMBOL =>
      rw [hdata] at h
      cases h
    | SYMBOL_PARSE_ERROR error =>
      rw [hdata] at h
      dsimp only at h
      split at h <;> cases h
    | HAS_SYMBOL name =>
      rw [hdata] at h
      simp only [Option.some.injEq, ParseResult.parsed.injEq] at h
      refine ⟨h.symm, ?_⟩
      intro hnil
      rw [hnil] at hparsed
      simp only [parse_symbol, default_symbol_end_indicator, decide_True, if_true,
        Option.some.injEq] at hparsed
      rw [← hparsed] at hdata
      cases hdata

theorem parse_directive_type (s : List Char) (d : Directive)
    (h : parse_directive s = some (.parsed d))
    (hd : ∃ n, d = .entry n ∨ d = .external n) :
    str_to_directive_type s = some DIRECTIVE_ENTRY
      ∨ str_to_directive_type s = some DIRECTIVE_EXTERN := by
  unfold parse_directive at h
  cases htype : str_to_directive_type s with
  | none =>
    rw [htype] at h
    cases h
  | some type =>
    rw [htype] at h
    dsimp only at h
    split at h
    · cases h
    · cases type with
      | DIRECTIVE_ENTRY => exact Or.inl rfl
      | DIRECTIVE_EXTERN => exact Or.inr rfl
      | DIRECTIVE_DATA =>
        exfalso
        dsimp only at h
        unfold parse_data_directive at h
        obtain ⟨n, hn | hn⟩ := hd
        all_goals
          subst hn
          split at h
          · cases h
          · cases hloop : parse_data_directive_loop _ _ _ with
            | none =>
              rw [hloop] at h
              cases h
            | some result =>
              rw [hloop] at h
              cases result <;> simp [ParseResult.map] at h
      | DIRECTIVE_STRING =>
        exfalso
        dsimp only at h
        unfold parse_string_directive at h
        obtain ⟨n, hn | hn⟩ := hd
        all_goals
          subst hn
          repeat' split at h
          all_goals simp at h

theorem parse_line_content_append_spaces (cp ws : List Char) (hcp : cp ≠ [])
    (hws : ∀ c ∈ ws, isspace c = true) (d : Directive)
    (hd : ∃ n, d = .entry n ∨ d = .external n)
    (h : parse_line_content (cp ++ ws) = some (PARSE_LINE_DIRECTIVE d)) :
    parse_line_content cp = some (PARSE_LINE_DIRECTIVE d) := by
  cases cp with
  | nil => exact absurd rfl hcp
  | cons c ad =>
    rw [List.cons_append] at h
    unfold parse_line_content at h ⊢
    dsimp only at h ⊢
    by_cases hc : c = '.'
    · rw [if_pos hc] at h ⊢
      cases hparse : parse_directive (ad ++ ws) with
      | none =>
        rw [hparse] at h
        cases h
      | some result =>
        rw [hparse] at h
        cases result with
        | parse_error error => cases h
        | parsed directive =>
          simp only [Option.some.injEq, ParseLineVal.PARSE_LINE_DIRECTIVE.injEq] at h
          subst h
          have htype := parse_directive_type _ _ hparse hd
          rw [str_to_directive_type_append ad ws hws] at htype
          rw [← parse_directive_append_spaces ad ws hws htype, hparse]
    · rw [if_neg hc] at h
      exfalso
      cases hparse : parse_instruction (c :: (ad ++ ws)) with
      | none =>
        rw [hparse] at h
        cases h
      | some result =>
        rw [hparse] at h
        cases result <;> cases h

/-! ## Parsing a line again -/

theorem parse_line_append_spaces (b ws : List Char) (e : Char) (hlast : b.getLast? = some e)
    (he : isspace e = false) (hws : ∀ c ∈ ws, isspace c = true) (data : ParseLineData)
    (d : Directive) (hd : ∃ n, d = .entry n ∨ d = .external n)
    (hval : data.val = PARSE_LINE_DIRECTIVE d) (h : parse_line (b ++ ws) = some data) :
    parse_line b = some data := by
  have hb : b ≠ [] := by
    intro hnil
    rw [hnil] at hlast
    cases hlast
  have hhead : (b ++ ws).head? = b.head? := List.head?_append_of_ne_nil _ hb
  have hx1 : skip_space b ≠ [] := skip_space_ne_nil b e hlast he
  have hx1last : (skip_space b).getLast? = some e :=
    getLast?_of_suffix _ b e (List.dropWhile_suffix _) hx1 hlast
  have hskip : skip_space (b ++ ws) = skip_space b ++ ws := skip_space_append b ws hx1
  have hsym := parse_symbol_append_spaces (skip_space b) ws hx1 hws
  have hcontent : ∀ (cp : List Char) (label : ParseSymbolData), cp ≠ [] →
      (parse_line_content (cp ++ ws)).map
          (fun val => ({ parse_label_data := label, val := val } : ParseLineData)) = some data →
      (parse_line_content cp).map
          (fun val => ({ parse_label_data := label, val := val } : ParseLineData)) = some data := by
    intro cp label hcp hmap
    cases hc : parse_line_content (cp ++ ws) with
    | none =>
      rw [hc] at hmap
      cases hmap
    | some val =>
      rw [hc] at hmap
      simp only [Option.map_some', Option.some.injEq] at hmap
      subst hmap
      dsimp only at hval
      subst hval
      rw [parse_line_content_append_spaces cp ws hcp hws d hd hc]
      rfl
  have hnil : (b ++ ws = []) ↔ (b = []) := by simp [hb]
  unfold parse_line at h ⊢
  rw [hhead] at h
  simp only [hnil] at h
  by_cases h1 : b.head? = some '\n' ∨ b = []
  · rw [if_pos h1] at h
    simp only [Option.some.injEq] at h
    subst h
    cases hval
  rw [if_neg h1] at h ⊢
  by_cases h2 : b.head? = some ';'
  · rw [if_pos h2] at h
    simp only [Option.some.injEq] at h
    subst h
    cases hval
  rw [if_neg h2] at h ⊢
  dsimp only at h ⊢
  rw [hskip, hsym] at h
  generalize skip_space b = x1 at h hx1 hx1last ⊢
  cases hparse : parse_symbol x1 parse_line_label_end_indicator with
  | none =>
    rw [hparse] at h
    cases h
  | some parsed =>
    rw [hparse] at h
    dsimp only at h ⊢
    have hle := parse_symbol_length_le x1 _ parsed hparse
    rw [List.drop_append_of_le_length hle] at h
    rcases parse_symbol_label_found x1 parsed hparse with ⟨hdata, hlen⟩ | ⟨hdata, r, hr⟩
    · rw [if_neg (by simpa using hdata)] at h ⊢
      rw [hlen] at h ⊢
      simp only [List.drop_zero] at h ⊢
      have hx2 : skip_space x1 ≠ [] := skip_space_ne_nil x1 e hx1last he
      rw [skip_space_append x1 ws hx2] at h
      exact hcontent _ _ hx2 h
    · rw [if_pos hdata] at h ⊢
      rw [hr] at h ⊢
      simp only [List.cons_append, List.tail_cons] at h ⊢
      by_cases hrnil : r = []
      · exfalso
        subst hrnil
        simp only [List.nil_append] at h
        cases ws with
        | nil =>
          simp only [starts_with_space, Bool.not_false, if_true, Option.some.injEq] at h
          subst h
          cases hval
        | cons w ws =>
          have hw := hws w (List.mem_cons_self _ _)
          simp only [starts_with_space, hw, Bool.not_true, Bool.false_eq_true, if_false,
            skip_space_spaces _ hws, parse_line_content, Option.map_some',
            Option.some.injEq] at h
          subst h
          cases hval
      · have hrsuffix : r <:+ x1 := by
          have h1 : (':' :: r) <:+ x1 := by
            rw [← hr]
            exact List.drop_suffix _ _
          exact (List.suffix_cons _ _).trans h1
        have hrlast : r.getLast? = some e := getLast?_of_suffix r x1 e hrsuffix hrnil hx1last
        rw [starts_with_space_append r ws hrnil] at h
        by_cases hspace : (!starts_with_space r) = true
        · rw [if_pos hspace] at h
          simp only [Option.some.injEq] at h
          subst h
          cases hval
        · rw [if_neg hspace] at h ⊢
          have hx2 : skip_space r ≠ [] := skip_space_ne_nil r e hrlast he
          rw [skip_space_append r ws hx2] at h
          exact hcontent _ _ hx2 h

theorem parse_directive_buffer_spec (ad : List Char) (d : Directive)
    (h : parse_directive ad = some (.parsed d)) :
    parse_directive_buffer ad = ad
      ∨ ∃ ws e, (∀ c ∈ ws, isspace c = true) ∧ ad = parse_directive_buffer ad ++ ws
          ∧ (parse_directive_buffer ad).getLast? = some e ∧ isspace e = false
          ∧ ∃ n, d = .entry n ∨ d = .external n := by
  have hsymbol : ∀ (type : DirectiveType) (directive : String → Directive)
      (got_no_symbol : ParseError) (got_invalid_symbol : ParseSymbolError → ParseError),
      parse_directive_symbol (skip_space (ad.drop (directive_name_len type))) directive
          got_no_symbol got_invalid_symbol = some (.parsed d) →
      ∃ ws e, (∀ c ∈ ws, isspace c = true)
        ∧ ad = (ad.take (ad.length - (skip_space (ad.drop (directive_name_len type))).length)
            ++ trim_end (skip_space (ad.drop (directive_name_len type)))) ++ ws
        ∧ (ad.take (ad.length - (skip_space (ad.drop (directive_name_len type))).length)
            ++ trim_end (skip_space (ad.drop (directive_name_len type)))).getLast? = some e
        ∧ isspace e = false ∧ d = directive (String.mk (trim_end
            (skip_space (ad.drop (directive_name_len type))))) := by
    intro type directive got_no_symbol got_invalid_symbol hparse
    have hsuffix : skip_space (ad.drop (directive_name_len type)) <:+ ad :=
      (List.dropWhile_suffix _).trans (List.drop_suffix _ _)
    have hsplit := List.suffix_iff_eq_append.mp hsuffix
    generalize skip_space (ad.drop (directive_name_len type)) = symbol at hparse hsplit ⊢
    obtain ⟨hd, hne⟩ := parse_directive_symbol_type _ _ _ _ _ hparse
    obtain ⟨ws, hws, hsym, hlast⟩ := trim_end_spec symbol
    cases hl : (trim_end symbol).getLast? with
    | none => exact absurd (List.getLast?_eq_none_iff.mp hl) hne
    | some e =>
      refine ⟨ws, e, hws, ?_, ?_, hlast e hl, hd⟩
      · rw [List.append_assoc, ← hsym, hsplit]
      · rw [List.getLast?_append, hl]
        rfl
  unfold parse_directive at h
  unfold parse_directive_buffer
  cases htype : str_to_directive_type ad with
  | none =>
    rw [htype] at h
    cases h
  | some type =>
    rw [htype] at h
    dsimp only at h ⊢
    split at h
    · cases h
    · rename_i hcond
      rw [if_neg hcond]
      cases type with
      | DIRECTIVE_DATA => exact Or.inl rfl
      | DIRECTIVE_STRING => exact Or.inl rfl
      | DIRECTIVE_ENTRY =>
        right
        dsimp only at h ⊢
        obtain ⟨ws, e, h1, h2, h3, h4, h5⟩ := hsymbol DIRECTIVE_ENTRY _ _ _ h
        exact ⟨ws, e, h1, h2, h3, h4, _, Or.inl h5⟩
      | DIRECTIVE_EXTERN =>
        right
        dsimp only at h ⊢
        obtain ⟨ws, e, h1, h2, h3, h4, h5⟩ := hsymbol DIRECTIVE_EXTERN _ _ _ h
        exact ⟨ws, e, h1, h2, h3, h4, _, Or.inr h5⟩

theorem parse_instruction_buffer_spec (str : List Char) (instruction : Instruction)
    (h : parse_instruction str = some (.parsed instruction)) :
    parse_instruction_buffer str = str := by
  unfold parse_instruction at h
  unfold parse_instruction_buffer
  cases htype : str_to_instruction_type str with
  | none =>
    rw [htype] at h
    cases h
  | some type =>
    rw [htype] at h
    dsimp only at h ⊢
    split at h
    · cases h
    · rename_i hcond
      rw [if_neg hcond]

theorem parse_line_content_buffer_spec (cp : List Char) (val : ParseLineVal)
    (h : parse_line_content cp = some val)
    (hval : (∃ directive, val = PARSE_LINE_DIRECTIVE directive)
      ∨ (∃ instruction, val = PARSE_LINE_INSTRUCTION instruction)) :
    parse_line_content_buffer cp = cp
      ∨ ∃ ws e d, (∀ c ∈ ws, isspace c = true) ∧ cp = parse_line_content_buffer cp ++ ws
          ∧ (parse_line_content_buffer cp).getLast? = some e ∧ isspace e = false
          ∧ val = PARSE_LINE_DIRECTIVE d ∧ ∃ n, d = .entry n ∨ d = .external n := by
  cases cp with
  | nil =>
    simp only [parse_line_content, Option.some.injEq] at h
    subst h
    rcases hval with ⟨_, hv⟩ | ⟨_, hv⟩ <;> cases hv
  | cons c ad =>
    unfold parse_line_content at h
    unfold parse_line_content_buffer
    dsimp only at h ⊢
    by_cases hc : c = '.'
    · rw [if_pos hc] at h ⊢
      cases hparse : parse_directive ad with
      | none =>
        rw [hparse] at h
        cases h
      | some result =>
        rw [hparse] at h
        cases result with
        | parse_error error =>
          simp only [Option.some.injEq] at h
          subst h
          rcases hval with ⟨_, hv⟩ | ⟨_, hv⟩ <;> cases hv
        | parsed directive =>
          simp only [Option.some.injEq] at h
          subst h
          rcases parse_directive_buffer_spec ad directive hparse with
            hsame | ⟨ws, e, h1, h2, h3, h4, h5⟩
          · left
            rw [hsame]
          · right
            refine ⟨ws, e, directive, h1, ?_, ?_, h4, rfl, h5⟩
            · rw [List.cons_append, ← h2]
            · rw [show c :: parse_directive_buffer ad = [c] ++ parse_directive_buffer ad from rfl,
                List.getLast?_append, h3]
              rfl
    · rw [if_neg hc] at h ⊢
      cases hparse : parse_instruction (c :: ad) with
      | none =>
        rw [hparse] at h
        cases h
      | some result =>
        rw [hparse] at h
        cases result with
        | parse_error error =>
          simp only [Option.some.injEq] at h
          subst h
          rcases hval with ⟨_, hv⟩ | ⟨_, hv⟩ <;> cases hv
        | parsed instruction =>
          left
          exact parse_instruction_buffer_spec _ _ hparse

theorem parse_line_buffer_spec (line : List Char) (data : ParseLineData)
    (h : parse_line line = some data)
    (hval : (∃ directive, data.val = PARSE_LINE_DIRECTIVE directive)
      ∨ (∃ instruction, data.val = PARSE_LINE_INSTRUCTION instruction)) :
    ∃ buffer, parse_line_buffer line = some buffer
      ∧ (buffer = line
        ∨ ∃ ws e d, (∀ c ∈ ws, isspace c = true) ∧ line = buffer ++ ws
            ∧ buffer.getLast? = some e ∧ isspace e = false
            ∧ data.val = PARSE_LINE_DIRECTIVE d ∧ ∃ n, d = .entry n ∨ d = .external n) := by
  have hcontent : ∀ (cp : List Char) (label : ParseSymbolData), cp <:+ line →
      (parse_line_content cp).map
          (fun val => ({ parse_label_data := label, val := val } : ParseLineData)) = some data →
      ∃ buffer, some (line.take (line.length - cp.length) ++ parse_line_content_buffer cp)
          = some buffer
        ∧ (buffer = line
          ∨ ∃ ws e d, (∀ c ∈ ws, isspace c = true) ∧ line = buffer ++ ws
              ∧ buffer.getLast? = some e ∧ isspace e = false
              ∧ data.val = PARSE_LINE_DIRECTIVE d ∧ ∃ n, d = .entry n ∨ d = .external n) := by
    intro cp label hsuffix hmap
    have hsplit := List.suffix_iff_eq_append.mp hsuffix
    cases hc : parse_line_content cp with
    | none =>
      rw [hc] at hmap
      cases hmap
    | some val =>
      rw [hc] at hmap
      simp only [Option.map_some', Option.some.injEq] at hmap
      subst hmap
      dsimp only at hval ⊢
      refine ⟨_, rfl, ?_⟩
      rcases parse_line_content_buffer_spec cp val hc hval with
        hsame | ⟨ws, e, d, h1, h2, h3, h4, h5, h6⟩
      · left
        rw [hsame, hsplit]
      · right
        refine ⟨ws, e, d, h1, ?_, ?_, h4, h5, h6⟩
        · rw [List.append_assoc, ← h2, hsplit]
        · rw [List.getLast?_append, h3]
          rfl
  unfold parse_line at h
  unfold parse_line_buffer
  by_cases h1 : line.head? = some '\n' ∨ line = []
  · rw [if_pos h1] at h
    simp only [Option.some.injEq] at h
    subst h
    rcases hval with ⟨_, hv⟩ | ⟨_, hv⟩ <;> cases hv
  rw [if_neg h1] at h ⊢
  by_cases h2 : line.head? = some ';'
  · rw [if_pos h2] at h
    simp only [Option.some.injEq] at h
    subst h
    rcases hval with ⟨_, hv⟩ | ⟨_, hv⟩ <;> cases hv
  rw [if_neg h2] at h ⊢
  dsimp only at h ⊢
  cases hparse : parse_symbol (skip_space line) parse_line_label_end_indicator with
  | none =>
    rw [hparse] at h
    cases h
  | some parsed =>
    rw [hparse] at h
    dsimp only at h ⊢
    have hs1 : (skip_space line).drop parsed.symbol_length <:+ line :=
      (List.drop_suffix _ _).trans (List.dropWhile_suffix _)
    by_cases hdata : parsed.data ≠ DOES_NOT_HAVE_SYMBOL
    · rw [if_pos hdata] at h ⊢
      by_cases hspace : (!starts_with_space ((skip_space line).drop parsed.symbol_length).tail)
          = true
      · rw [if_pos hspace] at h
        simp only [Option.some.injEq] at h
        subst h
        rcases hval with ⟨_, hv⟩ | ⟨_, hv⟩ <;> cases hv
      · rw [if_neg hspace] at h ⊢
        exact hcontent _ _
          ((List.dropWhile_suffix _).trans ((List.tail_suffix _).trans hs1)) h
    · rw [if_neg hdata] at h ⊢
      exact hcontent _ _ ((List.dropWhile_suffix _).trans hs1) h

/-- C37: when `parse_line` returns a directive or an instruction for a
line, `parse_line` on the string that this call has left in the line buffer
returns the same `ParseLineData`: the same classification, the same label
result and the same directive or instruction. The buffer is changed only
for `.entry` and `.extern`, where `trim_end` cuts the white space at the end
of the line. -/
theorem parse_line_again (line : List Char) (data : ParseLineData)
    (h : parse_line line = some data)
    (hval : (∃ directive, data.val = PARSE_LINE_DIRECTIVE directive)
      ∨ (∃ instruction, data.val = PARSE_LINE_INSTRUCTION instruction)) :
    ∃ buffer, parse_line_buffer line = some buffer ∧ parse_line buffer = some data := by
  obtain ⟨buffer, hbuffer, hcase⟩ := parse_line_buffer_spec line data h hval
  refine ⟨buffer, hbuffer, ?_⟩
  rcases hcase with hsame | ⟨ws, e, d, h1, h2, h3, h4, h5, h6⟩
  · rw [hsame]
    exact h
  · rw [h2] at h
    exact parse_line_append_spaces buffer ws e h3 h4 h1 data d h6 h5 h

set_option maxRecDepth 20000 in
/-- Witness of C37: the line `X: .extern EXT` with a blank before its
newline, which `parse_line` leaves as `X: .extern EXT` in the buffer, and the
line `MAIN: mov #3, r1`, which it leaves unchanged. -/
theorem parse_line_again_witness :
    parse_line "X: .extern EXT \n".toList
        = some { parse_label_data := HAS_SYMBOL "X",
                 val := PARSE_LINE_DIRECTIVE (.external "EXT") }
      ∧ parse_line_buffer "X: .extern EXT \n".toList = some "X: .extern EXT".toList
      ∧ parse_line "X: .extern EXT".toList
        = some { parse_label_data := HAS_SYMBOL "X",
                 val := PARSE_LINE_DIRECTIVE (.external "EXT") }
      ∧ parse_line_buffer "MAIN: mov #3, r1\n".toList = some "MAIN: mov #3, r1\n".toList
      ∧ ∃ buffer, parse_line_buffer "X: .extern EXT \n".toList = some buffer
          ∧ parse_line buffer
            = some { parse_label_data := HAS_SYMBOL "X",
                     val := PARSE_LINE_DIRECTIVE (.external "EXT") } :=
  ⟨by decide, by decide, by decide, by decide,
    parse_line_again "X: .extern EXT \n".toList _ (by decide) (Or.inl ⟨_, rfl⟩)⟩

/-! ## The loops of the macro expansion read the input to its end -/

theorem count_rest_of_line_length (input : List Char) :
    (count_rest_of_line input).2.length ≤ input.length := by
  induction input with
  | nil => simp [count_rest_of_line]
  | cons c input ih =>
    unfold count_rest_of_line
    split
    · simp
    · simp only [List.length_cons]
      omega

theorem fgets_rest_length (input line rest : List Char)
    (h : fgets (MAX_LINE_LENGTH + 2) input = some (line, rest)) :
    rest.length < input.length := by
  have hline : line ≠ [] := by
    rcases fgets_chunk input line rest h with h1 | ⟨-, body, hbody, -⟩ | ⟨⟨hne, -, -⟩, -⟩
    · intro hnil
      rw [hnil] at h1
      simp [MAX_LINE_LENGTH] at h1
    · rw [hbody]
      simp
    · exact hne
  cases input with
  | nil => simp [fgets] at h
  | cons c input =>
    simp only [fgets, Option.some.injEq] at h
    have hsplit := (fgets_read_chunk (MAX_LINE_LENGTH + 2 - 1) (c :: input)).1
    rw [h] at hsplit
    dsimp only at hsplit
    have hlen := congrArg List.length hsplit
    rw [List.length_append] at hlen
    have := List.length_pos.mpr hline
    omega

theorem expand_macros_line_input (st : ExpandMacrosState) (line : List Char) :
    (expand_macros_line st line).input.length ≤ st.input.length := by
  unfold expand_macros_line
  dsimp only
  split_ifs
  · exact count_rest_of_line_length _
  · exact Nat.le_refl _
  · exact Nat.le_refl _
  · rw [(expand_macros_definition_frame _ _).2.1]
  · split
    · exact Nat.le_refl _
    · exact Nat.le_refl _

theorem expand_macros_loop_reads_input (fuel : Nat) (st : ExpandMacrosState)
    (h : st.input.length < fuel) : (expand_macros_loop fuel st).input = [] := by
  induction fuel generalizing st with
  | zero => omega
  | succ fuel ih =>
    unfold expand_macros_loop
    cases hread : fgets (MAX_LINE_LENGTH + 2) st.input with
    | none =>
      cases hinput : st.input with
      | nil => rfl
      | cons c input =>
        rw [hinput] at hread
        simp [fgets] at hread
    | some read =>
      obtain ⟨line, rest⟩ := read
      dsimp only
      apply ih
      have h1 := expand_macros_line_input { st with input := rest } (c_string line)
      have h2 := fgets_rest_length _ _ _ hread
      dsimp only at h1
      omega

theorem expand_macros_label_loop_reads_input (fuel : Nat) (st : ExpandMacrosState)
    (h : st.input.length < fuel) : (expand_macros_label_loop fuel st).input = [] := by
  induction fuel generalizing st with
  | zero => omega
  | succ fuel ih =>
    unfold expand_macros_label_loop
    cases hread : fgets (MAX_LINE_LENGTH + 2) st.input with
    | none =>
      cases hinput : st.input with
      | nil => rfl
      | cons c input =>
        rw [hinput] at hread
        simp [fgets] at hread
    | some read =>
      obtain ⟨line, rest⟩ := read
      dsimp only
      apply ih
      have h1 := (expand_macros_label_line_frame { st with input := rest } (c_string line)).2.2
      have h2 := fgets_rest_length _ _ _ hread
      rw [h1]
      dsimp only
      omega

/-- The fuel of `expand_macros_state` is enough: both loops of
`expand_macros` end because `fgets` finds the input at its end. -/
theorem expand_macros_state_reads_input (input : List Char) :
    (expand_macros_loop (input.length + 1) (expand_macros_init input)).input = []
      ∧ (expand_macros_state input).input = [] :=
  ⟨expand_macros_loop_reads_input _ _ (by simp [expand_macros_init]),
    expand_macros_label_loop_reads_input _ _ (by simp)⟩

end Assembler
